import Mathlib

/-! A verification development for the `editor` terminal text editor (`src/editor.c`).

The C program is embedded shallowly:

* a byte (`char`, `unsigned char`) is a `Nat`; a buffer together with its
  length field (`chars`/`size`, `render`/`rsize`) is a `List Nat`, and the
  NUL terminator the C code keeps behind every buffer is the default value
  `0` of a read at the position just past the list;
* the row array `E.row` is a `List erow`; a pointer `erow *row` into it is the
  position of the row in the list;
* operations that can leave the allocated memory (a write outside a highlight
  array, a read of a row that does not exist) return `Option`, `none` being
  the undefined behaviour of the C program;
* the recursion of `editorUpdateSyntax` and the `while` loops whose
  termination depends on the data take a fuel argument;
* a static variable (`keep_rx` of `editorMoveCursor`, the search state of
  `editorFindCallback`) is an argument and a result of the function;
* a byte the C code reads without it being defined by the program (the bytes
  of a short escape sequence in `editorReadKey`, the memory behind the
  terminator of a row in `editorScroll`, the third byte of the literal `"~"`
  and the cell `hl[rsize]` in `editorDrawRows`) is a parameter of the
  function, so that a theorem holds for every value of it.
-/

namespace Editor

/-! ## Constants -/

/-- `#define KILO_TAB_STOP 8` -/
def KILO_TAB_STOP : Nat := 8

/-- The byte of the tab character, `'\t'`. -/
def TAB : Nat := 9

/-- The byte of the space character. -/
def SPACE : Nat := 32

/-! `enum editorHightlight` -/

def HL_NORMAL : Nat := 0
def HL_COMMENT : Nat := 1
def HL_MLCOMMENT : Nat := 2
def HL_KEYWORD1 : Nat := 3
def HL_KEYWORD2 : Nat := 4
def HL_STRING : Nat := 5
def HL_NUMBER : Nat := 6
def HL_MATCH : Nat := 7

/-! ## Data -/

/-- `typedef struct erow`. The fields `size` and `rsize` of the C struct are
the lengths of `chars` and `render`; `hl` is the highlight array as it is
allocated (its length is the number of entries the last `realloc` gave it). -/
structure erow where
  idx : Int
  chars : List Nat
  render : List Nat
  hl : List Nat
  hl_open_comment : Bool
  damaged : Bool
deriving DecidableEq, Repr

/-- `row->size` -/
def erow.size (row : erow) : Nat := row.chars.length

/-- `row->rsize` -/
def erow.rsize (row : erow) : Nat := row.render.length

/-! ## Row operations: the tab/column mapper -/

/-- One pass of the loop body shared by `editorRowCxToRx` and
`editorRowRxToCx`: the rendered column after the character `c` that starts
at column `rx`.
```
if (row->chars[j] == '\t')
    rx += (KILO_TAB_STOP - 1) - (rx % KILO_TAB_STOP);
rx++;
```
-/
def advanceRx (c rx : Nat) : Nat :=
  (if c = TAB then rx + ((KILO_TAB_STOP - 1) - rx % KILO_TAB_STOP) else rx) + 1

/-- The loop of `editorRowCxToRx` inside the row: the list is the buffer from
`&row->chars[j]` on, the first number is `cx - j`. The read at `size` sees the
terminating NUL. The C loop is not bounded by `row->size`; this function is
the C loop for `cx <= size + 1`, and takes the bytes behind the terminator,
which a larger `cx` makes the C loop read, to be no tabs. `cxToRxMem` is the
loop for every `cx`. -/
def cxToRxLoop : List Nat → Nat → Nat → Nat
  | _, 0, rx => rx
  | [], n + 1, rx => cxToRxLoop [] n (advanceRx 0 rx)
  | c :: cs, n + 1, rx => cxToRxLoop cs n (advanceRx c rx)

/-- `int editorRowCxToRx(erow *row, int cx)` for `cx <= size + 1`, where the
function reads the characters of the row and its terminator only (see
`editorRowCxToRxMem` for every `cx`). -/
def editorRowCxToRx (row : erow) (cx : Nat) : Nat :=
  cxToRxLoop row.chars cx 0

/-- The byte the loop of `editorRowCxToRx` reads at `row->chars[j]`: a character
of the row, the terminating NUL at `j == size`, and behind the terminator a
byte that is not part of the row (a stale byte of an earlier, longer text, or
a byte outside the buffer); `behind k` is the byte at `size + 1 + k`. -/
def charsAt (row : erow) (behind : Nat → Nat) (j : Nat) : Nat :=
  match row.chars[j]? with
  | some c => c
  | none => if j = row.size then 0 else behind (j - row.size - 1)

/-- The loop of `editorRowCxToRx` on the memory of the row; the first number
is `cx - j`, the second is `j`.
```
for (j = 0; j < cx; j++) {
    if (row->chars[j] == '\t')
        rx += (KILO_TAB_STOP - 1) - (rx % KILO_TAB_STOP);
    rx++;
}
```
The loop is not bounded by `row->size`. -/
def cxToRxMem (row : erow) (behind : Nat → Nat) : Nat → Nat → Nat → Nat
  | 0, _, rx => rx
  | n + 1, j, rx => cxToRxMem row behind n (j + 1) (advanceRx (charsAt row behind j) rx)

/-- `int editorRowCxToRx(erow *row, int cx)` for every `cx`, also behind the
end of the row: `behind` is the memory behind the terminator of `row->chars`.
For `cx <= size + 1` the result does not depend on `behind` and is
`editorRowCxToRx row cx`. -/
def editorRowCxToRxMem (row : erow) (behind : Nat → Nat) (cx : Nat) : Nat :=
  cxToRxMem row behind cx 0 0

/-- The loop of `editorRowRxToCx`: the list is the buffer from
`&row->chars[cx]` up to `row->size`.
```
for (cx = 0; cx < row->size; cx++) {
    old_rx = cur_rx;
    if (row->chars[cx] == '\t')
        cur_rx += (KILO_TAB_STOP - 1) - (cur_rx % KILO_TAB_STOP);
    cur_rx++;
    if (cur_rx > rx) {
        if (rx - old_rx > cur_rx - rx)
            return cx + 1;
        return cx;
    }
}
return cx;
```
-/
def rxToCxLoop (rx : Nat) : List Nat → Nat → Nat → Nat
  | [], cx, _ => cx
  | c :: cs, cx, cur_rx =>
    let old_rx := cur_rx
    let cur_rx := advanceRx c cur_rx
    if cur_rx > rx then
      if (rx : Int) - (old_rx : Int) > (cur_rx : Int) - (rx : Int) then cx + 1 else cx
    else rxToCxLoop rx cs (cx + 1) cur_rx

/-- `int editorRowRxToCx(erow *row, int rx)` -/
def editorRowRxToCx (row : erow) (rx : Nat) : Nat :=
  rxToCxLoop rx row.chars 0 0

/-! ## Syntax highlighting -/

/-- `#define HL_HIGHLIGHT_NUMBERS (1<<0)` -/
def HL_HIGHLIGHT_NUMBERS : Nat := 1

/-- `#define HL_HIGHLIGHT_STRINGS (1<<1)` -/
def HL_HIGHLIGHT_STRINGS : Nat := 2

/-- `struct editorSyntax`. A `char *` is the list of the bytes before its
terminator; the comment markers, which the C code tests with
`scs ? strlen(scs) : 0`, are the empty list when they are `NULL`. -/
structure editorSyntax where
  filetype : List Nat
  filematch : List (List Nat)
  keywords : List (List Nat)
  singleline_comment_start : List Nat
  multiline_comment_start : List Nat
  multiline_comment_end : List Nat
  flags : Nat
deriving DecidableEq, Repr

/-- The bytes of a C string literal. -/
def bytes (s : String) : List Nat := s.toList.map Char.toNat

/-- `char *C_HL_extensions[]` -/
def C_HL_extensions : List (List Nat) := [".c", ".h", ".cpp"].map bytes

/-- `char *C_HL_keywords[]` -/
def C_HL_keywords : List (List Nat) :=
  ["switch", "if", "while", "for", "break", "continue", "return", "else",
   "struct", "union", "typedef", "static", "enum", "class", "case",
   "int|", "long|", "double|", "float|", "char|", "unsigned|", "signed|",
   "void|"].map bytes

/-- `HLDB[0]`, the only entry of the highlight database. -/
def HLDB_C : editorSyntax :=
  { filetype := bytes "c"
    filematch := C_HL_extensions
    keywords := C_HL_keywords
    singleline_comment_start := bytes "//"
    multiline_comment_start := bytes "/*"
    multiline_comment_end := bytes "*/"
    flags := HL_HIGHLIGHT_NUMBERS ||| HL_HIGHLIGHT_STRINGS }

/-- `struct editorSyntax HLDB[]` -/
def HLDB : List editorSyntax := [HLDB_C]

/-- `isspace` in the "C" locale (the program never calls `setlocale`). -/
def isspace (c : Nat) : Bool := c == 32 || (9 ≤ c && c ≤ 13)

/-- `isdigit` -/
def isdigit (c : Nat) : Bool := 48 ≤ c && c ≤ 57

/-- `int is_separator(int c)`: `isspace(c)`, or `c` is the NUL byte, or
`strchr` finds `c` in the punctuation string of line 297 (a search for the
NUL byte finds the terminator of that string). -/
def is_separator (c : Nat) : Bool :=
  isspace c || c == 0 || (bytes ",.()+-/*=~%<>[];").contains c

/-- `!strncmp(&render[i], pat, strlen(pat))`: the bytes of `pat` stand in
`render` from position `i` on. `pat` holds no NUL byte, so the comparison
fails at the terminator of `render` (or at a NUL byte inside it) before it
could read past the buffer. -/
def matchesAt (render : List Nat) (i : Nat) (pat : List Nat) : Bool :=
  pat.isPrefixOf (render.drop i)

/-- `memset(&hl[i], v, n)` on a highlight array; `none` when the write would
leave the array. A single store `hl[i] = v` is `memsetHl hl i 1 v`. -/
def memsetHl (hl : List Nat) (i n v : Nat) : Option (List Nat) :=
  if i + n ≤ hl.length then some (hl.take i ++ List.replicate n v ++ hl.drop (i + n))
  else none

/-- The local variables of the scan loop of `editorUpdateSyntax`, with the
highlight array it writes. `in_string` is `0` or the byte of the opening
quote. -/
structure HlScan where
  i : Nat
  hl : List Nat
  prev_sep : Bool
  in_string : Nat
  in_comment : Bool
deriving DecidableEq, Repr

/-- `int kw2 = keywords[j][klen - 1] == '|';` with `klen = strlen(keywords[j])` -/
def kwIsSecondary (kw : List Nat) : Bool := kw.getLast? == some 124

/-- `klen` after `if (kw2) klen--;` -/
def kwLen (kw : List Nat) : Nat :=
  if kwIsSecondary kw = true then kw.length - 1 else kw.length

/-- The keyword loop of `editorUpdateSyntax` at position `i`: the length and
the class (`kw2`) of the first keyword of the list that stands at `i` and is
followed by a separator.
```
for (j = 0; keywords[j]; j++) {
    int klen = strlen(keywords[j]);
    int kw2 = keywords[j][klen - 1] == '|';
    if (kw2) klen--;
    if (!strncmp(&row->render[i], keywords[j], klen) &&
            is_separator(row->render[i + klen])) {
```
-/
def keywordMatch (render : List Nat) (i : Nat) : List (List Nat) → Option (Nat × Bool)
  | [] => none
  | kw :: rest =>
    if matchesAt render i (kw.take (kwLen kw)) = true ∧
        is_separator (render.getD (i + kwLen kw) 0) = true then
      some (kwLen kw, kwIsSecondary kw)
    else keywordMatch render i rest

/-- `unsigned char prev_hl = (i > 0) ? row->hl[i - 1] : HL_NORMAL;` -/
def prevHl (hl : List Nat) (i : Nat) : Nat :=
  if i > 0 then hl.getD (i - 1) HL_NORMAL else HL_NORMAL

/-- One pass of the body of `while (i < row->rsize)` in `editorUpdateSyntax`
(lines 323-407). The `break` of the single-line comment case is the state
with `i = rsize`. -/
def scanStep (s : editorSyntax) (render : List Nat) (st : HlScan) : Option HlScan :=
  let rsize := render.length
  let i := st.i
  let c := render.getD i 0
  let prev_hl := prevHl st.hl i
  let scs := s.singleline_comment_start
  let mcs := s.multiline_comment_start
  let mce := s.multiline_comment_end
  if scs.length ≠ 0 ∧ st.in_string = 0 ∧ st.in_comment = false ∧ matchesAt render i scs = true then
    (memsetHl st.hl i (rsize - i) HL_COMMENT).map fun hl =>
      { st with hl := hl, i := rsize }
  else if mcs.length ≠ 0 ∧ mce.length ≠ 0 ∧ st.in_string = 0 ∧ st.in_comment = true then
    (memsetHl st.hl i 1 HL_MLCOMMENT).bind fun hl =>
      if matchesAt render i mce = true then
        (memsetHl hl i mce.length HL_MLCOMMENT).map fun hl =>
          { st with hl := hl, i := i + mce.length, in_comment := false, prev_sep := true }
      else some { st with hl := hl, i := i + 1 }
  else if mcs.length ≠ 0 ∧ mce.length ≠ 0 ∧ st.in_string = 0 ∧ matchesAt render i mcs = true then
    (memsetHl st.hl i mcs.length HL_MLCOMMENT).map fun hl =>
      { st with hl := hl, i := i + mcs.length, in_comment := true }
  else if s.flags &&& HL_HIGHLIGHT_STRINGS ≠ 0 ∧ st.in_string ≠ 0 then
    (memsetHl st.hl i 1 HL_STRING).bind fun hl =>
      if c = 92 ∧ i + 1 < rsize then
        (memsetHl hl (i + 1) 1 HL_STRING).map fun hl => { st with hl := hl, i := i + 2 }
      else
        some { st with hl := hl, in_string := if c = st.in_string then 0 else st.in_string,
                       i := i + 1, prev_sep := true }
  else if s.flags &&& HL_HIGHLIGHT_STRINGS ≠ 0 ∧ (c = 34 ∨ c = 39) then
    (memsetHl st.hl i 1 HL_STRING).map fun hl =>
      { st with hl := hl, in_string := c, i := i + 1 }
  else if s.flags &&& HL_HIGHLIGHT_NUMBERS ≠ 0 ∧
      ((isdigit c = true ∧ (st.prev_sep = true ∨ prev_hl = HL_NUMBER)) ∨
        (c = 46 ∧ prev_hl = HL_NUMBER)) then
    (memsetHl st.hl i 1 HL_NUMBER).map fun hl =>
      { st with hl := hl, i := i + 1, prev_sep := false }
  else
    match (if st.prev_sep = true then keywordMatch render i s.keywords else none) with
    | some (klen, kw2) =>
      (memsetHl st.hl i klen (if kw2 = true then HL_KEYWORD2 else HL_KEYWORD1)).map fun hl =>
        { st with hl := hl, i := i + klen, prev_sep := false }
    | none => some { st with prev_sep := is_separator c, i := i + 1 }

/-- `while (i < row->rsize) { ... }` of `editorUpdateSyntax`. The fuel bounds
the number of passes; `none` is a write outside the array or a loop that has
not ended when the fuel is used up. -/
def scanLoop (s : editorSyntax) (render : List Nat) : Nat → HlScan → Option HlScan
  | 0, st => if st.i < render.length then none else some st
  | fuel + 1, st =>
    if st.i < render.length then (scanStep s render st).bind (scanLoop s render fuel)
    else some st

/-- `E.row[i]` for an `int` index: `none` outside the array. -/
def rowAt (rows : List erow) (i : Int) : Option erow :=
  if i < 0 then none else rows[i.toNat]?

/-- The scan of `editorUpdateSyntax` over a render buffer, from `i = 0` with
`prev_sep = 1`, `in_string = 0` and the given `in_comment`, on a highlight
array that `memset` has filled with `HL_NORMAL`. The scan gets one unit of
fuel for each cell. -/
def scanRow (s : editorSyntax) (render : List Nat) (in_comment : Bool) : Option HlScan :=
  scanLoop s render render.length
    { i := 0, hl := List.replicate render.length HL_NORMAL, prev_sep := true,
      in_string := 0, in_comment := in_comment }

/-- Lines 317-319 and the scan of `editorUpdateSyntax` for a profile `s`: the
highlight array and the final `in_comment` of the row `row`, whose
`in_comment` starts as
`row->idx > 0 && E.row[row->idx - 1].hl_open_comment`. -/
def highlightRow (s : editorSyntax) (rows : List erow) (row : erow) : Option HlScan :=
  let in_comment : Option Bool :=
    if row.idx > 0 then (rowAt rows (row.idx - 1)).map fun r => r.hl_open_comment
    else some false
  in_comment.bind fun inc => scanRow s row.render inc

/-- `void editorUpdateSyntax(erow *row)` for the row at position `p` of the
array `rows`. `synt` is `E.syntax`, `numrows` the value of `E.numrows` at the
time of the call (inside `editorInsertRow` it is one less than the length of
the array). The fuel bounds the depth of the recursion. -/
def editorUpdateSyntax (synt : Option editorSyntax) (numrows : Nat) :
    Nat → List erow → Nat → Option (List erow)
  | 0, _, _ => none
  | fuel + 1, rows, p =>
    match rows[p]? with
    | none => none
    | some row =>
      match synt with
      | none => some (rows.set p { row with hl := List.replicate row.rsize HL_NORMAL })
      | some s =>
        match highlightRow s rows row with
        | none => none
        | some st =>
          let changed : Bool := row.hl_open_comment != st.in_comment
          let rows1 := rows.set p { row with hl := st.hl, hl_open_comment := st.in_comment }
          if changed = true ∧ row.idx + 1 < (numrows : Int) then
            if row.idx + 1 < 0 then none
            else editorUpdateSyntax synt numrows fuel rows1 (row.idx + 1).toNat
          else some rows1

/-! ## Row operations -/

/-- `while (idx % KILO_TAB_STOP != 0) row->render[idx++] = ' ';` -/
def padTab : Nat → List Nat → List Nat
  | 0, out => out
  | fuel + 1, out =>
    if out.length % KILO_TAB_STOP ≠ 0 then padTab fuel (out ++ [SPACE]) else out

/-- The second loop of `editorUpdateRow`, which fills `render`; `out` is
`render[0..idx)`. -/
def renderLoop : List Nat → List Nat → List Nat
  | [], out => out
  | c :: cs, out =>
    if c = TAB then renderLoop cs (padTab KILO_TAB_STOP (out ++ [SPACE]))
    else renderLoop cs (out ++ [c])

/-- `void editorUpdateRow(erow *row)` for the row at position `p`. -/
def editorUpdateRow (synt : Option editorSyntax) (numrows fuel : Nat) (rows : List erow)
    (p : Nat) : Option (List erow) :=
  match rows[p]? with
  | none => none
  | some row =>
    editorUpdateSyntax synt numrows fuel
      (rows.set p { row with render := renderLoop row.chars [], damaged := true }) p

/-- `struct editorConfig`, the fields the modelled operations use.
`E.numrows` is the length of the row array. -/
structure editorConfig where
  cx : Nat
  cy : Nat
  rx : Nat
  rowoff : Int
  coloff : Int
  screenrows : Int
  screencols : Int
  row : List erow
  dirty : Nat
  syn : Option editorSyntax
deriving DecidableEq, Repr

/-- `E.numrows` -/
def editorConfig.numrows (E : editorConfig) : Nat := E.row.length

/-- A loop over the row array, `for (; cond(j); j++) E.row[j] = f(E.row[j]);`,
from `j` on and with at most `n` passes: the `j` it stops at, and the array.
Every such loop of the program has its bound in `cond`, so the number of
passes it is given is the number it can make. -/
def forRows (cond : Nat → Bool) (f : erow → erow) : Nat → Nat → List erow → Nat × List erow
  | 0, j, rows => (j, rows)
  | n + 1, j, rows =>
    if cond j = true then forRows cond f n (j + 1) (rows.modify f j) else (j, rows)

/-- The two renumbering loops of `editorInsertRow`, on the array after the
`memmove`:
```
for (j = at + 1; j - E.rowoff < E.screenrows && j <= E.numrows; j++) {
    E.row[j].idx++;
    E.row[j].damaged = true;
}
for (; j <= E.numrows; j++)
    E.row[j].idx++;
```
-/
def insertRowShift (rowoff screenrows : Int) (numrows a : Nat) (rows0 : List erow) :
    List erow :=
  let r1 := forRows (fun j => decide ((j : Int) - rowoff < screenrows ∧ j ≤ numrows))
    (fun r => { r with idx := r.idx + 1, damaged := true }) (numrows - a) (a + 1) rows0
  let r2 := forRows (fun j => decide (j ≤ numrows))
    (fun r => { r with idx := r.idx + 1 }) (numrows + 1 - r1.1) r1.1 r1.2
  r2.2

/-- The row `editorInsertRow` sets up in the slot `at` before it calls
`editorUpdateRow` (lines 541-551). After `realloc` and `memmove` the slot
holds stale bytes; every field is assigned before it is read, `damaged` by
`editorUpdateRow`. -/
def freshRow (at_ : Int) (s : List Nat) : erow :=
  { idx := at_, chars := s, render := [], hl := [], hl_open_comment := false,
    damaged := false }

/-- `void editorInsertRow(int at, char *s, size_t len)`; `s` is the list of
the `len` bytes. `editorUpdateRow` runs before `E.numrows++`. -/
def editorInsertRow (fuel : Nat) (E : editorConfig) (at_ : Int) (s : List Nat) :
    Option editorConfig :=
  if at_ < 0 ∨ at_ > (E.numrows : Int) then some E
  else
    let a := at_.toNat
    let rows0 := E.row.take a ++ [freshRow at_ s] ++ E.row.drop a
    let rows2 := insertRowShift E.rowoff E.screenrows E.numrows a rows0
    (editorUpdateRow E.syn E.numrows fuel rows2 a).map fun rows =>
      { E with row := rows, dirty := E.dirty + 1 }

/-- The two renumbering loops of `editorDelRow`, on the array after the
`memmove`:
```
for (j = at; j - E.rowoff < E.screenrows && j < E.numrows - 1; j++) {
    E.row[j].idx--;
    E.row[j].damaged = true;
}
for (; j < E.numrows - 1; j++)
    E.row[j].idx--;
```
-/
def delRowShift (rowoff screenrows : Int) (numrows a : Nat) (rows0 : List erow) :
    List erow :=
  let r1 := forRows
    (fun j => decide ((j : Int) - rowoff < screenrows ∧ (j : Int) < (numrows : Int) - 1))
    (fun r => { r with idx := r.idx - 1, damaged := true }) (numrows - 1 - a) a rows0
  let r2 := forRows (fun j => decide ((j : Int) < (numrows : Int) - 1))
    (fun r => { r with idx := r.idx - 1 }) (numrows - 1 - r1.1) r1.1 r1.2
  r2.2

/-- `void editorDelRow(int at)`. The slot the `memmove` leaves behind the last
row is no longer part of the array once `E.numrows` is decremented, and the
loops stop before it. -/
def editorDelRow (E : editorConfig) (at_ : Int) : editorConfig :=
  if at_ < 0 ∨ at_ ≥ (E.numrows : Int) then E
  else
    let a := at_.toNat
    { E with row := delRowShift E.rowoff E.screenrows E.numrows a (E.row.eraseIdx a),
             dirty := E.dirty + 1 }

/-- `void editorRowInsertChar(erow *row, int at, int c)` for the row at
position `p`; the stored byte is `c` converted to `char`. -/
def editorRowInsertChar (fuel : Nat) (E : editorConfig) (p : Nat) (at_ : Int) (c : Nat) :
    Option editorConfig :=
  match E.row[p]? with
  | none => none
  | some row =>
    let a := if at_ < 0 ∨ at_ > (row.size : Int) then row.size else at_.toNat
    let row1 := { row with chars := row.chars.take a ++ [c % 256] ++ row.chars.drop a }
    (editorUpdateRow E.syn E.numrows fuel (E.row.set p row1) p).map fun rows =>
      { E with row := rows, dirty := E.dirty + 1 }

/-- `void editorRowAppendString(erow *row, char *s, size_t len)` for the row
at position `p`; `s` is the list of the `len` bytes. -/
def editorRowAppendString (fuel : Nat) (E : editorConfig) (p : Nat) (s : List Nat) :
    Option editorConfig :=
  match E.row[p]? with
  | none => none
  | some row =>
    (editorUpdateRow E.syn E.numrows fuel (E.row.set p { row with chars := row.chars ++ s }) p).map
      fun rows => { E with row := rows, dirty := E.dirty + 1 }

/-- `void editorRowDelChar(erow *row, int at)` for the row at position `p`. -/
def editorRowDelChar (fuel : Nat) (E : editorConfig) (p : Nat) (at_ : Int) :
    Option editorConfig :=
  match E.row[p]? with
  | none => none
  | some row =>
    if at_ < 0 ∨ at_ ≥ (row.size : Int) then some E
    else
      let a := at_.toNat
      let row1 := { row with chars := row.chars.take a ++ row.chars.drop (a + 1) }
      (editorUpdateRow E.syn E.numrows fuel (E.row.set p row1) p).map fun rows =>
        { E with row := rows, dirty := E.dirty + 1 }

/-- `void editorRowDelChars(erow *row, int at, int until)` for the row at
position `p`:
```
memmove(&row->chars[until], &row->chars[at + 1], row->size - at);
row->size -= at + 1 - until;
```
The bytes `until .. at` are removed. With `until < 0` or `until > at + 1` the
`memmove` writes outside the buffer of `size + 1` bytes. -/
def editorRowDelChars (fuel : Nat) (E : editorConfig) (p : Nat) (at_ until_ : Int) :
    Option editorConfig :=
  match E.row[p]? with
  | none => none
  | some row =>
    if at_ < 0 ∨ at_ ≥ (row.size : Int) then some E
    else if until_ < 0 ∨ until_ > at_ + 1 then none
    else
      let row1 :=
        { row with chars := row.chars.take until_.toNat ++ row.chars.drop (at_.toNat + 1) }
      (editorUpdateRow E.syn E.numrows fuel (E.row.set p row1) p).map fun rows =>
        { E with row := rows, dirty := E.dirty + 1 }

/-! ## Terminal input -/

/-! `enum editorKey` -/

def BACKSPACE : Nat := 127
def ARROW_LEFT : Nat := 1000
def ARROW_RIGHT : Nat := 1001
def ARROW_UP : Nat := 1002
def ARROW_DOWN : Nat := 1003
def CTRL_ARROW_LEFT : Nat := 1004
def CTRL_ARROW_RIGHT : Nat := 1005
def SHIFT_ARROW_LEFT : Nat := 1006
def SHIFT_ARROW_RIGHT : Nat := 1007
def SHIFT_ARROW_UP : Nat := 1008
def SHIFT_ARROW_DOWN : Nat := 1009
def DEL_KEY : Nat := 1010
def HOME_KEY : Nat := 1011
def END_KEY : Nat := 1012
def PAGE_UP : Nat := 1013
def PAGE_DOWN : Nat := 1014

/-- The byte `'\x1b'`. -/
def ESC : Nat := 27

/-- What one call `read(STDIN_FILENO, &c, 1)` gives: a byte (return value 1),
no byte within the timeout (return value 0), or an error (return value -1,
with `errno == EAGAIN` or not). -/
inductive ReadResult where
  | byte (b : Nat)
  | timeout
  | error (eagain : Bool)
deriving DecidableEq, Repr

/-- One `read` from the byte source. The source is the list of the results of
the calls to come; behind its end every call times out. -/
def readByte : List ReadResult → ReadResult × List ReadResult
  | [] => (ReadResult.timeout, [])
  | r :: rs => (r, rs)

/-- The first loop of `editorReadKey`:
```
while ((nread = read(STDIN_FILENO, &c, 1)) != 1) {
    if (nread == -1 && errno != EAGAIN)
        die("read");
}
```
`none` when the program dies, or when no byte ever arrives. -/
def waitKey : List ReadResult → Option (Nat × List ReadResult)
  | [] => none
  | ReadResult.byte c :: rs => some (c, rs)
  | ReadResult.timeout :: rs => waitKey rs
  | ReadResult.error true :: rs => waitKey rs
  | ReadResult.error false :: _ => none

/-- The byte in `seq[k]` after `read(STDIN_FILENO, &seq[k], 1)` gave `r`: the
byte read, or what the cell held before. -/
def seqCell (r : ReadResult) (before : Nat) : Nat :=
  match r with
  | ReadResult.byte b => b
  | _ => before

/-- `int editorReadKey()` on a byte source; the result is the key and the rest
of the source. `junk3` and `junk4` are the bytes that the uninitialised cells
`seq[3]` and `seq[4]` of `char seq[5]` hold when the function is entered (the
cells `seq[0..2]` are always written before they are read). A plain byte is
returned as `return c;` with `char c`: the model takes `char` to be unsigned
and returns the byte; where `char` is signed the C function returns
`byte - 256` for a byte from 128 on. The keys of the escape sequences do not
depend on this. -/
def editorReadKey (junk3 junk4 : Nat) (src : List ReadResult) :
    Option (Nat × List ReadResult) :=
  match waitKey src with
  | none => none
  | some (c, s0) =>
    if c = ESC then
      match readByte s0 with
      | (ReadResult.byte seq0, s1) =>
        match readByte s1 with
        | (ReadResult.byte seq1, s2) =>
          if seq0 = 91 then
            if 48 ≤ seq1 ∧ seq1 ≤ 57 then
              match readByte s2 with
              | (ReadResult.byte seq2, s3) =>
                if seq2 = 126 then
                  if seq1 = 49 then some (HOME_KEY, s3)
                  else if seq1 = 51 then some (DEL_KEY, s3)
                  else if seq1 = 52 then some (END_KEY, s3)
                  else if seq1 = 53 then some (PAGE_UP, s3)
                  else if seq1 = 54 then some (PAGE_DOWN, s3)
                  else if seq1 = 55 then some (HOME_KEY, s3)
                  else if seq1 = 56 then some (END_KEY, s3)
                  else some (ESC, s3)
                else if seq2 = 59 then
                  match readByte s3 with
                  | (ReadResult.error _, s4) => some (ESC, s4)
                  | (r3, s4) =>
                    match readByte s4 with
                    | (ReadResult.error _, s5) => some (ESC, s5)
                    | (r4, s5) =>
                      let seq3 := seqCell r3 junk3
                      let seq4 := seqCell r4 junk4
                      if seq3 = 53 then
                        if seq4 = 67 then some (CTRL_ARROW_RIGHT, s5)
                        else if seq4 = 68 then some (CTRL_ARROW_LEFT, s5)
                        else some (ESC, s5)
                      else if seq3 = 50 then
                        if seq4 = 65 then some (SHIFT_ARROW_UP, s5)
                        else if seq4 = 66 then some (SHIFT_ARROW_DOWN, s5)
                        else if seq4 = 67 then some (SHIFT_ARROW_RIGHT, s5)
                        else if seq4 = 68 then some (SHIFT_ARROW_LEFT, s5)
                        else some (ESC, s5)
                      else some (ESC, s5)
                else some (ESC, s3)
              | (_, s3) => some (ESC, s3)
            else
              if seq1 = 65 then some (ARROW_UP, s2)
              else if seq1 = 66 then some (ARROW_DOWN, s2)
              else if seq1 = 67 then some (ARROW_RIGHT, s2)
              else if seq1 = 68 then some (ARROW_LEFT, s2)
              else if seq1 = 72 then some (HOME_KEY, s2)
              else if seq1 = 70 then some (END_KEY, s2)
              else some (ESC, s2)
          else if seq0 = 79 then
            if seq1 = 72 then some (HOME_KEY, s2)
            else if seq1 = 70 then some (END_KEY, s2)
            else some (ESC, s2)
          else some (ESC, s2)
        | (_, s2) => some (ESC, s2)
      | (_, s1) => some (ESC, s1)
    else some (c, s0)

/-- The decode table of escape sequences: the bytes behind `ESC`, and the key.
`d` is the digit of the sequences `ESC [ d ; ...`. -/
def decodeTable (d : Nat) : List (List Nat × Nat) :=
  [ (bytes "[" ++ [d] ++ bytes ";5C", CTRL_ARROW_RIGHT),
    (bytes "[" ++ [d] ++ bytes ";5D", CTRL_ARROW_LEFT),
    (bytes "[" ++ [d] ++ bytes ";2A", SHIFT_ARROW_UP),
    (bytes "[" ++ [d] ++ bytes ";2B", SHIFT_ARROW_DOWN),
    (bytes "[" ++ [d] ++ bytes ";2C", SHIFT_ARROW_RIGHT),
    (bytes "[" ++ [d] ++ bytes ";2D", SHIFT_ARROW_LEFT),
    (bytes "[1~", HOME_KEY), (bytes "[7~", HOME_KEY), (bytes "[3~", DEL_KEY),
    (bytes "[4~", END_KEY), (bytes "[8~", END_KEY), (bytes "[5~", PAGE_UP),
    (bytes "[6~", PAGE_DOWN),
    (bytes "[A", ARROW_UP), (bytes "[B", ARROW_DOWN), (bytes "[C", ARROW_RIGHT),
    (bytes "[D", ARROW_LEFT), (bytes "[H", HOME_KEY), (bytes "OH", HOME_KEY),
    (bytes "[F", END_KEY), (bytes "OF", END_KEY) ]

/-! ## Find -/

/-- The C string a buffer holds: its bytes before the first NUL byte. -/
def cstr (buf : List Nat) : List Nat := buf.takeWhile (fun c => c != 0)

/-- `strlen` -/
def strlen (buf : List Nat) : Nat := (cstr buf).length

/-- The search of `strstr` in the text from offset `off` on: the offset of the
first place where `needle` stands. -/
def strstrFrom (needle : List Nat) : List Nat → Nat → Option Nat
  | [], off => if needle.isPrefixOf [] = true then some off else none
  | c :: cs, off =>
    if needle.isPrefixOf (c :: cs) = true then some off else strstrFrom needle cs (off + 1)

/-- `strstr(hay, needle)` as the offset `match - hay` of the first occurrence,
or `none` for `NULL`. Both arguments are read as C strings. -/
def strstr (hay needle : List Nat) : Option Nat :=
  strstrFrom (cstr needle) (cstr hay) 0

/-- `memcpy(dst, src, n)` on highlight arrays; `none` when it would leave one
of them. -/
def memcpyHl (dst src : List Nat) (n : Nat) : Option (List Nat) :=
  if n ≤ src.length ∧ n ≤ dst.length then some (src.take n ++ dst.drop n) else none

/-- The static variables of `editorFindCallback`. `saved_hl` is `none` for
`NULL`. -/
structure FindState where
  last_match : Int
  direction : Int
  saved_hl_line : Nat
  saved_hl : Option (List Nat)
deriving DecidableEq, Repr

/-- The initial values of the static variables. -/
def findInit : FindState :=
  { last_match := -1, direction := 1, saved_hl_line := 0, saved_hl := none }

/-- The first statement of `editorFindCallback`:
```
if (saved_hl) {
    memcpy(E.row[saved_hl_line].hl, saved_hl, E.row[saved_hl_line].rsize);
    free(saved_hl);
    saved_hl = NULL;
}
```
-/
def findRestore (rows : List erow) (F : FindState) : Option (List erow) :=
  match F.saved_hl with
  | none => some rows
  | some saved =>
    match rows[F.saved_hl_line]? with
    | none => none
    | some row =>
      (memcpyHl row.hl saved row.rsize).map fun hl =>
        rows.set F.saved_hl_line { row with hl := hl }

/-- The loop of `editorFindCallback`, with `n` passes left, up to the `break`:
the row and the offset of the match it stops at, `some none` when it ends
without a match.
```
for (int i = 0; i < E.numrows; i++) {
    current += direction;
    if (current == -1)
        current = E.numrows - 1;
    else if (current == E.numrows)
        current = 0;
    erow *row = &E.row[current];
    char *match = strstr(row->render, query);
    if (match) {
```
-/
def findLoop (query : List Nat) (direction : Int) (numrows : Nat) (rows : List erow) :
    Nat → Int → Option (Option (Nat × Nat))
  | 0, _ => some none
  | n + 1, current =>
    let current := current + direction
    let current :=
      if current = -1 then (numrows : Int) - 1
      else if current = (numrows : Int) then 0 else current
    match rowAt rows current with
    | none => none
    | some row =>
      match strstr row.render query with
      | some off => some (some (current.toNat, off))
      | none => findLoop query direction numrows rows n current

/-- `void editorFindCallback(char *query, int key)`, with its static variables
as the state `F`. -/
def editorFindCallback (E : editorConfig) (F : FindState) (query : List Nat) (key : Nat) :
    Option (editorConfig × FindState) :=
  match findRestore E.row F with
  | none => none
  | some rows1 =>
    if key = 13 ∨ key = ESC then
      match rows1[E.cy]? with
      | none => none
      | some r =>
        some ({ E with row := rows1.set E.cy { r with damaged := true } },
              { last_match := -1, direction := 1, saved_hl_line := F.saved_hl_line,
                saved_hl := none })
    else
      let last_match : Int :=
        if key = ARROW_RIGHT ∨ key = ARROW_DOWN then F.last_match
        else if key = ARROW_LEFT ∨ key = ARROW_UP then F.last_match
        else -1
      let direction : Int :=
        if key = ARROW_RIGHT ∨ key = ARROW_DOWN then 1
        else if key = ARROW_LEFT ∨ key = ARROW_UP then -1
        else 1
      let direction : Int := if last_match = -1 then 1 else direction
      match findLoop query direction E.numrows rows1 E.numrows last_match with
      | none => none
      | some none =>
        some ({ E with row := rows1 },
              { last_match := last_match, direction := direction,
                saved_hl_line := F.saved_hl_line, saved_hl := none })
      | some (some (current, off)) =>
        match rows1[current]? with
        | none => none
        | some row =>
          if row.rsize ≤ row.hl.length then
            (memsetHl row.hl off (strlen query) HL_MATCH).map fun hl =>
              ({ E with cy := current, cx := editorRowRxToCx row off,
                        rowoff := (E.numrows : Int),
                        row := rows1.set current { row with hl := hl } },
               { last_match := (current : Int), direction := direction,
                 saved_hl_line := current, saved_hl := some (row.hl.take row.rsize) })
          else none

/-! ## Selection -/

/-- `row->hl[k]` for an `int` index; `none` outside the array. -/
def hlAt (hl : List Nat) (k : Int) : Option Nat :=
  if k < 0 then none else hl[k.toNat]?

/-- The two backward scans of the delete branch of `editorSelect`, from `k` on
and with at most `n` passes: `ne = true` is
`for (...; row->hl[k] != HL_MATCH && k > 0; k--);` and `ne = false` is
`for (...; row->hl[k] == HL_MATCH && k > 0; k--);`. The cell is read before
`k > 0` is tested. -/
def selScanDown (hl : List Nat) (ne : Bool) : Nat → Int → Option Int
  | 0, _ => none
  | n + 1, k =>
    match hlAt hl k with
    | none => none
    | some v =>
      if decide (v ≠ HL_MATCH) = ne ∧ k > 0 then selScanDown hl ne n (k - 1) else some k

/-- The two forward scans of the delete branch of `editorSelect`, from `i` on
and with at most `n` passes: `ne = true` is
`for (i = 0; row->hl[i] != HL_MATCH && i < row->rsize; i++);` and `ne = false`
is `for (j = i; row->hl[j] == HL_MATCH && j < row->rsize; j++);`. The cell is
read before the bound is tested. -/
def selScanUp (hl : List Nat) (rsize : Nat) (ne : Bool) : Nat → Nat → Option Nat
  | 0, _ => none
  | n + 1, i =>
    match hl[i]? with
    | none => none
    | some v =>
      if decide (v ≠ HL_MATCH) = ne ∧ i < rsize then selScanUp hl rsize ne n (i + 1)
      else some i

/-- `for (int i = down - 1; i > up; i--) editorDelRow(i);` from `i` on, with at
most `n` passes. -/
def delRowsLoop (up : Nat) : Nat → Int → editorConfig → editorConfig
  | 0, _, E => E
  | n + 1, i, E => if i > (up : Int) then delRowsLoop up n (i - 1) (editorDelRow E i) else E

/-- The delete branch of `editorSelect` (the cases `BACKSPACE`, `CTRL_KEY('h')`
and `DEL_KEY`, lines 1209-1250); `start_y` is the cursor row at the time the
selection began. -/
def editorSelectDelete (fuel : Nat) (E : editorConfig) (start_y : Nat) : Option editorConfig :=
  let up := if E.cy < start_y then E.cy else start_y
  let down := if E.cy < start_y then start_y else E.cy
  if up = down then
    match E.row[E.cy]? with
    | none => none
    | some row =>
      (selScanUp row.hl row.rsize true (row.rsize + 1) 0).bind fun i =>
      (selScanUp row.hl row.rsize false (row.rsize + 1) i).bind fun j =>
      (editorRowDelChars fuel E E.cy ((j : Int) - 1) (i : Int)).bind fun E1 =>
      match E1.row[E1.cy]? with
      | none => none
      | some row1 => some { E1 with cx := editorRowRxToCx row1 i }
  else
    let E0 := { E with cy := down }
    match E0.row[E0.cy]? with
    | none => none
    | some row =>
      (selScanDown row.hl true (row.rsize + 1) ((row.rsize : Int) - 1)).bind fun k =>
      (if k = (row.size : Int) - 1 then some (editorDelRow E0 (E0.cy : Int))
       else editorRowDelChars fuel E0 E0.cy k 0).bind fun E1 =>
      let E2 := delRowsLoop up (down - 1 - up) ((down : Int) - 1) E1
      let E3 := { E2 with cy := up }
      match E3.row[E3.cy]? with
      | none => none
      | some row =>
        (selScanDown row.hl false (row.rsize + 1) ((row.rsize : Int) - 1)).bind fun k0 =>
        let k := k0 + 1
        (if k = 0 then some (editorDelRow E3 (E3.cy : Int))
         else
          (editorRowDelChars fuel E3 E3.cy ((row.size : Int) - 1) k).bind fun E4 =>
          match E4.row[E4.cy + 1]? with
          | none => none
          | some next =>
            (editorRowAppendString fuel E4 E4.cy next.chars).map fun E5 =>
              editorDelRow E5 ((E5.cy : Int) + 1)).bind fun E6 =>
        match E6.row[E6.cy]? with
        | none => none
        | some r => some { E6 with cx := editorRowRxToCx r k.toNat }

/-! ## Output: scrolling -/

/-- `bool editorScroll()`: the return value and the state it leaves.
```
E.rx = 0;
if (E.cy < E.numrows)
    E.rx = editorRowCxToRx(&E.row[E.cy], E.cx);
if (E.cy < E.rowoff)
    E.rowoff = E.cy;
if (E.cy >= E.rowoff + E.screenrows)
    E.rowoff = E.cy - E.screenrows + 1;
if (E.rx < E.coloff)
    E.coloff = E.rx;
if (E.rx >= E.coloff + E.screencols)
    E.coloff = E.rx - E.screencols + 1;
return (cur_rowoff != E.rowoff || cur_coloff != E.coloff);
```
`E.cx` need not lie inside the row (`editorJump` moves `E.cy` and leaves
`E.cx`), so the call of `editorRowCxToRx` can read behind the terminator of
the row `cy`: `behind` is the memory there. -/
def editorScroll (E : editorConfig) (behind : Nat → Nat) : Bool × editorConfig :=
  let cur_rowoff := E.rowoff
  let cur_coloff := E.coloff
  let rx : Nat :=
    if E.cy < E.numrows then
      match E.row[E.cy]? with
      | some row => editorRowCxToRxMem row behind E.cx
      | none => 0
    else 0
  let rowoff : Int := if (E.cy : Int) < E.rowoff then (E.cy : Int) else E.rowoff
  let rowoff : Int :=
    if (E.cy : Int) ≥ rowoff + E.screenrows then (E.cy : Int) - E.screenrows + 1 else rowoff
  let coloff : Int := if (rx : Int) < E.coloff then (rx : Int) else E.coloff
  let coloff : Int :=
    if (rx : Int) ≥ coloff + E.screencols then (rx : Int) - E.screencols + 1 else coloff
  (decide (cur_rowoff ≠ rowoff ∨ cur_coloff ≠ coloff),
    { E with rx := rx, rowoff := rowoff, coloff := coloff })

/-! ## Cursor motion and the newline -/

/-- `void editorMoveCursor(int key)`; `keep_rx` is the static variable of the
function, returned with the state. `none` is the read of a row outside the
array. `row` is `NULL` (`none`) when `E.cy >= E.numrows`.
```
case ARROW_LEFT:
    if (E.cx != 0) {
        E.cx--;
    } else if (E.cy > 0) {
        E.cy--;
        E.cx = E.row[E.cy].size;
    }
    if (row)
        keep_rx = editorRowCxToRx(row, E.cx);
    break;
case ARROW_RIGHT:
    if (row && E.cx < row->size) {
        E.cx++;
    } else if (row && E.cx == row->size) {
        E.cy++;
        E.cx = 0;
    }
    if (row)
        keep_rx = editorRowCxToRx(row, E.cx);
    break;
case ARROW_UP:
    if (E.cy != 0) {
        E.cx = editorRowRxToCx(&E.row[E.cy - 1], keep_rx);
        E.cy--;
    }
    break;
case ARROW_DOWN:
    if (E.cy < E.numrows) {
        E.cx = editorRowRxToCx(&E.row[E.cy + 1], keep_rx);
        E.cy++;
    }
    break;
```
and then `E.cx` is cut down to the size of the row the cursor is on (0 when
it is on no row). The new `keep_rx` is the value of the C program when the new
`E.cx` is at most `size + 1` of the row the call started on; otherwise (the
cursor behind the end of the row, or `ARROW_LEFT` from column 0 to the end of
a longer row above) the C code reads behind the terminator of that row and
its `keep_rx` depends on the memory there. -/
def editorMoveCursor (E : editorConfig) (keep_rx : Nat) (key : Nat) :
    Option (editorConfig × Nat) :=
  let row : Option erow := if E.cy ≥ E.numrows then none else E.row[E.cy]?
  let keep (E1 : editorConfig) : Nat :=
    match row with
    | some r => editorRowCxToRx r E1.cx
    | none => keep_rx
  let moved : Option (editorConfig × Nat) :=
    if key = ARROW_LEFT then
      if E.cx ≠ 0 then
        let E1 := { E with cx := E.cx - 1 }
        some (E1, keep E1)
      else if E.cy > 0 then
        match E.row[E.cy - 1]? with
        | none => none
        | some prev =>
          let E1 := { E with cy := E.cy - 1, cx := prev.size }
          some (E1, keep E1)
      else some (E, keep E)
    else if key = ARROW_RIGHT then
      match row with
      | some r =>
        if E.cx < r.size then
          let E1 := { E with cx := E.cx + 1 }
          some (E1, keep E1)
        else if E.cx = r.size then
          let E1 := { E with cy := E.cy + 1, cx := 0 }
          some (E1, keep E1)
        else some (E, keep E)
      | none => some (E, keep_rx)
    else if key = ARROW_UP then
      if E.cy ≠ 0 then
        match E.row[E.cy - 1]? with
        | none => none
        | some prev => some ({ E with cx := editorRowRxToCx prev keep_rx, cy := E.cy - 1 }, keep_rx)
      else some (E, keep_rx)
    else if key = ARROW_DOWN then
      if E.cy < E.numrows then
        match E.row[E.cy + 1]? with
        | none => none
        | some next => some ({ E with cx := editorRowRxToCx next keep_rx, cy := E.cy + 1 }, keep_rx)
      else some (E, keep_rx)
    else some (E, keep_rx)
  moved.bind fun r =>
    let E1 := r.1
    let rowlen : Nat :=
      if E1.cy ≥ E1.numrows then 0
      else
        match E1.row[E1.cy]? with
        | some r1 => r1.size
        | none => 0
    some (if E1.cx > rowlen then { E1 with cx := rowlen } else E1, r.2)

/-- The smart-indent loop of `editorInsertNewline`, from `il` on with at most
`n` passes: the `il` it ends with.
```
for (il = 0; il < E.cx && (row->chars[il] == '\t' || row->chars[il] == ' '); il++)
    indented[il] = row->chars[il];
```
-/
def indentLoop (chars : List Nat) (cx : Nat) : Nat → Nat → Nat
  | 0, il => il
  | n + 1, il =>
    if il < cx ∧ (chars.getD il 0 = TAB ∨ chars.getD il 0 = SPACE) then
      indentLoop chars cx n (il + 1)
    else il

/-- `for (int j = 0; j < il; j++) editorMoveCursor(ARROW_RIGHT);` with `n`
passes left. -/
def moveRightLoop : Nat → editorConfig → Nat → Option (editorConfig × Nat)
  | 0, E, keep_rx => some (E, keep_rx)
  | n + 1, E, keep_rx =>
    (editorMoveCursor E keep_rx ARROW_RIGHT).bind fun r => moveRightLoop n r.1 r.2

/-- `void editorInsertNewline()`, with the static `keep_rx` of
`editorMoveCursor`. `none` is undefined behaviour: the cursor on no row, or
behind the end of its row (the `memcpy` of `row->size - E.cx` bytes), with
`E.cx != 0`.
```
if (E.cx == 0) {
    editorInsertRow(E.cy, "", 0);
} else {
    erow *row = &E.row[E.cy];
    char indented[row->size];
    for (il = 0; ...; il++) indented[il] = row->chars[il];
    memcpy(&indented[il], &row->chars[E.cx], row->size - E.cx);
    editorInsertRow(E.cy + 1, indented, il + row->size - E.cx);
    row = &E.row[E.cy];
    row->size = E.cx;
    row->chars[row->size] = '\0';
    editorUpdateRow(row);
}
E.cy++;
E.cx = 0;
for (int j = 0; j < il; j++)
    editorMoveCursor(ARROW_RIGHT);
```
-/
def editorInsertNewline (fuel : Nat) (E : editorConfig) (keep_rx : Nat) :
    Option (editorConfig × Nat) :=
  let split : Option (editorConfig × Nat) :=
    if E.cx = 0 then (editorInsertRow fuel E (E.cy : Int) []).map fun E1 => (E1, 0)
    else
      match E.row[E.cy]? with
      | none => none
      | some row =>
        if E.cx > row.size then none
        else
          let il := indentLoop row.chars E.cx E.cx 0
          let indented := row.chars.take il ++ row.chars.drop E.cx
          (editorInsertRow fuel E ((E.cy : Int) + 1) indented).bind fun E1 =>
            match E1.row[E1.cy]? with
            | none => none
            | some row1 =>
              (editorUpdateRow E1.syn E1.numrows fuel
                (E1.row.set E1.cy { row1 with chars := row1.chars.take E1.cx }) E1.cy).map
                fun rows => ({ E1 with row := rows }, il)
  split.bind fun r =>
    moveRightLoop r.2 { r.1 with cy := r.1.cy + 1, cx := 0 } keep_rx

/-! ## Selection with the shifted arrows -/

/-- The loop of `editorMoveSelect` that toggles the cells of one character:
```
for (int i = left; i < right; i++)
    row->hl[i] = row->hl[i] == HL_MATCH ? HL_NORMAL : HL_MATCH;
```
The first number is `right - i`, the second is `i`. `none` when a cell is
outside the highlight array. -/
def toggleLoop : Nat → Nat → List Nat → Option (List Nat)
  | 0, _, hl => some hl
  | n + 1, i, hl =>
    match hl[i]? with
    | none => none
    | some v => toggleLoop n (i + 1) (hl.set i (if v = HL_MATCH then HL_NORMAL else HL_MATCH))

/-- The guarded block of the two horizontal cases of `editorMoveSelect`, for
the character at offset `j` of the row the cursor is on (`j` is `E.cx - 1`
for `SHIFT_ARROW_LEFT` and `E.cx` for `SHIFT_ARROW_RIGHT`):
```
int left = editorRowCxToRx(row, j);
int right;
if (row->chars[j] == '\t')
    right = left + ((KILO_TAB_STOP - 1) - (left % KILO_TAB_STOP)) + 1;
else
    right = left + 1;
for (int i = left; i < right; i++)
    row->hl[i] = row->hl[i] == HL_MATCH ? HL_NORMAL : HL_MATCH;
row->damaged = true;
```
`chars[size]` is the terminating NUL; `none` when the row does not exist,
when `j` is behind the terminator or when a cell is outside `hl`. -/
def toggleChar (E : editorConfig) (j : Nat) : Option editorConfig :=
  match E.row[E.cy]? with
  | none => none
  | some row =>
    match (if j = row.size then some 0 else row.chars[j]?) with
    | none => none
    | some c =>
      let left := editorRowCxToRx row j
      let right :=
        if c = TAB then left + ((KILO_TAB_STOP - 1) - left % KILO_TAB_STOP) + 1
        else left + 1
      match toggleLoop (right - left) left row.hl with
      | none => none
      | some hl => some { E with row := E.row.set E.cy { row with hl := hl, damaged := true } }

/-- The cases `SHIFT_ARROW_LEFT` and `SHIFT_ARROW_RIGHT` of
`void editorMoveSelect(int key)`; `keep_rx` is the static variable of
`editorMoveCursor`.
```
erow *row = &E.row[E.cy];
case SHIFT_ARROW_LEFT:
    if (E.cx > 0) { ... toggle the cells of chars[E.cx - 1] ... }
    editorMoveCursor(ARROW_LEFT);
case SHIFT_ARROW_RIGHT:
    if (E.cx < row->size) { ... toggle the cells of chars[E.cx] ... }
    editorMoveCursor(ARROW_RIGHT);
```
The right case reads `row->size`, so the row has to exist. -/
def editorMoveSelectStep (E : editorConfig) (keep_rx key : Nat) :
    Option (editorConfig × Nat) :=
  if key = SHIFT_ARROW_LEFT then
    if E.cx > 0 then
      (toggleChar E (E.cx - 1)).bind fun E1 => editorMoveCursor E1 keep_rx ARROW_LEFT
    else editorMoveCursor E keep_rx ARROW_LEFT
  else if key = SHIFT_ARROW_RIGHT then
    match E.row[E.cy]? with
    | none => none
    | some row =>
      if E.cx < row.size then
        (toggleChar E E.cx).bind fun E1 => editorMoveCursor E1 keep_rx ARROW_RIGHT
      else editorMoveCursor E keep_rx ARROW_RIGHT
  else some (E, keep_rx)

/-- The loops of the vertical cases, `n` calls of `editorMoveSelect(key)` with
a horizontal `key`:
```
for (int i = 0; i <= until; i++)
    editorMoveSelect(SHIFT_ARROW_RIGHT);
```
-/
def selectRepeat (key : Nat) : Nat → editorConfig → Nat → Option (editorConfig × Nat)
  | 0, E, keep_rx => some (E, keep_rx)
  | n + 1, E, keep_rx =>
    (editorMoveSelectStep E keep_rx key).bind fun r => selectRepeat key n r.1 r.2

/-- `void editorMoveSelect(int key)`
```
case SHIFT_ARROW_DOWN:
    int until_end = row->size - E.cx;
    int until_below = editorRowRxToCx(&E.row[E.cy + 1], editorRowCxToRx(row, E.cx));
    int until = until_end + until_below;
    for (int i = 0; i <= until; i++)
        editorMoveSelect(SHIFT_ARROW_RIGHT);
case SHIFT_ARROW_UP:
    int until_begin = E.cx;
    int until_above = editorRowRxToCx(&E.row[E.cy - 1],
                                      editorRowCxToRx(row, row->size - E.cx));
    int until = until_begin + until_above;
    for (int i = 0; i <= until; i++)
        editorMoveSelect(SHIFT_ARROW_LEFT);
```
The loops run `until + 1` times (not at all when `until` is negative). With a
negative argument `editorRowCxToRx` returns 0, as it does for the argument 0.
`none` when the row of the cursor, the row below (down) or the row above (up)
does not exist. -/
def editorMoveSelect (E : editorConfig) (keep_rx key : Nat) : Option (editorConfig × Nat) :=
  if key = SHIFT_ARROW_LEFT ∨ key = SHIFT_ARROW_RIGHT then editorMoveSelectStep E keep_rx key
  else if key = SHIFT_ARROW_DOWN then
    match E.row[E.cy]?, E.row[E.cy + 1]? with
    | some row, some below =>
      let until_end : Int := (row.size : Int) - (E.cx : Int)
      let until_below : Int := (editorRowRxToCx below (editorRowCxToRx row E.cx) : Nat)
      let until_ : Int := until_end + until_below
      selectRepeat SHIFT_ARROW_RIGHT (until_ + 1).toNat E keep_rx
    | _, _ => none
  else if key = SHIFT_ARROW_UP then
    if E.cy = 0 then none
    else
      match E.row[E.cy]?, E.row[E.cy - 1]? with
      | some row, some above =>
        let until_begin : Int := (E.cx : Int)
        let until_above : Int :=
          (editorRowRxToCx above (editorRowCxToRx row (row.size - E.cx)) : Nat)
        let until_ : Int := until_begin + until_above
        selectRepeat SHIFT_ARROW_LEFT (until_ + 1).toNat E keep_rx
      | _, _ => none
  else some (E, keep_rx)

/-! ## Output: drawing the rows -/

/-- `int editorSyntaxToColor(int hl)` -/
def editorSyntaxToColor (hl : Nat) : Nat :=
  if hl = HL_COMMENT ∨ hl = HL_MLCOMMENT then 36
  else if hl = HL_KEYWORD1 then 33
  else if hl = HL_KEYWORD2 then 32
  else if hl = HL_STRING then 35
  else if hl = HL_NUMBER then 31
  else if hl = HL_MATCH then 34
  else 37

/-- `iscntrl` of `<ctype.h>` in the C locale: the bytes below 32 and the byte
127; a byte from 128 on is no control character. -/
def iscntrl (c : Nat) : Bool := c < 32 || c = 127

/-- The digits of `n`, most significant first; `fuel` bounds their number. -/
def decimalLoop : Nat → Nat → List Nat → List Nat
  | 0, _, acc => acc
  | fuel + 1, n, acc =>
    if n < 10 then (48 + n) :: acc else decimalLoop fuel (n / 10) ((48 + n % 10) :: acc)

/-- What `%d` prints for an `int`. -/
def fmtInt (i : Int) : List Nat :=
  if i < 0 then 45 :: decimalLoop ((-i).toNat + 1) (-i).toNat []
  else decimalLoop (i.toNat + 1) i.toNat []

/-- A read of `p[i]` where `p` points to the start of an array: `none` outside
the array. -/
def getCell (l : List Nat) (i : Int) : Option Nat :=
  if i < 0 then none else l[i.toNat]?

/-- The body of the loop over the visible cells of a row in `editorDrawRows`,
for the cell `j`: the bytes it appends and the new `current_color`.
```
if (iscntrl(c[j])) {
    char sym = (c[j] <= 26) ? '@' + c[j] : '?';
    abAppend(ab, "\x1b[7m", 4);
    abAppend(ab, &sym, 1);
    if (current_color != -1) {
        int clen = snprintf(buf, sizeof(buf), "\x1b]%dm", current_color);
        abAppend(ab, buf, clen);
    } else {
        abAppend(ab, "\x1b[m", 3);
    }
} else if (hl[j] == HL_NORMAL) {
    if (current_color != -1) {
        abAppend(ab, "\x1b[39m", 5);
        current_color = -1;
    }
    abAppend(ab, &c[j], 1);
} else if (hl[j] == HL_MATCH) {
    if (current_color != HL_MATCH) {
        abAppend(ab, "\x1b[7m", 4);
        current_color = HL_MATCH;
    }
    abAppend(ab, &c[j], 1);
    if (j < len)
        if (hl[j + 1] != HL_MATCH)
            abAppend(ab, "\x1b[m", 3);
} else {
    int color = editorSyntaxToColor(hl[j]);
    if (color != current_color) {
        int clen = snprintf(buf, sizeof(buf), "\x1b[%dm", color);
        abAppend(ab, buf, clen);
        current_color = color;
    }
    abAppend(ab, &c[j], 1);
}
```
Here `c` is `&render[E.coloff]` and `hl` is `&row.hl[E.coloff]`. The read of
`hl[j + 1]` for the last cell of the row is a read of `row.hl[rsize]`, one
byte behind the array; it sees the byte `past`. The reads of `c[j]` and
`hl[j]` give `none` outside their arrays. -/
def drawCell (render hl : List Nat) (coloff : Int) (past : Nat) (j : Nat)
    (current_color : Int) : Option (List Nat × Int) :=
  match getCell render (coloff + j) with
  | none => none
  | some c =>
    if iscntrl c then
      let sym : Nat := if c ≤ 26 then 64 + c else 63
      some (bytes "\x1b[7m" ++ [sym] ++
          (if current_color ≠ -1 then bytes "\x1b]" ++ fmtInt current_color ++ bytes "m"
           else bytes "\x1b[m"),
        current_color)
    else
      match getCell hl (coloff + j) with
      | none => none
      | some h =>
        if h = HL_NORMAL then
          some ((if current_color ≠ -1 then bytes "\x1b[39m" else []) ++ [c], -1)
        else if h = HL_MATCH then
          let next : Nat := (getCell hl (coloff + j + 1)).getD past
          some ((if current_color ≠ (HL_MATCH : Int) then bytes "\x1b[7m" else []) ++ [c] ++
              (if next ≠ HL_MATCH then bytes "\x1b[m" else []),
            (HL_MATCH : Int))
        else
          let color : Int := (editorSyntaxToColor h : Nat)
          some ((if color ≠ current_color then bytes "\x1b[" ++ fmtInt color ++ bytes "m"
                 else []) ++ [c],
            color)

/-- The loop `for (int j = 0; j < len; j++)` of `editorDrawRows`; the first
number is `len - j`. The result is the bytes the loop appends. -/
def drawCellsLoop (render hl : List Nat) (coloff : Int) (past : Nat) :
    Nat → Nat → Int → Option (List Nat)
  | 0, _, _ => some []
  | n + 1, j, current_color =>
    match drawCell render hl coloff past j current_color with
    | none => none
    | some (out, color) =>
      (drawCellsLoop render hl coloff past n (j + 1) color).map fun rest => out ++ rest

/-- The welcome line of `editorDrawRows`:
```
int welcomelen = snprintf(welcome, sizeof(welcome),
        "Kilo editor -- version %s", KILO_VERSION);
if (welcomelen > E.screencols)
    welcomelen = E.screencols;
int padding = (E.screencols - welcomelen) / 2;
if (padding) {
    abAppend(ab, "~", 1);
    padding--;
}
while (padding--)
    abAppend(ab, " ", 1);
abAppend(ab, welcome, welcomelen);
```
`none` when `welcomelen` is negative. -/
def drawWelcome (screencols : Int) : Option (List Nat) :=
  let welcome := bytes "Kilo editor -- version 0.0.1"
  let welcomelen : Int := if (welcome.length : Int) > screencols then screencols
    else (welcome.length : Int)
  let padding : Int := (screencols - welcomelen) / 2
  if welcomelen < 0 then none
  else
    some ((if padding ≠ 0 then bytes "~" ++ List.replicate (padding - 1).toNat SPACE else []) ++
      welcome.take welcomelen.toNat)

/-- The body of the loop `for (int y = 0; y < E.screenrows; y++)` of
`editorDrawRows`: the bytes the pass appends to `ab` and the new state.
```
int filerow = y + E.rowoff;
if (filerow >= E.numrows) {
    int position_len = snprintf(position, sizeof(position), "\x1b[%d;1H", y + 1);
    abAppend(ab, position, position_len);
    if (E.numrows == 0 && y == E.screenrows / 3) {
        ... the welcome line ...
    } else {
        abAppend(ab, "~", 3);
    }
    abAppend(ab, "\x1b[K", 3);
} else {
    if (!E.row[filerow].damaged)
        continue;
    E.row[filerow].damaged = false;
    int position_len = snprintf(position, sizeof(position), "\x1b[%d;1H", y + 1);
    abAppend(ab, position, position_len);
    int len = E.row[filerow].rsize - E.coloff;
    if (len < 0)
        len = 0;
    if (len > E.screencols)
        len = E.screencols;
    char *c = &E.row[filerow].render[E.coloff];
    unsigned char *hl = &E.row[filerow].hl[E.coloff];
    int current_color = -1;
    for (int j = 0; j < len; j++) { ... }
    abAppend(ab, "\x1b[39m", 5);
}
abAppend(ab, "\x1b[m", 3);
abAppend(ab, "\x1b[K", 3);
abAppend(ab, "\r\n", 2);
```
`abAppend(ab, "~", 3)` copies three bytes from the literal `"~"`, which has
two: the tilde, the terminating NUL and the byte `junk` that follows the
literal in memory. `past filerow` is the byte behind the highlight array of
the row `filerow`. `none` when `filerow` is negative. The allocations of
`abAppend` are taken to succeed. -/
def drawPass (E : editorConfig) (junk : Nat) (past : Nat → Nat) (y : Nat) :
    Option (List Nat × editorConfig) :=
  let filerow : Int := (y : Int) + E.rowoff
  let position := bytes "\x1b[" ++ fmtInt ((y : Int) + 1) ++ bytes ";1H"
  let trailer := bytes "\x1b[m" ++ bytes "\x1b[K" ++ bytes "\r\n"
  if filerow ≥ (E.numrows : Int) then
    if E.numrows = 0 ∧ (y : Int) = E.screenrows / 3 then
      match drawWelcome E.screencols with
      | none => none
      | some w => some (position ++ w ++ bytes "\x1b[K" ++ trailer, E)
    else some (position ++ [126, 0, junk] ++ bytes "\x1b[K" ++ trailer, E)
  else if filerow < 0 then none
  else
    match E.row[filerow.toNat]? with
    | none => none
    | some row =>
      if row.damaged = false then some ([], E)
      else
        let E1 := { E with row := E.row.set filerow.toNat { row with damaged := false } }
        let len : Int := (row.rsize : Int) - E.coloff
        let len : Int := if len < 0 then 0 else len
        let len : Int := if len > E.screencols then E.screencols else len
        match drawCellsLoop row.render row.hl E.coloff (past filerow.toNat) len.toNat 0 (-1) with
        | none => none
        | some cells => some (position ++ cells ++ bytes "\x1b[39m" ++ trailer, E1)

/-- The loop `for (int y = 0; y < E.screenrows; y++)` of `editorDrawRows`; the
first number is `E.screenrows - y`. The result lists the bytes appended in each
pass. -/
def drawRowsLoop (junk : Nat) (past : Nat → Nat) :
    Nat → Nat → editorConfig → Option (List (List Nat) × editorConfig)
  | 0, _, E => some ([], E)
  | n + 1, y, E =>
    match drawPass E junk past y with
    | none => none
    | some (chunk, E1) =>
      (drawRowsLoop junk past n (y + 1) E1).map fun r => (chunk :: r.1, r.2)

/-- `void editorDrawRows(struct abuf *ab)`: the result lists, for each screen
line `y`, the bytes the pass for `y` appends to `ab` (the buffer grows by
their concatenation), and gives the new state. -/
def editorDrawRows (E : editorConfig) (junk : Nat) (past : Nat → Nat) :
    Option (List (List Nat) × editorConfig) :=
  drawRowsLoop junk past E.screenrows.toNat 0 E

/-! ## Predicates used in the statements -/

/-- Every keyword of the profile has at least one byte before its marker, so
a keyword match advances the scan. -/
def ProfileOk (s : editorSyntax) : Prop := ∀ kw ∈ s.keywords, 0 < kwLen kw

/-- The profile in force (`E.syntax`) is absent or has keywords that advance
the scan. -/
def SynOk (synt : Option editorSyntax) : Prop := ∀ s, synt = some s → ProfileOk s

/-- The rows are numbered by their position: `E.row[q].idx == q`. -/
def IdxOk (rows : List erow) : Prop :=
  ∀ (q : Nat) (r : erow), rows[q]? = some r → r.idx = (q : Int)

/-- What a pass of `editorUpdateSyntax` may change in a row: nothing but the
highlight array, which it leaves with `rsize` entries, and `hl_open_comment`. -/
def SynRel (r r' : erow) : Prop :=
  r'.idx = r.idx ∧ r'.chars = r.chars ∧ r'.render = r.render ∧ r'.damaged = r.damaged ∧
    (r' = r ∨ r'.hl.length = r.render.length)

/-- The row arrays have the same length and `SynRel` holds position by position. -/
def RowsRel (rows rows' : List erow) : Prop :=
  rows'.length = rows.length ∧
    ∀ (q : Nat) (r : erow), rows[q]? = some r → ∃ r', rows'[q]? = some r' ∧ SynRel r r'

/-- The row that one pass of `editorUpdateSyntax` (without the recursive call)
stores at the position of `row`. -/
def synRowResult (synt : Option editorSyntax) (rows : List erow) (row : erow) : Option erow :=
  match synt with
  | none => some { row with hl := List.replicate row.rsize HL_NORMAL }
  | some s =>
    (highlightRow s rows row).map fun st =>
      { row with hl := st.hl, hl_open_comment := st.in_comment }

/-- What `editorUpdateRow` on the row at position `p` makes of the row array:
the render form of row `p` is rebuilt from its characters and the row is
marked for redraw, its highlight array gets `rsize` entries; the other rows
change by `SynRel` only. -/
def UpdRel (p : Nat) (rows rows' : List erow) : Prop :=
  rows'.length = rows.length ∧
    ∀ (q : Nat) (r : erow), rows[q]? = some r → ∃ r', rows'[q]? = some r' ∧
      r'.idx = r.idx ∧ r'.chars = r.chars ∧
      (q = p → r'.render = renderLoop r.chars [] ∧ r'.hl.length = r'.render.length ∧
        r'.damaged = true) ∧
      (q ≠ p → SynRel r r')

/-- The length invariant of a row: `rsize >= size`, and the highlight array
has exactly `rsize` entries. -/
def LenRow (r : erow) : Prop := r.size ≤ r.rsize ∧ r.hl.length = r.rsize

/-- The length invariant of a document: `LenRow` for each of its rows. -/
def LenInv (rows : List erow) : Prop := ∀ r ∈ rows, LenRow r

/-- The mutations of the row store. The three character operations take the
position `p` of the row their `erow *row` points to. -/
inductive RowOp where
  | insertRow (at_ : Int) (s : List Nat)
  | delRow (at_ : Int)
  | rowInsertChar (p : Nat) (at_ : Int) (c : Nat)
  | rowDelChar (p : Nat) (at_ : Int)
  | rowAppendString (p : Nat) (s : List Nat)
deriving DecidableEq, Repr

/-- Run a mutation of the row store. -/
def RowOp.run (fuel : Nat) (E : editorConfig) : RowOp → Option editorConfig
  | .insertRow at_ s => editorInsertRow fuel E at_ s
  | .delRow at_ => some (editorDelRow E at_)
  | .rowInsertChar p at_ c => editorRowInsertChar fuel E p at_ c
  | .rowDelChar p at_ => editorRowDelChar fuel E p at_
  | .rowAppendString p s => editorRowAppendString fuel E p s

/-- The row a character operation is given exists (`erow *row` points into
the array). -/
def RowOp.rowExists (E : editorConfig) : RowOp → Prop
  | .insertRow _ _ => True
  | .delRow _ => True
  | .rowInsertChar p _ _ => p < E.numrows
  | .rowDelChar p _ => p < E.numrows
  | .rowAppendString p _ => p < E.numrows

/-- The scan state `st` of a buffer, seen as a state of the scan of that
buffer behind a prefix of `n` bytes whose highlight cells are `hp`. -/
def liftScan (n : Nat) (hp : List Nat) (st : HlScan) : HlScan :=
  { st with i := n + st.i, hl := hp ++ st.hl }

/-- The state of the scan inside a multi-line comment that began on an
earlier row, before the cell `k` of a row of `n` cells: the cells before `k`
are `HL_MLCOMMENT`, the others still `HL_NORMAL`. -/
def commentScan (n k : Nat) : HlScan :=
  { i := k, hl := List.replicate k HL_MLCOMMENT ++ List.replicate (n - k) HL_NORMAL,
    prev_sep := true, in_string := 0, in_comment := true }

/-- The row that the forward scan of `editorFindCallback` tests in its pass
`i` (from 0) when the last match is `m` (`-1` for none), in a document of `n`
rows: `m + 1`, `m + 2`, ..., wrapping from the last row to row 0. -/
def circOrder (m : Int) (n i : Nat) : Nat := ((m + 1).toNat + i) % n

/-- `off` is the offset of the first occurrence of `pat` in `text`. -/
def FirstOcc (text pat : List Nat) (off : Nat) : Prop :=
  off ≤ text.length ∧ matchesAt text off pat = true ∧
    ∀ j, j < off → matchesAt text j pat = false

/-- The saved highlight of the search state, when there is one, is that of an
existing row and has the `rsize` entries it was allocated with. -/
def SavedOk (rows : List erow) (F : FindState) : Prop :=
  ∀ saved, F.saved_hl = some saved →
    ∃ row, rows[F.saved_hl_line]? = some row ∧ saved.length = row.rsize

/-- The rows after the restore step of the search: those of `rows`, the row of
the saved line with its highlight array replaced by the saved one. -/
def restoredRows (rows : List erow) (F : FindState) : List erow :=
  match F.saved_hl with
  | none => rows
  | some saved => rows.modify (fun r => { r with hl := saved }) F.saved_hl_line

/-- A sequence of invocations of `editorFindCallback`, each with the query and
the key of the prompt at that time, with no edit in between. -/
def findRun : editorConfig × FindState → List (List Nat × Nat) →
    Option (editorConfig × FindState)
  | st, [] => some st
  | st, call :: rest =>
    (editorFindCallback st.1 st.2 call.1 call.2).bind fun st' => findRun st' rest

/-- The state of a search session on a document whose highlight arrays were
`hl0` when the session began: the rows satisfy the length invariant, the
cursor is on a row, the last match is none or a row, the saved highlight is
consistent, and restoring it gives the arrays `hl0`. -/
def FindInv (hl0 : List (List Nat)) (E : editorConfig) (F : FindState) : Prop :=
  LenInv E.row ∧ SavedOk E.row F ∧ E.cy < E.numrows ∧
    -1 ≤ F.last_match ∧ F.last_match < (E.numrows : Int) ∧
    (restoredRows E.row F).map erow.hl = hl0

/-! ### The passes of the re-highlight propagation -/

/-- One activation of `editorUpdateSyntax` on the row at position `p`, up to
the recursive call: the row array it leaves, and the value of `changed`
(`false` when there is no profile and the function returns before the scan). -/
def synPass (synt : Option editorSyntax) (rows : List erow) (p : Nat) :
    Option (List erow × Bool) :=
  match rows[p]? with
  | none => none
  | some row =>
    match synt with
    | none => some (rows.set p { row with hl := List.replicate row.rsize HL_NORMAL }, false)
    | some s =>
      match highlightRow s rows row with
      | none => none
      | some st =>
        some (rows.set p { row with hl := st.hl, hl_open_comment := st.in_comment },
          row.hl_open_comment != st.in_comment)

/-- The passes on the rows `k`, `k + 1`, ..., `k + n`, in this order, each of
the first `n` of which changed the `hl_open_comment` of its row: the row array
after the last pass, and its `changed`. -/
def synRun (synt : Option editorSyntax) : Nat → List erow → Nat → Option (List erow × Bool)
  | 0, rows, k => synPass synt rows k
  | n + 1, rows, k =>
    (synPass synt rows k).bind fun r => if r.2 = true then synRun synt n r.1 (k + 1) else none

/-! ### Consistent highlighting -/

/-- The `in_comment` a row at position `q` is to be scanned with: the
`hl_open_comment` of the row before it, `false` for row 0. -/
def seedAt (rows : List erow) (q : Nat) : Bool :=
  if q = 0 then false
  else
    match rows[q - 1]? with
    | some prev => prev.hl_open_comment
    | none => false

/-- The highlight array and `hl_open_comment` of the row at position `q` are
what the scan of its render form gives, started with `seedAt rows q`. -/
def hlRowOk (s : editorSyntax) (rows : List erow) (q : Nat) : Bool :=
  match rows[q]? with
  | none => true
  | some row =>
    decide ((scanRow s row.render (seedAt rows q)).map (fun st => (st.hl, st.in_comment)) =
      some (row.hl, row.hl_open_comment))

/-- The highlighting of the document is consistent: `hlRowOk` for every row. -/
def HlConsistent (s : editorSyntax) (rows : List erow) : Prop :=
  ∀ q, q < rows.length → hlRowOk s rows q = true

instance (s : editorSyntax) (rows : List erow) : Decidable (HlConsistent s rows) := by
  unfold HlConsistent
  infer_instance

/-! ### Indentation and keyword occurrences -/

/-- A byte is a tab or a space. -/
def isBlank (c : Nat) : Bool := c == TAB || c == SPACE

/-- The text of a keyword of the profile, without the marker `|` of the
secondary keywords. -/
def kwName (kw : List Nat) : List Nat := kw.take (kwLen kw)

/-- The keyword `kw` occurs in `render` at `i` on word boundaries: it starts at
the row start or immediately after a separator character, its text stands at
`i`, and it is immediately followed by a separator character or the end of
the row. -/
def KwOcc (render : List Nat) (i : Nat) (kw : List Nat) : Prop :=
  (i = 0 ∨ ∃ c, render[i - 1]? = some c ∧ is_separator c = true) ∧
  matchesAt render i (kwName kw) = true ∧
  (i + kwLen kw = render.length ∨ ∃ c, render[i + kwLen kw]? = some c ∧ is_separator c = true)

/-- The cell `q` lies inside an occurrence on word boundaries of a keyword of
the C profile, secondary (`sec = true`, defined with a trailing `|`) or
primary. -/
def KwCovered (render : List Nat) (q : Nat) (sec : Bool) : Prop :=
  ∃ i kw, kw ∈ C_HL_keywords ∧ kwIsSecondary kw = sec ∧ KwOcc render i kw ∧
    i ≤ q ∧ q < i + kwLen kw

/-- The render form holds no quote character, no digit, and no occurrence of
`//` or `/*`. -/
def PlainText (render : List Nat) : Prop :=
  (∀ c ∈ render, c ≠ 34 ∧ c ≠ 39 ∧ isdigit c = false) ∧
  (∀ i, matchesAt render i (bytes "//") = false) ∧
  (∀ i, matchesAt render i (bytes "/*") = false)

/-- The class `v` is the one the keyword occurrences give the cell `q`. -/
def KwClass (render : List Nat) (q v : Nat) : Prop :=
  (v = HL_KEYWORD2 ∧ KwCovered render q true) ∨
  (v = HL_KEYWORD1 ∧ KwCovered render q false) ∨
  (v = HL_NORMAL ∧ ¬ KwCovered render q true ∧ ¬ KwCovered render q false)

/-- The state of the scan of a row of plain text before the cell `st.i`: no
string or comment is open, `prev_sep` tells whether the cell starts the row or
follows a separator, the cells before `st.i` have their class, the others are
still `HL_NORMAL`, and no keyword occurrence reaches across `st.i`. -/
def PlainInv (render : List Nat) (st : HlScan) : Prop :=
  st.in_string = 0 ∧ st.in_comment = false ∧ st.hl.length = render.length ∧
  st.i ≤ render.length ∧
  (st.prev_sep = true ↔ (st.i = 0 ∨ is_separator (render.getD (st.i - 1) 0) = true)) ∧
  (∀ q, q < st.i → KwClass render q (st.hl.getD q 0)) ∧
  (∀ q, st.i ≤ q → st.hl.getD q 0 = HL_NORMAL) ∧
  (∀ j kw, kw ∈ C_HL_keywords → KwOcc render j kw → j < st.i → j + kwLen kw ≤ st.i)

/-! ### Cursor bounds and well-formed rows -/

/-- The cursor bounds: `0 <= cy <= numrows`, `0 <= cx <= size` of the row
`cy`, and `cx == 0` when `cy == numrows`. -/
def CursorOk (E : editorConfig) : Prop :=
  E.cy ≤ E.numrows ∧ (∀ r, E.row[E.cy]? = some r → E.cx ≤ r.size) ∧
    (E.cy = E.numrows → E.cx = 0)

/-- The last statements of `editorMoveCursor`:
```
row = (E.cy >= E.numrows) ? NULL : &E.row[E.cy];
int rowlen = row ? row->size : 0;
if (E.cx > rowlen)
    E.cx = rowlen;
```
-/
def clampCx (E : editorConfig) : editorConfig :=
  let rowlen : Nat :=
    if E.cy ≥ E.numrows then 0
    else
      match E.row[E.cy]? with
      | some r1 => r1.size
      | none => 0
  if E.cx > rowlen then { E with cx := rowlen } else E

/-- The render form of the row is the one `editorUpdateRow` builds from its
characters. -/
def Rendered (row : erow) : Prop := row.render = renderLoop row.chars []

instance (row : erow) : Decidable (Rendered row) := by
  unfold Rendered; infer_instance

/-- A row as `editorUpdateRow` leaves it: the render form is built from the
characters and the highlight array has `rsize` cells. -/
def RowWf (row : erow) : Prop := Rendered row ∧ row.hl.length = row.rsize

instance (row : erow) : Decidable (RowWf row) := by
  unfold RowWf; infer_instance

/-- The rows of `rows'` have the characters, the render forms and the
highlight sizes of the rows of `rows`. -/
def SameText (rows rows' : List erow) : Prop :=
  rows'.length = rows.length ∧
    ∀ (q : Nat) (r : erow), rows[q]? = some r → ∃ r', rows'[q]? = some r' ∧
      r'.chars = r.chars ∧ r'.render = r.render ∧ r'.hl.length = r.hl.length

/-! ## Concrete documents for the witnesses -/

/-- A document for the witnesses: three rows of C text with a tab, numbered
by position, with the render form and highlight of the C profile. -/
def docC1 : editorConfig :=
  { cx := 0, cy := 0, rx := 0, rowoff := 0, coloff := 0, screenrows := 2, screencols := 80,
    row := [
      { idx := 0, chars := bytes "int x;", render := bytes "int x;",
        hl := [4, 4, 4, 0, 0, 0], hl_open_comment := false, damaged := false },
      { idx := 1, chars := [9, 47, 42], render := bytes "        /*",
        hl := [0, 0, 0, 0, 0, 0, 0, 0, 2, 2], hl_open_comment := true, damaged := false },
      { idx := 2, chars := bytes "a */ b", render := bytes "a */ b",
        hl := [2, 2, 2, 2, 0, 0], hl_open_comment := false, damaged := false }],
    dirty := 0, syn := some HLDB_C }

/-- The editor state of `initEditor` on a window of 24 rows and 80 columns,
with the C profile selected. -/
def emptyC : editorConfig :=
  { cx := 0, cy := 0, rx := 0, rowoff := 0, coloff := 0, screenrows := 22, screencols := 80,
    row := [], dirty := 0, syn := some HLDB_C }

/-- The document of the rows `/* start`, `still in comment`, `end */ code`,
as the three calls `editorInsertRow(E.numrows, ...)` leave it. -/
def docC3 : editorConfig :=
  { emptyC with
    row := [
      { idx := 0, chars := bytes "/* start", render := bytes "/* start",
        hl := List.replicate 8 HL_MLCOMMENT, hl_open_comment := true, damaged := true },
      { idx := 1, chars := bytes "still in comment", render := bytes "still in comment",
        hl := List.replicate 16 HL_MLCOMMENT, hl_open_comment := true, damaged := true },
      { idx := 2, chars := bytes "end */ code", render := bytes "end */ code",
        hl := List.replicate 6 HL_MLCOMMENT ++ List.replicate 5 HL_NORMAL,
        hl_open_comment := false, damaged := true }],
    dirty := 3 }

/-- A document of two rows, the first of which holds a NUL byte: `a\0b` and
`b`. -/
def docNul : editorConfig :=
  { cx := 0, cy := 0, rx := 0, rowoff := 0, coloff := 0, screenrows := 22, screencols := 80,
    row := [
      { idx := 0, chars := [97, 0, 98], render := [97, 0, 98], hl := [0, 0, 0],
        hl_open_comment := false, damaged := false },
      { idx := 1, chars := [98], render := [98], hl := [0],
        hl_open_comment := false, damaged := false }],
    dirty := 0, syn := none }

/-- The search state after a match on the last row of `docC1` whose paint has
left the highlight of the row as it was. -/
def findAtLast : FindState :=
  { last_match := 2, direction := 1, saved_hl_line := 2, saved_hl := some [2, 2, 2, 2, 0, 0] }

/-- A row without tabs, with text `s` (also its render form) and highlight
array `hl`. -/
def mkRow (i : Int) (s : String) (hl : List Nat) : erow :=
  { idx := i, chars := bytes s, render := bytes s, hl := hl, hl_open_comment := false,
    damaged := false }

/-- A document of six rows with a selection that extends from the middle of
row 2 (cells 4 to the end) over row 3 to the middle of row 4 (cells 0 to 2);
the cursor is on row 4. -/
def docSel : editorConfig :=
  { cx := 3, cy := 4, rx := 0, rowoff := 0, coloff := 0, screenrows := 22, screencols := 80,
    row := [
      mkRow 0 "zero" [0, 0, 0, 0],
      mkRow 1 "one" [0, 0, 0],
      mkRow 2 "two;abc" [0, 0, 0, 0, 7, 7, 7],
      mkRow 3 "three" [7, 7, 7, 7, 7],
      mkRow 4 "four four" [7, 7, 7, 0, 0, 0, 0, 0, 0],
      mkRow 5 "five" [0, 0, 0, 0]],
    dirty := 0, syn := some HLDB_C }

/-- The state `docC1` with the cursor behind the tab of row 1 and the window
scrolled down to row 5. -/
def docScroll : editorConfig := { docC1 with cx := 1, cy := 1, rowoff := 5 }

/-- The document `docC3` after the text of row 0 has become `start`, before
the row is highlighted again: its `hl_open_comment` is still set. -/
def docStale : List erow :=
  [{ idx := 0, chars := bytes "start", render := bytes "start",
     hl := List.replicate 5 HL_MLCOMMENT, hl_open_comment := true, damaged := true },
   { idx := 1, chars := bytes "still in comment", render := bytes "still in comment",
     hl := List.replicate 16 HL_MLCOMMENT, hl_open_comment := true, damaged := true },
   { idx := 2, chars := bytes "end */ code", render := bytes "end */ code",
     hl := List.replicate 6 HL_MLCOMMENT ++ List.replicate 5 HL_NORMAL,
     hl_open_comment := false, damaged := true }]

/-- The document of the single row `x`, with the C profile. -/
def docX : editorConfig :=
  { emptyC with
    row := [{ idx := 0, chars := bytes "x", render := bytes "x", hl := [HL_NORMAL],
              hl_open_comment := false, damaged := true }],
    dirty := 1 }

/-- The document of the single row `  ab` (two spaces), with the cursor
behind the `a`. -/
def docIndent : editorConfig :=
  { emptyC with
    cx := 3
    row := [{ idx := 0, chars := bytes "  ab", render := bytes "  ab",
              hl := List.replicate 4 HL_NORMAL, hl_open_comment := false, damaged := true }],
    dirty := 1 }

/-- The document of the single row `\tabcdefghij`, in which the character `a`
is selected: its render cell 8, behind the 8 cells of the tab, is painted
`HL_MATCH`. The cursor is behind the `a`. -/
def docTabSel : editorConfig :=
  { emptyC with
    cx := 2
    row := [{ idx := 0, chars := bytes "\tabcdefghij", render := bytes "        abcdefghij",
              hl := List.replicate 8 HL_NORMAL ++ [HL_MATCH] ++ List.replicate 9 HL_NORMAL,
              hl_open_comment := false, damaged := true }],
    dirty := 1 }

/-- The document of the single row `ab` without tabs, with the character `b`
selected: the painted range ends at the end of the row. -/
def docSelEnd : editorConfig :=
  { emptyC with
    cx := 2
    row := [{ idx := 0, chars := bytes "ab", render := bytes "ab",
              hl := [HL_NORMAL, HL_MATCH], hl_open_comment := false, damaged := true }],
    dirty := 1 }

/-- The document of the single row `\tab`, with the character `a` selected
(render cell 8). -/
def docTabSelShort : editorConfig :=
  { emptyC with
    cx := 2
    row := [{ idx := 0, chars := bytes "\tab", render := bytes "        ab",
              hl := List.replicate 8 HL_NORMAL ++ [HL_MATCH, HL_NORMAL],
              hl_open_comment := false, damaged := true }],
    dirty := 1 }

/-- A row of plain C text with primary and secondary keywords, some of them
inside longer words, not highlighted yet. -/
def rowKw : erow := mkRow 0 "static int if_x = iff(y); return void" (List.replicate 37 HL_NORMAL)

/-- The document of the single row `rowKw`. -/
def docKw : List erow := [rowKw]

/-- The row `\tuvw` with index 2, nothing selected. -/
def rowTab : erow :=
  { idx := 2, chars := bytes "\tuvw", render := bytes "        uvw",
    hl := List.replicate 11 HL_NORMAL, hl_open_comment := false, damaged := false }

/-- A document of four rows, one with a tab, without any selection. -/
def docShift : editorConfig :=
  { emptyC with
    row := [
      mkRow 0 "abcdef" (List.replicate 6 HL_NORMAL),
      mkRow 1 "xyz" (List.replicate 3 HL_NORMAL),
      rowTab,
      mkRow 3 "0123456789ab" (List.replicate 12 HL_NORMAL)] }

/-- The document `docShift` scrolled down by one row on a screen of two
lines; the rows 0, 2 and 3 are marked for redraw, the row 1 is not. -/
def docDraw : editorConfig :=
  { docShift with
    rowoff := 1
    screenrows := 2
    row := [
      { mkRow 0 "abcdef" (List.replicate 6 HL_NORMAL) with damaged := true },
      mkRow 1 "xyz" (List.replicate 3 HL_NORMAL),
      { rowTab with damaged := true },
      { mkRow 3 "0123456789ab" (List.replicate 12 HL_NORMAL) with damaged := true }] }

/-! ## Lemmas: the tab/column mapper -/

theorem lt_advanceRx (c rx : Nat) : rx < advanceRx c rx := by
  unfold advanceRx
  split <;> omega

theorem le_cxToRxLoop_full (l : List Nat) (rx : Nat) :
    rx ≤ cxToRxLoop l l.length rx := by
  induction l generalizing rx with
  | nil => simp [cxToRxLoop]
  | cons c cs ih =>
    simp only [List.length_cons, cxToRxLoop]
    exact Nat.le_trans (Nat.le_of_lt (lt_advanceRx c rx)) (ih _)

theorem cxToRxLoop_append (pre post : List Nat) (rx : Nat) :
    cxToRxLoop (pre ++ post) pre.length rx = cxToRxLoop pre pre.length rx := by
  induction pre generalizing rx with
  | nil => cases post <;> simp [cxToRxLoop]
  | cons c cs ih => simp [cxToRxLoop, ih]

theorem rxToCxLoop_roundtrip (pre post : List Nat) (cx cur : Nat) :
    rxToCxLoop (cxToRxLoop pre pre.length cur) (pre ++ post) cx cur = cx + pre.length := by
  induction pre generalizing cx cur with
  | nil =>
    cases post with
    | nil => simp [rxToCxLoop, cxToRxLoop]
    | cons c cs =>
      have h := lt_advanceRx c cur
      simp only [List.nil_append, List.length_nil, cxToRxLoop, rxToCxLoop, Nat.add_zero]
      rw [if_pos h, if_neg (by omega)]
  | cons c cs ih =>
    have h1 := le_cxToRxLoop_full cs (advanceRx c cur)
    simp only [List.cons_append, List.length_cons, cxToRxLoop, rxToCxLoop]
    rw [if_neg (by omega)]
    exact (ih (cx + 1) (advanceRx c cur)).trans (by omega)

/-! ## Lemmas: the highlighter -/

theorem memsetHl_eq_some {hl : List Nat} {i n v : Nat} {hl' : List Nat}
    (h : memsetHl hl i n v = some hl') :
    i + n ≤ hl.length ∧ hl' = hl.take i ++ List.replicate n v ++ hl.drop (i + n) := by
  unfold memsetHl at h
  split at h
  · exact ⟨by assumption, (Option.some.inj h).symm⟩
  · exact absurd h (by simp)

theorem memsetHl_of_le (hl : List Nat) (i n v : Nat) (h : i + n ≤ hl.length) :
    memsetHl hl i n v = some (hl.take i ++ List.replicate n v ++ hl.drop (i + n)) := by
  unfold memsetHl
  rw [if_pos h]

theorem length_memset_result (hl : List Nat) (i n v : Nat) (h : i + n ≤ hl.length) :
    (hl.take i ++ List.replicate n v ++ hl.drop (i + n)).length = hl.length := by
  simp only [List.length_append, List.length_take, List.length_replicate, List.length_drop]
  omega

theorem memsetHl_length {hl : List Nat} {i n v : Nat} {hl' : List Nat}
    (h : memsetHl hl i n v = some hl') : hl'.length = hl.length := by
  obtain ⟨h1, h2⟩ := memsetHl_eq_some h
  rw [h2]
  exact length_memset_result hl i n v h1

theorem matchesAt_le {render : List Nat} {i : Nat} {pat : List Nat}
    (h : matchesAt render i pat = true) (hi : i ≤ render.length) :
    i + pat.length ≤ render.length := by
  unfold matchesAt at h
  have h1 := (List.isPrefixOf_iff_prefix.mp h).length_le
  simp only [List.length_drop] at h1
  omega

theorem kwLen_le (kw : List Nat) : kwLen kw ≤ kw.length := by
  unfold kwLen
  split <;> omega

theorem keywordMatch_spec (render : List Nat) (i : Nat) (kws : List (List Nat))
    (klen : Nat) (kw2 : Bool) (h : keywordMatch render i kws = some (klen, kw2))
    (hi : i ≤ render.length) :
    i + klen ≤ render.length ∧ ((∀ kw ∈ kws, 0 < kwLen kw) → 0 < klen) := by
  induction kws with
  | nil => simp [keywordMatch] at h
  | cons kw rest ih =>
    unfold keywordMatch at h
    split at h
    · rename_i hm
      simp only [Option.some.injEq, Prod.mk.injEq] at h
      obtain ⟨h1, _⟩ := h
      have hle := matchesAt_le hm.1 hi
      have hk := kwLen_le kw
      simp only [List.length_take] at hle
      constructor
      · omega
      · intro hall
        have := hall kw (List.mem_cons_self _ _)
        omega
    · obtain ⟨h1, h2⟩ := ih h
      exact ⟨h1, fun hall => h2 fun kw hkw => hall kw (List.mem_cons_of_mem _ hkw)⟩

theorem memsetHl_ok (hl : List Nat) (i n v : Nat) (h : i + n ≤ hl.length) :
    ∃ hl', memsetHl hl i n v = some hl' ∧ hl'.length = hl.length :=
  ⟨_, memsetHl_of_le hl i n v h, length_memset_result hl i n v h⟩

theorem scanStep_spec (s : editorSyntax) (render : List Nat) (st : HlScan)
    (hlen : st.hl.length = render.length) (hi : st.i < render.length) :
    ∃ st', scanStep s render st = some st' ∧ st'.hl.length = render.length ∧
      st'.i ≤ render.length ∧ (ProfileOk s → st.i < st'.i) := by
  have hile : st.i ≤ render.length := Nat.le_of_lt hi
  unfold scanStep
  simp only []
  split_ifs with h1 h2 h3 h4 h5 h6 h7 h8 h9 h10
  · obtain ⟨hl1, e1, l1⟩ := memsetHl_ok st.hl st.i (render.length - st.i) HL_COMMENT (by omega)
    rw [e1]
    exact ⟨_, rfl, by simp only [l1, hlen], Nat.le_refl _, fun _ => hi⟩
  · have hb := matchesAt_le h3 hile
    obtain ⟨hl1, e1, l1⟩ := memsetHl_ok st.hl st.i 1 HL_MLCOMMENT (by omega)
    obtain ⟨hl2, e2, l2⟩ :=
      memsetHl_ok hl1 st.i s.multiline_comment_end.length HL_MLCOMMENT (by omega)
    rw [e1]
    simp only [Option.some_bind, e2]
    exact ⟨_, rfl, by simp only [l2, l1, hlen], hb, fun _ => by simp only; omega⟩
  · obtain ⟨hl1, e1, l1⟩ := memsetHl_ok st.hl st.i 1 HL_MLCOMMENT (by omega)
    rw [e1]
    exact ⟨_, rfl, by simp only [l1, hlen], hi, fun _ => by simp only; omega⟩
  · have hb := matchesAt_le h4.2.2.2 hile
    obtain ⟨hl1, e1, l1⟩ :=
      memsetHl_ok st.hl st.i s.multiline_comment_start.length HL_MLCOMMENT (by omega)
    rw [e1]
    exact ⟨_, rfl, by simp only [l1, hlen], hb, fun _ => by simp only; omega⟩
  · obtain ⟨hl1, e1, l1⟩ := memsetHl_ok st.hl st.i 1 HL_STRING (by omega)
    obtain ⟨hl2, e2, l2⟩ := memsetHl_ok hl1 (st.i + 1) 1 HL_STRING (by omega)
    rw [e1]
    simp only [Option.some_bind, e2]
    exact ⟨_, rfl, by simp only [l2, l1, hlen], by simp only; omega, fun _ => by simp only; omega⟩
  · obtain ⟨hl1, e1, l1⟩ := memsetHl_ok st.hl st.i 1 HL_STRING (by omega)
    rw [e1]
    exact ⟨_, rfl, by simp only [l1, hlen], hi, fun _ => by simp only; omega⟩
  · obtain ⟨hl1, e1, l1⟩ := memsetHl_ok st.hl st.i 1 HL_STRING (by omega)
    rw [e1]
    exact ⟨_, rfl, by simp only [l1, hlen], hi, fun _ => by simp only; omega⟩
  · obtain ⟨hl1, e1, l1⟩ := memsetHl_ok st.hl st.i 1 HL_STRING (by omega)
    rw [e1]
    exact ⟨_, rfl, by simp only [l1, hlen], hi, fun _ => by simp only; omega⟩
  · obtain ⟨hl1, e1, l1⟩ := memsetHl_ok st.hl st.i 1 HL_NUMBER (by omega)
    rw [e1]
    exact ⟨_, rfl, by simp only [l1, hlen], hi, fun _ => by simp only; omega⟩
  · cases hk : keywordMatch render st.i s.keywords with
    | none => exact ⟨_, rfl, hlen, hi, fun _ => by simp only; omega⟩
    | some pr =>
      obtain ⟨klen, kw2⟩ := pr
      obtain ⟨hb, hpos⟩ := keywordMatch_spec render st.i s.keywords klen kw2 hk hile
      obtain ⟨hl1, e1, l1⟩ := memsetHl_ok st.hl st.i klen
        (if kw2 = true then HL_KEYWORD2 else HL_KEYWORD1) (by omega)
      simp only [e1]
      exact ⟨_, rfl, by simp only [l1, hlen], hb, fun hp => by
        have := hpos hp
        simp only
        omega⟩
  · exact ⟨_, rfl, hlen, hi, fun _ => by simp only; omega⟩

theorem scanLoop_length (s : editorSyntax) (render : List Nat) (fuel : Nat) :
    ∀ (st st' : HlScan), st.hl.length = render.length →
      scanLoop s render fuel st = some st' → st'.hl.length = render.length := by
  induction fuel with
  | zero =>
    intro st st' hlen h
    unfold scanLoop at h
    split at h
    · exact absurd h (by simp)
    · rw [← Option.some.inj h]; exact hlen
  | succ n ih =>
    intro st st' hlen h
    unfold scanLoop at h
    split at h
    · rename_i hi
      obtain ⟨st1, e1, l1, _, _⟩ := scanStep_spec s render st hlen hi
      rw [e1] at h
      exact ih st1 st' l1 h
    · rw [← Option.some.inj h]; exact hlen

theorem scanLoop_total (s : editorSyntax) (hp : ProfileOk s) (render : List Nat) (fuel : Nat) :
    ∀ (st : HlScan), st.hl.length = render.length → render.length ≤ st.i + fuel →
      ∃ st', scanLoop s render fuel st = some st' := by
  induction fuel with
  | zero =>
    intro st hlen hf
    unfold scanLoop
    rw [if_neg (by omega)]
    exact ⟨_, rfl⟩
  | succ n ih =>
    intro st hlen hf
    unfold scanLoop
    split
    · rename_i hi
      obtain ⟨st1, e1, l1, _, hadv⟩ := scanStep_spec s render st hlen hi
      rw [e1]
      have := hadv hp
      exact ih st1 l1 (by omega)
    · exact ⟨_, rfl⟩

theorem highlightRow_length {s : editorSyntax} {rows : List erow} {row : erow} {st : HlScan}
    (h : highlightRow s rows row = some st) : st.hl.length = row.render.length := by
  unfold highlightRow at h
  simp only [Option.bind_eq_some] at h
  obtain ⟨inc, _, h2⟩ := h
  exact scanLoop_length s row.render row.render.length _ st (by simp) h2

theorem rowAt_natCast (rows : List erow) (q : Nat) : rowAt rows (q : Int) = rows[q]? := by
  unfold rowAt
  rw [if_neg (by omega)]
  simp

theorem highlightRow_total {s : editorSyntax} (hp : ProfileOk s) {rows : List erow} {row : erow}
    {p : Nat} (hidx : IdxOk rows) (hrow : rows[p]? = some row) :
    ∃ st, highlightRow s rows row = some st := by
  have hi : row.idx = (p : Int) := hidx p row hrow
  have hplt : p < rows.length := by
    by_contra hc
    rw [List.getElem?_eq_none (by omega)] at hrow
    exact absurd hrow (by simp)
  unfold highlightRow
  by_cases h0 : row.idx > 0
  · rw [if_pos h0]
    have e : row.idx - 1 = ((p - 1 : Nat) : Int) := by omega
    rw [e, rowAt_natCast, List.getElem?_eq_getElem (by omega)]
    simp only [Option.map_some', Option.some_bind]
    exact scanLoop_total s hp row.render row.render.length _ (by simp) (by simp)
  · rw [if_neg h0]
    simp only [Option.some_bind]
    exact scanLoop_total s hp row.render row.render.length _ (by simp) (by simp)

/-! ## Lemmas: `editorUpdateSyntax` -/

theorem synRel_refl (r : erow) : SynRel r r := ⟨rfl, rfl, rfl, rfl, Or.inl rfl⟩

theorem synRel_trans {a b c : erow} (h1 : SynRel a b) (h2 : SynRel b c) : SynRel a c := by
  obtain ⟨a1, a2, a3, a4, a5⟩ := h1
  obtain ⟨b1, b2, b3, b4, b5⟩ := h2
  refine ⟨b1.trans a1, b2.trans a2, b3.trans a3, b4.trans a4, ?_⟩
  rcases b5 with h | h
  · rw [h]; exact a5
  · right; rw [h, a3]

theorem rowsRel_refl (rows : List erow) : RowsRel rows rows :=
  ⟨rfl, fun _ r h => ⟨r, h, synRel_refl r⟩⟩

theorem rowsRel_trans {a b c : List erow} (h1 : RowsRel a b) (h2 : RowsRel b c) :
    RowsRel a c := by
  refine ⟨h2.1.trans h1.1, fun q r h => ?_⟩
  obtain ⟨r1, e1, s1⟩ := h1.2 q r h
  obtain ⟨r2, e2, s2⟩ := h2.2 q r1 e1
  exact ⟨r2, e2, synRel_trans s1 s2⟩

theorem getElem?_lt {rows : List erow} {p : Nat} {row : erow} (h : rows[p]? = some row) :
    p < rows.length := by
  by_contra hc
  rw [List.getElem?_eq_none (by omega)] at h
  exact absurd h (by simp)

theorem rowsRel_set {rows : List erow} {p : Nat} {row row' : erow}
    (h : rows[p]? = some row) (hr : SynRel row row') : RowsRel rows (rows.set p row') := by
  refine ⟨List.length_set _ _ _, fun q r hq => ?_⟩
  rw [List.getElem?_set]
  by_cases hpq : p = q
  · subst hpq
    rw [if_pos rfl, if_pos (getElem?_lt h)]
    rw [h] at hq
    exact ⟨row', rfl, Option.some.inj hq ▸ hr⟩
  · rw [if_neg hpq]
    exact ⟨r, hq, synRel_refl r⟩

theorem idxOk_set {rows : List erow} (hidx : IdxOk rows) {p : Nat} {row row' : erow}
    (h : rows[p]? = some row) (hr : row'.idx = row.idx) : IdxOk (rows.set p row') := by
  intro q r hq
  rw [List.getElem?_set] at hq
  by_cases hpq : p = q
  · subst hpq
    rw [if_pos rfl, if_pos (getElem?_lt h)] at hq
    rw [← Option.some.inj hq, hr]
    exact hidx p row h
  · rw [if_neg hpq] at hq
    exact hidx q r hq

theorem editorUpdateSyntax_rel (synt : Option editorSyntax) (numrows fuel : Nat) :
    ∀ (rows : List erow) (p : Nat) (rows' : List erow),
      editorUpdateSyntax synt numrows fuel rows p = some rows' → RowsRel rows rows' := by
  induction fuel with
  | zero => intro rows p rows' h; simp [editorUpdateSyntax] at h
  | succ n ih =>
    intro rows p rows' h
    unfold editorUpdateSyntax at h
    cases hrow : rows[p]? with
    | none => rw [hrow] at h; simp at h
    | some row =>
      rw [hrow] at h
      simp only at h
      cases synt with
      | none =>
        simp only [Option.some.injEq] at h
        rw [← h]
        exact rowsRel_set hrow ⟨rfl, rfl, rfl, rfl, Or.inr (by simp [erow.rsize])⟩
      | some s =>
        simp only at h
        cases hst : highlightRow s rows row with
        | none => rw [hst] at h; simp at h
        | some st =>
          rw [hst] at h
          simp only at h
          have hset : RowsRel rows
              (rows.set p { row with hl := st.hl, hl_open_comment := st.in_comment }) :=
            rowsRel_set hrow ⟨rfl, rfl, rfl, rfl, Or.inr (highlightRow_length hst)⟩
          split at h
          · split at h
            · simp at h
            · exact rowsRel_trans hset (ih _ _ _ h)
          · rw [← Option.some.inj h]
            exact hset

theorem editorUpdateSyntax_total (synt : Option editorSyntax) (hs : SynOk synt)
    (numrows fuel : Nat) :
    ∀ (rows : List erow) (p : Nat), IdxOk rows → p < rows.length → numrows ≤ rows.length →
      1 ≤ fuel → numrows ≤ fuel + p →
      ∃ rows', editorUpdateSyntax synt numrows fuel rows p = some rows' := by
  induction fuel with
  | zero => intro rows p _ _ _ h; omega
  | succ n ih =>
    intro rows p hidx hp hn _ hf
    unfold editorUpdateSyntax
    rw [List.getElem?_eq_getElem hp]
    simp only
    have hrow : rows[p]? = some rows[p] := List.getElem?_eq_getElem hp
    have hi : rows[p].idx = (p : Int) := hidx p _ hrow
    cases synt with
    | none => exact ⟨_, rfl⟩
    | some s =>
      simp only
      obtain ⟨st, hst⟩ := highlightRow_total (hs s rfl) hidx hrow
      rw [hst]
      simp only
      split
      · rename_i hc
        rw [if_neg (by omega)]
        have e : (rows[p].idx + 1).toNat = p + 1 := by omega
        rw [e]
        have hlt : p + 1 < numrows := by omega
        exact ih _ (p + 1) (idxOk_set hidx hrow rfl) (by rw [List.length_set]; omega)
          (by rw [List.length_set]; omega) (by omega) (by omega)
      · exact ⟨_, rfl⟩

theorem editorUpdateSyntax_frame (synt : Option editorSyntax) (numrows fuel : Nat) :
    ∀ (rows : List erow) (p : Nat) (rows' : List erow), IdxOk rows →
      editorUpdateSyntax synt numrows fuel rows p = some rows' →
      ∃ row row1, rows[p]? = some row ∧ synRowResult synt rows row = some row1 ∧
        rows'[p]? = some row1 ∧ ∀ q, q < p → rows'[q]? = rows[q]? := by
  induction fuel with
  | zero => intro rows p rows' _ h; simp [editorUpdateSyntax] at h
  | succ n ih =>
    intro rows p rows' hidx h
    unfold editorUpdateSyntax at h
    cases hrow : rows[p]? with
    | none => rw [hrow] at h; simp at h
    | some row =>
      rw [hrow] at h
      simp only at h
      have hp := getElem?_lt hrow
      have hi : row.idx = (p : Int) := hidx p _ hrow
      cases synt with
      | none =>
        simp only [Option.some.injEq] at h
        refine ⟨row, _, rfl, rfl, ?_, ?_⟩
        · rw [← h, List.getElem?_set, if_pos rfl, if_pos hp]
        · intro q hq
          rw [← h, List.getElem?_set, if_neg (by omega)]
      | some s =>
        simp only at h
        cases hst : highlightRow s rows row with
        | none => rw [hst] at h; simp at h
        | some st =>
          rw [hst] at h
          simp only at h
          refine ⟨row, { row with hl := st.hl, hl_open_comment := st.in_comment }, rfl, ?_, ?_⟩
          · simp only [synRowResult, hst, Option.map_some']
          split at h
          · split at h
            · simp at h
            · have e : (row.idx + 1).toNat = p + 1 := by omega
              rw [e] at h
              have hidx1 : IdxOk
                  (rows.set p { row with hl := st.hl, hl_open_comment := st.in_comment }) :=
                idxOk_set hidx hrow rfl
              obtain ⟨_, _, _, _, _, hfr⟩ := ih _ _ _ hidx1 h
              constructor
              · rw [hfr p (by omega), List.getElem?_set, if_pos rfl, if_pos hp]
              · intro q hq
                rw [hfr q (by omega), List.getElem?_set, if_neg (by omega)]
          · rw [← Option.some.inj h]
            constructor
            · rw [List.getElem?_set, if_pos rfl, if_pos hp]
            · intro q hq
              rw [List.getElem?_set, if_neg (by omega)]

/-! ## Lemmas: the row operations -/

theorem forRows_spec (cond : Nat → Bool) (f : erow → erow) (n : Nat) :
    ∀ (j : Nat) (rows : List erow),
      j ≤ (forRows cond f n j rows).1 ∧ (forRows cond f n j rows).1 ≤ j + n ∧
      ((forRows cond f n j rows).1 < j + n → cond (forRows cond f n j rows).1 = false) ∧
      (∀ k, j ≤ k → k < (forRows cond f n j rows).1 → cond k = true) ∧
      (forRows cond f n j rows).2.length = rows.length ∧
      ∀ q, (forRows cond f n j rows).2[q]? =
        (rows[q]?).map fun r => if j ≤ q ∧ q < (forRows cond f n j rows).1 then f r else r := by
  induction n with
  | zero =>
    intro j rows
    unfold forRows
    refine ⟨Nat.le_refl _, Nat.le_refl _, fun h => absurd h (by simp), fun k h1 h2 => ?_,
      rfl, fun q => ?_⟩
    · simp only at h2
      omega
    · cases rows[q]? with
      | none => rfl
      | some r =>
        simp only [Option.map_some', Option.some.injEq]
        rw [if_neg (by omega)]
  | succ n ih =>
    intro j rows
    unfold forRows
    by_cases hc : cond j = true
    · rw [if_pos hc]
      obtain ⟨h1, h2, h3, h4, h5, h6⟩ := ih (j + 1) (rows.modify f j)
      refine ⟨by omega, by omega, fun h => h3 (by omega), fun k hk1 hk2 => ?_, ?_, fun q => ?_⟩
      · by_cases hkj : k = j
        · rw [hkj]; exact hc
        · exact h4 k (by omega) hk2
      · rw [h5, List.length_modify]
      · rw [h6 q, List.getElem?_modify]
        cases rows[q]? with
        | none => rfl
        | some r =>
          simp only [Option.map_eq_map, Option.map_some', Option.some.injEq]
          by_cases hq : j = q
          · subst hq
            rw [if_pos rfl, if_neg (by omega), if_pos ⟨Nat.le_refl _, by omega⟩]
          · rw [if_neg hq]
            by_cases hq2 : j + 1 ≤ q ∧ q < (forRows cond f n (j + 1) (List.modify f j rows)).1
            · rw [if_pos hq2, if_pos ⟨by omega, hq2.2⟩]
            · rw [if_neg hq2, if_neg (by omega)]
    · rw [if_neg hc]
      simp only [Bool.not_eq_true] at hc
      refine ⟨Nat.le_refl _, by simp, fun _ => hc, fun k h1 h2 => ?_, rfl, fun q => ?_⟩
      · simp only at h2
        omega
      · cases rows[q]? with
        | none => rfl
        | some r =>
          simp only [Option.map_some', Option.some.injEq]
          rw [if_neg (by omega)]

theorem padTab_length_ge (fuel : Nat) : ∀ (out : List Nat), out.length ≤ (padTab fuel out).length := by
  induction fuel with
  | zero => intro out; simp [padTab]
  | succ n ih =>
    intro out
    unfold padTab
    split
    · exact Nat.le_trans (by simp) (ih _)
    · exact Nat.le_refl _

theorem renderLoop_length_ge (chars : List Nat) :
    ∀ (out : List Nat), out.length + chars.length ≤ (renderLoop chars out).length := by
  induction chars with
  | nil => intro out; simp [renderLoop]
  | cons c cs ih =>
    intro out
    unfold renderLoop
    split
    · have h1 := padTab_length_ge KILO_TAB_STOP (out ++ [SPACE])
      have h2 := ih (padTab KILO_TAB_STOP (out ++ [SPACE]))
      simp only [List.length_append, List.length_cons, List.length_nil] at h1 ⊢
      omega
    · have h2 := ih (out ++ [c])
      simp only [List.length_append, List.length_cons, List.length_nil] at h2 ⊢
      omega

theorem editorUpdateSyntax_hl_at (synt : Option editorSyntax) (numrows fuel : Nat)
    (rows : List erow) (p : Nat) (rows' : List erow)
    (h : editorUpdateSyntax synt numrows fuel rows p = some rows') :
    ∃ r', rows'[p]? = some r' ∧ r'.hl.length = r'.render.length := by
  cases fuel with
  | zero => simp [editorUpdateSyntax] at h
  | succ n =>
    unfold editorUpdateSyntax at h
    cases hrow : rows[p]? with
    | none => rw [hrow] at h; simp at h
    | some row =>
      rw [hrow] at h
      simp only at h
      have hp := getElem?_lt hrow
      cases synt with
      | none =>
        simp only [Option.some.injEq] at h
        refine ⟨_, by rw [← h, List.getElem?_set, if_pos rfl, if_pos hp], ?_⟩
        simp [erow.rsize]
      | some s =>
        simp only at h
        cases hst : highlightRow s rows row with
        | none => rw [hst] at h; simp at h
        | some st =>
          rw [hst] at h
          simp only at h
          have hl := highlightRow_length hst
          split at h
          · split at h
            · simp at h
            · obtain ⟨_, hrel⟩ := editorUpdateSyntax_rel _ _ _ _ _ _ h
              obtain ⟨r', e', hr'⟩ := hrel p _
                (by rw [List.getElem?_set, if_pos rfl, if_pos hp])
              refine ⟨r', e', ?_⟩
              obtain ⟨_, _, h3, _, h5⟩ := hr'
              rcases h5 with h5 | h5
              · rw [h5]; exact hl
              · rw [h5, h3]
          · refine ⟨_, by rw [← Option.some.inj h, List.getElem?_set, if_pos rfl, if_pos hp], hl⟩

theorem editorUpdateRow_rel (synt : Option editorSyntax) (numrows fuel : Nat)
    (rows : List erow) (p : Nat) (rows' : List erow)
    (h : editorUpdateRow synt numrows fuel rows p = some rows') : UpdRel p rows rows' := by
  unfold editorUpdateRow at h
  cases hrow : rows[p]? with
  | none => rw [hrow] at h; simp at h
  | some row =>
    rw [hrow] at h
    simp only at h
    have hp := getElem?_lt hrow
    obtain ⟨hlen, hrel⟩ := editorUpdateSyntax_rel _ _ _ _ _ _ h
    obtain ⟨rp, erp, hrp⟩ := editorUpdateSyntax_hl_at _ _ _ _ _ _ h
    refine ⟨by rw [hlen, List.length_set], fun q r hq => ?_⟩
    by_cases hqp : q = p
    · subst hqp
      rw [hrow] at hq
      have hq := Option.some.inj hq
      subst hq
      obtain ⟨r', e', s1, s2, s3, s4, _⟩ := hrel q _
        (by rw [List.getElem?_set, if_pos rfl, if_pos hp])
      rw [erp] at e'
      have e' := Option.some.inj e'
      subst e'
      exact ⟨rp, erp, s1, s2, fun _ => ⟨s3, hrp, s4⟩, fun hne => absurd rfl hne⟩
    · obtain ⟨r', e', hs⟩ := hrel q r
        (by rw [List.getElem?_set, if_neg (fun hh => hqp hh.symm)]; exact hq)
      exact ⟨r', e', hs.1, hs.2.1, fun hh => absurd hh hqp, fun _ => hs⟩

theorem editorUpdateRow_total (synt : Option editorSyntax) (hs : SynOk synt)
    (numrows fuel : Nat) (rows : List erow) (p : Nat) (hidx : IdxOk rows)
    (hp : p < rows.length) (hn : numrows ≤ rows.length) (hf : numrows + 1 ≤ fuel) :
    ∃ rows', editorUpdateRow synt numrows fuel rows p = some rows' := by
  unfold editorUpdateRow
  obtain ⟨row, hrow⟩ : ∃ row, rows[p]? = some row := ⟨_, List.getElem?_eq_getElem hp⟩
  rw [hrow]
  simp only
  have hidx1 :
      IdxOk (rows.set p { row with render := renderLoop row.chars [], damaged := true }) :=
    idxOk_set hidx hrow rfl
  exact editorUpdateSyntax_total synt hs numrows fuel _ p hidx1
    (by rw [List.length_set]; exact hp) (by rw [List.length_set]; exact hn) (by omega) (by omega)

theorem editorUpdateRow_frame (synt : Option editorSyntax) (numrows fuel : Nat)
    (rows : List erow) (p : Nat) (rows' : List erow) (hidx : IdxOk rows)
    (h : editorUpdateRow synt numrows fuel rows p = some rows') :
    ∀ q, q < p → rows'[q]? = rows[q]? := by
  unfold editorUpdateRow at h
  cases hrow : rows[p]? with
  | none => rw [hrow] at h; simp at h
  | some row =>
    rw [hrow] at h
    simp only at h
    have hidx1 :
        IdxOk (rows.set p { row with render := renderLoop row.chars [], damaged := true }) :=
      idxOk_set hidx hrow rfl
    obtain ⟨_, _, _, _, _, hfr⟩ := editorUpdateSyntax_frame _ _ _ _ _ _ hidx1 h
    intro q hq
    rw [hfr q hq, List.getElem?_set, if_neg (by omega)]

theorem insertRowShift_spec (rowoff screenrows : Int) (numrows a : Nat) (rows0 : List erow)
    (hlen : rows0.length = numrows + 1) (ha : a ≤ numrows) :
    (insertRowShift rowoff screenrows numrows a rows0).length = numrows + 1 ∧
      ∀ (q : Nat) (r : erow), rows0[q]? = some r →
        ∃ r', (insertRowShift rowoff screenrows numrows a rows0)[q]? = some r' ∧
          r'.chars = r.chars ∧ r'.render = r.render ∧ r'.hl = r.hl ∧
          r'.hl_open_comment = r.hl_open_comment ∧
          r'.idx = (if a < q then r.idx + 1 else r.idx) ∧ (q ≤ a → r' = r) := by
  unfold insertRowShift
  simp only
  generalize hr1 : forRows (fun j => decide ((j : Int) - rowoff < screenrows ∧ j ≤ numrows))
    (fun r => { r with idx := r.idx + 1, damaged := true }) (numrows - a) (a + 1) rows0 = r1
  obtain ⟨a1, a2, _, _, a5, a6⟩ := forRows_spec
    (fun j => decide ((j : Int) - rowoff < screenrows ∧ j ≤ numrows))
    (fun r => { r with idx := r.idx + 1, damaged := true }) (numrows - a) (a + 1) rows0
  rw [hr1] at a1 a2 a5 a6
  generalize hr2 : forRows (fun j => decide (j ≤ numrows))
    (fun r => { r with idx := r.idx + 1 }) (numrows + 1 - r1.1) r1.1 r1.2 = r2
  obtain ⟨b1, b2, b3, _, b5, b6⟩ := forRows_spec (fun j => decide (j ≤ numrows))
    (fun r => { r with idx := r.idx + 1 }) (numrows + 1 - r1.1) r1.1 r1.2
  rw [hr2] at b1 b2 b3 b5 b6
  have hend : r2.1 = numrows + 1 := by
    by_contra hne
    have := b3 (by omega)
    simp only [decide_eq_false_iff_not] at this
    omega
  refine ⟨by rw [b5, a5, hlen], fun q r hq => ?_⟩
  have hq' : q < numrows + 1 := by rw [← hlen]; exact getElem?_lt hq
  rw [b6 q, a6 q, hq]
  simp only [Option.map_some']
  refine ⟨_, rfl, ?_⟩
  by_cases h1 : a + 1 ≤ q ∧ q < r1.1
  · rw [if_pos h1, if_neg (by omega), if_pos (by omega)]
    exact ⟨rfl, rfl, rfl, rfl, rfl, fun h => absurd h (by omega)⟩
  · rw [if_neg h1]
    by_cases h2 : r1.1 ≤ q ∧ q < r2.1
    · rw [if_pos h2, if_pos (by omega)]
      exact ⟨rfl, rfl, rfl, rfl, rfl, fun h => absurd h (by omega)⟩
    · rw [if_neg h2, if_neg (by omega)]
      exact ⟨rfl, rfl, rfl, rfl, rfl, fun _ => rfl⟩

theorem delRowShift_spec (rowoff screenrows : Int) (numrows a : Nat) (rows0 : List erow)
    (hlen : rows0.length + 1 = numrows) (ha : a < numrows) :
    (delRowShift rowoff screenrows numrows a rows0).length + 1 = numrows ∧
      ∀ (q : Nat) (r : erow), rows0[q]? = some r →
        ∃ r', (delRowShift rowoff screenrows numrows a rows0)[q]? = some r' ∧
          r'.chars = r.chars ∧ r'.render = r.render ∧ r'.hl = r.hl ∧
          r'.hl_open_comment = r.hl_open_comment ∧
          r'.idx = (if a ≤ q then r.idx - 1 else r.idx) ∧ (q < a → r' = r) := by
  unfold delRowShift
  simp only
  generalize hr1 : forRows
    (fun j => decide ((j : Int) - rowoff < screenrows ∧ (j : Int) < (numrows : Int) - 1))
    (fun r => { r with idx := r.idx - 1, damaged := true }) (numrows - 1 - a) a rows0 = r1
  obtain ⟨a1, a2, _, _, a5, a6⟩ := forRows_spec
    (fun j => decide ((j : Int) - rowoff < screenrows ∧ (j : Int) < (numrows : Int) - 1))
    (fun r => { r with idx := r.idx - 1, damaged := true }) (numrows - 1 - a) a rows0
  rw [hr1] at a1 a2 a5 a6
  generalize hr2 : forRows (fun j => decide ((j : Int) < (numrows : Int) - 1))
    (fun r => { r with idx := r.idx - 1 }) (numrows - 1 - r1.1) r1.1 r1.2 = r2
  obtain ⟨b1, b2, b3, _, b5, b6⟩ := forRows_spec
    (fun j => decide ((j : Int) < (numrows : Int) - 1))
    (fun r => { r with idx := r.idx - 1 }) (numrows - 1 - r1.1) r1.1 r1.2
  rw [hr2] at b1 b2 b3 b5 b6
  have hend : r2.1 = numrows - 1 := by
    by_contra hne
    have := b3 (by omega)
    simp only [decide_eq_false_iff_not] at this
    omega
  refine ⟨by rw [b5, a5, hlen], fun q r hq => ?_⟩
  have hq' : q + 1 < numrows := by rw [← hlen]; have := getElem?_lt hq; omega
  rw [b6 q, a6 q, hq]
  simp only [Option.map_some']
  refine ⟨_, rfl, ?_⟩
  by_cases h1 : a ≤ q ∧ q < r1.1
  · rw [if_pos h1, if_neg (by omega), if_pos (by omega)]
    exact ⟨rfl, rfl, rfl, rfl, rfl, fun h => absurd h (by omega)⟩
  · rw [if_neg h1]
    by_cases h2 : r1.1 ≤ q ∧ q < r2.1
    · rw [if_pos h2, if_pos (by omega)]
      exact ⟨rfl, rfl, rfl, rfl, rfl, fun h => absurd h (by omega)⟩
    · rw [if_neg h2, if_neg (by omega)]
      exact ⟨rfl, rfl, rfl, rfl, rfl, fun _ => rfl⟩

theorem profileOk_HLDB_C : ProfileOk HLDB_C := by
  unfold ProfileOk
  decide

theorem synOk_of_valid {synt : Option editorSyntax}
    (h : synt = none ∨ synt = some HLDB_C) : SynOk synt := by
  intro s hs
  rcases h with h | h
  · rw [h] at hs; exact absurd hs (by simp)
  · rw [h] at hs
    rw [← Option.some.inj hs]
    exact profileOk_HLDB_C

theorem getElem?_take_cons_drop {α : Type} (l : List α) (a : Nat) (x : α) (ha : a ≤ l.length)
    (q : Nat) :
    (l.take a ++ [x] ++ l.drop a)[q]? =
      if q < a then l[q]? else if q = a then some x else l[q - 1]? := by
  have hl : (l.take a).length = a := by rw [List.length_take]; omega
  by_cases h1 : q < a
  · rw [if_pos h1, List.append_assoc, List.getElem?_append_left (by omega),
      List.getElem?_take, if_pos h1]
  · rw [if_neg h1, List.append_assoc, List.getElem?_append_right (by omega), hl]
    by_cases h2 : q = a
    · rw [if_pos h2, h2, Nat.sub_self]
      simp
    · rw [if_neg h2]
      have e : q - a = (q - a - 1) + 1 := by omega
      rw [e, List.singleton_append, List.getElem?_cons_succ, List.getElem?_drop]
      congr 1
      omega

theorem lenInv_iff (rows : List erow) :
    LenInv rows ↔ ∀ (q : Nat) (r : erow), rows[q]? = some r → LenRow r := by
  unfold LenInv
  constructor
  · intro h q r hq
    exact h r (List.mem_iff_getElem?.mpr ⟨q, hq⟩)
  · intro h r hr
    obtain ⟨q, hq⟩ := List.mem_iff_getElem?.mp hr
    exact h q r hq

theorem lenRow_of_synRel {r r' : erow} (h : SynRel r r') (hr : LenRow r) : LenRow r' := by
  obtain ⟨_, h2, h3, _, h5⟩ := h
  unfold LenRow erow.size erow.rsize at *
  rw [h2, h3]
  refine ⟨hr.1, ?_⟩
  rcases h5 with h5 | h5
  · rw [h5]; exact hr.2
  · exact h5

theorem updRel_lenInv {p : Nat} {rows rows' : List erow} (h : UpdRel p rows rows')
    (hr : ∀ (q : Nat) (r : erow), rows[q]? = some r → q ≠ p → LenRow r) : LenInv rows' := by
  rw [lenInv_iff]
  intro q r' hq
  have hq1 : q < rows.length := by rw [← h.1]; exact getElem?_lt hq
  obtain ⟨r1, e1, _, h2, h3, h4⟩ := h.2 q rows[q] (List.getElem?_eq_getElem hq1)
  rw [hq] at e1
  have e1 := Option.some.inj e1
  subst e1
  by_cases hqp : q = p
  · obtain ⟨g1, g2, _⟩ := h3 hqp
    unfold LenRow erow.size erow.rsize
    refine ⟨?_, g2⟩
    rw [h2, g1]
    have := renderLoop_length_ge rows[q].chars []
    simpa using this
  · exact lenRow_of_synRel (h4 hqp) (hr q _ (List.getElem?_eq_getElem hq1) hqp)

theorem lenRow_of_set {rows : List erow} (hinv : LenInv rows) (p : Nat) (row1 : erow)
    (q : Nat) (r : erow) (hq : (rows.set p row1)[q]? = some r) (hne : q ≠ p) : LenRow r := by
  rw [List.getElem?_set, if_neg (fun h => hne h.symm)] at hq
  exact (lenInv_iff rows).mp hinv q r hq

theorem rowEdit_lenInv (E : editorConfig) (p : Nat) (row1 : erow) (fuel : Nat)
    (rows' : List erow) (hinv : LenInv E.row)
    (h : editorUpdateRow E.syn E.numrows fuel (E.row.set p row1) p = some rows') :
    LenInv rows' :=
  updRel_lenInv (editorUpdateRow_rel _ _ _ _ _ _ h)
    (fun q r hq hne => lenRow_of_set hinv p row1 q r hq hne)

theorem rowEdit_total (E : editorConfig) (hidx : IdxOk E.row) (hs : SynOk E.syn) (p : Nat)
    (row row1 : erow) (hrow : E.row[p]? = some row) (hi : row1.idx = row.idx) (fuel : Nat)
    (hf : E.numrows + 1 ≤ fuel) :
    ∃ rows', editorUpdateRow E.syn E.numrows fuel (E.row.set p row1) p = some rows' :=
  editorUpdateRow_total E.syn hs E.numrows fuel _ p (idxOk_set hidx hrow hi)
    (by rw [List.length_set]; exact getElem?_lt hrow)
    (by rw [List.length_set]; exact Nat.le_refl _) hf

theorem insertRow_slot_length (rows : List erow) (a : Nat) (x : erow) (ha : a ≤ rows.length) :
    (rows.take a ++ [x] ++ rows.drop a).length = rows.length + 1 := by
  simp only [List.length_append, List.length_take, List.length_drop, List.length_cons,
    List.length_nil]
  omega

theorem insertRow_idxOk (E : editorConfig) (hidx : IdxOk E.row) (a : Nat)
    (ha : a ≤ E.numrows) (x : erow) (hx : x.idx = (a : Int)) :
    IdxOk (insertRowShift E.rowoff E.screenrows E.numrows a
      (E.row.take a ++ [x] ++ E.row.drop a)) := by
  obtain ⟨hl, hsp⟩ := insertRowShift_spec E.rowoff E.screenrows E.numrows a
    (E.row.take a ++ [x] ++ E.row.drop a) (insertRow_slot_length _ _ _ ha) ha
  intro q r hq
  have hq1 : q < E.numrows + 1 := by rw [← hl]; exact getElem?_lt hq
  have hq0 : q < (E.row.take a ++ [x] ++ E.row.drop a).length := by
    rw [insertRow_slot_length _ _ _ ha]; exact hq1
  obtain ⟨r', e', _, _, _, _, h5, _⟩ := hsp q _ (List.getElem?_eq_getElem hq0)
  rw [hq] at e'
  have e' := Option.some.inj e'
  subst e'
  rw [h5]
  have hget := getElem?_take_cons_drop E.row a x ha q
  rw [List.getElem?_eq_getElem hq0] at hget
  by_cases h1 : q < a
  · rw [if_pos h1] at hget
    rw [if_neg (by omega)]
    exact hidx q _ hget.symm
  · rw [if_neg h1] at hget
    by_cases h2 : q = a
    · rw [if_pos h2] at hget
      rw [if_neg (by omega), Option.some.inj hget, hx, h2]
    · rw [if_neg h2] at hget
      rw [if_pos (by omega)]
      have := hidx (q - 1) _ hget.symm
      omega

theorem insertRow_lenRow (E : editorConfig) (hinv : LenInv E.row) (a : Nat)
    (ha : a ≤ E.numrows) (x : erow) (q : Nat) (r : erow)
    (hq : (insertRowShift E.rowoff E.screenrows E.numrows a
      (E.row.take a ++ [x] ++ E.row.drop a))[q]? = some r) (hne : q ≠ a) : LenRow r := by
  obtain ⟨hl, hsp⟩ := insertRowShift_spec E.rowoff E.screenrows E.numrows a
    (E.row.take a ++ [x] ++ E.row.drop a) (insertRow_slot_length _ _ _ ha) ha
  have hq1 : q < E.numrows + 1 := by rw [← hl]; exact getElem?_lt hq
  have hq0 : q < (E.row.take a ++ [x] ++ E.row.drop a).length := by
    rw [insertRow_slot_length _ _ _ ha]; exact hq1
  obtain ⟨r', e', h1, h2, h3, _, _, _⟩ := hsp q _ (List.getElem?_eq_getElem hq0)
  rw [hq] at e'
  have e' := Option.some.inj e'
  subst e'
  have hget := getElem?_take_cons_drop E.row a x ha q
  rw [List.getElem?_eq_getElem hq0] at hget
  have hold : LenRow (E.row.take a ++ [x] ++ E.row.drop a)[q] := by
    by_cases h1 : q < a
    · rw [if_pos h1] at hget
      exact (lenInv_iff _).mp hinv q _ hget.symm
    · rw [if_neg h1, if_neg hne] at hget
      exact (lenInv_iff _).mp hinv (q - 1) _ hget.symm
  unfold LenRow erow.size erow.rsize at *
  rw [h1, h2, h3]
  exact hold

theorem delRow_lenInv (E : editorConfig) (hinv : LenInv E.row) (at_ : Int) :
    LenInv (editorDelRow E at_).row := by
  unfold editorDelRow
  split
  · exact hinv
  · rename_i hat
    simp only
    have ha : at_.toNat < E.numrows := by omega
    have hl0 : (E.row.eraseIdx at_.toNat).length + 1 = E.numrows := by
      unfold editorConfig.numrows at *
      rw [List.length_eraseIdx, if_pos ha]
      omega
    obtain ⟨hl, hsp⟩ := delRowShift_spec E.rowoff E.screenrows E.numrows at_.toNat
      (E.row.eraseIdx at_.toNat) hl0 ha
    rw [lenInv_iff]
    intro q r hq
    have hq0 : q < (E.row.eraseIdx at_.toNat).length := by
      have := getElem?_lt hq
      omega
    obtain ⟨r', e', h1, h2, h3, _, _, _⟩ := hsp q _ (List.getElem?_eq_getElem hq0)
    rw [hq] at e'
    have e' := Option.some.inj e'
    subst e'
    have hmem : (E.row.eraseIdx at_.toNat)[q] ∈ E.row :=
      List.mem_of_mem_eraseIdx (List.getElem_mem _)
    have hold := hinv _ hmem
    unfold LenRow erow.size erow.rsize at *
    rw [h1, h2, h3]
    exact hold

theorem rowEdit_run_total (E : editorConfig) (hidx : IdxOk E.row) (hs : SynOk E.syn) (p : Nat)
    (row row1 : erow) (hrow : E.row[p]? = some row) (hi : row1.idx = row.idx)
    (f : List erow → editorConfig) :
    ∃ E', (editorUpdateRow E.syn E.numrows (E.numrows + 1) (E.row.set p row1) p).map f =
      some E' := by
  obtain ⟨rows', h⟩ := rowEdit_total E hidx hs p row row1 hrow hi (E.numrows + 1)
    (Nat.le_refl _)
  rw [h]
  exact ⟨_, rfl⟩

theorem lenInv_docC1 : LenInv docC1.row := by
  unfold LenInv LenRow erow.size erow.rsize docC1
  decide

theorem idxOk_iff_bounded (rows : List erow) :
    IdxOk rows ↔ ∀ (q : Nat) (h : q < rows.length), rows[q].idx = (q : Int) := by
  constructor
  · intro h q hq
    exact h q _ (List.getElem?_eq_getElem hq)
  · intro h q r hq
    have hlt := getElem?_lt hq
    rw [List.getElem?_eq_getElem hlt] at hq
    rw [← Option.some.inj hq]
    exact h q hlt

theorem idxOk_docC1 : IdxOk docC1.row := by
  rw [idxOk_iff_bounded]
  decide

/-! ## Lemmas: the scan behind a prefix, and inside a comment -/

theorem matchesAt_append (pre rest : List Nat) (i : Nat) (pat : List Nat) :
    matchesAt (pre ++ rest) (pre.length + i) pat = matchesAt rest i pat := by
  unfold matchesAt
  rw [List.drop_append]

theorem getD_append_add (pre rest : List Nat) (i d : Nat) :
    (pre ++ rest).getD (pre.length + i) d = rest.getD i d := by
  rw [List.getD_eq_getElem?_getD, List.getD_eq_getElem?_getD,
    List.getElem?_append_right (by omega)]
  congr 2
  omega

theorem keywordMatch_append (pre rest : List Nat) (i : Nat) (kws : List (List Nat)) :
    keywordMatch (pre ++ rest) (pre.length + i) kws = keywordMatch rest i kws := by
  induction kws with
  | nil => rfl
  | cons kw kws ih =>
    unfold keywordMatch
    rw [matchesAt_append, Nat.add_assoc, getD_append_add, ih]

theorem memsetHl_append (hp hl : List Nat) (i n v : Nat) :
    memsetHl (hp ++ hl) (hp.length + i) n v = (memsetHl hl i n v).map (fun h => hp ++ h) := by
  unfold memsetHl
  by_cases h : i + n ≤ hl.length
  · rw [if_pos h, if_pos (by rw [List.length_append]; omega)]
    simp only [Option.map_some', Option.some.injEq]
    rw [List.take_append, Nat.add_assoc, List.drop_append]
    simp only [List.append_assoc]
  · rw [if_neg h, if_neg (by rw [List.length_append]; omega)]
    rfl

theorem prevHl_append (hp hl : List Nat) (i : Nat)
    (h : hp.getD (hp.length - 1) HL_NORMAL ≠ HL_NUMBER) :
    (prevHl (hp ++ hl) (hp.length + i) = HL_NUMBER) ↔ (prevHl hl i = HL_NUMBER) := by
  unfold prevHl
  by_cases hi : i > 0
  · rw [if_pos hi, if_pos (by omega)]
    have e : hp.length + i - 1 = hp.length + (i - 1) := by omega
    rw [e, getD_append_add]
  · have hi0 : i = 0 := by omega
    subst hi0
    rw [if_neg hi]
    by_cases hn : hp.length > 0
    · rw [Nat.add_zero, if_pos hn, List.getD_eq_getElem?_getD,
        List.getElem?_append_left (by omega), ← List.getD_eq_getElem?_getD]
      constructor
      · intro hh; exact absurd hh h
      · intro hh; exact absurd hh (by decide)
    · rw [Nat.add_zero, if_neg hn]

theorem scanStep_lift (s : editorSyntax) (pre rest hp : List Nat) (st : HlScan)
    (hlen : hp.length = pre.length)
    (hnum : hp.getD (hp.length - 1) HL_NORMAL ≠ HL_NUMBER) :
    scanStep s (pre ++ rest) (liftScan pre.length hp st) =
      (scanStep s rest st).map (liftScan pre.length hp) := by
  have hprev := prevHl_append hp st.hl st.i hnum
  rw [hlen] at hprev
  have hms : ∀ hl i n v, memsetHl (hp ++ hl) (pre.length + i) n v =
      (memsetHl hl i n v).map (fun h => hp ++ h) := by
    intro hl i n v
    rw [← hlen]
    exact memsetHl_append hp hl i n v
  have e1 : pre.length + rest.length - (pre.length + st.i) = rest.length - st.i := by omega
  have e2 : (pre.length + (st.i + 1) < pre.length + rest.length) ↔ (st.i + 1 < rest.length) := by
    omega
  unfold scanStep liftScan
  simp only [matchesAt_append, getD_append_add, keywordMatch_append, hprev, hms,
    List.length_append, e1, Nat.add_assoc, e2]
  split_ifs
  · cases memsetHl st.hl st.i (rest.length - st.i) HL_COMMENT <;> rfl
  · cases memsetHl st.hl st.i 1 HL_MLCOMMENT with
    | none => rfl
    | some h1 =>
      simp only [Option.map_some', Option.some_bind, hms]
      cases memsetHl h1 st.i s.multiline_comment_end.length HL_MLCOMMENT <;> rfl
  · cases memsetHl st.hl st.i 1 HL_MLCOMMENT <;> rfl
  · cases memsetHl st.hl st.i s.multiline_comment_start.length HL_MLCOMMENT <;> rfl
  · cases memsetHl st.hl st.i 1 HL_STRING with
    | none => rfl
    | some h1 =>
      simp only [Option.map_some', Option.some_bind, hms]
      cases memsetHl h1 (st.i + 1) 1 HL_STRING <;> rfl
  · cases memsetHl st.hl st.i 1 HL_STRING <;> rfl
  · cases memsetHl st.hl st.i 1 HL_STRING <;> rfl
  · cases memsetHl st.hl st.i 1 HL_STRING <;> rfl
  · cases memsetHl st.hl st.i 1 HL_NUMBER <;> rfl
  · cases keywordMatch rest st.i s.keywords with
    | none => rfl
    | some pr =>
      obtain ⟨klen, kw2⟩ := pr
      simp only
      cases memsetHl st.hl st.i klen (if kw2 = true then HL_KEYWORD2 else HL_KEYWORD1) <;> rfl
  · rfl

theorem scanLoop_lift (s : editorSyntax) (pre rest hp : List Nat)
    (hlen : hp.length = pre.length)
    (hnum : hp.getD (hp.length - 1) HL_NORMAL ≠ HL_NUMBER) (fuel : Nat) :
    ∀ (st : HlScan), scanLoop s (pre ++ rest) fuel (liftScan pre.length hp st) =
      (scanLoop s rest fuel st).map (liftScan pre.length hp) := by
  induction fuel with
  | zero =>
    intro st
    unfold scanLoop
    simp only [liftScan, List.length_append, Nat.add_lt_add_iff_left]
    split <;> rfl
  | succ n ih =>
    intro st
    unfold scanLoop
    simp only [List.length_append]
    have e : (liftScan pre.length hp st).i < pre.length + rest.length ↔ st.i < rest.length := by
      simp only [liftScan]; omega
    simp only [e]
    split
    · rw [scanStep_lift s pre rest hp st hlen hnum]
      cases scanStep s rest st with
      | none => rfl
      | some st1 =>
        simp only [Option.map_some', Option.some_bind]
        exact ih st1
    · rfl

theorem memset_comment_cells (n k m : Nat) (h : k + m ≤ n) :
    memsetHl (List.replicate k HL_MLCOMMENT ++ List.replicate (n - k) HL_NORMAL) k m
      HL_MLCOMMENT =
      some (List.replicate (k + m) HL_MLCOMMENT ++ List.replicate (n - (k + m)) HL_NORMAL) := by
  rw [memsetHl_of_le _ _ _ _ (by simp; omega)]
  congr 1
  have hk : (List.replicate k HL_MLCOMMENT).length = k := List.length_replicate _ _
  rw [List.take_append_of_le_length (by omega), List.take_of_length_le (by omega),
    List.drop_append_eq_append_drop, List.drop_of_length_le (by omega), hk,
    List.drop_replicate, List.nil_append, List.replicate_add]
  congr 2
  omega

theorem memset_comment_again (n k m : Nat) (h : k + m ≤ n) (hm : 1 ≤ m) :
    memsetHl (List.replicate (k + 1) HL_MLCOMMENT ++ List.replicate (n - (k + 1)) HL_NORMAL)
      k m HL_MLCOMMENT =
      some (List.replicate (k + m) HL_MLCOMMENT ++ List.replicate (n - (k + m)) HL_NORMAL) := by
  rw [memsetHl_of_le _ _ _ _ (by simp; omega)]
  congr 1
  have hk : (List.replicate (k + 1) HL_MLCOMMENT).length = k + 1 := List.length_replicate _ _
  have e0 : min k (k + 1) = k := by omega
  have e1 : k + 1 - (k + m) = 0 := by omega
  have e2 : n - (k + 1) - (k + m - (k + 1)) = n - (k + m) := by omega
  rw [List.take_append_of_le_length (by omega), List.take_replicate,
    List.drop_append_eq_append_drop, hk, List.drop_replicate, List.drop_replicate, e0, e1, e2,
    List.replicate_zero, List.nil_append, ← List.replicate_add]

theorem scanLoop_succ (s : editorSyntax) (render : List Nat) (fuel : Nat) (st : HlScan) :
    scanLoop s render (fuel + 1) st =
      if st.i < render.length then (scanStep s render st).bind (scanLoop s render fuel)
      else some st := rfl

theorem scanLoop_done (s : editorSyntax) (render : List Nat) (fuel : Nat) (st : HlScan)
    (h : render.length ≤ st.i) : scanLoop s render fuel st = some st := by
  cases fuel with
  | zero => unfold scanLoop; rw [if_neg (by omega)]
  | succ n => rw [scanLoop_succ, if_neg (by omega)]

theorem scanStep_comment (s : editorSyntax) (render : List Nat) (k : Nat)
    (hk : k < render.length)
    (hmcs : s.multiline_comment_start.length ≠ 0) (hmce : s.multiline_comment_end.length ≠ 0) :
    scanStep s render (commentScan render.length k) =
      if matchesAt render k s.multiline_comment_end = true then
        some { i := k + s.multiline_comment_end.length,
               hl := List.replicate (k + s.multiline_comment_end.length) HL_MLCOMMENT ++
                 List.replicate (render.length - (k + s.multiline_comment_end.length)) HL_NORMAL,
               prev_sep := true, in_string := 0, in_comment := false }
      else some (commentScan render.length (k + 1)) := by
  unfold scanStep commentScan
  simp only
  rw [if_neg (by simp), if_pos (by simp [hmcs, hmce]), memset_comment_cells _ _ _ (by omega)]
  simp only [Option.some_bind]
  split
  · rename_i hm
    have hb := matchesAt_le hm (Nat.le_of_lt hk)
    rw [memset_comment_again _ _ _ hb (by omega)]
    rfl
  · rfl

theorem scanLoop_comment_run (s : editorSyntax) (render : List Nat)
    (hmcs : s.multiline_comment_start.length ≠ 0) (hmce : s.multiline_comment_end.length ≠ 0)
    (d : Nat) :
    ∀ (k fuel : Nat), k + d ≤ render.length →
      (∀ j, k ≤ j → j < k + d → matchesAt render j s.multiline_comment_end = false) →
      scanLoop s render (d + fuel) (commentScan render.length k) =
        scanLoop s render fuel (commentScan render.length (k + d)) := by
  induction d with
  | zero => intro k fuel _ _; simp
  | succ d ih =>
    intro k fuel hkd hno
    have e : d + 1 + fuel = (d + fuel) + 1 := by omega
    rw [e, scanLoop_succ]
    have hi : (commentScan render.length k).i < render.length := by
      simp only [commentScan]; omega
    rw [if_pos hi, scanStep_comment s render k (by omega) hmcs hmce,
      if_neg (by rw [hno k (Nat.le_refl _) (by omega)]; simp)]
    simp only [Option.some_bind]
    rw [ih (k + 1) fuel (by omega) (fun j h1 h2 => hno j (by omega) (by omega))]
    have e2 : k + 1 + d = k + (d + 1) := by omega
    rw [e2]

theorem scanLoop_mono (s : editorSyntax) (render : List Nat) (k : Nat) (fuel : Nat) :
    ∀ (st r : HlScan), scanLoop s render fuel st = some r →
      scanLoop s render (fuel + k) st = some r := by
  induction fuel with
  | zero =>
    intro st r h
    unfold scanLoop at h
    split at h
    · exact absurd h (by simp)
    · rw [← Option.some.inj h]
      exact scanLoop_done s render _ st (by omega)
  | succ n ih =>
    intro st r h
    have e : n + 1 + k = (n + k) + 1 := by omega
    rw [e, scanLoop_succ]
    rw [scanLoop_succ] at h
    split
    · rename_i hi
      rw [if_pos hi] at h
      cases hst : scanStep s render st with
      | none => rw [hst] at h; exact absurd h (by simp)
      | some st1 =>
        rw [hst] at h
        simp only [Option.some_bind] at h ⊢
        exact ih st1 r h
    · rename_i hi
      rw [if_neg hi] at h
      exact h

theorem scanRow_comment_open (s : editorSyntax) (render : List Nat)
    (hmcs : s.multiline_comment_start.length ≠ 0) (hmce : s.multiline_comment_end.length ≠ 0)
    (hno : ∀ j, matchesAt render j s.multiline_comment_end = false) :
    scanRow s render true =
      some { i := render.length, hl := List.replicate render.length HL_MLCOMMENT,
             prev_sep := true, in_string := 0, in_comment := true } := by
  have h := scanLoop_comment_run s render hmcs hmce render.length 0 0 (by omega)
    (fun j _ _ => hno j)
  have e0 : commentScan render.length 0 =
      { i := 0, hl := List.replicate render.length HL_NORMAL, prev_sep := true,
        in_string := 0, in_comment := true } := by
    simp [commentScan]
  unfold scanRow
  rw [e0, Nat.add_zero, Nat.zero_add] at h
  rw [h, scanLoop_done _ _ _ _ (by simp [commentScan])]
  simp [commentScan]

theorem scanRow_comment_close (s : editorSyntax) (hp : ProfileOk s) (render : List Nat)
    (hmcs : s.multiline_comment_start.length ≠ 0) (hmce : s.multiline_comment_end.length ≠ 0)
    (q : Nat) (hq : matchesAt render q s.multiline_comment_end = true)
    (hfirst : ∀ j, j < q → matchesAt render j s.multiline_comment_end = false) :
    ∃ st, scanRow s (render.drop (q + s.multiline_comment_end.length)) false = some st ∧
      scanRow s render true =
        some (liftScan (q + s.multiline_comment_end.length)
          (List.replicate (q + s.multiline_comment_end.length) HL_MLCOMMENT) st) := by
  generalize hm : s.multiline_comment_end.length = m at *
  by_cases hqn : q ≤ render.length
  swap
  · unfold matchesAt at hq
    rw [List.drop_of_length_le (by omega)] at hq
    have := (List.isPrefixOf_iff_prefix.mp hq).length_le
    simp only [List.length_nil] at this
    omega
  have hb : q + m ≤ render.length := by
    have := matchesAt_le hq hqn
    omega
  obtain ⟨st, hst⟩ := scanLoop_total s hp (render.drop (q + m)) (render.drop (q + m)).length
    { i := 0, hl := List.replicate (render.drop (q + m)).length HL_NORMAL, prev_sep := true,
      in_string := 0, in_comment := false } (by simp) (by simp)
  refine ⟨st, hst, ?_⟩
  have h1 := scanLoop_comment_run s render hmcs (by omega) q 0 (render.length - q) (by omega)
    (fun j _ hj => hfirst j (by omega))
  have e0 : commentScan render.length 0 =
      { i := 0, hl := List.replicate render.length HL_NORMAL, prev_sep := true,
        in_string := 0, in_comment := true } := by
    simp [commentScan]
  have e1 : q + (render.length - q) = render.length := by omega
  have e2 : render.length - q = (render.length - q - 1) + 1 := by omega
  rw [e0, e1, Nat.zero_add] at h1
  unfold scanRow
  rw [h1, e2, scanLoop_succ, if_pos (by simp [commentScan]; omega),
    scanStep_comment s render q (by omega) hmcs (by omega), hm, if_pos hq]
  simp only [Option.some_bind]
  obtain ⟨pre, rest, hsplit, hpre⟩ : ∃ pre rest, render = pre ++ rest ∧ pre.length = q + m :=
    ⟨render.take (q + m), render.drop (q + m), (List.take_append_drop _ _).symm,
      by rw [List.length_take]; omega⟩
  subst hsplit
  have hrest : (pre ++ rest).drop (q + m) = rest := by rw [← hpre, List.drop_left]
  rw [hrest] at hst
  have hlift :
      HlScan.mk (q + m)
        (List.replicate (q + m) HL_MLCOMMENT ++
          List.replicate ((pre ++ rest).length - (q + m)) HL_NORMAL) true 0 false =
      liftScan pre.length (List.replicate (q + m) HL_MLCOMMENT)
        (HlScan.mk 0 (List.replicate rest.length HL_NORMAL) true 0 false) := by
    simp only [liftScan, List.length_append, hpre, Nat.add_zero, Nat.add_sub_cancel_left]
  rw [hlift, scanLoop_lift s pre rest _ (by rw [List.length_replicate, hpre])
    (by
      rw [List.getD_eq_getElem?_getD, List.getElem?_replicate]
      split <;> decide)]
  have e3 : (pre ++ rest).length - q - 1 = rest.length + (m - 1) := by
    rw [List.length_append]; omega
  rw [e3, scanLoop_mono s rest (m - 1) rest.length _ st hst, hpre]
  rfl

theorem highlightRow_succ (s : editorSyntax) (rows : List erow) (p : Nat) (prev row : erow)
    (hidx : IdxOk rows) (hprev : rows[p]? = some prev) (hrow : rows[p + 1]? = some row) :
    highlightRow s rows row = scanRow s row.render prev.hl_open_comment := by
  have hi : row.idx = ((p + 1 : Nat) : Int) := hidx (p + 1) row hrow
  unfold highlightRow
  have e : row.idx - 1 = ((p : Nat) : Int) := by omega
  rw [if_pos (by omega), e, rowAt_natCast, hprev]
  rfl

theorem docC3_built :
    ((editorInsertRow 1 emptyC 0 (bytes "/* start")).bind fun E1 =>
      (editorInsertRow 2 E1 1 (bytes "still in comment")).bind fun E2 =>
        editorInsertRow 3 E2 2 (bytes "end */ code")) = some docC3 := by
  decide

theorem idxOk_docC3 : IdxOk docC3.row := by
  rw [idxOk_iff_bounded]
  decide

theorem matchesAt_false_of_bounded (render pat : List Nat) (hpat : pat ≠ [])
    (h : ∀ i, i < render.length → matchesAt render i pat = false) :
    ∀ i, matchesAt render i pat = false := by
  intro i
  by_cases hi : i < render.length
  · exact h i hi
  · unfold matchesAt
    rw [List.drop_of_length_le (by omega)]
    cases pat with
    | nil => exact absurd rfl hpat
    | cons c cs => rfl

theorem editorInsertRow_total (E : editorConfig) (hidx : IdxOk E.row) (hs : SynOk E.syn)
    (k : Nat) (hk : k ≤ E.numrows) (text : List Nat) (fuel : Nat) (hf : E.numrows + 1 ≤ fuel) :
    ∃ E', editorInsertRow fuel E (k : Int) text = some E' := by
  unfold editorInsertRow
  rw [if_neg (by omega)]
  simp only [Int.toNat_ofNat]
  have hidx2 := insertRow_idxOk E hidx k hk (freshRow (k : Int) text) rfl
  obtain ⟨hl, _⟩ := insertRowShift_spec E.rowoff E.screenrows E.numrows k
    (E.row.take k ++ [freshRow (k : Int) text] ++ E.row.drop k)
    (insertRow_slot_length _ _ _ hk) hk
  obtain ⟨rows', h⟩ := editorUpdateRow_total E.syn hs E.numrows fuel _ k hidx2
    (by rw [hl]; omega) (by rw [hl]; omega) hf
  rw [h]
  exact ⟨_, rfl⟩

theorem editorInsertRow_result (E : editorConfig) (k : Nat) (hk : k ≤ E.numrows)
    (text : List Nat) (fuel : Nat) (E' : editorConfig)
    (h : editorInsertRow fuel E (k : Int) text = some E') :
    E'.row.length = E.numrows + 1 ∧
    (∀ (q : Nat) (r0 : erow),
      (E.row.take k ++ [freshRow (k : Int) text] ++ E.row.drop k)[q]? = some r0 →
      ∃ r', E'.row[q]? = some r' ∧ r'.chars = r0.chars ∧
        r'.idx = (if k < q then r0.idx + 1 else r0.idx) ∧ (q ≠ k → r'.render = r0.render)) ∧
    (IdxOk E.row → ∀ q, q < k → E'.row[q]? = E.row[q]?) := by
  unfold editorInsertRow at h
  rw [if_neg (by omega)] at h
  simp only [Int.toNat_ofNat, Option.map_eq_some'] at h
  obtain ⟨rows', h1, h2⟩ := h
  rw [← h2]
  simp only
  obtain ⟨hl, hsp⟩ := insertRowShift_spec E.rowoff E.screenrows E.numrows k
    (E.row.take k ++ [freshRow (k : Int) text] ++ E.row.drop k)
    (insertRow_slot_length _ _ _ hk) hk
  obtain ⟨ul, urel⟩ := editorUpdateRow_rel _ _ _ _ _ _ h1
  refine ⟨by rw [ul, hl], fun q r0 hq => ?_, fun hidx q hq => ?_⟩
  · obtain ⟨r2, e2, c1, c2, _, _, c5, _⟩ := hsp q r0 hq
    obtain ⟨r', e', d1, d2, _, d4⟩ := urel q r2 e2
    refine ⟨r', e', d2.trans c1, d1.trans c5, fun hne => ?_⟩
    exact (d4 hne).2.2.1.trans c2
  · have hidx2 := insertRow_idxOk E hidx k hk (freshRow (k : Int) text) rfl
    rw [editorUpdateRow_frame _ _ _ _ _ _ hidx2 h1 q hq]
    have hq0 : q < (E.row.take k ++ [freshRow (k : Int) text] ++ E.row.drop k).length := by
      have hk1 : k ≤ E.row.length := hk
      rw [insertRow_slot_length _ _ _ hk]; omega
    obtain ⟨r2, e2, _, _, _, _, _, c6⟩ := hsp q _ (List.getElem?_eq_getElem hq0)
    rw [e2, c6 (by omega), ← List.getElem?_eq_getElem hq0, getElem?_take_cons_drop _ _ _ hk,
      if_pos hq]

/-! ## Lemmas: find -/

theorem strstrFrom_some (needle : List Nat) :
    ∀ (l : List Nat) (off k : Nat), strstrFrom needle l off = some k →
      ∃ j, k = off + j ∧ FirstOcc l needle j := by
  intro l
  induction l with
  | nil =>
    intro off k h
    unfold strstrFrom at h
    split at h
    · rename_i hp
      refine ⟨0, by simpa using (Option.some.inj h).symm, Nat.le_refl _, ?_, fun j hj => by omega⟩
      unfold matchesAt
      simpa using hp
    · exact absurd h (by simp)
  | cons c cs ih =>
    intro off k h
    unfold strstrFrom at h
    split at h
    · rename_i hp
      refine ⟨0, by simpa using (Option.some.inj h).symm, Nat.zero_le _, ?_, fun j hj => by omega⟩
      unfold matchesAt
      simpa using hp
    · rename_i hp
      obtain ⟨j, hj1, hj2, hj3, hj4⟩ := ih (off + 1) k h
      refine ⟨j + 1, by omega, by simp only [List.length_cons]; omega, ?_, fun j' hj' => ?_⟩
      · unfold matchesAt at hj3 ⊢
        simpa using hj3
      · cases j' with
        | zero =>
          show needle.isPrefixOf (c :: cs) = false
          exact (Bool.not_eq_true _).mp hp
        | succ j'' =>
          have := hj4 j'' (by omega)
          unfold matchesAt at this ⊢
          simpa using this

theorem strstrFrom_none (needle : List Nat) :
    ∀ (l : List Nat) (off : Nat), strstrFrom needle l off = none →
      ∀ j, matchesAt l j needle = false := by
  intro l
  induction l with
  | nil =>
    intro off h j
    unfold strstrFrom at h
    split at h
    · exact absurd h (by simp)
    · rename_i hp
      unfold matchesAt
      rw [List.drop_nil]
      exact (Bool.not_eq_true _).mp hp
  | cons c cs ih =>
    intro off h j
    unfold strstrFrom at h
    split at h
    · exact absurd h (by simp)
    · rename_i hp
      cases j with
      | zero =>
        show needle.isPrefixOf (c :: cs) = false
        exact (Bool.not_eq_true _).mp hp
      | succ j' =>
        have := ih (off + 1) h j'
        unfold matchesAt at this ⊢
        simpa using this

theorem strstr_some {hay needle : List Nat} {off : Nat} (h : strstr hay needle = some off) :
    FirstOcc (cstr hay) (cstr needle) off := by
  obtain ⟨j, hj, hocc⟩ := strstrFrom_some _ _ _ _ h
  rw [Nat.zero_add] at hj
  rw [hj]
  exact hocc

theorem strstr_none {hay needle : List Nat} (h : strstr hay needle = none) :
    ∀ j, matchesAt (cstr hay) j (cstr needle) = false :=
  strstrFrom_none _ _ _ h

theorem firstOcc_unique {text pat : List Nat} {a b : Nat} (ha : FirstOcc text pat a)
    (hb : FirstOcc text pat b) : a = b := by
  by_contra hne
  rcases Nat.lt_or_gt_of_ne hne with h | h
  · have := hb.2.2 a h
    rw [ha.2.1] at this
    exact absurd this (by simp)
  · have := ha.2.2 b h
    rw [hb.2.1] at this
    exact absurd this (by simp)

theorem strstr_eq_some_iff (hay needle : List Nat) (off : Nat) :
    strstr hay needle = some off ↔ FirstOcc (cstr hay) (cstr needle) off := by
  constructor
  · exact strstr_some
  · intro h
    cases hs : strstr hay needle with
    | none =>
      have := strstr_none hs off
      rw [h.2.1] at this
      exact absurd this (by simp)
    | some k => rw [firstOcc_unique (strstr_some hs) h]

theorem strstr_eq_none_iff (hay needle : List Nat) :
    strstr hay needle = none ↔ ∀ j, matchesAt (cstr hay) j (cstr needle) = false := by
  constructor
  · exact strstr_none
  · intro h
    cases hs : strstr hay needle with
    | none => rfl
    | some k =>
      have := (strstr_some hs).2.1
      rw [h k] at this
      exact absurd this (by simp)

theorem find_wrap (n : Nat) (hn : 0 < n) (c : Int) (h1 : -1 ≤ c) (h2 : c < (n : Int)) :
    (if c + 1 = -1 then (n : Int) - 1 else if c + 1 = (n : Int) then 0 else c + 1) =
      ((circOrder c n 0 : Nat) : Int) := by
  unfold circOrder
  rw [if_neg (by omega), Nat.add_zero]
  by_cases h : c + 1 = (n : Int)
  · rw [if_pos h]
    have e : (c + 1).toNat = n := by omega
    rw [e, Nat.mod_self]
    rfl
  · rw [if_neg h]
    have e : (c + 1).toNat < n := by omega
    rw [Nat.mod_eq_of_lt e]
    omega

theorem circOrder_lt (m : Int) (n i : Nat) (hn : 0 < n) : circOrder m n i < n :=
  Nat.mod_lt _ hn

theorem circOrder_step (n : Nat) (c : Int) (i : Nat) :
    circOrder ((circOrder c n 0 : Nat) : Int) n i = circOrder c n (i + 1) := by
  unfold circOrder
  rw [Nat.add_zero]
  have e : ((((c + 1).toNat % n : Nat) : Int) + 1).toNat = (c + 1).toNat % n + 1 := by
    omega
  rw [e, Nat.add_assoc, Nat.mod_add_mod]
  congr 1
  omega

theorem findLoop_forward_none (query : List Nat) (rows : List erow) (n : Nat)
    (hn : n = rows.length) (hpos : 0 < n) (k : Nat) :
    ∀ (c : Int), -1 ≤ c → c < (n : Int) →
      (∀ i, i < k → ∀ row, rows[circOrder c n i]? = some row →
        strstr row.render query = none) →
      findLoop query 1 n rows k c = some none := by
  induction k with
  | zero => intro c _ _ _; rfl
  | succ k ih =>
    intro c h1 h2 hno
    unfold findLoop
    simp only
    rw [find_wrap n hpos c h1 h2, rowAt_natCast]
    have hlt := circOrder_lt c n 0 hpos
    rw [List.getElem?_eq_getElem (by omega)]
    simp only
    rw [hno 0 (by omega) _ (List.getElem?_eq_getElem (by omega))]
    simp only
    apply ih _ (by omega) (by omega)
    intro i hi row hrow
    rw [circOrder_step] at hrow
    exact hno (i + 1) (by omega) row hrow

theorem findLoop_forward_hit (query : List Nat) (rows : List erow) (n : Nat)
    (hn : n = rows.length) (hpos : 0 < n) (k : Nat) :
    ∀ (c : Int) (i : Nat) (row : erow) (off : Nat), -1 ≤ c → c < (n : Int) → i < k →
      (∀ j, j < i → ∀ row, rows[circOrder c n j]? = some row →
        strstr row.render query = none) →
      rows[circOrder c n i]? = some row → strstr row.render query = some off →
      findLoop query 1 n rows k c = some (some (circOrder c n i, off)) := by
  induction k with
  | zero => intro c i row off _ _ hi; omega
  | succ k ih =>
    intro c i row off h1 h2 hi hno hrow hoff
    unfold findLoop
    simp only
    rw [find_wrap n hpos c h1 h2, rowAt_natCast]
    have hlt := circOrder_lt c n 0 hpos
    cases i with
    | zero =>
      rw [hrow]
      simp only
      rw [hoff]
      simp
    | succ i =>
      rw [List.getElem?_eq_getElem (by omega)]
      simp only
      rw [hno 0 (by omega) _ (List.getElem?_eq_getElem (by omega))]
      simp only
      rw [← circOrder_step] at hrow ⊢
      apply ih _ i row off (by omega) (by omega) (by omega) _ hrow hoff
      intro j hj row' hrow'
      rw [circOrder_step] at hrow'
      exact hno (j + 1) (by omega) row' hrow'

theorem circOrder_bijective (m : Int) (n : Nat) (hn : 0 < n) (r : Nat) (hr : r < n) :
    ∃ i, i < n ∧ circOrder m n i = r ∧ ∀ j, j < n → circOrder m n j = r → j = i := by
  unfold circOrder
  generalize (m + 1).toNat = s
  refine ⟨(r + (n - s % n)) % n, Nat.mod_lt _ hn, ?_, ?_⟩
  · have hs : s % n < n := Nat.mod_lt _ hn
    rw [Nat.add_mod_mod, ← Nat.mod_add_mod, ← Nat.add_assoc]
    have e : s % n + r + (n - s % n) = r + n := by omega
    rw [e, Nat.add_mod_right, Nat.mod_eq_of_lt hr]
  · intro j hj hjr
    have hs : s % n < n := Nat.mod_lt _ hn
    have h1 : (s + j) % n = (s % n + j) % n := (Nat.mod_add_mod s n j).symm
    rw [h1] at hjr
    by_cases hc : s % n + j < n
    · rw [Nat.mod_eq_of_lt hc] at hjr
      have e : r + (n - s % n) = j + n := by omega
      rw [e, Nat.add_mod_right, Nat.mod_eq_of_lt hj]
    · have e2 : s % n + j = (s % n + j - n) + n := by omega
      rw [e2, Nat.add_mod_right, Nat.mod_eq_of_lt (by omega)] at hjr
      have e : r + (n - s % n) = j := by omega
      rw [e, Nat.mod_eq_of_lt hj]

theorem memcpyHl_full (dst src : List Nat) (n : Nat) (h1 : src.length = n) (h2 : dst.length = n) :
    memcpyHl dst src n = some src := by
  unfold memcpyHl
  rw [if_pos (by omega), List.take_of_length_le (by omega), List.drop_of_length_le (by omega),
    List.append_nil]

theorem findRestore_eq (rows : List erow) (F : FindState) (hinv : LenInv rows)
    (hs : SavedOk rows F) : findRestore rows F = some (restoredRows rows F) := by
  unfold findRestore restoredRows
  cases hsv : F.saved_hl with
  | none => rfl
  | some saved =>
    obtain ⟨row, hrow, hlen⟩ := hs saved hsv
    have hl := ((lenInv_iff rows).mp hinv _ _ hrow).2
    simp only [hrow]
    rw [memcpyHl_full _ _ _ hlen hl]
    simp only [Option.map_some', Option.some.injEq]
    apply List.ext_getElem?
    intro q
    rw [List.getElem?_set, List.getElem?_modify]
    by_cases hq : F.saved_hl_line = q
    · rw [if_pos hq, if_pos (getElem?_lt hrow), ← hq, hrow]
      simp
    · rw [if_neg hq]
      cases rows[q]? with
      | none => rfl
      | some r => simp [hq]

theorem restoredRows_length (rows : List erow) (F : FindState) :
    (restoredRows rows F).length = rows.length := by
  unfold restoredRows
  cases F.saved_hl with
  | none => rfl
  | some saved => simp only [List.length_modify]

theorem restoredRows_lenInv (rows : List erow) (F : FindState) (hinv : LenInv rows)
    (hs : SavedOk rows F) : LenInv (restoredRows rows F) := by
  unfold restoredRows
  cases hsv : F.saved_hl with
  | none => exact hinv
  | some saved =>
    obtain ⟨row, hrow, hlen⟩ := hs saved hsv
    simp only
    rw [lenInv_iff]
    intro q r hq
    rw [List.getElem?_modify] at hq
    cases hr : rows[q]? with
    | none => rw [hr] at hq; exact absurd hq (by simp)
    | some r0 =>
      rw [hr] at hq
      simp only [Option.map_eq_map, Option.map_some', Option.some.injEq] at hq
      have h0 := (lenInv_iff rows).mp hinv q r0 hr
      by_cases hql : F.saved_hl_line = q
      · rw [if_pos hql] at hq
        rw [← hql, hrow] at hr
        have hr := Option.some.inj hr
        subst hr
        rw [← hq]
        exact ⟨h0.1, hlen⟩
      · rw [if_neg hql] at hq
        rw [← hq]
        exact h0

theorem cstr_length_le (l : List Nat) : (cstr l).length ≤ l.length :=
  (List.takeWhile_prefix _).length_le

theorem find_memset_ok (row : erow) (query : List Nat) (off : Nat) (hrow : LenRow row)
    (hocc : FirstOcc (cstr row.render) (cstr query) off) :
    memsetHl row.hl off (strlen query) HL_MATCH =
      some (row.hl.take off ++ List.replicate (strlen query) HL_MATCH ++
        row.hl.drop (off + strlen query)) := by
  apply memsetHl_of_le
  have h1 := matchesAt_le hocc.2.1 hocc.1
  have h2 := cstr_length_le row.render
  have h3 := hrow.2
  unfold erow.rsize at h3
  unfold strlen
  omega

theorem savedOk_findAtLast : SavedOk docC1.row findAtLast := by
  intro saved h
  refine ⟨_, rfl, ?_⟩
  rw [← Option.some.inj h]
  rfl

/-! ## Lemmas: row deletion and the edits of one row -/

theorem editorDelRow_spec (E : editorConfig) (k : Nat) (hidx : IdxOk E.row)
    (hk : k < E.numrows) :
    (editorDelRow E (k : Int)).numrows + 1 = E.numrows ∧
      (editorDelRow E (k : Int)).row.map (fun r => (r.chars, r.render, r.hl, r.hl_open_comment)) =
        (E.row.take k ++ E.row.drop (k + 1)).map
          (fun r => (r.chars, r.render, r.hl, r.hl_open_comment)) ∧
      (∀ (q : Nat) (r : erow), E.row[q]? = some r → q < k →
        (editorDelRow E (k : Int)).row[q]? = some r) ∧
      (∀ (q : Nat) (r : erow), E.row[q + 1]? = some r → k ≤ q →
        ∃ r', (editorDelRow E (k : Int)).row[q]? = some r' ∧ r'.idx = r.idx - 1 ∧
          r'.chars = r.chars ∧ r'.render = r.render ∧ r'.hl = r.hl ∧
          r'.hl_open_comment = r.hl_open_comment) ∧
      IdxOk (editorDelRow E (k : Int)).row := by
  have hk1 : k < E.row.length := hk
  have hl0 : (E.row.eraseIdx k).length + 1 = E.numrows := by
    unfold editorConfig.numrows
    rw [List.length_eraseIdx, if_pos hk1]
    omega
  obtain ⟨hl, hsp⟩ := delRowShift_spec E.rowoff E.screenrows E.numrows k (E.row.eraseIdx k)
    hl0 hk
  have hE : (editorDelRow E (k : Int)).row =
      delRowShift E.rowoff E.screenrows E.numrows k (E.row.eraseIdx k) := by
    unfold editorDelRow
    rw [if_neg (by omega)]
    simp only [Int.toNat_ofNat]
  have hnum : (editorDelRow E (k : Int)).numrows = (editorDelRow E (k : Int)).row.length := rfl
  rw [hnum, hE]
  refine ⟨hl, ?_, ?_, ?_, ?_⟩
  · rw [← List.eraseIdx_eq_take_drop_succ]
    apply List.ext_getElem?
    intro q
    rw [List.getElem?_map, List.getElem?_map]
    by_cases hq : q < (E.row.eraseIdx k).length
    · obtain ⟨r', e', c1, c2, c3, c4, _⟩ := hsp q _ (List.getElem?_eq_getElem hq)
      rw [e', List.getElem?_eq_getElem hq]
      simp only [Option.map_some', c1, c2, c3, c4]
    · rw [List.getElem?_eq_none (by omega), List.getElem?_eq_none (by omega)]
  · intro q r hq hqk
    have h0 : (E.row.eraseIdx k)[q]? = some r := by
      rw [List.getElem?_eraseIdx, if_pos hqk]
      exact hq
    obtain ⟨r', e', _, _, _, _, _, c6⟩ := hsp q r h0
    rw [e', c6 hqk]
  · intro q r hq hqk
    have h0 : (E.row.eraseIdx k)[q]? = some r := by
      rw [List.getElem?_eraseIdx, if_neg (by omega)]
      exact hq
    obtain ⟨r', e', c1, c2, c3, c4, c5, _⟩ := hsp q r h0
    rw [if_pos hqk] at c5
    exact ⟨r', e', c5, c1, c2, c3, c4⟩
  · intro q r' hq
    have hq0 : q < (E.row.eraseIdx k).length := by
      have := getElem?_lt hq
      omega
    have h0 := List.getElem?_eq_getElem hq0
    obtain ⟨r1, e1, _, _, _, _, c5, _⟩ := hsp q _ h0
    rw [hq] at e1
    have e1 := Option.some.inj e1
    subst e1
    rw [c5]
    rw [List.getElem?_eraseIdx] at h0
    by_cases h1 : q < k
    · rw [if_pos h1] at h0
      rw [if_neg (by omega)]
      exact hidx q _ h0
    · rw [if_neg h1] at h0
      rw [if_pos (by omega)]
      have := hidx (q + 1) _ h0
      omega

theorem updRel_idxOk {p : Nat} {rows rows' : List erow} (h : UpdRel p rows rows')
    (hidx : IdxOk rows) : IdxOk rows' := by
  intro q r' hq
  have hq1 : q < rows.length := by rw [← h.1]; exact getElem?_lt hq
  obtain ⟨r1, e1, h1, _⟩ := h.2 q rows[q] (List.getElem?_eq_getElem hq1)
  rw [hq] at e1
  rw [Option.some.inj e1, h1]
  exact hidx q _ (List.getElem?_eq_getElem hq1)

theorem updRel_chars {p : Nat} {rows rows' : List erow} (h : UpdRel p rows rows') (q : Nat) :
    (rows'[q]?).map erow.chars = (rows[q]?).map erow.chars := by
  by_cases hq : q < rows.length
  · obtain ⟨r1, e1, _, h2, _⟩ := h.2 q rows[q] (List.getElem?_eq_getElem hq)
    rw [e1, List.getElem?_eq_getElem hq]
    simp only [Option.map_some', h2]
  · rw [List.getElem?_eq_none (by rw [h.1]; omega), List.getElem?_eq_none (by omega)]

/-- The effect on the document of an edit of the row at `p` that replaces the
row by `row1` and calls `editorUpdateRow`. -/
theorem rowEdit_spec (E : editorConfig) (hidx : IdxOk E.row) (hs : SynOk E.syn) (p : Nat)
    (row row1 : erow) (hrow : E.row[p]? = some row) (hi : row1.idx = row.idx) (fuel : Nat)
    (hf : E.numrows + 1 ≤ fuel) :
    ∃ rows', editorUpdateRow E.syn E.numrows fuel (E.row.set p row1) p = some rows' ∧
      rows'.length = E.row.length ∧ IdxOk rows' ∧
      (∀ q, q < p → rows'[q]? = E.row[q]?) ∧
      ∀ q, (rows'[q]?).map erow.chars =
        if q = p then some row1.chars else (E.row[q]?).map erow.chars := by
  obtain ⟨rows', h⟩ := rowEdit_total E hidx hs p row row1 hrow hi fuel hf
  have hidx1 : IdxOk (E.row.set p row1) := idxOk_set hidx hrow hi
  have hrel := editorUpdateRow_rel _ _ _ _ _ _ h
  refine ⟨rows', h, by rw [hrel.1, List.length_set], updRel_idxOk hrel hidx1, ?_, ?_⟩
  · intro q hq
    rw [editorUpdateRow_frame _ _ _ _ _ _ hidx1 h q hq, List.getElem?_set, if_neg (by omega)]
  · intro q
    rw [updRel_chars hrel q, List.getElem?_set]
    by_cases hqp : q = p
    · rw [if_pos hqp, if_pos hqp.symm, if_pos (getElem?_lt hrow)]
      rfl
    · rw [if_neg hqp, if_neg (fun hh => hqp hh.symm)]

theorem editorRowDelChars_spec (E : editorConfig) (hidx : IdxOk E.row) (hs : SynOk E.syn)
    (p : Nat) (row : erow) (hrow : E.row[p]? = some row) (at_ until_ : Nat)
    (hat : at_ < row.size) (hun : until_ ≤ at_ + 1) (fuel : Nat) (hf : E.numrows + 1 ≤ fuel) :
    ∃ E', editorRowDelChars fuel E p (at_ : Int) (until_ : Int) = some E' ∧
      E'.syn = E.syn ∧ E'.cy = E.cy ∧
      E'.row.length = E.row.length ∧ IdxOk E'.row ∧
      (∀ q, q < p → E'.row[q]? = E.row[q]?) ∧
      ∀ q, (E'.row[q]?).map erow.chars =
        if q = p then some (row.chars.take until_ ++ row.chars.drop (at_ + 1))
        else (E.row[q]?).map erow.chars := by
  obtain ⟨rows', h, h1, h2, h3, h4⟩ := rowEdit_spec E hidx hs p row
    { row with chars := row.chars.take until_ ++ row.chars.drop (at_ + 1) } hrow rfl fuel hf
  refine ⟨{ E with row := rows', dirty := E.dirty + 1 }, ?_, rfl, rfl, h1, h2, h3, h4⟩
  unfold editorRowDelChars
  simp only [hrow]
  rw [if_neg (by omega), if_neg (by omega)]
  simp only [Int.toNat_ofNat]
  rw [h]
  rfl

theorem editorRowAppendString_spec (E : editorConfig) (hidx : IdxOk E.row) (hs : SynOk E.syn)
    (p : Nat) (row : erow) (hrow : E.row[p]? = some row) (s : List Nat) (fuel : Nat)
    (hf : E.numrows + 1 ≤ fuel) :
    ∃ E', editorRowAppendString fuel E p s = some E' ∧
      E'.syn = E.syn ∧ E'.cy = E.cy ∧
      E'.row.length = E.row.length ∧ IdxOk E'.row ∧
      (∀ q, q < p → E'.row[q]? = E.row[q]?) ∧
      ∀ q, (E'.row[q]?).map erow.chars =
        if q = p then some (row.chars ++ s) else (E.row[q]?).map erow.chars := by
  obtain ⟨rows', h, h1, h2, h3, h4⟩ := rowEdit_spec E hidx hs p row
    { row with chars := row.chars ++ s } hrow rfl fuel hf
  refine ⟨{ E with row := rows', dirty := E.dirty + 1 }, ?_, rfl, rfl, h1, h2, h3, h4⟩
  unfold editorRowAppendString
  simp only [hrow]
  rw [h]
  rfl

theorem editorDelRow_fields (E : editorConfig) (at_ : Int) :
    (editorDelRow E at_).syn = E.syn ∧ (editorDelRow E at_).cy = E.cy := by
  unfold editorDelRow
  split <;> exact ⟨rfl, rfl⟩

theorem editorDelRow_chars (E : editorConfig) (k : Nat) (hidx : IdxOk E.row)
    (hk : k < E.numrows) (q : Nat) :
    ((editorDelRow E (k : Int)).row[q]?).map erow.chars =
      if q < k then (E.row[q]?).map erow.chars else (E.row[q + 1]?).map erow.chars := by
  obtain ⟨hn, _, h3, h4, _⟩ := editorDelRow_spec E k hidx hk
  have hn1 : (editorDelRow E (k : Int)).row.length + 1 = E.row.length := hn
  by_cases hq : q < k
  · rw [if_pos hq]
    have hq0 : q < E.row.length := by have : k < E.row.length := hk; omega
    rw [h3 q _ (List.getElem?_eq_getElem hq0) hq, List.getElem?_eq_getElem hq0]
  · rw [if_neg hq]
    by_cases hq1 : q + 1 < E.row.length
    · obtain ⟨r', e', _, c, _⟩ := h4 q _ (List.getElem?_eq_getElem hq1) (by omega)
      rw [e', List.getElem?_eq_getElem hq1]
      simp only [Option.map_some', c]
    · rw [List.getElem?_eq_none (by omega), List.getElem?_eq_none (by omega)]

theorem delRowsLoop_spec (up : Nat) (n : Nat) :
    ∀ (E : editorConfig), IdxOk E.row → up + n < E.numrows →
      (delRowsLoop up n ((up + n : Nat) : Int) E).syn = E.syn ∧
      (delRowsLoop up n ((up + n : Nat) : Int) E).cy = E.cy ∧
      (delRowsLoop up n ((up + n : Nat) : Int) E).row.length + n = E.row.length ∧
      IdxOk (delRowsLoop up n ((up + n : Nat) : Int) E).row ∧
      (∀ q, q ≤ up → (delRowsLoop up n ((up + n : Nat) : Int) E).row[q]? = E.row[q]?) ∧
      ∀ q, ((delRowsLoop up n ((up + n : Nat) : Int) E).row[q]?).map erow.chars =
        if q ≤ up then (E.row[q]?).map erow.chars else (E.row[q + n]?).map erow.chars := by
  induction n with
  | zero =>
    intro E hidx _
    unfold delRowsLoop
    refine ⟨rfl, rfl, rfl, hidx, fun _ _ => rfl, fun q => ?_⟩
    split <;> rfl
  | succ n ih =>
    intro E hidx hlt
    have hk : up + n + 1 < E.numrows := by omega
    unfold delRowsLoop
    rw [if_pos (by omega)]
    have e : (((up + (n + 1) : Nat) : Int) - 1) = ((up + n : Nat) : Int) := by omega
    have e2 : ((up + (n + 1) : Nat) : Int) = ((up + n + 1 : Nat) : Int) := by omega
    rw [e, e2]
    obtain ⟨hn, _, h3, _, h5⟩ := editorDelRow_spec E (up + n + 1) hidx hk
    have hn1 : (editorDelRow E ((up + n + 1 : Nat) : Int)).row.length + 1 = E.row.length := hn
    have hk1 : up + n + 1 < E.row.length := hk
    obtain ⟨a1, a2, a3, a4, a5, a6⟩ := ih (editorDelRow E ((up + n + 1 : Nat) : Int)) h5
      (by unfold editorConfig.numrows; omega)
    obtain ⟨f1, f2⟩ := editorDelRow_fields E ((up + n + 1 : Nat) : Int)
    refine ⟨a1.trans f1, a2.trans f2, by omega, a4, fun q hq => ?_, fun q => ?_⟩
    · rw [a5 q hq]
      have hq0 : q < E.row.length := by omega
      rw [h3 q _ (List.getElem?_eq_getElem hq0) (by omega), List.getElem?_eq_getElem hq0]
    · rw [a6 q]
      by_cases hq : q ≤ up
      · rw [if_pos hq, if_pos hq, editorDelRow_chars E _ hidx hk, if_pos (by omega)]
      · rw [if_neg hq, if_neg hq, editorDelRow_chars E _ hidx hk, if_neg (by omega)]
        congr 2

theorem selScanDown_stop (hl : List Nat) (ne : Bool) (d : Nat) :
    ∀ (t fuel : Nat), d < fuel →
      (∀ x, t < x → x ≤ t + d → ∃ v, hl[x]? = some v ∧ decide (v ≠ HL_MATCH) = ne) →
      (∃ v, hl[t]? = some v ∧ (decide (v ≠ HL_MATCH) ≠ ne ∨ t = 0)) →
      selScanDown hl ne fuel ((t + d : Nat) : Int) = some (t : Int) := by
  induction d with
  | zero =>
    intro t fuel hf _ hstop
    obtain ⟨v, hv, hc⟩ := hstop
    cases fuel with
    | zero => omega
    | succ f =>
      unfold selScanDown hlAt
      rw [if_neg (by omega)]
      simp only [Nat.add_zero, Int.toNat_ofNat, hv]
      rw [if_neg]
      intro hh
      rcases hc with hc | hc
      · exact hc hh.1
      · omega
  | succ d ih =>
    intro t fuel hf hrun hstop
    cases fuel with
    | zero => omega
    | succ f =>
      obtain ⟨v, hv, hc⟩ := hrun (t + (d + 1)) (by omega) (Nat.le_refl _)
      unfold selScanDown hlAt
      rw [if_neg (by omega)]
      simp only [Int.toNat_ofNat, hv]
      rw [if_pos ⟨hc, by omega⟩]
      have e : (((t + (d + 1) : Nat) : Int) - 1) = ((t + d : Nat) : Int) := by omega
      rw [e]
      exact ih t f (by omega) (fun x h1 h2 => hrun x h1 (by omega)) hstop

theorem padTab_nil_of_mod (out : List Nat) : ∀ (fuel : Nat),
    out.length % KILO_TAB_STOP = 0 → padTab fuel out = out := by
  intro fuel h
  cases fuel with
  | zero => rfl
  | succ n =>
    unfold padTab
    rw [if_neg (by omega)]

theorem renderLoop_no_tab (chars : List Nat) (h : TAB ∉ chars) :
    ∀ (out : List Nat), renderLoop chars out = out ++ chars := by
  induction chars with
  | nil => intro out; simp [renderLoop]
  | cons c cs ih =>
    intro out
    have hc : c ≠ TAB := fun hh => h (by rw [hh]; exact List.mem_cons_self _ _)
    have hcs : TAB ∉ cs := fun hh => h (List.mem_cons_of_mem _ hh)
    unfold renderLoop
    rw [if_neg hc, ih hcs]
    simp

theorem getElem?_splice {α : Type} (T : List α) (u d : Nat) (m : α) (hu : u ≤ T.length)
    (q : Nat) :
    (T.take u ++ [m] ++ T.drop (d + 1))[q]? =
      if q < u then T[q]? else if q = u then some m else T[q + d - u]? := by
  have hl : (T.take u).length = u := by rw [List.length_take]; omega
  by_cases h1 : q < u
  · rw [if_pos h1, List.append_assoc, List.getElem?_append_left (by omega),
      List.getElem?_take, if_pos h1]
  · rw [if_neg h1, List.append_assoc, List.getElem?_append_right (by omega), hl]
    by_cases h2 : q = u
    · rw [if_pos h2, h2, Nat.sub_self]
      simp
    · rw [if_neg h2]
      have e : q - u = (q - u - 1) + 1 := by omega
      rw [e, List.singleton_append, List.getElem?_cons_succ, List.getElem?_drop]
      congr 1
      omega

/-! ### Search sessions -/

theorem findLoop_safe (query : List Nat) (rows : List erow) (n : Nat) (hn : n = rows.length)
    (hpos : 0 < n) (dir : Int) (hdir : dir = 1 ∨ dir = -1) (k : Nat) :
    ∀ (c : Int), -1 ≤ c → c < (n : Int) → (dir = -1 → 0 ≤ c) →
      findLoop query dir n rows k c = some none ∨
      ∃ cur off row, findLoop query dir n rows k c = some (some (cur, off)) ∧
        rows[cur]? = some row ∧ strstr row.render query = some off := by
  induction k with
  | zero => intro c _ _ _; exact Or.inl rfl
  | succ k ih =>
    intro c h1 h2 h3
    unfold findLoop
    simp only
    generalize hw : (if c + dir = -1 then (n : Int) - 1
      else if c + dir = (n : Int) then 0 else c + dir) = w
    have hw1 : 0 ≤ w ∧ w < (n : Int) := by
      rw [← hw]
      rcases hdir with hd | hd
      · subst hd
        clear hw ih h3
        split_ifs <;> omega
      · subst hd
        have h0 := h3 rfl
        clear hw ih h3
        split_ifs <;> omega
    have hwn : w = ((w.toNat : Nat) : Int) := by omega
    rw [hwn, rowAt_natCast]
    have hlt : w.toNat < rows.length := by omega
    rw [List.getElem?_eq_getElem hlt]
    simp only
    cases hs : strstr rows[w.toNat].render query with
    | some off =>
      simp only [Int.toNat_ofNat]
      exact Or.inr ⟨_, off, _, rfl, List.getElem?_eq_getElem hlt, hs⟩
    | none =>
      simp only
      exact ih _ (by omega) (by omega) (fun _ => by omega)

theorem lenInv_set {rows : List erow} (hinv : LenInv rows) (p : Nat) (row1 : erow)
    (h1 : LenRow row1) : LenInv (rows.set p row1) := by
  rw [lenInv_iff]
  intro q r hq
  by_cases hqp : q = p
  · subst hqp
    rw [List.getElem?_set] at hq
    simp only [if_true] at hq
    split at hq
    · rw [← Option.some.inj hq]; exact h1
    · exact absurd hq (by simp)
  · exact lenRow_of_set hinv p row1 q r hq hqp

theorem map_hl_set {rows : List erow} {p : Nat} {row : erow} (row1 : erow)
    (hrow : rows[p]? = some row) (hhl : row1.hl = row.hl) : (rows.set p row1).map erow.hl = rows.map erow.hl := by
  apply List.ext_getElem?
  intro q
  rw [List.getElem?_map, List.getElem?_map, List.getElem?_set]
  by_cases hqp : p = q
  · subst hqp
    rw [if_pos rfl, if_pos (getElem?_lt hrow), hrow]
    simp only [Option.map_some', hhl]
  · rw [if_neg hqp]

theorem map_hl_modify_set {rows : List erow} {p : Nat} {row row1 : erow}
    (hrow : rows[p]? = some row) :
    ((rows.set p row1).modify (fun r => { r with hl := row.hl }) p).map erow.hl =
      rows.map erow.hl := by
  apply List.ext_getElem?
  intro q
  rw [List.getElem?_map, List.getElem?_map, List.getElem?_modify, List.getElem?_set]
  by_cases hqp : p = q
  · subst hqp
    rw [if_pos rfl, if_pos (getElem?_lt hrow), hrow]
    simp
  · rw [if_neg hqp]
    cases rows[q]? with
    | none => rfl
    | some r => simp [hqp]

theorem restoredRows_none (rows : List erow) (F : FindState) (h : F.saved_hl = none) :
    restoredRows rows F = rows := by
  unfold restoredRows
  rw [h]

theorem editorFindCallback_step (hl0 : List (List Nat)) (E : editorConfig) (F : FindState)
    (query : List Nat) (key : Nat) (h : FindInv hl0 E F) :
    ∃ E' F', editorFindCallback E F query key = some (E', F') ∧ FindInv hl0 E' F' ∧
      (key = 13 ∨ key = ESC → E'.row.map erow.hl = hl0 ∧ F'.last_match = -1 ∧
        F'.direction = 1 ∧ F'.saved_hl = none) := by
  obtain ⟨hinv, hsaved, hcy, hm1, hm2, hrest⟩ := h
  have hnum : E.numrows = E.row.length := rfl
  have hlen1 := restoredRows_length E.row F
  have hinv1 := restoredRows_lenInv E.row F hinv hsaved
  unfold editorFindCallback
  rw [findRestore_eq E.row F hinv hsaved]
  simp only
  by_cases hk : key = 13 ∨ key = ESC
  · rw [if_pos hk]
    have hlt : E.cy < (restoredRows E.row F).length := by omega
    rw [List.getElem?_eq_getElem hlt]
    simp only
    have hget := List.getElem?_eq_getElem hlt
    have hmap := map_hl_set { (restoredRows E.row F)[E.cy] with damaged := true } hget rfl
    refine ⟨_, _, rfl, ⟨?_, ?_, ?_, ?_, ?_, ?_⟩, fun _ => ⟨?_, rfl, rfl, rfl⟩⟩
    · have hr : LenRow (restoredRows E.row F)[E.cy] := (lenInv_iff _).mp hinv1 _ _ hget
      exact lenInv_set hinv1 _ _ hr
    · intro saved hs; exact absurd hs (by simp)
    · show E.cy < ((restoredRows E.row F).set _ _).length
      rw [List.length_set]; exact hlt
    · show (-1 : Int) ≤ -1; omega
    · show (-1 : Int) < _; omega
    · rw [restoredRows_none _ _ rfl]
      exact hmap.trans hrest
    · exact hmap.trans hrest
  · rw [if_neg hk]
    generalize hlm : (if key = ARROW_RIGHT ∨ key = ARROW_DOWN then F.last_match
      else if key = ARROW_LEFT ∨ key = ARROW_UP then F.last_match else -1) = lm
    generalize hdr : (if lm = -1 then (1 : Int)
      else if key = ARROW_RIGHT ∨ key = ARROW_DOWN then 1
      else if key = ARROW_LEFT ∨ key = ARROW_UP then -1 else 1) = dir
    have hlm1 : -1 ≤ lm ∧ lm < (E.numrows : Int) := by
      rw [← hlm]
      split_ifs
      · exact ⟨hm1, hm2⟩
      · exact ⟨hm1, hm2⟩
      · omega
    have hdir : (dir = 1 ∨ dir = -1) ∧ (dir = -1 → 0 ≤ lm) := by
      rw [← hdr]
      have h0 : lm = -1 ∨ 0 ≤ lm := by omega
      clear hdr hlm hk
      split_ifs with c1 c2 c3
      · exact ⟨Or.inl rfl, fun h => absurd h (by decide)⟩
      · exact ⟨Or.inl rfl, fun h => absurd h (by decide)⟩
      · exact ⟨Or.inr rfl, fun _ => h0.resolve_left c1⟩
      · exact ⟨Or.inl rfl, fun h => absurd h (by decide)⟩
    have hpos : 0 < E.numrows := by omega
    have hsafe := findLoop_safe query (restoredRows E.row F) E.numrows (by omega) hpos dir
      hdir.1 E.numrows lm hlm1.1 hlm1.2 hdir.2
    rcases hsafe with hnone | ⟨cur, off, row, hsome, hrow, hstr⟩
    · rw [hnone]
      simp only
      refine ⟨_, _, rfl, ⟨hinv1, ?_, ?_, hlm1.1, ?_, ?_⟩, fun hk' => absurd hk' hk⟩
      · intro saved hs; exact absurd hs (by simp)
      · show E.cy < (restoredRows E.row F).length
        omega
      · show lm < (((restoredRows E.row F).length : Nat) : Int)
        omega
      · rw [restoredRows_none _ _ rfl]
        exact hrest
    · rw [hsome]
      simp only
      rw [hrow]
      simp only
      have hlr := (lenInv_iff _).mp hinv1 _ _ hrow
      rw [if_pos (by rw [hlr.2])]
      rw [find_memset_ok row query off hlr (strstr_some hstr)]
      simp only [Option.map_some']
      have hcur := getElem?_lt hrow
      have hmlen := length_memset_result row.hl off (strlen query) HL_MATCH (by
        have h1 := matchesAt_le (strstr_some hstr).2.1 (strstr_some hstr).1
        have h2 := cstr_length_le row.render
        have h3 := hlr.2
        unfold erow.rsize at h3
        unfold strlen
        omega)
      generalize (List.take off row.hl ++ List.replicate (strlen query) HL_MATCH ++
        List.drop (off + strlen query) row.hl) = hl1 at hmlen ⊢
      refine ⟨_, _, rfl, ⟨?_, ?_, ?_, ?_, ?_, ?_⟩, fun hk' => absurd hk' hk⟩
      · apply lenInv_set hinv1
        exact ⟨hlr.1, hmlen.trans hlr.2⟩
      · intro saved hs
        refine ⟨{ row with hl := hl1 }, ?_, ?_⟩
        · show ((restoredRows E.row F).set cur _)[cur]? = some _
          rw [List.getElem?_set, if_pos rfl, if_pos hcur]
        · have hs := Option.some.inj hs
          rw [← hs]
          show (row.hl.take row.rsize).length = row.rsize
          rw [List.length_take, hlr.2, Nat.min_self]
      · show cur < ((restoredRows E.row F).set cur _).length
        rw [List.length_set]; exact hcur
      · show (-1 : Int) ≤ (cur : Int)
        omega
      · show (cur : Int) < ((((restoredRows E.row F).set cur _).length : Nat) : Int)
        rw [List.length_set]; omega
      · rw [← hrest]
        have htake : row.hl.take row.rsize = row.hl := List.take_of_length_le (by rw [hlr.2])
        rw [htake]
        exact map_hl_modify_set hrow

theorem findRun_cons (st : editorConfig × FindState) (call : List Nat × Nat)
    (rest : List (List Nat × Nat)) :
    findRun st (call :: rest) =
      (editorFindCallback st.1 st.2 call.1 call.2).bind fun st' => findRun st' rest := rfl

theorem findRun_inv (hl0 : List (List Nat)) (calls : List (List Nat × Nat)) :
    ∀ (E : editorConfig) (F : FindState), FindInv hl0 E F →
      ∃ E' F', findRun (E, F) calls = some (E', F') ∧ FindInv hl0 E' F' := by
  induction calls with
  | nil => intro E F h; exact ⟨E, F, rfl, h⟩
  | cons call rest ih =>
    intro E F h
    obtain ⟨E1, F1, h1, hinv1, _⟩ := editorFindCallback_step hl0 E F call.1 call.2 h
    obtain ⟨E2, F2, h2, hinv2⟩ := ih E1 F1 hinv1
    refine ⟨E2, F2, ?_, hinv2⟩
    rw [findRun_cons, h1]
    exact h2

theorem findRun_append (calls1 calls2 : List (List Nat × Nat)) :
    ∀ (st : editorConfig × FindState),
      findRun st (calls1 ++ calls2) = (findRun st calls1).bind fun st' => findRun st' calls2 := by
  induction calls1 with
  | nil => intro st; rfl
  | cons call rest ih =>
    intro st
    rw [List.cons_append, findRun_cons, findRun_cons]
    cases editorFindCallback st.1 st.2 call.1 call.2 with
    | none => rfl
    | some st1 => exact ih st1

/-- A search session that starts with the cursor on a row of a document
satisfying the length invariant and ends with an Enter or Escape invocation
returns, with every highlight array as it was before the session and the
static state of the callback reset. -/
theorem find_session_restores (E : editorConfig) (calls : List (List Nat × Nat))
    (query : List Nat) (key : Nat) (hkey : key = 13 ∨ key = ESC) (hinv : LenInv E.row)
    (hcy : E.cy < E.numrows) :
    ∃ E' F', findRun (E, findInit) (calls ++ [(query, key)]) = some (E', F') ∧
      E'.row.map erow.hl = E.row.map erow.hl ∧
      F'.last_match = -1 ∧ F'.direction = 1 ∧ F'.saved_hl = none := by
  have h0 : FindInv (E.row.map erow.hl) E findInit := by
    refine ⟨hinv, ?_, hcy, ?_, ?_, ?_⟩
    · intro saved hs; exact absurd hs (by simp [findInit])
    · show (-1 : Int) ≤ -1; omega
    · show (-1 : Int) < _; omega
    · rw [restoredRows_none _ _ rfl]
  obtain ⟨E1, F1, h1, hinv1⟩ := findRun_inv _ calls E findInit h0
  obtain ⟨E2, F2, h2, _, hfin⟩ := editorFindCallback_step _ E1 F1 query key hinv1
  refine ⟨E2, F2, ?_, hfin hkey⟩
  rw [findRun_append, h1]
  show (editorFindCallback E1 F1 query key).bind _ = _
  rw [h2]
  rfl

/-! ### Short escape sequences -/

/-- The short sequences that end before the `;`: `ESC` alone, `ESC [` alone and
`ESC [ d` alone give the bare escape key, whatever `seq[3]`, `seq[4]` hold. -/
theorem editorReadKey_short_prefix (junk3 junk4 d : Nat) :
    editorReadKey junk3 junk4 [ReadResult.byte ESC] = some (ESC, []) ∧
    editorReadKey junk3 junk4 [ReadResult.byte ESC, ReadResult.byte 91] = some (ESC, []) ∧
    (48 ≤ d → d ≤ 57 →
      editorReadKey junk3 junk4 [ReadResult.byte ESC, ReadResult.byte 91, ReadResult.byte d] =
        some (ESC, [])) := by
  refine ⟨rfl, rfl, fun h1 h2 => ?_⟩
  simp only [editorReadKey, waitKey, readByte, if_true]
  rw [if_pos ⟨h1, h2⟩]

/-! ### The mapper as a monotone function -/

theorem cxToRxLoop_succ : ∀ (k : Nat) (l : List Nat) (cur : Nat),
    cxToRxLoop l (k + 1) cur = advanceRx (l.getD k 0) (cxToRxLoop l k cur) := by
  intro k
  induction k with
  | zero =>
    intro l cur
    cases l <;> simp [cxToRxLoop]
  | succ k ih =>
    intro l cur
    cases l with
    | nil =>
      have h := ih [] (advanceRx 0 cur)
      simpa [cxToRxLoop] using h
    | cons c cs =>
      have h := ih cs (advanceRx c cur)
      simpa [cxToRxLoop] using h

theorem cxToRxLoop_lt_succ (l : List Nat) (k cur : Nat) :
    cxToRxLoop l k cur < cxToRxLoop l (k + 1) cur := by
  rw [cxToRxLoop_succ]
  exact lt_advanceRx _ _

theorem cxToRxLoop_mono (l : List Nat) (cur : Nat) (a : Nat) :
    ∀ (d : Nat), cxToRxLoop l a cur + d ≤ cxToRxLoop l (a + d) cur := by
  intro d
  induction d with
  | zero => exact Nat.le_refl _
  | succ d ih =>
    have h := cxToRxLoop_lt_succ l (a + d) cur
    have e : a + (d + 1) = a + d + 1 := rfl
    rw [e]
    omega

theorem cxToRxLoop_lt_of_lt (l : List Nat) (cur a b : Nat) (h : a < b) :
    cxToRxLoop l a cur < cxToRxLoop l b cur := by
  have h1 := cxToRxLoop_mono l cur a (b - a)
  rw [Nat.add_sub_cancel' (Nat.le_of_lt h)] at h1
  omega

theorem cxToRxLoop_le_of_le (l : List Nat) (cur a b : Nat) (h : a ≤ b) :
    cxToRxLoop l a cur ≤ cxToRxLoop l b cur := by
  have h1 := cxToRxLoop_mono l cur a (b - a)
  rw [Nat.add_sub_cancel' h] at h1
  omega

/-- What the loop of `editorRowRxToCx` returns, entered with `cur_rx <= rx`:
the end of the buffer when no character reaches past `rx`, else the first
character `k` whose cells reach past `rx`, or `k + 1` when `rx` is strictly
nearer to the end of its cells than to their start. -/
theorem rxToCxLoop_spec (rx : Nat) : ∀ (l : List Nat) (cx cur : Nat), cur ≤ rx →
    (cxToRxLoop l l.length cur ≤ rx ∧ rxToCxLoop rx l cx cur = cx + l.length) ∨
    ∃ k, k < l.length ∧ cxToRxLoop l k cur ≤ rx ∧ rx < cxToRxLoop l (k + 1) cur ∧
      rxToCxLoop rx l cx cur =
        cx + (if rx - cxToRxLoop l k cur > cxToRxLoop l (k + 1) cur - rx then k + 1 else k) := by
  intro l
  induction l with
  | nil =>
    intro cx cur h
    exact Or.inl ⟨h, rfl⟩
  | cons c cs ih =>
    intro cx cur h
    unfold rxToCxLoop
    simp only
    by_cases hgt : advanceRx c cur > rx
    · right
      have e0 : cxToRxLoop (c :: cs) 0 cur = cur := by simp [cxToRxLoop]
      have e1 : cxToRxLoop (c :: cs) (0 + 1) cur = advanceRx c cur := by simp [cxToRxLoop]
      refine ⟨0, by simp, by rw [e0]; exact h, by rw [e1]; exact hgt, ?_⟩
      rw [if_pos hgt, e0, e1]
      by_cases hc : (rx : Int) - (cur : Int) > (advanceRx c cur : Int) - (rx : Int)
      · rw [if_pos hc, if_pos (by omega)]
      · rw [if_neg hc, if_neg (by omega)]
        rfl
    · rw [if_neg hgt]
      rcases ih (cx + 1) (advanceRx c cur) (by omega) with ⟨h1, h2⟩ | ⟨k, hk, h1, h2, h3⟩
      · left
        refine ⟨h1, ?_⟩
        rw [h2, List.length_cons]
        omega
      · right
        refine ⟨k + 1, by simp [hk], ?_, ?_, ?_⟩
        · simpa [cxToRxLoop] using h1
        · simpa [cxToRxLoop] using h2
        rw [h3]
        have e0 : cxToRxLoop (c :: cs) (k + 1) cur = cxToRxLoop cs k (advanceRx c cur) := by
          simp [cxToRxLoop]
        have e1 : cxToRxLoop (c :: cs) (k + 1 + 1) cur =
            cxToRxLoop cs (k + 1) (advanceRx c cur) := by
          simp [cxToRxLoop]
        rw [e0, e1]
        split_ifs <;> omega

/-! ### The propagation as a sequence of passes -/

theorem editorUpdateSyntax_succ (synt : Option editorSyntax) (numrows fuel : Nat)
    (rows : List erow) (p : Nat) :
    editorUpdateSyntax synt numrows (fuel + 1) rows p =
      match rows[p]? with
      | none => none
      | some row =>
        match synt with
        | none => some (rows.set p { row with hl := List.replicate row.rsize HL_NORMAL })
        | some s =>
          match highlightRow s rows row with
          | none => none
          | some st =>
            if (row.hl_open_comment != st.in_comment) = true ∧ row.idx + 1 < (numrows : Int) then
              if row.idx + 1 < 0 then none
              else editorUpdateSyntax synt numrows fuel
                (rows.set p { row with hl := st.hl, hl_open_comment := st.in_comment })
                (row.idx + 1).toNat
            else some (rows.set p { row with hl := st.hl, hl_open_comment := st.in_comment }) :=
  rfl

theorem editorUpdateSyntax_pass (synt : Option editorSyntax) (numrows fuel : Nat)
    (rows : List erow) (p : Nat) (hidx : IdxOk rows) :
    editorUpdateSyntax synt numrows (fuel + 1) rows p =
      (synPass synt rows p).bind fun r =>
        if r.2 = true ∧ p + 1 < numrows then editorUpdateSyntax synt numrows fuel r.1 (p + 1)
        else some r.1 := by
  rw [editorUpdateSyntax_succ]
  unfold synPass
  cases hrow : rows[p]? with
  | none => rfl
  | some row =>
    have hi := hidx p row hrow
    cases synt with
    | none => simp
    | some s =>
      simp only
      cases highlightRow s rows row with
      | none => rfl
      | some st =>
        simp only [Option.some_bind, hi]
        have e : ((p : Int) + 1 < (numrows : Int)) ↔ (p + 1 < numrows) := by omega
        have e2 : ((p : Int) + 1).toNat = p + 1 := by omega
        simp only [e, e2]
        split_ifs with h1 h2
        · omega
        · rfl
        · rfl

theorem synPass_spec (synt : Option editorSyntax) (hs : SynOk synt) (rows : List erow)
    (p : Nat) (hidx : IdxOk rows) (hp : p < rows.length) :
    ∃ r, synPass synt rows p = some r ∧ r.1.length = rows.length ∧ IdxOk r.1 ∧
      ∀ q, q ≠ p → r.1[q]? = rows[q]? := by
  unfold synPass
  rw [List.getElem?_eq_getElem hp]
  have hrow := List.getElem?_eq_getElem hp
  cases synt with
  | none =>
    refine ⟨_, rfl, by simp, idxOk_set hidx hrow rfl, fun q hq => ?_⟩
    simp only
    rw [List.getElem?_set, if_neg (fun h => hq h.symm)]
  | some s =>
    obtain ⟨st, hst⟩ := highlightRow_total (hs s rfl) hidx hrow
    simp only [hst]
    refine ⟨_, rfl, by simp, idxOk_set hidx hrow rfl, fun q hq => ?_⟩
    simp only
    rw [List.getElem?_set, if_neg (fun h => hq h.symm)]

theorem editorUpdateSyntax_run (synt : Option editorSyntax) (hs : SynOk synt) (fuel : Nat) :
    ∀ (rows : List erow) (k : Nat), IdxOk rows → k < rows.length → rows.length ≤ fuel + k →
      ∃ n rows' changed, editorUpdateSyntax synt rows.length fuel rows k = some rows' ∧
        k + n < rows.length ∧ synRun synt n rows k = some (rows', changed) ∧
        (changed = false ∨ k + n + 1 = rows.length) ∧
        rows'.length = rows.length ∧
        ∀ q, q < k ∨ k + n < q → rows'[q]? = rows[q]? := by
  induction fuel with
  | zero => intro rows k _ h1 h2; omega
  | succ fuel ih =>
    intro rows k hidx hk hf
    obtain ⟨r, hr, hlen, hidx1, hframe⟩ := synPass_spec synt hs rows k hidx hk
    rw [editorUpdateSyntax_pass synt rows.length fuel rows k hidx, hr]
    simp only [Option.some_bind]
    by_cases hc : r.2 = true ∧ k + 1 < rows.length
    · rw [if_pos hc]
      obtain ⟨n, rows', changed, h1, h2, h3, h4, h5, h6⟩ :=
        ih r.1 (k + 1) hidx1 (by omega) (by omega)
      rw [hlen] at h1 h2 h4 h5
      refine ⟨n + 1, rows', changed, h1, by omega, ?_, ?_, h5, fun q hq => ?_⟩
      · show (synPass synt rows k).bind _ = _
        rw [hr]
        simp only [Option.some_bind]
        rw [if_pos hc.1]
        exact h3
      · rcases h4 with h4 | h4
        · exact Or.inl h4
        · exact Or.inr (by omega)
      · rw [h6 q (by omega)]
        exact hframe q (by omega)
    · rw [if_neg hc]
      refine ⟨0, r.1, r.2, rfl, by omega, hr, ?_, hlen, fun q hq => hframe q (by omega)⟩
      by_cases hb : r.2 = true
      · right
        have : ¬ (k + 1 < rows.length) := fun h => hc ⟨hb, h⟩
        omega
      · left
        simpa using hb

/-! ### Row insertion, cursor motion and the newline -/

theorem editorInsertRow_spec (E : editorConfig) (hidx : IdxOk E.row) (hs : SynOk E.syn)
    (k : Nat) (hk : k ≤ E.numrows) (text : List Nat) (fuel : Nat) (hf : E.numrows + 1 ≤ fuel) :
    ∃ E', editorInsertRow fuel E (k : Int) text = some E' ∧
      E'.syn = E.syn ∧ E'.cx = E.cx ∧ E'.cy = E.cy ∧ E'.dirty = E.dirty + 1 ∧
      E'.row.length = E.row.length + 1 ∧ IdxOk E'.row ∧
      (∀ q, q < k → E'.row[q]? = E.row[q]?) ∧
      ∀ q, (E'.row[q]?).map erow.chars =
        if q < k then (E.row[q]?).map erow.chars
        else if q = k then some text else (E.row[q - 1]?).map erow.chars := by
  obtain ⟨E', h⟩ := editorInsertRow_total E hidx hs k hk text fuel hf
  obtain ⟨hlen, hrows, hfr⟩ := editorInsertRow_result E k hk text _ E' h
  have hk1 : k ≤ E.row.length := hk
  have hget := getElem?_take_cons_drop E.row k (freshRow (k : Int) text) hk1
  have hl0 := insertRow_slot_length E.row k (freshRow (k : Int) text) hk1
  have hfields : E'.syn = E.syn ∧ E'.cx = E.cx ∧ E'.cy = E.cy ∧ E'.dirty = E.dirty + 1 := by
    unfold editorInsertRow at h
    rw [if_neg (by omega)] at h
    simp only [Option.map_eq_some'] at h
    obtain ⟨rows', _, h2⟩ := h
    rw [← h2]
    exact ⟨rfl, rfl, rfl, rfl⟩
  refine ⟨E', h, hfields.1, hfields.2.1, hfields.2.2.1, hfields.2.2.2, hlen, ?_, hfr hidx, ?_⟩
  · intro q r' hq
    have hq1 : q < E.numrows + 1 := by rw [← hlen]; exact getElem?_lt hq
    have hq0 : q < (E.row.take k ++ [freshRow (k : Int) text] ++ E.row.drop k).length := by
      rw [hl0]; exact hq1
    have h0 := List.getElem?_eq_getElem hq0
    obtain ⟨r1, e1, _, c2, _⟩ := hrows q _ h0
    rw [hq] at e1
    have e1 := Option.some.inj e1
    subst e1
    rw [c2]
    rw [hget] at h0
    by_cases h1 : q < k
    · rw [if_pos h1] at h0
      rw [if_neg (by omega)]
      exact hidx q _ h0
    · rw [if_neg h1] at h0
      by_cases h2 : q = k
      · rw [if_pos h2] at h0
        rw [if_neg (by omega), ← Option.some.inj h0, h2]
        rfl
      · rw [if_neg h2] at h0
        rw [if_pos (by omega)]
        have := hidx (q - 1) _ h0
        omega
  · intro q
    by_cases hq : q < E.numrows + 1
    · have hq0 : q < (E.row.take k ++ [freshRow (k : Int) text] ++ E.row.drop k).length := by
        rw [hl0]; exact hq
      have h0 := List.getElem?_eq_getElem hq0
      obtain ⟨r', e', c1, _⟩ := hrows q _ h0
      rw [e']
      simp only [Option.map_some', c1]
      rw [hget] at h0
      by_cases h1 : q < k
      · rw [if_pos h1] at h0 ⊢
        rw [h0]
        rfl
      · rw [if_neg h1] at h0 ⊢
        by_cases h2 : q = k
        · rw [if_pos h2] at h0 ⊢
          rw [← Option.some.inj h0]
          rfl
        · rw [if_neg h2] at h0 ⊢
          rw [h0]
          rfl
    · have hnum : E.numrows = E.row.length := rfl
      rw [List.getElem?_eq_none (by omega), if_neg (by omega), if_neg (by omega),
        List.getElem?_eq_none (by omega)]

theorem indentLoop_eq (chars : List Nat) (cx : Nat) : ∀ (n il : Nat), cx ≤ il + n →
    indentLoop chars cx n il =
      il + (((chars.drop il).take (cx - il)).takeWhile isBlank).length := by
  intro n
  induction n with
  | zero =>
    intro il h
    have e : cx - il = 0 := by omega
    rw [e]
    rfl
  | succ n ih =>
    intro il h
    unfold indentLoop
    by_cases hc : il < cx ∧ (chars.getD il 0 = TAB ∨ chars.getD il 0 = SPACE)
    · rw [if_pos hc, ih (il + 1) (by omega)]
      have hlt : il < chars.length := by
        by_contra hge
        rw [List.getD_eq_default _ _ (by omega)] at hc
        rcases hc.2 with h1 | h1
        · exact absurd h1 (by decide)
        · exact absurd h1 (by decide)
      have hd : chars.drop il = chars[il] :: chars.drop (il + 1) := List.drop_eq_getElem_cons hlt
      have hb : isBlank chars[il] = true := by
        have hg : chars.getD il 0 = chars[il] := by
          rw [List.getD_eq_getElem?_getD, List.getElem?_eq_getElem hlt]
          rfl
        rw [hg] at hc
        unfold isBlank
        rcases hc.2 with h1 | h1
        · rw [h1]; rfl
        · rw [h1]; rfl
      have e : cx - il = (cx - (il + 1)) + 1 := by omega
      rw [hd, e, List.take_succ_cons, List.takeWhile_cons_of_pos hb, List.length_cons]
      omega
    · rw [if_neg hc]
      by_cases h1 : il < cx
      · by_cases hlt : il < chars.length
        · have hd : chars.drop il = chars[il] :: chars.drop (il + 1) :=
            List.drop_eq_getElem_cons hlt
          have hb : isBlank chars[il] = false := by
            have hg : chars.getD il 0 = chars[il] := by
              rw [List.getD_eq_getElem?_getD, List.getElem?_eq_getElem hlt]
              rfl
            rw [hg] at hc
            unfold isBlank
            have h2 : ¬ (chars[il] = TAB ∨ chars[il] = SPACE) := fun h => hc ⟨h1, h⟩
            simpa using h2
          have e : cx - il = (cx - (il + 1)) + 1 := by omega
          rw [hd, e, List.take_succ_cons, List.takeWhile_cons_of_neg (by simp [hb])]
          rfl
        · rw [List.drop_of_length_le (by omega)]
          simp
      · have e : cx - il = 0 := by omega
        rw [e]
        rfl

theorem take_takeWhile_take (chars : List Nat) (cx : Nat) :
    chars.take ((chars.take cx).takeWhile isBlank).length =
      (chars.take cx).takeWhile isBlank := by
  have h1 : (chars.take cx).takeWhile isBlank <+: chars :=
    (List.takeWhile_prefix _).trans (List.take_prefix _ _)
  exact (List.prefix_iff_eq_take.mp h1).symm

theorem editorMoveCursor_right (E : editorConfig) (keep_rx : Nat) (r : erow)
    (hrow : E.row[E.cy]? = some r) (hcx : E.cx < r.size) :
    editorMoveCursor E keep_rx ARROW_RIGHT =
      some ({ E with cx := E.cx + 1 }, editorRowCxToRx r (E.cx + 1)) := by
  have hlt : E.cy < E.numrows := getElem?_lt hrow
  unfold editorMoveCursor
  simp only [if_neg (Nat.not_le.mpr hlt), hrow]
  rw [if_neg (by decide), if_pos trivial, if_pos hcx]
  have hge : ¬ (E.cy ≥ ({ E with cx := E.cx + 1 } : editorConfig).numrows) := Nat.not_le.mpr hlt
  simp only [Option.some_bind, if_neg hge, hrow]
  rw [if_neg (by omega)]

theorem moveRightLoop_spec (n : Nat) : ∀ (E : editorConfig) (keep_rx : Nat) (r : erow),
    E.row[E.cy]? = some r → E.cx + n ≤ r.size →
    ∃ k', moveRightLoop n E keep_rx = some ({ E with cx := E.cx + n }, k') := by
  induction n with
  | zero => intro E keep_rx r _ _; exact ⟨keep_rx, rfl⟩
  | succ n ih =>
    intro E keep_rx r hrow hcx
    unfold moveRightLoop
    rw [editorMoveCursor_right E keep_rx r hrow (by omega)]
    simp only [Option.some_bind]
    obtain ⟨k', hk'⟩ := ih { E with cx := E.cx + 1 } (editorRowCxToRx r (E.cx + 1)) r hrow
      (by show E.cx + 1 + n ≤ r.size; omega)
    refine ⟨k', ?_⟩
    rw [hk']
    have e : E.cx + 1 + n = E.cx + (n + 1) := by omega
    simp only [e]

theorem getElem?_split_rows {α : Type} (l : List α) (u : Nat) (a b : α) (hu : u < l.length)
    (q : Nat) :
    (l.take u ++ [a, b] ++ l.drop (u + 1))[q]? =
      if q < u then l[q]? else if q = u then some a
      else if q = u + 1 then some b else l[q - 1]? := by
  have hl : (l.take u).length = u := by rw [List.length_take]; omega
  by_cases h1 : q < u
  · rw [if_pos h1, List.append_assoc, List.getElem?_append_left (by omega),
      List.getElem?_take_of_lt h1]
  · rw [if_neg h1, List.append_assoc, List.getElem?_append_right (by omega), hl]
    have hc : [a, b] ++ l.drop (u + 1) = a :: b :: l.drop (u + 1) := rfl
    rw [hc]
    by_cases h2 : q = u
    · rw [if_pos h2, h2, Nat.sub_self]
      rfl
    · rw [if_neg h2]
      by_cases h3 : q = u + 1
      · rw [if_pos h3, h3]
        have e : u + 1 - u = 0 + 1 := by omega
        rw [e, List.getElem?_cons_succ, List.getElem?_cons_zero]
      · rw [if_neg h3]
        have e : q - u = (q - u - 2) + 1 + 1 := by omega
        rw [e, List.getElem?_cons_succ, List.getElem?_cons_succ, List.getElem?_drop]
        congr 1
        omega

/-! ### Keywords in plain text -/

theorem kw_chars_not_separator :
    ∀ kw ∈ C_HL_keywords, ∀ c ∈ kwName kw, is_separator c = false := by
  decide

theorem kw_class_of_name :
    ∀ kw ∈ C_HL_keywords, ∀ kw' ∈ C_HL_keywords, kwName kw = kwName kw' →
      kwIsSecondary kw = kwIsSecondary kw' := by
  decide

theorem kwName_length (kw : List Nat) : (kwName kw).length = kwLen kw := by
  unfold kwName
  rw [List.length_take]
  exact Nat.min_eq_left (kwLen_le kw)

theorem matchesAt_getElem? {render : List Nat} {i : Nat} {pat : List Nat}
    (h : matchesAt render i pat = true) (t : Nat) (ht : t < pat.length) :
    render[i + t]? = pat[t]? := by
  unfold matchesAt at h
  obtain ⟨rest, hr⟩ := List.isPrefixOf_iff_prefix.mp h
  rw [← List.getElem?_drop, ← hr, List.getElem?_append_left ht]

theorem matchesAt_not_separator {render : List Nat} {i : Nat} {kw : List Nat}
    (hkw : kw ∈ C_HL_keywords) (h : matchesAt render i (kwName kw) = true) (t : Nat)
    (ht : t < kwLen kw) : is_separator (render.getD (i + t) 0) = false := by
  have ht' : t < (kwName kw).length := by rw [kwName_length]; exact ht
  have hg := matchesAt_getElem? h t ht'
  rw [List.getD_eq_getElem?_getD, hg, List.getElem?_eq_getElem ht']
  exact kw_chars_not_separator kw hkw _ (List.getElem_mem _)

theorem matchesAt_lt_length {render : List Nat} {i : Nat} {kw : List Nat}
    (hkw : kw ∈ C_HL_keywords) (h : matchesAt render i (kwName kw) = true) :
    i + kwLen kw ≤ render.length := by
  have hpos : 0 < kwLen kw := profileOk_HLDB_C kw hkw
  have hg := matchesAt_getElem? h 0 (by rw [kwName_length]; exact hpos)
  have hi : i < render.length := by
    by_contra hc
    rw [List.getElem?_eq_none (by omega), List.getElem?_eq_getElem (by rw [kwName_length]; exact hpos)] at hg
    exact absurd hg (by simp)
  have := matchesAt_le h (Nat.le_of_lt hi)
  rw [kwName_length] at this
  exact this

theorem sep_zero : is_separator 0 = true := by decide

/-- The two boundary conditions of `KwOcc`, as the scan tests them. -/
theorem kwOcc_iff (render : List Nat) (i : Nat) (kw : List Nat) (hkw : kw ∈ C_HL_keywords) :
    KwOcc render i kw ↔
      (i = 0 ∨ is_separator (render.getD (i - 1) 0) = true) ∧
      matchesAt render i (kwName kw) = true ∧
      is_separator (render.getD (i + kwLen kw) 0) = true := by
  unfold KwOcc
  constructor
  · rintro ⟨h1, h2, h3⟩
    refine ⟨?_, h2, ?_⟩
    · rcases h1 with h1 | ⟨c, hc, hs⟩
      · exact Or.inl h1
      · right
        rw [List.getD_eq_getElem?_getD, hc]
        exact hs
    · rcases h3 with h3 | ⟨c, hc, hs⟩
      · rw [List.getD_eq_default _ _ (by omega)]
        exact sep_zero
      · rw [List.getD_eq_getElem?_getD, hc]
        exact hs
  · rintro ⟨h1, h2, h3⟩
    have hle := matchesAt_lt_length hkw h2
    have hpos : 0 < kwLen kw := profileOk_HLDB_C kw hkw
    refine ⟨?_, h2, ?_⟩
    · rcases h1 with h1 | h1
      · exact Or.inl h1
      · by_cases h0 : i = 0
        · exact Or.inl h0
        · right
          have hlt : i - 1 < render.length := by omega
          refine ⟨render[i - 1], List.getElem?_eq_getElem hlt, ?_⟩
          rw [List.getD_eq_getElem?_getD, List.getElem?_eq_getElem hlt] at h1
          exact h1
    · by_cases he : i + kwLen kw = render.length
      · exact Or.inl he
      · right
        have hlt : i + kwLen kw < render.length := by omega
        refine ⟨render[i + kwLen kw], List.getElem?_eq_getElem hlt, ?_⟩
        rw [List.getD_eq_getElem?_getD, List.getElem?_eq_getElem hlt] at h3
        exact h3

/-- Two keyword occurrences on word boundaries that share a cell are at the
same place and have the same length. -/
theorem kwOcc_same {render : List Nat} {i j : Nat} {kw kw' : List Nat}
    (hkw : kw ∈ C_HL_keywords) (hkw' : kw' ∈ C_HL_keywords)
    (h : KwOcc render i kw) (h' : KwOcc render j kw')
    (hij : i ≤ j) (hj : j < i + kwLen kw) : j = i ∧ kwLen kw' = kwLen kw := by
  obtain ⟨_, hm, hs⟩ := (kwOcc_iff render i kw hkw).mp h
  obtain ⟨hb', hm', hs'⟩ := (kwOcc_iff render j kw' hkw').mp h'
  have hji : j = i := by
    by_contra hne
    rcases hb' with hb' | hb'
    · omega
    · have := matchesAt_not_separator hkw hm (j - 1 - i) (by omega)
      have e : i + (j - 1 - i) = j - 1 := by omega
      rw [e, hb'] at this
      exact absurd this (by simp)
  subst hji
  refine ⟨rfl, ?_⟩
  by_contra hne
  rcases Nat.lt_or_gt_of_ne hne with hlt | hgt
  · have := matchesAt_not_separator hkw hm (kwLen kw') hlt
    rw [hs'] at this
    exact absurd this (by simp)
  · have := matchesAt_not_separator hkw' hm' (kwLen kw) hgt
    rw [hs] at this
    exact absurd this (by simp)

theorem kwOcc_name {render : List Nat} {i : Nat} {kw kw' : List Nat}
    (hm : matchesAt render i (kwName kw) = true) (hm' : matchesAt render i (kwName kw') = true)
    (hlen : kwLen kw' = kwLen kw) : kwName kw = kwName kw' := by
  apply List.ext_getElem?
  intro t
  by_cases ht : t < kwLen kw
  · rw [← matchesAt_getElem? hm t (by rw [kwName_length]; exact ht),
      ← matchesAt_getElem? hm' t (by rw [kwName_length]; omega)]
  · rw [List.getElem?_eq_none (by rw [kwName_length]; omega),
      List.getElem?_eq_none (by rw [kwName_length]; omega)]

/-- A cell is not inside both a secondary and a primary keyword occurrence. -/
theorem kwCovered_exclusive {render : List Nat} {q : Nat} (h1 : KwCovered render q true)
    (h2 : KwCovered render q false) : False := by
  obtain ⟨i, kw, hkw, hsec, hocc, hi1, hi2⟩ := h1
  obtain ⟨j, kw', hkw', hsec', hocc', hj1, hj2⟩ := h2
  have hsame : j = i ∧ kwLen kw' = kwLen kw := by
    rcases Nat.le_total i j with hij | hji
    · exact kwOcc_same hkw hkw' hocc hocc' hij (by omega)
    · obtain ⟨e1, e2⟩ := kwOcc_same hkw' hkw hocc' hocc hji (by omega)
      exact ⟨e1.symm, e2.symm⟩
  obtain ⟨e1, e2⟩ := hsame
  subst e1
  have hn := kwOcc_name ((kwOcc_iff render j kw hkw).mp hocc).2.1
    ((kwOcc_iff render j kw' hkw').mp hocc').2.1 e2
  have := kw_class_of_name kw hkw kw' hkw' hn
  rw [hsec, hsec'] at this
  exact absurd this (by decide)

theorem keywordMatch_some {render : List Nat} {i : Nat} {kws : List (List Nat)} {klen : Nat}
    {kw2 : Bool} (h : keywordMatch render i kws = some (klen, kw2)) :
    ∃ kw, kw ∈ kws ∧ klen = kwLen kw ∧ kw2 = kwIsSecondary kw ∧
      matchesAt render i (kwName kw) = true ∧
      is_separator (render.getD (i + kwLen kw) 0) = true := by
  induction kws with
  | nil => simp [keywordMatch] at h
  | cons kw rest ih =>
    unfold keywordMatch at h
    split at h
    · rename_i hm
      simp only [Option.some.injEq, Prod.mk.injEq] at h
      exact ⟨kw, List.mem_cons_self _ _, h.1.symm, h.2.symm, hm.1, hm.2⟩
    · obtain ⟨kw', h1, h2⟩ := ih h
      exact ⟨kw', List.mem_cons_of_mem _ h1, h2⟩

theorem keywordMatch_none {render : List Nat} {i : Nat} {kws : List (List Nat)}
    (h : keywordMatch render i kws = none) :
    ∀ kw, kw ∈ kws → ¬ (matchesAt render i (kwName kw) = true ∧
      is_separator (render.getD (i + kwLen kw) 0) = true) := by
  induction kws with
  | nil => intro kw hkw; simp at hkw
  | cons kw rest ih =>
    unfold keywordMatch at h
    split at h
    · exact absurd h (by simp)
    · rename_i hm
      intro kw' hkw'
      rcases List.mem_cons.mp hkw' with e | e
      · rw [e]; exact hm
      · exact ih h kw' e

theorem getD_memset (hl : List Nat) (i k v q : Nat) (h : i + k ≤ hl.length) :
    (hl.take i ++ List.replicate k v ++ hl.drop (i + k)).getD q 0 =
      if i ≤ q ∧ q < i + k then v else hl.getD q 0 := by
  have hl1 : (hl.take i).length = i := by rw [List.length_take]; omega
  rw [List.getD_eq_getElem?_getD, List.getD_eq_getElem?_getD]
  by_cases h1 : q < i
  · rw [if_neg (by omega), List.append_assoc, List.getElem?_append_left (by omega),
      List.getElem?_take_of_lt h1]
  · rw [List.append_assoc, List.getElem?_append_right (by omega), hl1]
    by_cases h2 : q < i + k
    · rw [if_pos ⟨by omega, h2⟩, List.getElem?_append_left (by rw [List.length_replicate]; omega),
        List.getElem?_replicate, if_pos (by omega)]
      rfl
    · rw [if_neg (by omega), List.getElem?_append_right (by rw [List.length_replicate]; omega),
        List.length_replicate, List.getElem?_drop]
      congr 2
      omega

/-- One pass of the scan of `editorUpdateSyntax` with the C profile, outside
strings and comments, at a cell that starts no comment and holds no quote and
no digit, behind a cell that is not a number: only the keyword test is left. -/
theorem scanStep_plain (render : List Nat) (st : HlScan) (hs : st.in_string = 0)
    (hc : st.in_comment = false)
    (hscs : matchesAt render st.i (bytes "//") = false)
    (hmcs : matchesAt render st.i (bytes "/*") = false)
    (hq : render.getD st.i 0 ≠ 34 ∧ render.getD st.i 0 ≠ 39)
    (hd : isdigit (render.getD st.i 0) = false) (hn : prevHl st.hl st.i ≠ HL_NUMBER) :
    scanStep HLDB_C render st =
      match (if st.prev_sep = true then keywordMatch render st.i C_HL_keywords else none) with
      | some (klen, kw2) =>
        (memsetHl st.hl st.i klen (if kw2 = true then HL_KEYWORD2 else HL_KEYWORD1)).map fun hl =>
          { st with hl := hl, i := st.i + klen, prev_sep := false }
      | none => some { st with prev_sep := is_separator (render.getD st.i 0), i := st.i + 1 } := by
  have e1 : HLDB_C.singleline_comment_start = bytes "//" := rfl
  have e2 : HLDB_C.multiline_comment_start = bytes "/*" := rfl
  have e3 : HLDB_C.multiline_comment_end = bytes "*/" := rfl
  have e4 : HLDB_C.keywords = C_HL_keywords := rfl
  unfold scanStep
  simp only [e1, e2, e3, e4]
  rw [if_neg (by rw [hscs]; simp), if_neg (by rw [hc]; simp), if_neg (by rw [hmcs]; simp),
    if_neg (by rw [hs]; simp), if_neg (fun h => h.2.elim hq.1 hq.2),
    if_neg (fun h => h.2.elim (fun a => by rw [hd] at a; exact absurd a.1 (by simp))
      (fun b => hn b.2))]

theorem plainInv_single (render : List Nat) (st : HlScan) (hinv : PlainInv render st)
    (hi : st.i < render.length) (hno : ∀ kw, kw ∈ C_HL_keywords → ¬ KwOcc render st.i kw) :
    PlainInv render
      { st with prev_sep := is_separator (render.getD st.i 0), i := st.i + 1 } := by
  obtain ⟨hs, hc, hlen, _, _, hcls, hrest, hends⟩ := hinv
  have hcov : ∀ b, ¬ KwCovered render st.i b := by
    rintro b ⟨j, kw, hkw, _, hocc, hj1, hj2⟩
    by_cases hji : j = st.i
    · rw [hji] at hocc
      exact hno kw hkw hocc
    · have := hends j kw hkw hocc (by omega)
      omega
  refine ⟨hs, hc, hlen, hi, ?_, ?_, ?_, ?_⟩
  · show is_separator (render.getD st.i 0) = true ↔
      (st.i + 1 = 0 ∨ is_separator (render.getD (st.i + 1 - 1) 0) = true)
    rw [Nat.add_sub_cancel]
    constructor
    · exact fun h => Or.inr h
    · rintro (h | h)
      · omega
      · exact h
  · intro q hq
    show KwClass render q (st.hl.getD q 0)
    by_cases hqi : q = st.i
    · rw [hqi, hrest st.i (Nat.le_refl _)]
      exact Or.inr (Or.inr ⟨rfl, hcov true, hcov false⟩)
    · exact hcls q (by have : q < st.i + 1 := hq; omega)
  · intro q hq
    exact hrest q (by have : st.i + 1 ≤ q := hq; omega)
  · intro j kw hkw hocc hj
    show j + kwLen kw ≤ st.i + 1
    by_cases hji : j = st.i
    · rw [hji] at hocc
      exact absurd hocc (hno kw hkw)
    · have := hends j kw hkw hocc (by have : j < st.i + 1 := hj; omega)
      omega

theorem plainInv_keyword (render : List Nat) (st : HlScan) (hinv : PlainInv render st)
    (kw : List Nat) (hkw : kw ∈ C_HL_keywords) (hocc : KwOcc render st.i kw) :
    PlainInv render
      { st with
        hl := st.hl.take st.i ++
          List.replicate (kwLen kw) (if kwIsSecondary kw = true then HL_KEYWORD2 else HL_KEYWORD1) ++
          st.hl.drop (st.i + kwLen kw),
        i := st.i + kwLen kw, prev_sep := false } := by
  obtain ⟨hs, hc, hlen, _, _, hcls, hrest, hends⟩ := hinv
  obtain ⟨_, hm, _⟩ := (kwOcc_iff render st.i kw hkw).mp hocc
  have hle := matchesAt_lt_length hkw hm
  have hpos : 0 < kwLen kw := profileOk_HLDB_C kw hkw
  have hle' : st.i + kwLen kw ≤ st.hl.length := by rw [hlen]; exact hle
  refine ⟨hs, hc, ?_, hle, ?_, ?_, ?_, ?_⟩
  · show (_ ++ _ ++ _ : List Nat).length = render.length
    rw [length_memset_result _ _ _ _ hle', hlen]
  · show (false = true) ↔
      (st.i + kwLen kw = 0 ∨ is_separator (render.getD (st.i + kwLen kw - 1) 0) = true)
    have hns := matchesAt_not_separator hkw hm (kwLen kw - 1) (by omega)
    have e : st.i + (kwLen kw - 1) = st.i + kwLen kw - 1 := by omega
    rw [e] at hns
    constructor
    · intro h; exact absurd h (by simp)
    · rintro (h | h)
      · omega
      · rw [hns] at h; exact absurd h (by simp)
  · intro q hq
    show KwClass render q ((_ ++ _ ++ _ : List Nat).getD q 0)
    rw [getD_memset _ _ _ _ _ hle']
    by_cases hqi : st.i ≤ q
    · have hq' : q < st.i + kwLen kw := hq
      rw [if_pos ⟨hqi, hq'⟩]
      cases hsec : kwIsSecondary kw with
      | true => exact Or.inl ⟨rfl, st.i, kw, hkw, hsec, hocc, hqi, hq'⟩
      | false => exact Or.inr (Or.inl ⟨by simp, st.i, kw, hkw, hsec, hocc, hqi, hq'⟩)
    · rw [if_neg (by omega)]
      exact hcls q (by omega)
  · intro q hq
    show (_ ++ _ ++ _ : List Nat).getD q 0 = HL_NORMAL
    have hq' : st.i + kwLen kw ≤ q := hq
    rw [getD_memset _ _ _ _ _ hle', if_neg (by omega)]
    exact hrest q (by omega)
  · intro j kw' hkw' hocc' hj
    show j + kwLen kw' ≤ st.i + kwLen kw
    have hj' : j < st.i + kwLen kw := hj
    by_cases hji : j < st.i
    · have := hends j kw' hkw' hocc' hji
      omega
    · obtain ⟨e1, e2⟩ := kwOcc_same hkw hkw' hocc hocc' (by omega) hj'
      omega

theorem plainInv_step (render : List Nat) (hp : PlainText render) (st : HlScan)
    (hinv : PlainInv render st) (hi : st.i < render.length) :
    ∃ st', scanStep HLDB_C render st = some st' ∧ PlainInv render st' ∧ st.i < st'.i := by
  have hinv0 := hinv
  obtain ⟨hs, hc, hlen, _, hsep, hcls, _, _⟩ := hinv
  have hg : render.getD st.i 0 = render[st.i] := by
    rw [List.getD_eq_getElem?_getD, List.getElem?_eq_getElem hi]
    rfl
  have hmem : render.getD st.i 0 ∈ render := by rw [hg]; exact List.getElem_mem _
  obtain ⟨h34, h39, hd⟩ := hp.1 _ hmem
  have hn : prevHl st.hl st.i ≠ HL_NUMBER := by
    unfold prevHl
    split
    · have hk := hcls (st.i - 1) (by omega)
      show st.hl.getD (st.i - 1) 0 ≠ HL_NUMBER
      rcases hk with ⟨h, _⟩ | ⟨h, _⟩ | ⟨h, _⟩ <;> rw [h] <;> decide
    · decide
  rw [scanStep_plain render st hs hc (hp.2.1 _) (hp.2.2 _) ⟨h34, h39⟩ hd hn]
  have hnone : (∀ kw, kw ∈ C_HL_keywords → ¬ KwOcc render st.i kw) →
      ∃ st', some ({ st with prev_sep := is_separator (render.getD st.i 0), i := st.i + 1 } :
          HlScan) = some st' ∧ PlainInv render st' ∧ st.i < st'.i :=
    fun hno => ⟨_, rfl, plainInv_single render st hinv0 hi hno, Nat.lt_succ_self _⟩
  by_cases hps : st.prev_sep = true
  · rw [if_pos hps]
    cases hk : keywordMatch render st.i C_HL_keywords with
    | none =>
      simp only
      apply hnone
      intro kw hkw hocc
      obtain ⟨_, h2, h3⟩ := (kwOcc_iff render st.i kw hkw).mp hocc
      exact keywordMatch_none hk kw hkw ⟨h2, h3⟩
    | some r =>
      obtain ⟨klen, kw2⟩ := r
      simp only
      obtain ⟨kw, hkw, e1, e2, hm, hsp⟩ := keywordMatch_some hk
      have hocc : KwOcc render st.i kw := (kwOcc_iff render st.i kw hkw).mpr ⟨hsep.mp hps, hm, hsp⟩
      have hle := matchesAt_lt_length hkw hm
      rw [e1, e2, memsetHl_of_le _ _ _ _ (by rw [hlen]; exact hle)]
      refine ⟨_, rfl, plainInv_keyword render st hinv0 kw hkw hocc, ?_⟩
      have hpos : 0 < kwLen kw := profileOk_HLDB_C kw hkw
      show st.i < st.i + kwLen kw
      omega
  · rw [if_neg hps]
    simp only
    apply hnone
    intro kw hkw hocc
    obtain ⟨h1, _, _⟩ := (kwOcc_iff render st.i kw hkw).mp hocc
    exact hps (hsep.mpr h1)

theorem plainInv_loop (render : List Nat) (hp : PlainText render) (fuel : Nat) :
    ∀ (st : HlScan), PlainInv render st → render.length ≤ st.i + fuel →
      ∃ st', scanLoop HLDB_C render fuel st = some st' ∧ PlainInv render st' ∧
        st'.i = render.length := by
  induction fuel with
  | zero =>
    intro st hinv hf
    have hle := hinv.2.2.2.1
    refine ⟨st, ?_, hinv, by omega⟩
    exact scanLoop_done _ _ _ _ (by omega)
  | succ fuel ih =>
    intro st hinv hf
    have hle := hinv.2.2.2.1
    by_cases hi : st.i < render.length
    · obtain ⟨st1, h1, hinv1, hlt⟩ := plainInv_step render hp st hinv hi
      rw [scanLoop_succ, if_pos hi, h1]
      simp only [Option.some_bind]
      exact ih st1 hinv1 (by omega)
    · refine ⟨st, ?_, hinv, by omega⟩
      exact scanLoop_done _ _ _ _ (by omega)

/-- The scan of a row of plain text with the C profile, started outside a
comment: every cell gets the class its keyword occurrences give it. -/
theorem scanRow_plain (render : List Nat) (hp : PlainText render) :
    ∃ st, scanRow HLDB_C render false = some st ∧ st.in_comment = false ∧
      st.hl.length = render.length ∧ ∀ q, q < render.length → KwClass render q (st.hl.getD q 0) := by
  have h0 : PlainInv render
      { i := 0, hl := List.replicate render.length HL_NORMAL, prev_sep := true,
        in_string := 0, in_comment := false } := by
    refine ⟨rfl, rfl, by simp, Nat.zero_le _, ?_, ?_, ?_, ?_⟩
    · exact ⟨fun _ => Or.inl rfl, fun _ => rfl⟩
    · intro q hq; exact absurd hq (Nat.not_lt_zero _)
    · intro q _
      show (List.replicate render.length HL_NORMAL).getD q 0 = HL_NORMAL
      rw [List.getD_eq_getElem?_getD, List.getElem?_replicate]
      split <;> rfl
    · intro j kw _ _ hj; exact absurd hj (Nat.not_lt_zero _)
  obtain ⟨st, h1, hinv, hi⟩ := plainInv_loop render hp render.length _ h0 (by simp)
  refine ⟨st, h1, hinv.2.1, hinv.2.2.1, fun q hq => ?_⟩
  exact hinv.2.2.2.2.2.1 q (by rw [hi]; exact hq)

theorem highlightRow_seed (s : editorSyntax) (rows : List erow) (p : Nat) (row : erow)
    (hidx : IdxOk rows) (hrow : rows[p]? = some row) :
    highlightRow s rows row = scanRow s row.render (seedAt rows p) := by
  cases p with
  | zero =>
    have hi : row.idx = ((0 : Nat) : Int) := hidx 0 row hrow
    unfold highlightRow seedAt
    rw [if_neg (by omega), if_pos rfl]
    rfl
  | succ p =>
    have hlt : p < rows.length := by have := getElem?_lt hrow; omega
    have hprev := List.getElem?_eq_getElem hlt
    rw [highlightRow_succ s rows p _ row hidx hprev hrow]
    unfold seedAt
    rw [if_neg (by omega), Nat.add_sub_cancel, hprev]

/-! ### The single-row delete branch on a row without tabs -/

theorem selScanUp_stop (hl : List Nat) (rsize : Nat) (ne : Bool) (d : Nat) :
    ∀ (t fuel : Nat), d < fuel →
      (∀ x, t ≤ x → x < t + d → ∃ v, hl[x]? = some v ∧ decide (v ≠ HL_MATCH) = ne ∧ x < rsize) →
      (∃ v, hl[t + d]? = some v ∧ (decide (v ≠ HL_MATCH) ≠ ne ∨ ¬ t + d < rsize)) →
      selScanUp hl rsize ne fuel t = some (t + d) := by
  induction d with
  | zero =>
    intro t fuel hf _ hstop
    obtain ⟨v, hv, hc⟩ := hstop
    cases fuel with
    | zero => omega
    | succ f =>
      unfold selScanUp
      rw [Nat.add_zero] at hv hc
      simp only [hv]
      rw [if_neg]
      · rfl
      · intro hh
        rcases hc with hc | hc
        · exact hc hh.1
        · exact hc hh.2
  | succ d ih =>
    intro t fuel hf hrun hstop
    cases fuel with
    | zero => omega
    | succ f =>
      obtain ⟨v, hv, hc, hx⟩ := hrun t (Nat.le_refl _) (by omega)
      unfold selScanUp
      simp only [hv]
      rw [if_pos ⟨hc, hx⟩]
      have e : t + (d + 1) = t + 1 + d := by omega
      rw [e]
      exact ih (t + 1) f (by omega) (fun x h1 h2 => hrun x (by omega) (by omega))
        (by rw [← e]; exact hstop)

theorem cxToRxLoop_no_tab (l : List Nat) (h : TAB ∉ l) :
    ∀ (cur : Nat), cxToRxLoop l l.length cur = cur + l.length := by
  induction l with
  | nil => intro cur; simp [cxToRxLoop]
  | cons c cs ih =>
    intro cur
    have hc : c ≠ TAB := fun e => h (by rw [e]; exact List.mem_cons_self _ _)
    have hcs : TAB ∉ cs := fun e => h (List.mem_cons_of_mem _ e)
    simp only [List.length_cons, cxToRxLoop]
    rw [ih hcs]
    unfold advanceRx
    rw [if_neg hc]
    omega

theorem editorRowRxToCx_no_tab (row : erow) (i : Nat) (h : TAB ∉ row.chars)
    (hi : i ≤ row.size) : editorRowRxToCx row i = i := by
  unfold editorRowRxToCx
  have hsplit : row.chars = row.chars.take i ++ row.chars.drop i :=
    (List.take_append_drop i row.chars).symm
  have hlen : (row.chars.take i).length = i := by
    rw [List.length_take]
    exact Nat.min_eq_left hi
  have hno : TAB ∉ row.chars.take i := fun e => h (List.mem_of_mem_take e)
  have h1 := rxToCxLoop_roundtrip (row.chars.take i) (row.chars.drop i) 0 0
  rw [cxToRxLoop_no_tab _ hno, hlen, Nat.zero_add, ← hsplit] at h1
  exact h1

/-- On a row without tabs whose cells painted `HL_MATCH` are the range
`[i, j)` with `i < j < rsize`, the single-row delete branch of `editorSelect`
removes the characters `i .. j - 1` and puts the cursor at `i`. -/
theorem select_single_row_delete_no_tab (E : editorConfig) (row : erow) (i j : Nat)
    (hidx : IdxOk E.row) (hsyn : E.syn = none ∨ E.syn = some HLDB_C)
    (hrow : E.row[E.cy]? = some row) (htab : TAB ∉ row.chars)
    (hrender : row.render = renderLoop row.chars []) (hhl : row.hl.length = row.rsize)
    (hij : i < j) (hj : j < row.rsize)
    (hpaint : ∀ x, x < row.rsize → (row.hl[x]? = some HL_MATCH ↔ i ≤ x ∧ x < j)) :
    ∃ E', editorSelectDelete (E.numrows + 1) E E.cy = some E' ∧
      (∀ q, (E'.row[q]?).map erow.chars =
        if q = E.cy then some (row.chars.take i ++ row.chars.drop j)
        else (E.row[q]?).map erow.chars) ∧
      E'.cx = i ∧ E'.cy = E.cy := by
  have hs := synOk_of_valid hsyn
  have hrc : row.render = row.chars := by
    rw [hrender, renderLoop_no_tab _ htab]
    rfl
  have hsz : row.rsize = row.size := by
    unfold erow.rsize erow.size
    rw [hrc]
  have hcell : ∀ x, x < row.rsize → ∃ v, row.hl[x]? = some v ∧
      (decide (v ≠ HL_MATCH) = false ↔ i ≤ x ∧ x < j) := by
    intro x hx
    have hlt : x < row.hl.length := by rw [hhl]; exact hx
    refine ⟨row.hl[x], List.getElem?_eq_getElem hlt, ?_⟩
    rw [← hpaint x hx, List.getElem?_eq_getElem hlt]
    simp
  have h1 : selScanUp row.hl row.rsize true (row.rsize + 1) 0 = some i := by
    have := selScanUp_stop row.hl row.rsize true i 0 (row.rsize + 1) (by omega)
      (fun x _ hx => by
        obtain ⟨v, hv, hvi⟩ := hcell x (by omega)
        refine ⟨v, hv, ?_, by omega⟩
        by_contra hne
        have : decide (v ≠ HL_MATCH) = false := by simpa using hne
        have := hvi.mp this
        omega)
      (by
        obtain ⟨v, hv, hvi⟩ := hcell i (by omega)
        rw [Nat.zero_add]
        refine ⟨v, hv, Or.inl ?_⟩
        rw [hvi.mpr ⟨Nat.le_refl _, hij⟩]
        decide)
    rw [Nat.zero_add] at this
    exact this
  have h2 : selScanUp row.hl row.rsize false (row.rsize + 1) i = some j := by
    have := selScanUp_stop row.hl row.rsize false (j - i) i (row.rsize + 1) (by omega)
      (fun x hx1 hx2 => by
        obtain ⟨v, hv, hvi⟩ := hcell x (by omega)
        exact ⟨v, hv, hvi.mpr ⟨hx1, by omega⟩, by omega⟩)
      (by
        have e : i + (j - i) = j := by omega
        rw [e]
        obtain ⟨v, hv, hvi⟩ := hcell j hj
        refine ⟨v, hv, Or.inl ?_⟩
        intro hne
        have := hvi.mp hne
        omega)
    have e : i + (j - i) = j := by omega
    rw [e] at this
    exact this
  obtain ⟨E1, h3, _, hcy1, _, _, _, hch⟩ := editorRowDelChars_spec E hidx hs E.cy row hrow
    (j - 1) i (by omega) (by omega) (E.numrows + 1) (Nat.le_refl _)
  have e1 : ((j - 1 : Nat) : Int) = (j : Int) - 1 := by omega
  have e2 : j - 1 + 1 = j := by omega
  rw [e1] at h3
  rw [e2] at hch
  have hr1 := hch E.cy
  rw [if_pos rfl] at hr1
  unfold editorSelectDelete
  simp only
  rw [if_pos trivial, hrow]
  simp only
  rw [h1]
  simp only [Option.some_bind]
  rw [h2]
  simp only [Option.some_bind]
  rw [h3]
  simp only [Option.some_bind]
  rw [hcy1]
  cases hrow1 : E1.row[E.cy]? with
  | none => rw [hrow1] at hr1; exact absurd hr1 (by simp)
  | some row1 =>
    rw [hrow1] at hr1
    have hc1 : row1.chars = row.chars.take i ++ row.chars.drop j := by simpa using hr1
    simp only
    refine ⟨_, rfl, hch, ?_, rfl⟩
    show editorRowRxToCx row1 i = i
    apply editorRowRxToCx_no_tab
    · rw [hc1]
      intro hmem
      rcases List.mem_append.mp hmem with hm | hm
      · exact htab (List.mem_of_mem_take hm)
      · exact htab (List.mem_of_mem_drop hm)
    · unfold erow.size
      rw [hc1, List.length_append, List.length_take]
      have : i ≤ row.chars.length := by
        have : row.rsize = row.chars.length := hsz
        omega
      omega

/-- The keywords of the C profile defined with a trailing `|`, and the
others, by their names. -/
theorem keyword_classes :
    (C_HL_keywords.filter kwIsSecondary).map kwName =
      ["int", "long", "double", "float", "char", "unsigned", "signed", "void"].map bytes ∧
    (C_HL_keywords.filter fun kw => !kwIsSecondary kw).map kwName =
      ["switch", "if", "while", "for", "break", "continue", "return", "else", "struct",
       "union", "typedef", "static", "enum", "class", "case"].map bytes := by
  decide

/-! ### Where row removal and insertion keep the highlighting consistent -/

theorem hlRowOk_congr (s : editorSyntax) (rows rows' : List erow) (q q' : Nat) (r r' : erow)
    (hr : rows[q]? = some r) (hr' : rows'[q']? = some r') (h1 : r'.render = r.render)
    (h2 : r'.hl = r.hl) (h3 : r'.hl_open_comment = r.hl_open_comment)
    (hseed : seedAt rows' q' = seedAt rows q) : hlRowOk s rows' q' = hlRowOk s rows q := by
  unfold hlRowOk
  rw [hr, hr']
  simp only [h1, h2, h3, hseed]

theorem seedAt_succ (rows : List erow) (q : Nat) (r : erow) (hr : rows[q]? = some r) :
    seedAt rows (q + 1) = r.hl_open_comment := by
  unfold seedAt
  rw [if_neg (by omega), Nat.add_sub_cancel, hr]

/-- `editorDelRow(k)` keeps the highlighting consistent when the removed row
ends in the comment state it began in (it neither opens nor closes a comment
for the rows behind it). -/
theorem editorDelRow_consistent (s : editorSyntax) (E : editorConfig) (k : Nat) (row : erow)
    (hidx : IdxOk E.row) (hrow : E.row[k]? = some row)
    (hsame : row.hl_open_comment = seedAt E.row k) (hcons : HlConsistent s E.row) :
    HlConsistent s (editorDelRow E (k : Int)).row := by
  have hk : k < E.numrows := getElem?_lt hrow
  obtain ⟨hlen, _, hlow, hhigh, _⟩ := editorDelRow_spec E k hidx hk
  have hnum : (editorDelRow E (k : Int)).numrows = (editorDelRow E (k : Int)).row.length := rfl
  have hnum0 : E.numrows = E.row.length := rfl
  intro q hq
  by_cases hqk : q < k
  · have hq0 : q < E.row.length := by omega
    have hr := List.getElem?_eq_getElem hq0
    have hr' := hlow q _ hr hqk
    rw [hlRowOk_congr s E.row _ q q _ _ hr hr' rfl rfl rfl ?_]
    · exact hcons q hq0
    · cases q with
      | zero => rfl
      | succ q =>
        have hp0 : q < E.row.length := by omega
        have hp := List.getElem?_eq_getElem hp0
        rw [seedAt_succ _ q _ (hlow q _ hp (by omega)), seedAt_succ _ q _ hp]
  · have hq0 : q + 1 < E.row.length := by omega
    have hr := List.getElem?_eq_getElem hq0
    obtain ⟨r', hr', _, _, c2, c3, c4⟩ := hhigh q _ hr (by omega)
    rw [hlRowOk_congr s E.row _ (q + 1) q _ _ hr hr' c2 c3 c4 ?_]
    · exact hcons (q + 1) hq0
    · by_cases hqe : q = k
      · rw [hqe, seedAt_succ _ k _ hrow, hsame]
        cases k with
        | zero => rfl
        | succ k =>
          have hp0 : k < E.row.length := by omega
          have hp := List.getElem?_eq_getElem hp0
          rw [seedAt_succ _ k _ (hlow k _ hp (by omega)), seedAt_succ _ k _ hp]
      · cases q with
        | zero => omega
        | succ q =>
          have hp0 : q + 1 < E.row.length := by omega
          have hp := List.getElem?_eq_getElem hp0
          obtain ⟨p', hp', _, _, _, _, d4⟩ := hhigh q _ hp (by omega)
          rw [seedAt_succ _ q _ hp', seedAt_succ _ (q + 1) _ hp, d4]

/-- `editorInsertRow(k, text)` with the C profile keeps the highlighting
consistent when the row before `k` leaves no comment open and the scan of the
new row ends outside a comment. -/
theorem editorInsertRow_consistent (E : editorConfig) (k : Nat) (text : List Nat)
    (fuel : Nat) (E' : editorConfig) (hidx : IdxOk E.row) (hsyn : E.syn = some HLDB_C)
    (hk : k ≤ E.numrows) (hseed : seedAt E.row k = false)
    (hclosed : ∀ st, scanRow HLDB_C (renderLoop text []) false = some st →
      st.in_comment = false)
    (hcons : HlConsistent HLDB_C E.row)
    (h : editorInsertRow fuel E (k : Int) text = some E') :
    HlConsistent HLDB_C E'.row := by
  have hk1 : k ≤ E.row.length := hk
  have hnum0 : E.numrows = E.row.length := rfl
  have hget := getElem?_take_cons_drop E.row k (freshRow (k : Int) text) hk1
  have hl0 := insertRow_slot_length E.row k (freshRow (k : Int) text) hk1
  obtain ⟨hl2, hsp⟩ := insertRowShift_spec E.rowoff E.screenrows E.numrows k
    (E.row.take k ++ [freshRow (k : Int) text] ++ E.row.drop k) hl0 hk
  have hidx2 := insertRow_idxOk E hidx k hk (freshRow (k : Int) text) rfl
  unfold editorInsertRow at h
  rw [if_neg (by omega)] at h
  simp only [Int.toNat_ofNat, Option.map_eq_some'] at h
  obtain ⟨rows', h1, h2⟩ := h
  rw [← h2]
  show HlConsistent HLDB_C rows'
  generalize hrows2 : insertRowShift E.rowoff E.screenrows E.numrows k
    (E.row.take k ++ [freshRow (k : Int) text] ++ E.row.drop k) = rows2 at h1 hl2 hsp hidx2
  -- the row in the slot `k` after the shift
  have hslot : rows2[k]? = some (freshRow (k : Int) text) := by
    obtain ⟨r', e', _, _, _, _, _, c6⟩ := hsp k (freshRow (k : Int) text)
      (by rw [hget, if_neg (by omega), if_pos rfl])
    rw [e', c6 (Nat.le_refl _)]
  -- the rows before and behind the slot
  have hbefore : ∀ q, q < k → rows2[q]? = E.row[q]? := by
    intro q hq
    have hq0 : q < E.row.length := by omega
    obtain ⟨r', e', _, _, _, _, _, c6⟩ := hsp q E.row[q]
      (by rw [hget, if_pos hq]; exact List.getElem?_eq_getElem hq0)
    rw [e', c6 (by omega), List.getElem?_eq_getElem hq0]
  have hbehind : ∀ q r, E.row[q]? = some r → k ≤ q →
      ∃ r', rows2[q + 1]? = some r' ∧ r'.render = r.render ∧ r'.hl = r.hl ∧
        r'.hl_open_comment = r.hl_open_comment := by
    intro q r hr hq
    obtain ⟨r', e', _, c2, c3, c4, _⟩ := hsp (q + 1) r
      (by rw [hget, if_neg (by omega), if_neg (by omega)]; exact hr)
    exact ⟨r', e', c2, c3, c4⟩
  -- the call of editorUpdateRow makes one pass, on the new row
  unfold editorUpdateRow at h1
  rw [hslot] at h1
  simp only at h1
  generalize hrows3 : rows2.set k
    { freshRow (k : Int) text with render := renderLoop (freshRow (k : Int) text).chars [],
                                   damaged := true } = rows3 at h1
  have hlt2 : k < rows2.length := by rw [hl2]; omega
  have hslot3 : rows3[k]? = some { freshRow (k : Int) text with
      render := renderLoop (freshRow (k : Int) text).chars [], damaged := true } := by
    rw [← hrows3, List.getElem?_set, if_pos rfl, if_pos hlt2]
  have hother3 : ∀ q, q ≠ k → rows3[q]? = rows2[q]? := by
    intro q hq
    rw [← hrows3, List.getElem?_set, if_neg (fun e => hq e.symm)]
  have hidx3 : IdxOk rows3 := by
    rw [← hrows3]
    exact idxOk_set hidx2 hslot rfl
  have hseed3 : seedAt rows3 k = false := by
    rw [← hseed]
    cases k with
    | zero => rfl
    | succ k =>
      have hp0 : k < E.row.length := by omega
      have hp := List.getElem?_eq_getElem hp0
      have hp3 : rows3[k]? = some E.row[k] := by
        rw [hother3 k (by omega), hbefore k (by omega), hp]
      rw [seedAt_succ _ k _ hp3, seedAt_succ _ k _ hp]
  cases fuel with
  | zero => exact absurd h1 (by simp [editorUpdateSyntax])
  | succ fuel =>
    rw [hsyn, editorUpdateSyntax_pass _ _ _ _ _ hidx3] at h1
    unfold synPass at h1
    rw [hslot3] at h1
    simp only at h1
    rw [highlightRow_seed HLDB_C rows3 k _ hidx3 hslot3, hseed3] at h1
    cases hst : scanRow HLDB_C (renderLoop text []) false with
    | none =>
      have e : (freshRow (k : Int) text).chars = text := rfl
      simp only [e, hst] at h1
      exact absurd h1 (by simp)
    | some st =>
      have hin := hclosed st hst
      have e : (freshRow (k : Int) text).chars = text := rfl
      simp only [e, hst, Option.some_bind, hin] at h1
      have hfo : (freshRow (k : Int) text).hl_open_comment = false := rfl
      rw [hfo] at h1
      rw [if_neg (by simp)] at h1
      have h1 := Option.some.inj h1
      -- the rows of the result
      have hlen' : rows'.length = E.row.length + 1 := by
        rw [← h1, List.length_set, ← hrows3, List.length_set, hl2]
        rfl
      have hnew : ∃ r', rows'[k]? = some r' ∧ r'.render = renderLoop text [] ∧
          r'.hl = st.hl ∧ r'.hl_open_comment = false := by
        refine ⟨erow.mk (freshRow (k : Int) text).idx text (renderLoop text []) st.hl false true,
          ?_, rfl, rfl, rfl⟩
        rw [← h1, List.getElem?_set, if_pos rfl,
          if_pos (by rw [← hrows3, List.length_set]; exact hlt2)]
      have hother : ∀ q, q ≠ k → rows'[q]? = rows2[q]? := by
        intro q hq
        rw [← h1, List.getElem?_set, if_neg (fun e => hq e.symm), hother3 q hq]
      obtain ⟨rnew, hrnew, n1, n2, n3⟩ := hnew
      intro q hq
      by_cases hqk : q < k
      · have hq0 : q < E.row.length := by omega
        have hr := List.getElem?_eq_getElem hq0
        have hr' : rows'[q]? = some E.row[q] := by
          rw [hother q (by omega), hbefore q hqk, hr]
        rw [hlRowOk_congr HLDB_C E.row rows' q q _ _ hr hr' rfl rfl rfl ?_]
        · exact hcons q hq0
        · cases q with
          | zero => rfl
          | succ q =>
            have hp0 : q < E.row.length := by omega
            have hp := List.getElem?_eq_getElem hp0
            have hp' : rows'[q]? = some E.row[q] := by
              rw [hother q (by omega), hbefore q (by omega), hp]
            rw [seedAt_succ _ q _ hp', seedAt_succ _ q _ hp]
      · by_cases hqe : q = k
        · rw [hqe]
          have hs' : seedAt rows' k = false := by
            rw [← hseed]
            cases k with
            | zero => rfl
            | succ k =>
              have hp0 : k < E.row.length := by omega
              have hp := List.getElem?_eq_getElem hp0
              have hp' : rows'[k]? = some E.row[k] := by
                rw [hother k (by omega), hbefore k (by omega), hp]
              rw [seedAt_succ _ k _ hp', seedAt_succ _ k _ hp]
          unfold hlRowOk
          rw [hrnew]
          simp only [n1, n2, n3, hs', hst, hin, Option.map_some', decide_True]
        · have hq1 : q - 1 < E.row.length := by omega
          have hr := List.getElem?_eq_getElem hq1
          obtain ⟨r', hr2, c1, c2, c3⟩ := hbehind (q - 1) _ hr (by omega)
          have eq1 : q - 1 + 1 = q := by omega
          rw [eq1] at hr2
          have hr' : rows'[q]? = some r' := by rw [hother q hqe, hr2]
          rw [hlRowOk_congr HLDB_C E.row rows' (q - 1) q _ _ hr hr' c1 c2 c3 ?_]
          · exact hcons (q - 1) hq1
          · by_cases hqk1 : q = k + 1
            · have e2 : q - 1 = k := by omega
              rw [e2, hseed, hqk1, seedAt_succ _ k _ hrnew, n3]
            · have hq2 : q - 2 < E.row.length := by omega
              have hp := List.getElem?_eq_getElem hq2
              obtain ⟨p', hp2, _, _, d3⟩ := hbehind (q - 2) _ hp (by omega)
              have eq2 : q - 2 + 1 = q - 1 := by omega
              rw [eq2] at hp2
              have hp' : rows'[q - 1]? = some p' := by rw [hother (q - 1) (by omega), hp2]
              have e3 : seedAt rows' q = p'.hl_open_comment := by
                have := seedAt_succ rows' (q - 1) p' hp'
                rw [eq1] at this
                exact this
              have e4 : seedAt E.row (q - 1) = E.row[q - 2].hl_open_comment := by
                have := seedAt_succ E.row (q - 2) _ hp
                rw [eq2] at this
                exact this
              rw [e3, e4, d3]

/-! ### Cursor motion -/

theorem clampCx_spec (E : editorConfig) (h : E.cy ≤ E.numrows) :
    CursorOk (clampCx E) ∧ (clampCx E).cy = E.cy ∧ (clampCx E).row = E.row ∧
      (clampCx E).cx ≤ E.cx := by
  have hnum : E.numrows = E.row.length := rfl
  unfold clampCx
  simp only
  by_cases hge : E.cy ≥ E.numrows
  · rw [if_pos hge]
    have hnone : E.row[E.cy]? = none := List.getElem?_eq_none (by omega)
    by_cases hc : E.cx > 0
    · rw [if_pos hc]
      refine ⟨⟨h, fun r hr => ?_, fun _ => rfl⟩, rfl, rfl, Nat.zero_le _⟩
      rw [show ({ E with cx := 0 } : editorConfig).row[({ E with cx := 0 } : editorConfig).cy]? =
        E.row[E.cy]? from rfl, hnone] at hr
      exact absurd hr (by simp)
    · rw [if_neg hc]
      refine ⟨⟨h, fun r hr => ?_, fun _ => by omega⟩, rfl, rfl, Nat.le_refl _⟩
      rw [hnone] at hr
      exact absurd hr (by simp)
  · rw [if_neg hge]
    have hlt : E.cy < E.row.length := by omega
    rw [List.getElem?_eq_getElem hlt]
    simp only
    by_cases hc : E.cx > E.row[E.cy].size
    · rw [if_pos hc]
      refine ⟨⟨h, fun r hr => ?_, fun he => ?_⟩, rfl, rfl, by show E.row[E.cy].size ≤ E.cx; omega⟩
      · rw [show ({ E with cx := E.row[E.cy].size } : editorConfig).row[
          ({ E with cx := E.row[E.cy].size } : editorConfig).cy]? = E.row[E.cy]? from rfl,
          List.getElem?_eq_getElem hlt] at hr
        rw [← Option.some.inj hr]
      · exact absurd he (by show ¬ E.cy = E.row.length; omega)
    · rw [if_neg hc]
      refine ⟨⟨h, fun r hr => ?_, fun he => ?_⟩, rfl, rfl, Nat.le_refl _⟩
      · rw [List.getElem?_eq_getElem hlt] at hr
        rw [← Option.some.inj hr]
        omega
      · omega

theorem editorMoveCursor_eq (E : editorConfig) (keep_rx key : Nat) :
    editorMoveCursor E keep_rx key =
      (if key = ARROW_LEFT then
        if E.cx ≠ 0 then
          some ({ E with cx := E.cx - 1 },
            match (if E.cy ≥ E.numrows then none else E.row[E.cy]?) with
            | some r => editorRowCxToRx r (E.cx - 1)
            | none => keep_rx)
        else if E.cy > 0 then
          match E.row[E.cy - 1]? with
          | none => none
          | some prev =>
            some ({ E with cy := E.cy - 1, cx := prev.size },
              match (if E.cy ≥ E.numrows then none else E.row[E.cy]?) with
              | some r => editorRowCxToRx r prev.size
              | none => keep_rx)
        else
          some (E,
            match (if E.cy ≥ E.numrows then none else E.row[E.cy]?) with
            | some r => editorRowCxToRx r E.cx
            | none => keep_rx)
      else if key = ARROW_RIGHT then
        match (if E.cy ≥ E.numrows then none else E.row[E.cy]?) with
        | some r =>
          if E.cx < r.size then some ({ E with cx := E.cx + 1 }, editorRowCxToRx r (E.cx + 1))
          else if E.cx = r.size then
            some ({ E with cy := E.cy + 1, cx := 0 }, editorRowCxToRx r 0)
          else some (E, editorRowCxToRx r E.cx)
        | none => some (E, keep_rx)
      else if key = ARROW_UP then
        if E.cy ≠ 0 then
          match E.row[E.cy - 1]? with
          | none => none
          | some prev =>
            some ({ E with cx := editorRowRxToCx prev keep_rx, cy := E.cy - 1 }, keep_rx)
        else some (E, keep_rx)
      else if key = ARROW_DOWN then
        if E.cy < E.numrows then
          match E.row[E.cy + 1]? with
          | none => none
          | some next =>
            some ({ E with cx := editorRowRxToCx next keep_rx, cy := E.cy + 1 }, keep_rx)
        else some (E, keep_rx)
      else some (E, keep_rx)).bind fun r => some (clampCx r.1, r.2) := by
  unfold editorMoveCursor clampCx
  cases hrow : (if E.cy ≥ E.numrows then none else E.row[E.cy]?) <;> rfl

/-- Outside the case of `ARROW_DOWN` on the last row, `editorMoveCursor` with
an arrow key reads rows inside the array only, keeps the cursor bounds, and
changes `cy` by at most one. -/
theorem editorMoveCursor_bounds (E : editorConfig) (keep_rx key : Nat) (hok : CursorOk E)
    (hkey : key = ARROW_LEFT ∨ key = ARROW_RIGHT ∨ key = ARROW_UP ∨ key = ARROW_DOWN)
    (hlast : ¬ (key = ARROW_DOWN ∧ E.cy + 1 = E.numrows)) :
    ∃ E' k', editorMoveCursor E keep_rx key = some (E', k') ∧ CursorOk E' ∧
      E'.row = E.row ∧ E'.cy ≤ E.cy + 1 ∧ E.cy ≤ E'.cy + 1 := by
  have hnum : E.numrows = E.row.length := rfl
  obtain ⟨hcy, hcx, hend⟩ := hok
  have fin : ∀ (E1 : editorConfig) (k : Nat), E1.row = E.row → E1.cy ≤ E.cy + 1 →
      E.cy ≤ E1.cy + 1 → E1.cy ≤ E.numrows →
      ∃ E' k', (some (E1, k)).bind (fun r => some (clampCx r.1, r.2)) = some (E', k') ∧
        CursorOk E' ∧ E'.row = E.row ∧ E'.cy ≤ E.cy + 1 ∧ E.cy ≤ E'.cy + 1 := by
    intro E1 k h1 h2 h3 h4
    have h4' : E1.cy ≤ E1.numrows := by
      show E1.cy ≤ E1.row.length
      rw [h1]; exact h4
    obtain ⟨c1, c2, c3, _⟩ := clampCx_spec E1 h4'
    exact ⟨clampCx E1, k, rfl, c1, c3.trans h1, by rw [c2]; exact h2, by rw [c2]; exact h3⟩
  rw [editorMoveCursor_eq]
  rcases hkey with hk | hk | hk | hk
  · rw [if_pos hk]
    by_cases h0 : E.cx ≠ 0
    · rw [if_pos h0]
      exact fin _ _ rfl (Nat.le_succ _) (Nat.le_succ _) hcy
    · rw [if_neg h0]
      by_cases h1 : E.cy > 0
      · rw [if_pos h1]
        have hlt : E.cy - 1 < E.row.length := by omega
        rw [List.getElem?_eq_getElem hlt]
        exact fin _ _ rfl (by show E.cy - 1 ≤ E.cy + 1; omega)
          (by show E.cy ≤ E.cy - 1 + 1; omega) (by show E.cy - 1 ≤ E.numrows; omega)
      · rw [if_neg h1]
        exact fin _ _ rfl (Nat.le_succ _) (Nat.le_succ _) hcy
  · rw [if_neg (by rw [hk]; decide), if_pos hk]
    by_cases hge : E.cy ≥ E.numrows
    · rw [if_pos hge]
      exact fin _ _ rfl (Nat.le_succ _) (Nat.le_succ _) hcy
    · rw [if_neg hge]
      have hlt : E.cy < E.row.length := by omega
      rw [List.getElem?_eq_getElem hlt]
      simp only
      split_ifs
      · exact fin _ _ rfl (Nat.le_succ _) (Nat.le_succ _) hcy
      · exact fin _ _ rfl (Nat.le_refl _) (by show E.cy ≤ E.cy + 1 + 1; omega)
          (by show E.cy + 1 ≤ E.numrows; omega)
      · exact fin _ _ rfl (Nat.le_succ _) (Nat.le_succ _) hcy
  · rw [if_neg (by rw [hk]; decide), if_neg (by rw [hk]; decide), if_pos hk]
    by_cases h0 : E.cy ≠ 0
    · rw [if_pos h0]
      have hlt : E.cy - 1 < E.row.length := by omega
      rw [List.getElem?_eq_getElem hlt]
      exact fin _ _ rfl (by show E.cy - 1 ≤ E.cy + 1; omega)
        (by show E.cy ≤ E.cy - 1 + 1; omega) (by show E.cy - 1 ≤ E.numrows; omega)
    · rw [if_neg h0]
      exact fin _ _ rfl (Nat.le_succ _) (Nat.le_succ _) hcy
  · rw [if_neg (by rw [hk]; decide), if_neg (by rw [hk]; decide), if_neg (by rw [hk]; decide),
      if_pos hk]
    by_cases h0 : E.cy < E.numrows
    · rw [if_pos h0]
      have hne : E.cy + 1 ≠ E.numrows := fun h => hlast ⟨hk, h⟩
      have hlt : E.cy + 1 < E.row.length := by omega
      rw [List.getElem?_eq_getElem hlt]
      exact fin _ _ rfl (Nat.le_refl _) (by show E.cy ≤ E.cy + 1 + 1; omega)
        (by show E.cy + 1 ≤ E.numrows; omega)
    · rw [if_neg h0]
      exact fin _ _ rfl (Nat.le_succ _) (Nat.le_succ _) hcy

/-! ### The propagation restores consistent highlighting -/

theorem seedAt_congr (rows rows' : List erow) (q : Nat)
    (h : q = 0 ∨ rows'[q - 1]? = rows[q - 1]?) : seedAt rows' q = seedAt rows q := by
  unfold seedAt
  rcases h with h | h
  · rw [if_pos h, if_pos h]
  · rw [h]

theorem synPass_row (s : editorSyntax) (rows : List erow) (p : Nat) (row : erow)
    (r : List erow × Bool) (hidx : IdxOk rows) (hrow : rows[p]? = some row)
    (h : synPass (some s) rows p = some r) :
    ∃ st, scanRow s row.render (seedAt rows p) = some st ∧
      r.1 = rows.set p { row with hl := st.hl, hl_open_comment := st.in_comment } ∧
      r.2 = (row.hl_open_comment != st.in_comment) := by
  unfold synPass at h
  rw [hrow] at h
  simp only at h
  rw [highlightRow_seed s rows p row hidx hrow] at h
  cases hst : scanRow s row.render (seedAt rows p) with
  | none => rw [hst] at h; exact absurd h (by simp)
  | some st =>
    rw [hst] at h
    simp only [Option.some.injEq] at h
    rw [← h]
    exact ⟨st, rfl, rfl, rfl⟩

theorem hlRowOk_of_scan (s : editorSyntax) (rows : List erow) (q : Nat) (row : erow)
    (st : HlScan) (hrow : rows[q]? = some row)
    (hst : scanRow s row.render (seedAt rows q) = some st) (h1 : row.hl = st.hl)
    (h2 : row.hl_open_comment = st.in_comment) : hlRowOk s rows q = true := by
  unfold hlRowOk
  rw [hrow]
  simp only [hst, Option.map_some', h1, h2, decide_True]

/-- When every row but `k` is consistent, the call `editorUpdateSyntax` on the
row `k` leaves every row consistent, and the rows before `k` as they are. -/
theorem cascade_consistent (s : editorSyntax) (fuel : Nat) :
    ∀ (rows : List erow) (k : Nat) (rows' : List erow), IdxOk rows → k < rows.length →
      (∀ q, q < rows.length → q ≠ k → hlRowOk s rows q = true) →
      editorUpdateSyntax (some s) rows.length fuel rows k = some rows' →
      HlConsistent s rows' ∧ rows'.length = rows.length ∧ ∀ q, q < k → rows'[q]? = rows[q]? := by
  induction fuel with
  | zero =>
    intro rows k rows' _ _ _ h
    exact absurd h (by simp [editorUpdateSyntax])
  | succ fuel ih =>
    intro rows k rows' hidx hk hothers h
    have hrow := List.getElem?_eq_getElem hk
    rw [editorUpdateSyntax_pass _ _ _ _ _ hidx] at h
    cases hp : synPass (some s) rows k with
    | none => rw [hp] at h; exact absurd h (by simp)
    | some r =>
      rw [hp] at h
      simp only [Option.some_bind] at h
      obtain ⟨st, hst, hr1, hr2⟩ := synPass_row s rows k _ r hidx hrow hp
      have hlen1 : r.1.length = rows.length := by rw [hr1, List.length_set]
      have hidx1 : IdxOk r.1 := by rw [hr1]; exact idxOk_set hidx hrow rfl
      have hk1 : r.1[k]? = some { rows[k] with hl := st.hl, hl_open_comment := st.in_comment } := by
        rw [hr1, List.getElem?_set, if_pos rfl, if_pos hk]
      have hother1 : ∀ q, q ≠ k → r.1[q]? = rows[q]? := by
        intro q hq
        rw [hr1, List.getElem?_set, if_neg (fun e => hq e.symm)]
      -- the row `k` is consistent after its pass
      have hokk : hlRowOk s r.1 k = true := by
        refine hlRowOk_of_scan s r.1 k _ st hk1 ?_ rfl rfl
        rw [seedAt_congr rows r.1 k (by
          by_cases h0 : k = 0
          · exact Or.inl h0
          · exact Or.inr (hother1 (k - 1) (by omega)))]
        exact hst
      -- the rows that are neither `k` nor `k + 1` stay consistent
      have hokq : ∀ q, q < rows.length → q ≠ k → q ≠ k + 1 → hlRowOk s r.1 q = true := by
        intro q hq h1 h2
        have hrq := List.getElem?_eq_getElem hq
        rw [hlRowOk_congr s rows r.1 q q _ _ hrq ((hother1 q h1).trans hrq) rfl rfl rfl
          (seedAt_congr rows r.1 q (by
            by_cases h0 : q = 0
            · exact Or.inl h0
            · exact Or.inr (hother1 (q - 1) (by omega))))]
        exact hothers q hq h1
      by_cases hc : r.2 = true ∧ k + 1 < rows.length
      · rw [if_pos hc] at h
        rw [← hlen1] at h
        obtain ⟨c1, c2, c3⟩ := ih r.1 (k + 1) rows' hidx1 (by omega)
          (fun q hq hne => by
            by_cases hqk : q = k
            · rw [hqk]; exact hokk
            · exact hokq q (by omega) hqk hne) h
        refine ⟨c1, c2.trans hlen1, fun q hq => ?_⟩
        rw [c3 q (by omega), hother1 q (by omega)]
      · rw [if_neg hc] at h
        have h := Option.some.inj h
        rw [← h]
        refine ⟨fun q hq => ?_, hlen1, fun q hq => hother1 q (by omega)⟩
        rw [hlen1] at hq
        by_cases hqk : q = k
        · rw [hqk]; exact hokk
        · by_cases hqk1 : q = k + 1
          · have hch : r.2 = false := by
              by_contra hne
              exact hc ⟨by simpa using hne, by omega⟩
            rw [hr2] at hch
            have heq : rows[k].hl_open_comment = st.in_comment := by simpa using hch
            have hrq := List.getElem?_eq_getElem hq
            rw [hlRowOk_congr s rows r.1 q q _ _ hrq ((hother1 q hqk).trans hrq) rfl rfl rfl ?_]
            · exact hothers q hq hqk
            · rw [hqk1, seedAt_succ _ k _ hk1, seedAt_succ _ k _ hrow]
              exact heq.symm
          · exact hokq q hq hqk hqk1

/-- An edit of the characters of the row `p` followed by `editorUpdateRow`
leaves a consistent document consistent. -/
theorem rowEdit_consistent (s : editorSyntax) (E : editorConfig) (hidx : IdxOk E.row)
    (hsyn : E.syn = some s) (hcons : HlConsistent s E.row) (p : Nat) (row row1 : erow)
    (hrow : E.row[p]? = some row) (hi : row1.idx = row.idx)
    (ho : row1.hl_open_comment = row.hl_open_comment) (fuel : Nat) (rows' : List erow)
    (h : editorUpdateRow E.syn E.numrows fuel (E.row.set p row1) p = some rows') :
    HlConsistent s rows' := by
  have hp : p < E.row.length := getElem?_lt hrow
  have hnum : E.numrows = E.row.length := rfl
  unfold editorUpdateRow at h
  have h0 : (E.row.set p row1)[p]? = some row1 := by
    rw [List.getElem?_set, if_pos rfl, if_pos hp]
  rw [h0] at h
  simp only at h
  rw [List.set_set] at h
  generalize hrows3 : E.row.set p { row1 with render := renderLoop row1.chars [], damaged := true }
    = rows3 at h
  have hlen3 : rows3.length = E.row.length := by rw [← hrows3, List.length_set]
  have hk3 : rows3[p]? =
      some { row1 with render := renderLoop row1.chars [], damaged := true } := by
    rw [← hrows3, List.getElem?_set, if_pos rfl, if_pos hp]
  have hother3 : ∀ q, q ≠ p → rows3[q]? = E.row[q]? := by
    intro q hq
    rw [← hrows3, List.getElem?_set, if_neg (fun e => hq e.symm)]
  have hidx3 : IdxOk rows3 := by
    rw [← hrows3]
    exact idxOk_set hidx hrow hi
  rw [hsyn, hnum, ← hlen3] at h
  refine (cascade_consistent s fuel rows3 p rows' hidx3 (by omega) (fun q hq hne => ?_) h).1
  rw [hlen3] at hq
  have hrq := List.getElem?_eq_getElem hq
  rw [hlRowOk_congr s E.row rows3 q q _ _ hrq ((hother3 q hne).trans hrq) rfl rfl rfl ?_]
  · exact hcons q hq
  · by_cases h0 : q = 0
    · exact seedAt_congr _ _ q (Or.inl h0)
    · by_cases hq1 : q - 1 = p
      · have e : q = p + 1 := by omega
        rw [e, seedAt_succ _ p _ hk3, seedAt_succ _ p _ hrow]
        exact ho
      · exact seedAt_congr _ _ q (Or.inr (hother3 (q - 1) hq1))

/-- The three in-place edits as one statement: an edit that replaces the
characters of the row `p` and calls `editorUpdateRow` returns, leaves the
document consistent and the rows before `p` untouched. -/
theorem rowEdit_keeps (E : editorConfig) (hidx : IdxOk E.row) (hsyn : E.syn = some HLDB_C)
    (hcons : HlConsistent HLDB_C E.row) (p : Nat) (row : erow) (hrow : E.row[p]? = some row)
    (chars1 : List Nat) :
    ∃ rows', editorUpdateRow E.syn E.numrows (E.numrows + 1)
        (E.row.set p { row with chars := chars1 }) p = some rows' ∧
      HlConsistent HLDB_C rows' ∧ ∀ q, q < p → rows'[q]? = E.row[q]? := by
  obtain ⟨rows', h, _, _, hfr, _⟩ := rowEdit_spec E hidx (synOk_of_valid (Or.inr hsyn)) p row
    { row with chars := chars1 } hrow rfl (E.numrows + 1) (Nat.le_refl _)
  exact ⟨rows', h, rowEdit_consistent HLDB_C E hidx hsyn hcons p row { row with chars := chars1 }
    hrow rfl rfl _ rows' h, hfr⟩

/-! ### The column mapper and the render form -/

theorem padTab_replicate : ∀ (fuel : Nat) (out : List Nat),
    (KILO_TAB_STOP - out.length % KILO_TAB_STOP) % KILO_TAB_STOP ≤ fuel →
    padTab fuel out =
      out ++ List.replicate ((KILO_TAB_STOP - out.length % KILO_TAB_STOP) % KILO_TAB_STOP)
        SPACE := by
  intro fuel
  induction fuel with
  | zero =>
    intro out h
    have h0 : (KILO_TAB_STOP - out.length % KILO_TAB_STOP) % KILO_TAB_STOP = 0 := by omega
    rw [h0]; simp [padTab]
  | succ n ih =>
    intro out h
    unfold padTab
    unfold KILO_TAB_STOP at h ih ⊢
    by_cases hz : out.length % 8 ≠ 0
    · rw [if_pos hz, ih (out ++ [SPACE])
        (by simp only [List.length_append, List.length_cons, List.length_nil]; omega)]
      have e : (8 - out.length % 8) % 8 = (8 - (out ++ [SPACE]).length % 8) % 8 + 1 := by
        simp only [List.length_append, List.length_cons, List.length_nil]; omega
      rw [e, List.replicate_succ, List.append_assoc]
      rfl
    · rw [if_neg hz]
      have e : (8 - out.length % 8) % 8 = 0 := by omega
      rw [e]; simp

/-- The cells a tab produces: from `out.length` up to the next tab stop. -/
theorem tab_cells (out : List Nat) :
    padTab KILO_TAB_STOP (out ++ [SPACE]) =
      out ++ List.replicate (KILO_TAB_STOP - out.length % KILO_TAB_STOP) SPACE := by
  rw [padTab_replicate KILO_TAB_STOP (out ++ [SPACE])
    (by unfold KILO_TAB_STOP; omega)]
  unfold KILO_TAB_STOP
  have e : 8 - out.length % 8 = (8 - (out ++ [SPACE]).length % 8) % 8 + 1 := by
    simp only [List.length_append, List.length_cons, List.length_nil]; omega
  rw [e, List.replicate_succ, List.append_assoc]
  rfl

theorem renderLoop_append (a : List Nat) : ∀ (b out : List Nat),
    renderLoop (a ++ b) out = renderLoop b (renderLoop a out) := by
  induction a with
  | nil => intro b out; simp [renderLoop]
  | cons c cs ih =>
    intro b out
    simp only [List.cons_append, renderLoop]
    split
    · exact ih _ _
    · exact ih _ _

theorem renderLoop_single (c : Nat) (out : List Nat) :
    renderLoop [c] out =
      if c = TAB then out ++ List.replicate (KILO_TAB_STOP - out.length % KILO_TAB_STOP) SPACE
      else out ++ [c] := by
  unfold renderLoop
  split
  · rw [tab_cells]; rfl
  · rfl

theorem renderLoop_single_length (c : Nat) (out : List Nat) :
    (renderLoop [c] out).length = advanceRx c out.length := by
  rw [renderLoop_single]
  unfold advanceRx KILO_TAB_STOP
  split
  · simp only [List.length_append, List.length_replicate]; omega
  · simp

/-- The length of what the render loop produces is what the column mapper
computes. -/
theorem renderLoop_length (chars : List Nat) : ∀ (out : List Nat),
    (renderLoop chars out).length = cxToRxLoop chars chars.length out.length := by
  induction chars with
  | nil => intro out; simp [renderLoop, cxToRxLoop]
  | cons c cs ih =>
    intro out
    have h := renderLoop_append [c] cs out
    rw [List.singleton_append] at h
    rw [h, ih, renderLoop_single_length]
    simp [cxToRxLoop]

theorem renderLoop_extends (chars : List Nat) : ∀ (out : List Nat),
    (renderLoop chars out).take out.length = out := by
  induction chars with
  | nil => intro out; simp [renderLoop]
  | cons c cs ih =>
    intro out
    have h := renderLoop_append [c] cs out
    rw [List.singleton_append] at h
    rw [h]
    have h1 := ih (renderLoop [c] out)
    have h2 : (renderLoop [c] out).take out.length = out := by
      rw [renderLoop_single]
      split
      · rw [List.take_left' rfl]
      · rw [List.take_left' rfl]
    have h3 : out.length ≤ (renderLoop [c] out).length := by
      rw [renderLoop_single_length]
      exact Nat.le_of_lt (lt_advanceRx _ _)
    have h4 : (renderLoop cs (renderLoop [c] out)).take out.length =
        ((renderLoop cs (renderLoop [c] out)).take (renderLoop [c] out).length).take
          out.length := by
      rw [List.take_take, Nat.min_eq_left h3]
    rw [h4, h1, h2]

theorem renderLoop_tab_free (chars : List Nat) : ∀ (out : List Nat), TAB ∉ out →
    TAB ∉ renderLoop chars out := by
  induction chars with
  | nil => intro out h; simpa [renderLoop] using h
  | cons c cs ih =>
    intro out hout
    have h := renderLoop_append [c] cs out
    rw [List.singleton_append] at h
    rw [h]
    apply ih
    rw [renderLoop_single]
    split
    · intro hm
      rcases List.mem_append.mp hm with h1 | h1
      · exact hout h1
      · have := (List.mem_replicate.mp h1).2
        exact absurd this (by decide)
    · rename_i hc
      intro hm
      rcases List.mem_append.mp hm with h1 | h1
      · exact hout h1
      · rw [List.mem_singleton] at h1
        exact hc h1.symm

/-- The mapper on a prefix: the cells of the first `cx` characters. -/
theorem cxToRx_take (row : erow) (cx : Nat) (hcx : cx ≤ row.size) :
    editorRowCxToRx row cx = (renderLoop (row.chars.take cx) []).length := by
  unfold editorRowCxToRx
  have hlen : (row.chars.take cx).length = cx := by
    rw [List.length_take]; exact Nat.min_eq_left hcx
  rw [renderLoop_length, hlen]
  have h := cxToRxLoop_append (row.chars.take cx) (row.chars.drop cx) 0
  rw [List.take_append_drop, hlen] at h
  rw [h]; rfl

/-- The render form of a row starts with the cells of every prefix of its
characters. -/
theorem render_take (row : erow) (hr : Rendered row) (cx : Nat) (hcx : cx ≤ row.size) :
    row.render.take (editorRowCxToRx row cx) = renderLoop (row.chars.take cx) [] := by
  rw [cxToRx_take row cx hcx]
  have h := renderLoop_append (row.chars.take cx) (row.chars.drop cx) []
  rw [List.take_append_drop] at h
  rw [hr, h]
  exact renderLoop_extends _ _

theorem rsize_eq (row : erow) (hr : Rendered row) :
    row.rsize = editorRowCxToRx row row.size := by
  unfold erow.rsize
  rw [hr, renderLoop_length]
  rfl

/-- The cells of character `j` of a rendered row: from `CxToRx j`, the render
form continues with the cells of that character. -/
theorem render_char (row : erow) (hr : Rendered row) (j c : Nat)
    (hj : row.chars[j]? = some c) :
    ∃ pre post, row.render = pre ++ post ∧ pre.length = editorRowCxToRx row j ∧
      renderLoop [c] pre ++ post.drop (editorRowCxToRx row (j + 1) - editorRowCxToRx row j)
        = row.render ∧
      (renderLoop [c] pre).length = editorRowCxToRx row (j + 1) := by
  have hlt : j < row.chars.length := by
    by_contra hge
    rw [List.getElem?_eq_none (by omega)] at hj
    exact absurd hj (by simp)
  have hcj : row.chars[j] = c := by
    rw [List.getElem?_eq_getElem hlt] at hj
    exact Option.some.inj hj
  have htake : row.chars.take (j + 1) = row.chars.take j ++ [c] := by
    rw [List.take_succ, hj]; rfl
  have h1 := render_take row hr (j + 1) hlt
  have h0 := render_take row hr j (Nat.le_of_lt hlt)
  have hl0 := cxToRx_take row j (Nat.le_of_lt hlt)
  have hl1 := cxToRx_take row (j + 1) hlt
  rw [htake, renderLoop_append] at h1 hl1
  have hmono : editorRowCxToRx row j ≤ editorRowCxToRx row (j + 1) :=
    cxToRxLoop_le_of_le _ _ _ _ (Nat.le_succ j)
  refine ⟨renderLoop (row.chars.take j) [], row.render.drop (editorRowCxToRx row j), ?_,
    hl0.symm, ?_, hl1.symm⟩
  · rw [← h0, List.take_append_drop]
  · rw [← h1, List.drop_drop, Nat.add_sub_cancel' hmono, List.take_append_drop]

/-- The whole correspondence between the characters of a rendered row, its
render form and the column mapper. -/
theorem rendered_mapper (row : erow) (hr : Rendered row) :
    (∀ cx, cx ≤ row.size →
      editorRowCxToRx row cx = (renderLoop (row.chars.take cx) []).length ∧
      row.render.take (editorRowCxToRx row cx) = renderLoop (row.chars.take cx) []) ∧
    row.rsize = editorRowCxToRx row row.size ∧
    (∀ j c, row.chars[j]? = some c → c ≠ TAB →
      row.render[editorRowCxToRx row j]? = some c ∧
      editorRowCxToRx row (j + 1) = editorRowCxToRx row j + 1) ∧
    (∀ j, row.chars[j]? = some TAB →
      (∀ x, editorRowCxToRx row j ≤ x → x < editorRowCxToRx row (j + 1) →
        row.render[x]? = some SPACE) ∧
      editorRowCxToRx row j < editorRowCxToRx row (j + 1) ∧
      editorRowCxToRx row (j + 1) % KILO_TAB_STOP = 0 ∧
      editorRowCxToRx row (j + 1) ≤ editorRowCxToRx row j + KILO_TAB_STOP) ∧
    TAB ∉ row.render := by
  refine ⟨fun cx hcx => ⟨cxToRx_take row cx hcx, render_take row hr cx hcx⟩,
    rsize_eq row hr, ?_, ?_, ?_⟩
  · intro j c hj hc
    obtain ⟨pre, post, _, hpre, hrend, hlen⟩ := render_char row hr j c hj
    rw [renderLoop_single, if_neg hc] at hrend hlen
    constructor
    · rw [← hrend, List.append_assoc, List.getElem?_append_right (by omega), hpre,
        Nat.sub_self]
      simp
    · rw [← hlen, ← hpre]; simp
  · intro j hj
    obtain ⟨pre, post, _, hpre, hrend, hlen⟩ := render_char row hr j TAB hj
    rw [renderLoop_single, if_pos rfl] at hrend hlen
    have hl : editorRowCxToRx row (j + 1) =
        editorRowCxToRx row j + (KILO_TAB_STOP - editorRowCxToRx row j % KILO_TAB_STOP) := by
      rw [← hlen, ← hpre]; simp
    unfold KILO_TAB_STOP at hl hrend ⊢
    refine ⟨?_, by omega, by omega, by omega⟩
    intro x hx1 hx2
    rw [← hrend, List.append_assoc, List.getElem?_append_right (by omega), hpre,
      List.getElem?_append_left (by rw [List.length_replicate]; omega),
      List.getElem?_replicate, if_pos (by omega)]
  · rw [hr]
    exact renderLoop_tab_free _ _ (by simp)

/-! ### Selection with the shifted arrows -/

theorem toggleLoop_spec : ∀ (n i : Nat) (hl : List Nat), i + n ≤ hl.length →
    ∃ hl', toggleLoop n i hl = some hl' ∧ hl'.length = hl.length ∧
      ∀ x, hl'[x]? = if i ≤ x ∧ x < i + n then
          (hl[x]?).map (fun v => if v = HL_MATCH then HL_NORMAL else HL_MATCH)
        else hl[x]? := by
  intro n
  induction n with
  | zero =>
    intro i hl _
    refine ⟨hl, rfl, rfl, fun x => ?_⟩
    rw [if_neg (by omega)]
  | succ n ih =>
    intro i hl h
    have hi : i < hl.length := by omega
    unfold toggleLoop
    rw [List.getElem?_eq_getElem hi]
    simp only
    obtain ⟨hl', h1, h2, h3⟩ := ih (i + 1)
      (hl.set i (if hl[i] = HL_MATCH then HL_NORMAL else HL_MATCH))
      (by rw [List.length_set]; omega)
    refine ⟨hl', h1, by rw [h2, List.length_set], fun x => ?_⟩
    rw [h3 x, List.getElem?_set]
    by_cases hx : i = x
    · subst hx
      have c1 : ¬ (i + 1 ≤ i ∧ i < i + 1 + n) := by omega
      have c2 : i ≤ i ∧ i < i + (n + 1) := by omega
      rw [if_neg c1, if_pos rfl, if_pos hi, if_pos c2, List.getElem?_eq_getElem hi]
      rfl
    · rw [if_neg hx]
      by_cases hx2 : i + 1 ≤ x ∧ x < i + 1 + n
      · have c2 : i ≤ x ∧ x < i + (n + 1) := by omega
        rw [if_pos hx2, if_pos c2]
      · have c2 : ¬ (i ≤ x ∧ x < i + (n + 1)) := by omega
        rw [if_neg hx2, if_neg c2]

theorem sameText_refl (rows : List erow) : SameText rows rows :=
  ⟨rfl, fun _ r h => ⟨r, h, rfl, rfl, rfl⟩⟩

theorem sameText_trans {a b c : List erow} (h1 : SameText a b) (h2 : SameText b c) :
    SameText a c := by
  refine ⟨h2.1.trans h1.1, fun q r hr => ?_⟩
  obtain ⟨r1, e1, c1, d1, l1⟩ := h1.2 q r hr
  obtain ⟨r2, e2, c2, d2, l2⟩ := h2.2 q r1 e1
  exact ⟨r2, e2, c2.trans c1, d2.trans d1, l2.trans l1⟩

theorem sameText_set (rows : List erow) (p : Nat) (row : erow) (hl : List Nat) (d : Bool)
    (hrow : rows[p]? = some row) (hlen : hl.length = row.hl.length) :
    SameText rows (rows.set p { row with hl := hl, damaged := d }) := by
  refine ⟨List.length_set _ _ _, fun q r hr => ?_⟩
  rw [List.getElem?_set]
  by_cases hq : p = q
  · subst hq
    rw [if_pos rfl, if_pos (getElem?_lt hrow)]
    rw [hrow] at hr
    cases hr
    exact ⟨_, rfl, rfl, rfl, hlen⟩
  · rw [if_neg hq]
    exact ⟨r, hr, rfl, rfl, rfl⟩

theorem rowWf_of_same {r r' : erow} (h : RowWf r) (hc : r'.chars = r.chars)
    (hd : r'.render = r.render) (hl : r'.hl.length = r.hl.length) : RowWf r' := by
  unfold RowWf Rendered erow.rsize at *
  rw [hc, hd, hl]
  exact h

theorem editorRowRxToCx_le_size (row : erow) (rx : Nat) : editorRowRxToCx row rx ≤ row.size := by
  unfold editorRowRxToCx erow.size
  rcases rxToCxLoop_spec rx row.chars 0 0 (Nat.zero_le _) with ⟨_, h2⟩ | ⟨k, hk, _, _, h3⟩
  · rw [h2, Nat.zero_add]
  · rw [h3, Nat.zero_add]
    split_ifs <;> omega

/-- The cell range the code computes for character `j` ends where the mapper
puts character `j + 1`. -/
theorem right_eq_cxToRx (row : erow) (j c : Nat) (hj : row.chars[j]? = some c) :
    (if c = TAB then editorRowCxToRx row j +
        ((KILO_TAB_STOP - 1) - editorRowCxToRx row j % KILO_TAB_STOP) + 1
      else editorRowCxToRx row j + 1) = editorRowCxToRx row (j + 1) := by
  have hlt : j < row.chars.length := by
    by_contra hge
    rw [List.getElem?_eq_none (by omega)] at hj
    exact absurd hj (by simp)
  have hc : row.chars.getD j 0 = c := by
    rw [List.getD_eq_getElem?_getD, hj]; rfl
  unfold editorRowCxToRx
  rw [cxToRxLoop_succ, hc]
  unfold advanceRx
  split <;> rfl

/-- What `toggleChar` does on a well-formed row for a character inside the
row. -/
theorem toggleChar_spec (E : editorConfig) (row : erow) (j : Nat)
    (hrow : E.row[E.cy]? = some row) (hwf : RowWf row) (hj : j < row.size) :
    ∃ hl', toggleLoop (editorRowCxToRx row (j + 1) - editorRowCxToRx row j)
          (editorRowCxToRx row j) row.hl = some hl' ∧
      hl'.length = row.hl.length ∧
      (∀ x, hl'[x]? = if editorRowCxToRx row j ≤ x ∧ x < editorRowCxToRx row (j + 1) then
          (row.hl[x]?).map (fun v => if v = HL_MATCH then HL_NORMAL else HL_MATCH)
        else row.hl[x]?) ∧
      toggleChar E j =
        some { E with row := E.row.set E.cy { row with hl := hl', damaged := true } } := by
  have hlt := cxToRxLoop_lt_succ row.chars j 0
  have hle := cxToRxLoop_le_of_le row.chars 0 (j + 1) row.chars.length hj
  have hrs := rsize_eq row hwf.1
  have hbound : editorRowCxToRx row j +
      (editorRowCxToRx row (j + 1) - editorRowCxToRx row j) ≤ row.hl.length := by
    rw [hwf.2, hrs]
    unfold editorRowCxToRx erow.size
    omega
  obtain ⟨hl', h1, h2, h3⟩ := toggleLoop_spec _ _ row.hl hbound
  have hadd : editorRowCxToRx row j + (editorRowCxToRx row (j + 1) - editorRowCxToRx row j) =
      editorRowCxToRx row (j + 1) := by
    unfold editorRowCxToRx
    omega
  rw [hadd] at h3
  refine ⟨hl', h1, h2, h3, ?_⟩
  have hcj : row.chars[j]? = some row.chars[j] := List.getElem?_eq_getElem hj
  unfold toggleChar
  rw [hrow]
  simp only
  rw [if_neg (Nat.ne_of_lt hj), hcj]
  simp only
  rw [right_eq_cxToRx row j _ hcj, h1]

theorem editorMoveCursor_left (E : editorConfig) (keep_rx : Nat) (r : erow)
    (hrow : E.row[E.cy]? = some r) (h0 : E.cx ≠ 0) (hcx : E.cx ≤ r.size + 1) :
    editorMoveCursor E keep_rx ARROW_LEFT =
      some ({ E with cx := E.cx - 1 }, editorRowCxToRx r (E.cx - 1)) := by
  have hlt : E.cy < E.numrows := getElem?_lt hrow
  rw [editorMoveCursor_eq, if_pos rfl, if_pos h0, if_neg (Nat.not_le.mpr hlt), hrow]
  simp only [Option.some_bind]
  unfold clampCx
  have hge : ¬ (E.cy ≥ ({ E with cx := E.cx - 1 } : editorConfig).numrows) := Nat.not_le.mpr hlt
  simp only [if_neg hge, hrow]
  rw [if_neg (by omega)]

theorem editorRowCxToRx_zero (row : erow) : editorRowCxToRx row 0 = 0 := by
  unfold editorRowCxToRx
  cases row.chars <;> rfl

theorem editorMoveCursor_right_wrap (E : editorConfig) (keep_rx : Nat) (r : erow)
    (hrow : E.row[E.cy]? = some r) (hcx : E.cx = r.size) :
    editorMoveCursor E keep_rx ARROW_RIGHT =
      some ({ E with cy := E.cy + 1, cx := 0 }, 0) := by
  have hlt : E.cy < E.numrows := getElem?_lt hrow
  rw [editorMoveCursor_eq, if_neg (by decide), if_pos rfl, if_neg (Nat.not_le.mpr hlt), hrow]
  simp only
  rw [if_neg (by omega), if_pos hcx]
  simp only [Option.some_bind]
  have hc : clampCx { E with cy := E.cy + 1, cx := 0 } = { E with cy := E.cy + 1, cx := 0 } := by
    unfold clampCx
    simp only
    rw [if_neg (Nat.not_lt.mpr (Nat.zero_le _))]
  rw [hc, editorRowCxToRx_zero]

theorem editorMoveCursor_left_wrap (E : editorConfig) (keep_rx : Nat) (above : erow)
    (hcy : 0 < E.cy) (habove : E.row[E.cy - 1]? = some above) (hcx : E.cx = 0) :
    ∃ k', editorMoveCursor E keep_rx ARROW_LEFT =
      some ({ E with cy := E.cy - 1, cx := above.size }, k') := by
  rw [editorMoveCursor_eq, if_pos rfl, if_neg (by omega), if_pos hcy, habove]
  simp only [Option.some_bind]
  have hlt : E.cy - 1 < E.numrows := getElem?_lt habove
  have hc : clampCx { E with cy := E.cy - 1, cx := above.size } =
      { E with cy := E.cy - 1, cx := above.size } := by
    unfold clampCx
    have hge : ¬ (E.cy - 1 ≥ ({ E with cy := E.cy - 1, cx := above.size } : editorConfig).numrows) :=
      Nat.not_le.mpr hlt
    simp only [if_neg hge, habove]
    rw [if_neg (by omega)]
  rw [hc]
  exact ⟨_, rfl⟩

/-- One `SHIFT_ARROW_RIGHT` step inside a well-formed row. -/
theorem selectStep_right (E : editorConfig) (keep_rx : Nat) (row : erow)
    (hrow : E.row[E.cy]? = some row) (hwf : RowWf row) (hcx : E.cx < row.size) :
    ∃ hl', hl'.length = row.hl.length ∧
      (∀ x, hl'[x]? =
        if editorRowCxToRx row E.cx ≤ x ∧ x < editorRowCxToRx row (E.cx + 1) then
          (row.hl[x]?).map (fun v => if v = HL_MATCH then HL_NORMAL else HL_MATCH)
        else row.hl[x]?) ∧
      editorMoveSelectStep E keep_rx SHIFT_ARROW_RIGHT =
        some ({ E with cx := E.cx + 1,
                       row := E.row.set E.cy { row with hl := hl', damaged := true } },
          editorRowCxToRx row (E.cx + 1)) := by
  obtain ⟨hl', _, h2, h3, h4⟩ := toggleChar_spec E row E.cx hrow hwf hcx
  refine ⟨hl', h2, h3, ?_⟩
  unfold editorMoveSelectStep
  rw [if_neg (by decide), if_pos rfl, hrow]
  simp only
  rw [if_pos hcx, h4]
  simp only [Option.some_bind]
  have hrow1 : ({ E with row := E.row.set E.cy { row with hl := hl', damaged := true } } :
      editorConfig).row[E.cy]? = some { row with hl := hl', damaged := true } := by
    show (E.row.set E.cy _)[E.cy]? = _
    rw [List.getElem?_set, if_pos rfl, if_pos (getElem?_lt hrow)]
  rw [editorMoveCursor_right _ keep_rx { row with hl := hl', damaged := true } hrow1 hcx]
  rfl

/-- One `SHIFT_ARROW_LEFT` step inside a well-formed row. -/
theorem selectStep_left (E : editorConfig) (keep_rx : Nat) (row : erow)
    (hrow : E.row[E.cy]? = some row) (hwf : RowWf row) (h0 : 0 < E.cx)
    (hcx : E.cx ≤ row.size) :
    ∃ hl', hl'.length = row.hl.length ∧
      (∀ x, hl'[x]? =
        if editorRowCxToRx row (E.cx - 1) ≤ x ∧ x < editorRowCxToRx row E.cx then
          (row.hl[x]?).map (fun v => if v = HL_MATCH then HL_NORMAL else HL_MATCH)
        else row.hl[x]?) ∧
      editorMoveSelectStep E keep_rx SHIFT_ARROW_LEFT =
        some ({ E with cx := E.cx - 1,
                       row := E.row.set E.cy { row with hl := hl', damaged := true } },
          editorRowCxToRx row (E.cx - 1)) := by
  obtain ⟨hl', _, h2, h3, h4⟩ := toggleChar_spec E row (E.cx - 1) hrow hwf (by omega)
  have e : E.cx - 1 + 1 = E.cx := by omega
  rw [e] at h3
  refine ⟨hl', h2, h3, ?_⟩
  unfold editorMoveSelectStep
  rw [if_pos rfl, if_pos h0, h4]
  simp only [Option.some_bind]
  have hrow1 : ({ E with row := E.row.set E.cy { row with hl := hl', damaged := true } } :
      editorConfig).row[E.cy]? = some { row with hl := hl', damaged := true } := by
    show (E.row.set E.cy _)[E.cy]? = _
    rw [List.getElem?_set, if_pos rfl, if_pos (getElem?_lt hrow)]
  rw [editorMoveCursor_left _ keep_rx { row with hl := hl', damaged := true } hrow1
    (by show E.cx ≠ 0; omega) (by show E.cx ≤ row.chars.length + 1; unfold erow.size at hcx; omega)]
  rfl

theorem selectRepeat_add (key : Nat) : ∀ (a b : Nat) (E : editorConfig) (k : Nat),
    selectRepeat key (a + b) E k =
      (selectRepeat key a E k).bind fun r => selectRepeat key b r.1 r.2 := by
  intro a
  induction a with
  | zero => intro b E k; rw [Nat.zero_add]; rfl
  | succ a ih =>
    intro b E k
    have e : a + 1 + b = (a + b) + 1 := by omega
    rw [e]
    show (editorMoveSelectStep E k key).bind _ = ((editorMoveSelectStep E k key).bind _).bind _
    cases h : editorMoveSelectStep E k key with
    | none => rfl
    | some r => exact ih b r.1 r.2

/-- The loop of right steps inside a well-formed row: `n` steps from `cx` with
`cx + n <= size` end at `cx + n` on the same row. -/
theorem selectRepeat_right : ∀ (n : Nat) (E : editorConfig) (k : Nat) (row : erow),
    E.row[E.cy]? = some row → RowWf row → E.cx + n ≤ row.size →
    ∃ E' k', selectRepeat SHIFT_ARROW_RIGHT n E k = some (E', k') ∧
      E'.cx = E.cx + n ∧ E'.cy = E.cy ∧ SameText E.row E'.row := by
  intro n
  induction n with
  | zero => intro E k row _ _ _; exact ⟨E, k, rfl, rfl, rfl, sameText_refl _⟩
  | succ n ih =>
    intro E k row hrow hwf hcx
    obtain ⟨hl', h1, _, h3⟩ := selectStep_right E k row hrow hwf (by omega)
    have hrow1 : (E.row.set E.cy { row with hl := hl', damaged := true })[E.cy]? =
        some { row with hl := hl', damaged := true } := by
      rw [List.getElem?_set, if_pos rfl, if_pos (getElem?_lt hrow)]
    obtain ⟨E', k', e1, e2, e3, e4⟩ := ih
      { E with cx := E.cx + 1, row := E.row.set E.cy { row with hl := hl', damaged := true } }
      (editorRowCxToRx row (E.cx + 1)) { row with hl := hl', damaged := true } hrow1
      (rowWf_of_same hwf rfl rfl h1) (by show E.cx + 1 + n ≤ row.chars.length
                                         unfold erow.size at hcx; omega)
    refine ⟨E', k', ?_, by rw [e2]; show E.cx + 1 + n = _; omega, e3,
      sameText_trans (sameText_set E.row E.cy row hl' true hrow h1) e4⟩
    show (editorMoveSelectStep E k SHIFT_ARROW_RIGHT).bind _ = _
    rw [h3]
    exact e1

/-- The loop of left steps inside a well-formed row: `n` steps from `cx` with
`n <= cx <= size` end at `cx - n` on the same row. -/
theorem selectRepeat_left : ∀ (n : Nat) (E : editorConfig) (k : Nat) (row : erow),
    E.row[E.cy]? = some row → RowWf row → n ≤ E.cx → E.cx ≤ row.size →
    ∃ E' k', selectRepeat SHIFT_ARROW_LEFT n E k = some (E', k') ∧
      E'.cx = E.cx - n ∧ E'.cy = E.cy ∧ SameText E.row E'.row := by
  intro n
  induction n with
  | zero => intro E k row _ _ _ _; exact ⟨E, k, rfl, rfl, rfl, sameText_refl _⟩
  | succ n ih =>
    intro E k row hrow hwf hn hcx
    obtain ⟨hl', h1, _, h3⟩ := selectStep_left E k row hrow hwf (by omega) hcx
    have hrow1 : (E.row.set E.cy { row with hl := hl', damaged := true })[E.cy]? =
        some { row with hl := hl', damaged := true } := by
      rw [List.getElem?_set, if_pos rfl, if_pos (getElem?_lt hrow)]
    obtain ⟨E', k', e1, e2, e3, e4⟩ := ih
      { E with cx := E.cx - 1, row := E.row.set E.cy { row with hl := hl', damaged := true } }
      (editorRowCxToRx row (E.cx - 1)) { row with hl := hl', damaged := true } hrow1
      (rowWf_of_same hwf rfl rfl h1) (by show n ≤ E.cx - 1; omega)
      (by show E.cx - 1 ≤ row.chars.length; unfold erow.size at hcx; omega)
    refine ⟨E', k', ?_, by rw [e2]; show E.cx - 1 - n = _; omega, e3,
      sameText_trans (sameText_set E.row E.cy row hl' true hrow h1) e4⟩
    show (editorMoveSelectStep E k SHIFT_ARROW_LEFT).bind _ = _
    rw [h3]
    exact e1

/-- A right step at the end of a row paints nothing and moves the cursor to
the start of the next line. -/
theorem selectStep_right_wrap (E : editorConfig) (keep_rx : Nat) (row : erow)
    (hrow : E.row[E.cy]? = some row) (hcx : E.cx = row.size) :
    editorMoveSelectStep E keep_rx SHIFT_ARROW_RIGHT =
      some ({ E with cy := E.cy + 1, cx := 0 }, 0) := by
  unfold editorMoveSelectStep
  rw [if_neg (by decide), if_pos rfl, hrow]
  simp only
  rw [if_neg (by omega), editorMoveCursor_right_wrap E keep_rx row hrow hcx]

/-- A left step at the start of a row paints nothing and moves the cursor to
the end of the row above. -/
theorem selectStep_left_wrap (E : editorConfig) (keep_rx : Nat) (above : erow)
    (hcy : 0 < E.cy) (habove : E.row[E.cy - 1]? = some above) (hcx : E.cx = 0) :
    ∃ k', editorMoveSelectStep E keep_rx SHIFT_ARROW_LEFT =
      some ({ E with cy := E.cy - 1, cx := above.size }, k') := by
  unfold editorMoveSelectStep
  rw [if_pos rfl, if_neg (by omega)]
  exact editorMoveCursor_left_wrap E keep_rx above hcy habove hcx

theorem selectRepeat_one (key : Nat) (E : editorConfig) (k : Nat) :
    selectRepeat key 1 E k = editorMoveSelectStep E k key := by
  show (editorMoveSelectStep E k key).bind _ = _
  cases editorMoveSelectStep E k key <;> rfl

/-- The run of `SHIFT_ARROW_DOWN`: `size - cx` steps to the end of the row,
one step to the start of the row below, `t` steps inside the row below. -/
theorem selectDown_run (E : editorConfig) (keep_rx : Nat) (row below : erow)
    (hrow : E.row[E.cy]? = some row) (hbelow : E.row[E.cy + 1]? = some below)
    (hwf : RowWf row) (hwfb : RowWf below) (hcx : E.cx ≤ row.size) :
    ∃ E' k', selectRepeat SHIFT_ARROW_RIGHT
        ((row.size - E.cx) + 1 + editorRowRxToCx below (editorRowCxToRx row E.cx)) E keep_rx =
        some (E', k') ∧
      E'.cy = E.cy + 1 ∧ E'.cx = editorRowRxToCx below (editorRowCxToRx row E.cx) ∧
      SameText E.row E'.row := by
  have ht := editorRowRxToCx_le_size below (editorRowCxToRx row E.cx)
  generalize editorRowRxToCx below (editorRowCxToRx row E.cx) = t at ht
  obtain ⟨E1, k1, e1, c1, y1, s1⟩ := selectRepeat_right (row.size - E.cx) E keep_rx row hrow hwf
    (by omega)
  obtain ⟨row1, hrow1, rc1, _, _⟩ := s1.2 E.cy row hrow
  obtain ⟨below1, hbelow1, bc1, bd1, bl1⟩ := s1.2 (E.cy + 1) below hbelow
  have hsz1 : E1.cx = row1.size := by
    have h0 : E1.cx = row.size := by rw [c1]; omega
    rw [h0]
    unfold erow.size
    rw [rc1]
  rw [← y1] at hrow1 hbelow1
  have e2 := selectStep_right_wrap E1 k1 row1 hrow1 hsz1
  have hwfb1 : RowWf below1 := rowWf_of_same hwfb bc1 bd1 bl1
  obtain ⟨E3, k3, e3, c3, y3, s3⟩ := selectRepeat_right t
    { E1 with cy := E1.cy + 1, cx := 0 } 0 below1 hbelow1 hwfb1
    (by show 0 + t ≤ below1.chars.length; rw [bc1]; unfold erow.size at ht; omega)
  refine ⟨E3, k3, ?_, by rw [y3]; show E1.cy + 1 = _; rw [y1], by rw [c3]; show 0 + t = t; omega,
    sameText_trans s1 s3⟩
  rw [selectRepeat_add, selectRepeat_add, e1]
  simp only [Option.some_bind]
  rw [selectRepeat_one, e2]
  exact e3

/-- The run of `SHIFT_ARROW_UP`: `cx` steps to the start of the row, one step
to the end of the row above, and `u` steps to the left inside the row above,
where `u` is the character offset the code computes for the rendered column
of the offset `size - cx`: the cursor ends `u` characters before the end of
the row above. -/
theorem selectUp_run (E : editorConfig) (keep_rx : Nat) (row above : erow)
    (hcy : 0 < E.cy) (hrow : E.row[E.cy]? = some row) (habove : E.row[E.cy - 1]? = some above)
    (hwf : RowWf row) (hwfa : RowWf above) (hcx : E.cx ≤ row.size) :
    ∃ E' k', editorMoveSelect E keep_rx SHIFT_ARROW_UP = some (E', k') ∧
      E'.cy = E.cy - 1 ∧
      E'.cx = above.size - editorRowRxToCx above (editorRowCxToRx row (row.size - E.cx)) ∧
      SameText E.row E'.row := by
  have hu := editorRowRxToCx_le_size above (editorRowCxToRx row (row.size - E.cx))
  have hun : editorMoveSelect E keep_rx SHIFT_ARROW_UP = selectRepeat SHIFT_ARROW_LEFT
      (E.cx + 1 + editorRowRxToCx above (editorRowCxToRx row (row.size - E.cx))) E keep_rx := by
    unfold editorMoveSelect
    rw [if_neg (by decide), if_neg (by decide), if_pos rfl, if_neg (by omega), hrow, habove]
    simp only
    congr 1
    omega
  rw [hun]
  generalize editorRowRxToCx above (editorRowCxToRx row (row.size - E.cx)) = u at hu
  obtain ⟨E1, k1, e1, c1, y1, s1⟩ := selectRepeat_left E.cx E keep_rx row hrow hwf
    (Nat.le_refl _) hcx
  obtain ⟨above1, habove1, ac1, ad1, al1⟩ := s1.2 (E.cy - 1) above habove
  rw [← y1] at habove1
  obtain ⟨k2, e2⟩ := selectStep_left_wrap E1 k1 above1 (by rw [y1]; exact hcy) habove1
    (by rw [c1]; omega)
  have hwfa1 : RowWf above1 := rowWf_of_same hwfa ac1 ad1 al1
  obtain ⟨E3, k3, e3, c3, y3, s3⟩ := selectRepeat_left u
    { E1 with cy := E1.cy - 1, cx := above1.size } k2 above1 habove1 hwfa1
    (by show u ≤ above1.chars.length; rw [ac1]; exact hu) (Nat.le_refl _)
  refine ⟨E3, k3, ?_, by rw [y3]; show E1.cy - 1 = _; rw [y1],
    by rw [c3]; show above1.chars.length - u = _; rw [ac1]; rfl, sameText_trans s1 s3⟩
  rw [selectRepeat_add, selectRepeat_add, e1]
  simp only [Option.some_bind]
  rw [selectRepeat_one, e2]
  exact e3

/-! ### Drawing the rows -/

theorem getCell_nat (l : List Nat) (coloff : Int) (hco : 0 ≤ coloff) (k : Nat) :
    getCell l (coloff + k) = l[coloff.toNat + k]? := by
  unfold getCell
  rw [if_neg (by omega)]
  congr 1
  omega

theorem drawCell_total (render hl : List Nat) (coloff : Int) (past : Nat) (j : Nat)
    (cc : Int) (hco : 0 ≤ coloff) (hj : coloff.toNat + j < render.length)
    (hlen : render.length ≤ hl.length) :
    ∃ r, drawCell render hl coloff past j cc = some r := by
  have hj2 : coloff.toNat + j < hl.length := by omega
  unfold drawCell
  rw [getCell_nat render coloff hco j, List.getElem?_eq_getElem hj,
    getCell_nat hl coloff hco j, List.getElem?_eq_getElem hj2]
  simp only
  by_cases h1 : iscntrl render[coloff.toNat + j] = true
  · rw [if_pos h1]
    exact ⟨_, rfl⟩
  · rw [if_neg h1]
    by_cases h2 : hl[coloff.toNat + j] = HL_NORMAL
    · rw [if_pos h2]
      exact ⟨_, rfl⟩
    · rw [if_neg h2]
      by_cases h3 : hl[coloff.toNat + j] = HL_MATCH
      · rw [if_pos h3]
        exact ⟨_, rfl⟩
      · rw [if_neg h3]
        exact ⟨_, rfl⟩

theorem drawCellsLoop_total (render hl : List Nat) (coloff : Int) (past : Nat)
    (hco : 0 ≤ coloff) (hlen : render.length ≤ hl.length) :
    ∀ (n j : Nat) (cc : Int), (0 < n → coloff.toNat + j + n ≤ render.length) →
      ∃ out, drawCellsLoop render hl coloff past n j cc = some out := by
  intro n
  induction n with
  | zero => intro j cc _; exact ⟨[], rfl⟩
  | succ n ih =>
    intro j cc h
    have h' := h (Nat.succ_pos n)
    obtain ⟨⟨out, color⟩, hr⟩ := drawCell_total render hl coloff past j cc hco (by omega) hlen
    obtain ⟨rest, hrest⟩ := ih (j + 1) color (fun _ => by omega)
    unfold drawCellsLoop
    rw [hr]
    simp only
    rw [hrest]
    exact ⟨_, rfl⟩

theorem erow_damaged_eta (r : erow) : { r with damaged := r.damaged } = r := by
  cases r; rfl

/-- One pass of the loop of `editorDrawRows`. -/
theorem drawPass_spec (E : editorConfig) (junk : Nat) (past : Nat → Nat) (y : Nat)
    (hro : 0 ≤ E.rowoff) (hco : 0 ≤ E.coloff) (hsc : 0 ≤ E.screencols)
    (hwf : ∀ (q : Nat) (r : erow), E.row[q]? = some r → r.rsize ≤ r.hl.length) :
    ∃ chunk rows1, drawPass E junk past y = some (chunk, { E with row := rows1 }) ∧
      rows1.length = E.row.length ∧
      (∀ (q : Nat) (r : erow), E.row[q]? = some r → rows1[q]? =
        some { r with damaged := if q = y + E.rowoff.toNat then false else r.damaged }) ∧
      (∀ r, E.row[y + E.rowoff.toNat]? = some r → r.damaged = false → chunk = []) := by
  have hnum : E.numrows = E.row.length := rfl
  have same : ∀ (q : Nat) (r : erow), E.row[q]? = some r → y + E.rowoff.toNat ≥ E.row.length →
      E.row[q]? = some { r with damaged := if q = y + E.rowoff.toNat then false else r.damaged } := by
    intro q r hr hge
    have hq := getElem?_lt hr
    rw [if_neg (by omega), erow_damaged_eta]
    exact hr
  unfold drawPass
  simp only
  by_cases hge : (y : Int) + E.rowoff ≥ (E.numrows : Int)
  · rw [if_pos hge]
    have hge' : y + E.rowoff.toNat ≥ E.row.length := by omega
    have hnone : ∀ r, E.row[y + E.rowoff.toNat]? = some r → r.damaged = false →
        ∀ (c : List Nat), c = [] := by
      intro r hr
      have := getElem?_lt hr
      omega
    by_cases hw : E.numrows = 0 ∧ (y : Int) = E.screenrows / 3
    · rw [if_pos hw]
      have hwel : ∃ w, drawWelcome E.screencols = some w := by
        unfold drawWelcome
        simp only
        rw [if_neg (by split <;> omega)]
        exact ⟨_, rfl⟩
      obtain ⟨w, hw'⟩ := hwel
      rw [hw']
      exact ⟨_, E.row, rfl, rfl, fun q r hr => same q r hr hge',
        fun r hr hd => hnone r hr hd _⟩
    · rw [if_neg hw]
      exact ⟨_, E.row, rfl, rfl, fun q r hr => same q r hr hge',
        fun r hr hd => hnone r hr hd _⟩
  · rw [if_neg hge, if_neg (by omega)]
    have hlt : y + E.rowoff.toNat < E.row.length := by omega
    have hidx : ((y : Int) + E.rowoff).toNat = y + E.rowoff.toNat := by omega
    rw [hidx, List.getElem?_eq_getElem hlt]
    simp only
    by_cases hd : E.row[y + E.rowoff.toNat].damaged = false
    · rw [if_pos hd]
      refine ⟨[], E.row, rfl, rfl, fun q r hr => ?_, fun _ _ _ => rfl⟩
      by_cases hq : q = y + E.rowoff.toNat
      · subst hq
        rw [List.getElem?_eq_getElem hlt] at hr
        have e := Option.some.inj hr
        rw [if_pos rfl, ← e, ← hd, erow_damaged_eta]
        exact List.getElem?_eq_getElem hlt
      · rw [if_neg hq, erow_damaged_eta]
        exact hr
    · rw [if_neg hd]
      have hrow := hwf _ _ (List.getElem?_eq_getElem hlt)
      obtain ⟨cells, hcells⟩ := drawCellsLoop_total E.row[y + E.rowoff.toNat].render
        E.row[y + E.rowoff.toNat].hl E.coloff (past (y + E.rowoff.toNat)) hco hrow
        (if (if (E.row[y + E.rowoff.toNat].rsize : Int) - E.coloff < 0 then 0
              else (E.row[y + E.rowoff.toNat].rsize : Int) - E.coloff) > E.screencols
          then E.screencols
          else (if (E.row[y + E.rowoff.toNat].rsize : Int) - E.coloff < 0 then 0
              else (E.row[y + E.rowoff.toNat].rsize : Int) - E.coloff)).toNat 0 (-1)
        (by
          unfold erow.rsize
          split_ifs <;> omega)
      rw [hcells]
      refine ⟨_, _, rfl, List.length_set _ _ _, fun q r hr => ?_, fun r hr hd' => ?_⟩
      · rw [List.getElem?_set]
        by_cases hq : y + E.rowoff.toNat = q
        · subst hq
          rw [if_pos rfl, if_pos hlt, if_pos rfl]
          rw [List.getElem?_eq_getElem hlt] at hr
          rw [Option.some.inj hr]
        · rw [if_neg hq, if_neg (fun e => hq e.symm), erow_damaged_eta]
          exact hr
      · rw [Option.some.inj hr] at hd
        exact absurd hd' hd

/-- The loop of `editorDrawRows` from the screen line `y` on. -/
theorem drawRowsLoop_spec (junk : Nat) (past : Nat → Nat) :
    ∀ (n y : Nat) (E : editorConfig), 0 ≤ E.rowoff → 0 ≤ E.coloff → 0 ≤ E.screencols →
    (∀ (q : Nat) (r : erow), E.row[q]? = some r → r.rsize ≤ r.hl.length) →
    ∃ chunks rows', drawRowsLoop junk past n y E = some (chunks, { E with row := rows' }) ∧
      chunks.length = n ∧ rows'.length = E.row.length ∧
      (∀ (q : Nat) (r : erow), E.row[q]? = some r → rows'[q]? =
        some { r with damaged :=
          if y + E.rowoff.toNat ≤ q ∧ q < y + E.rowoff.toNat + n then false else r.damaged }) ∧
      (∀ (i : Nat) (r : erow), i < n → E.row[y + i + E.rowoff.toNat]? = some r →
        r.damaged = false → chunks[i]? = some []) := by
  intro n
  induction n with
  | zero =>
    intro y E _ _ _ _
    refine ⟨[], E.row, rfl, rfl, rfl, fun q r hr => ?_, fun i r hi => absurd hi (by omega)⟩
    rw [if_neg (by omega), erow_damaged_eta]
    exact hr
  | succ n ih =>
    intro y E hro hco hsc hwf
    obtain ⟨chunk, rows1, h1, l1, r1, c1⟩ := drawPass_spec E junk past y hro hco hsc hwf
    have hwf1 : ∀ (q : Nat) (r : erow), ({ E with row := rows1 } : editorConfig).row[q]? = some r →
        r.rsize ≤ r.hl.length := by
      intro q r hr
      have hq : q < E.row.length := by rw [← l1]; exact getElem?_lt hr
      have h0 := r1 q _ (List.getElem?_eq_getElem hq)
      rw [show ({ E with row := rows1 } : editorConfig).row[q]? = rows1[q]? from rfl, h0] at hr
      rw [← Option.some.inj hr]
      have h3 := hwf q E.row[q] (List.getElem?_eq_getElem hq)
      exact h3
    obtain ⟨chunks, rows', h2, l2, l3, r2, c2⟩ := ih (y + 1) { E with row := rows1 } hro hco hsc hwf1
    refine ⟨chunk :: chunks, rows', ?_, by rw [List.length_cons, l2], l3.trans l1,
      fun q r hr => ?_, fun i r hi hr hd => ?_⟩
    · unfold drawRowsLoop
      rw [h1]
      simp only
      rw [h2]
      rfl
    · have h0 := r2 q _ (r1 q r hr)
      rw [h0]
      show some { r with damaged := _ } = some { r with damaged := _ }
      have hrow : ({ E with row := rows1 } : editorConfig).rowoff = E.rowoff := rfl
      rw [hrow]
      by_cases ha : q = y + E.rowoff.toNat
      · have c1 : ¬ (y + 1 + E.rowoff.toNat ≤ q ∧ q < y + 1 + E.rowoff.toNat + n) := by omega
        have c2 : y + E.rowoff.toNat ≤ q ∧ q < y + E.rowoff.toNat + (n + 1) := by omega
        simp only [if_neg c1, if_pos c2, if_pos ha]
      · by_cases hb : y + 1 + E.rowoff.toNat ≤ q ∧ q < y + 1 + E.rowoff.toNat + n
        · have c2 : y + E.rowoff.toNat ≤ q ∧ q < y + E.rowoff.toNat + (n + 1) := by omega
          simp only [if_pos hb, if_pos c2]
        · have c2 : ¬ (y + E.rowoff.toNat ≤ q ∧ q < y + E.rowoff.toNat + (n + 1)) := by omega
          simp only [if_neg hb, if_neg c2, if_neg ha]
    · cases i with
      | zero =>
        rw [Nat.add_zero] at hr
        rw [c1 r hr hd]
        exact List.getElem?_cons_zero
      | succ i =>
        have e : y + (i + 1) + E.rowoff.toNat = y + 1 + i + E.rowoff.toNat := by omega
        rw [e] at hr
        have h0 := r1 _ r hr
        rw [if_neg (by omega), erow_damaged_eta] at h0
        rw [List.getElem?_cons_succ]
        exact c2 i r (Nat.lt_of_succ_lt_succ hi) h0 hd

/-! ### The column mapper behind the end of the row -/

theorem cxToRxMem_eq (row : erow) (behind : Nat → Nat) : ∀ (n j rx : Nat),
    j + n ≤ row.size + 1 → cxToRxMem row behind n j rx = cxToRxLoop (row.chars.drop j) n rx := by
  intro n
  induction n with
  | zero =>
    intro j rx _
    cases row.chars.drop j <;> rfl
  | succ n ih =>
    intro j rx h
    unfold erow.size at h
    show cxToRxMem row behind n (j + 1) (advanceRx (charsAt row behind j) rx) = _
    by_cases hj : j < row.chars.length
    · have hc : charsAt row behind j = row.chars[j] := by
        unfold charsAt
        rw [List.getElem?_eq_getElem hj]
      rw [hc, ih (j + 1) _ (by unfold erow.size; omega), List.drop_eq_getElem_cons hj]
      simp [cxToRxLoop]
    · have hjs : j = row.chars.length := by omega
      have hn : n = 0 := by omega
      have hc : charsAt row behind j = 0 := by
        unfold charsAt
        rw [List.getElem?_eq_none (by omega)]
        simp only
        rw [if_pos (show j = row.size from hjs)]
      subst hn
      rw [hc, List.drop_of_length_le (by omega)]
      rfl

/-- Up to the terminator the mapper does not read behind the row. -/
theorem editorRowCxToRxMem_eq (row : erow) (behind : Nat → Nat) (cx : Nat)
    (h : cx ≤ row.size + 1) : editorRowCxToRxMem row behind cx = editorRowCxToRx row cx := by
  unfold editorRowCxToRxMem editorRowCxToRx
  rw [cxToRxMem_eq row behind cx 0 0 (by omega)]
  rfl

/-! ### The row an in-place edit leaves -/

/-- The row at `p` after an edit that replaces it by `row1` and calls
`editorUpdateRow`: it has the characters of `row1`, their render form, the
damaged flag, and the highlight of a fresh scan of that render form (all
`HL_NORMAL` without a profile). -/
theorem rowEdit_row (E : editorConfig) (hidx : IdxOk E.row) (p : Nat) (row row1 : erow)
    (hrow : E.row[p]? = some row) (hi : row1.idx = row.idx) (fuel : Nat) (rows' : List erow)
    (h : editorUpdateRow E.syn E.numrows fuel (E.row.set p row1) p = some rows') :
    ∃ rowF, rows'[p]? = some rowF ∧ rowF.chars = row1.chars ∧
      rowF.render = renderLoop row1.chars [] ∧ rowF.damaged = true ∧
      (E.syn = none → rowF.hl = List.replicate rowF.rsize HL_NORMAL ∧
        rowF.hl_open_comment = row1.hl_open_comment) ∧
      (∀ s, E.syn = some s →
        (scanRow s rowF.render (seedAt rows' p)).map (fun st => (st.hl, st.in_comment)) =
          some (rowF.hl, rowF.hl_open_comment)) := by
  have hp : p < E.row.length := getElem?_lt hrow
  have h0 : (E.row.set p row1)[p]? = some row1 := by
    rw [List.getElem?_set, if_pos rfl, if_pos hp]
  have hidx0 : IdxOk (E.row.set p row1) := idxOk_set hidx hrow hi
  unfold editorUpdateRow at h
  rw [h0] at h
  simp only at h
  have hidx3 : IdxOk ((E.row.set p row1).set p
      { row1 with render := renderLoop row1.chars [], damaged := true }) :=
    idxOk_set hidx0 h0 rfl
  have h3 : ((E.row.set p row1).set p
      { row1 with render := renderLoop row1.chars [], damaged := true })[p]? =
      some { row1 with render := renderLoop row1.chars [], damaged := true } := by
    rw [List.getElem?_set, if_pos rfl, if_pos (by rw [List.length_set]; exact hp)]
  obtain ⟨rowR, rowF, e1, e2, e3, e4⟩ := editorUpdateSyntax_frame _ _ _ _ _ _ hidx3 h
  rw [h3] at e1
  have eR := Option.some.inj e1
  subst eR
  have hseed : seedAt rows' p = seedAt ((E.row.set p row1).set p
      { row1 with render := renderLoop row1.chars [], damaged := true }) p := by
    apply seedAt_congr
    by_cases hp0 : p = 0
    · exact Or.inl hp0
    · exact Or.inr (e4 (p - 1) (by omega))
  cases hsyn : E.syn with
  | none =>
    rw [hsyn] at e2
    have eF : rowF = { ({ row1 with render := renderLoop row1.chars [], damaged := true } : erow)
        with hl := List.replicate (renderLoop row1.chars []).length HL_NORMAL } :=
      (Option.some.inj e2).symm
    subst eF
    exact ⟨_, e3, rfl, rfl, rfl, fun _ => ⟨rfl, rfl⟩, fun s hs => absurd hs (by simp)⟩
  | some s0 =>
    rw [hsyn] at e2
    unfold synRowResult at e2
    simp only at e2
    rw [highlightRow_seed s0 _ p _ hidx3 h3] at e2
    cases hst : scanRow s0 (renderLoop row1.chars []) (seedAt ((E.row.set p row1).set p
        { row1 with render := renderLoop row1.chars [], damaged := true }) p) with
    | none =>
      rw [show ({ row1 with render := renderLoop row1.chars [], damaged := true } : erow).render =
        renderLoop row1.chars [] from rfl, hst] at e2
      exact absurd e2 (by simp)
    | some st =>
      rw [show ({ row1 with render := renderLoop row1.chars [], damaged := true } : erow).render =
        renderLoop row1.chars [] from rfl, hst] at e2
      have eF := (Option.some.inj e2).symm
      subst eF
      refine ⟨_, e3, rfl, rfl, rfl, fun hn => absurd hn (by simp), fun s hs => ?_⟩
      have es : s = s0 := (Option.some.inj hs).symm
      subst es
      rw [hseed]
      show (scanRow s (renderLoop row1.chars []) _).map _ = _
      rw [hst]
      rfl

/-! ## Theorems -/

/-- C1. Length invariant. For every document in which each row has
`rsize >= size` and a highlight array of exactly `rsize` entries, and each of
`editorInsertRow`, `editorDelRow`, `editorRowInsertChar`, `editorRowDelChar`,
`editorRowAppendString` (with or without a language profile): whenever the
operation returns, every row of the resulting document has `rsize >= size`
and a highlight array of exactly `rsize` entries. The highlighter's writes are
checked ones (`memsetHl` fails outside the array, which has `rsize` entries
during the scan), so a returned result means every write was at an index
below `rsize`. The second part shows that the operation does return: on a
document whose rows are numbered by position, with the C profile or none, and
a character operation aimed at an existing row, `numrows + 1` units of fuel
give a result. -/
theorem length_invariant (E : editorConfig) (op : RowOp) (hinv : LenInv E.row) :
    (∀ (fuel : Nat) (E' : editorConfig), op.run fuel E = some E' → LenInv E'.row) ∧
    (IdxOk E.row → (E.syn = none ∨ E.syn = some HLDB_C) → op.rowExists E →
      ∃ E', op.run (E.numrows + 1) E = some E') := by
  cases op with
  | insertRow at_ s =>
    simp only [RowOp.run, RowOp.rowExists]
    unfold editorInsertRow
    by_cases hat : at_ < 0 ∨ at_ > (E.numrows : Int)
    · simp only [if_pos hat, Option.some.injEq]
      exact ⟨fun _ E' h => h ▸ hinv, fun _ _ _ => ⟨E, rfl⟩⟩
    · simp only [if_neg hat]
      have ha : at_.toNat ≤ E.numrows := by omega
      constructor
      · intro fuel E' h
        simp only [Option.map_eq_some'] at h
        obtain ⟨rows', h1, h2⟩ := h
        rw [← h2]
        exact updRel_lenInv (editorUpdateRow_rel _ _ _ _ _ _ h1)
          (fun q r hq hne => insertRow_lenRow E hinv _ ha _ q r hq hne)
      · intro hidx hsyn _
        have hidx2 := insertRow_idxOk E hidx at_.toNat ha (freshRow at_ s)
          (by simp only [freshRow]; omega)
        obtain ⟨hl, _⟩ := insertRowShift_spec E.rowoff E.screenrows E.numrows at_.toNat
          (E.row.take at_.toNat ++ [freshRow at_ s] ++ E.row.drop at_.toNat)
          (insertRow_slot_length _ _ _ ha) ha
        obtain ⟨rows', h⟩ := editorUpdateRow_total E.syn (synOk_of_valid hsyn) E.numrows
          (E.numrows + 1) _ at_.toNat hidx2 (by rw [hl]; omega) (by rw [hl]; omega)
          (Nat.le_refl _)
        rw [h]
        exact ⟨_, rfl⟩
  | delRow at_ =>
    simp only [RowOp.run, RowOp.rowExists, Option.some.injEq]
    exact ⟨fun _ E' h => h ▸ delRow_lenInv E hinv at_, fun _ _ _ => ⟨_, rfl⟩⟩
  | rowInsertChar p at_ c =>
    simp only [RowOp.run, RowOp.rowExists]
    unfold editorRowInsertChar
    cases hrow : E.row[p]? with
    | none =>
      simp only
      refine ⟨fun _ _ h => absurd h (by simp), fun _ _ hp => ?_⟩
      rw [List.getElem?_eq_getElem hp] at hrow
      exact absurd hrow (by simp)
    | some row =>
      simp only
      constructor
      · intro fuel E' h
        simp only [Option.map_eq_some'] at h
        obtain ⟨rows', h1, h2⟩ := h
        rw [← h2]
        exact rowEdit_lenInv E p _ fuel rows' hinv h1
      · intro hidx hsyn _
        exact rowEdit_run_total E hidx (synOk_of_valid hsyn) p row _ hrow (by rfl) _
  | rowDelChar p at_ =>
    simp only [RowOp.run, RowOp.rowExists]
    unfold editorRowDelChar
    cases hrow : E.row[p]? with
    | none =>
      simp only
      refine ⟨fun _ _ h => absurd h (by simp), fun _ _ hp => ?_⟩
      rw [List.getElem?_eq_getElem hp] at hrow
      exact absurd hrow (by simp)
    | some row =>
      simp only
      by_cases hat : at_ < 0 ∨ at_ ≥ (row.size : Int)
      · simp only [if_pos hat, Option.some.injEq]
        exact ⟨fun _ E' h => h ▸ hinv, fun _ _ _ => ⟨E, rfl⟩⟩
      · simp only [if_neg hat]
        constructor
        · intro fuel E' h
          simp only [Option.map_eq_some'] at h
          obtain ⟨rows', h1, h2⟩ := h
          rw [← h2]
          exact rowEdit_lenInv E p _ fuel rows' hinv h1
        · intro hidx hsyn _
          exact rowEdit_run_total E hidx (synOk_of_valid hsyn) p row _ hrow (by rfl) _
  | rowAppendString p s =>
    simp only [RowOp.run, RowOp.rowExists]
    unfold editorRowAppendString
    cases hrow : E.row[p]? with
    | none =>
      simp only
      refine ⟨fun _ _ h => absurd h (by simp), fun _ _ hp => ?_⟩
      rw [List.getElem?_eq_getElem hp] at hrow
      exact absurd hrow (by simp)
    | some row =>
      simp only
      constructor
      · intro fuel E' h
        simp only [Option.map_eq_some'] at h
        obtain ⟨rows', h1, h2⟩ := h
        rw [← h2]
        exact rowEdit_lenInv E p _ fuel rows' hinv h1
      · intro hidx hsyn _
        exact rowEdit_run_total E hidx (synOk_of_valid hsyn) p row _ hrow (by rfl) _

/-- Witness for C1: inserting `*` into the second row of `docC1` returns a
document that satisfies the length invariant. -/
theorem length_invariant_witness :
    LenInv docC1.row ∧
      ∃ E', (RowOp.rowInsertChar 1 1 42).run (docC1.numrows + 1) docC1 = some E' ∧
        LenInv E'.row :=
  have h := length_invariant docC1 (RowOp.rowInsertChar 1 1 42) lenInv_docC1
  have ⟨E', hE⟩ := h.2 idxOk_docC1 (Or.inr rfl) (by simp [RowOp.rowExists, editorConfig.numrows, docC1])
  ⟨lenInv_docC1, E', hE, h.1 _ _ hE⟩

/-- C2. Round trip of the tab/column mapper: for every row (any mix of tabs
and other characters) and every `cx` with `0 <= cx <= row.size`,
`editorRowRxToCx(row, editorRowCxToRx(row, cx)) == cx`. -/
theorem editorRowRxToCx_editorRowCxToRx (row : erow) (cx : Nat) (h : cx ≤ row.size) :
    editorRowRxToCx row (editorRowCxToRx row cx) = cx := by
  unfold editorRowRxToCx editorRowCxToRx
  have hsplit : row.chars = row.chars.take cx ++ row.chars.drop cx :=
    (List.take_append_drop cx row.chars).symm
  have hlen : (row.chars.take cx).length = cx := by
    simp only [List.length_take]
    exact Nat.min_eq_left h
  have h1 := cxToRxLoop_append (row.chars.take cx) (row.chars.drop cx) 0
  have h2 := rxToCxLoop_roundtrip (row.chars.take cx) (row.chars.drop cx) 0 0
  rw [← hsplit, hlen] at h1
  rw [← hsplit, hlen] at h2
  rw [h1]
  simpa using h2

/-- Witness for C2: a row with two tabs, at the column behind the second tab. -/
theorem editorRowRxToCx_editorRowCxToRx_witness :
    editorRowRxToCx ⟨0, [97, 9, 98, 9, 99], [], [], false, false⟩
      (editorRowCxToRx ⟨0, [97, 9, 98, 9, 99], [], [], false, false⟩ 4) = 4 :=
  editorRowRxToCx_editorRowCxToRx ⟨0, [97, 9, 98, 9, 99], [], [], false, false⟩ 4 (by decide)

/-- C3. Multi-line comment carry-over with the C profile. Let the rows be
numbered by position and let the row at position `p + 1` follow a row whose
`hl_open_comment` is true. Then `editorUpdateSyntax` on that row returns, and
in the row it stores: if the render form contains no `*/`, every cell is
`HL_MLCOMMENT` and `hl_open_comment` is true; if the first `*/` starts at
position `q`, the cells `[0, q + 2)` are `HL_MLCOMMENT`, and the cells from
`q + 2` on, and the final `hl_open_comment`, are those of a fresh scan (not in
a comment, previous character a separator) of the text behind the `*/`. -/
theorem comment_carry_over (rows : List erow) (p : Nat) (prev row : erow)
    (numrows fuel : Nat) (hidx : IdxOk rows) (hprev : rows[p]? = some prev)
    (hrow : rows[p + 1]? = some row) (hopen : prev.hl_open_comment = true)
    (hn : numrows ≤ rows.length) (hf : numrows + 1 ≤ fuel) :
    ∃ rows' row', editorUpdateSyntax (some HLDB_C) numrows fuel rows (p + 1) = some rows' ∧
      rows'[p + 1]? = some row' ∧
      ((∀ i, matchesAt row.render i (bytes "*/") = false) →
        row'.hl = List.replicate row.rsize HL_MLCOMMENT ∧ row'.hl_open_comment = true) ∧
      (∀ q, matchesAt row.render q (bytes "*/") = true →
        (∀ i, i < q → matchesAt row.render i (bytes "*/") = false) →
        ∃ st, scanRow HLDB_C (row.render.drop (q + 2)) false = some st ∧
          row'.hl = List.replicate (q + 2) HL_MLCOMMENT ++ st.hl ∧
          row'.hl_open_comment = st.in_comment) := by
  obtain ⟨rows', h⟩ := editorUpdateSyntax_total (some HLDB_C)
    (synOk_of_valid (Or.inr rfl)) numrows fuel rows (p + 1) hidx (getElem?_lt hrow) hn
    (by omega) (by omega)
  obtain ⟨row0, row1, e0, hres, e1, _⟩ := editorUpdateSyntax_frame _ _ _ _ _ _ hidx h
  rw [hrow] at e0
  have e0 := Option.some.inj e0
  subst e0
  refine ⟨rows', row1, h, e1, ?_, ?_⟩
  · intro hno
    unfold synRowResult at hres
    simp only at hres
    rw [highlightRow_succ HLDB_C rows p prev row hidx hprev hrow, hopen,
      scanRow_comment_open HLDB_C row.render (by decide) (by decide) hno] at hres
    simp only [Option.map_some', Option.some.injEq] at hres
    rw [← hres]
    exact ⟨rfl, rfl⟩
  · intro q hq hfirst
    obtain ⟨st, hst, hscan⟩ := scanRow_comment_close HLDB_C profileOk_HLDB_C row.render
      (by decide) (by decide) q hq hfirst
    refine ⟨st, hst, ?_⟩
    unfold synRowResult at hres
    simp only at hres
    rw [highlightRow_succ HLDB_C rows p prev row hidx hprev hrow, hopen, hscan] at hres
    simp only [Option.map_some', Option.some.injEq] at hres
    rw [← hres]
    exact ⟨rfl, rfl⟩

/-- Witness for C3, on the document that appending the rows `/* start`,
`still in comment`, `end */ code` gives: the second row is comment in all its
16 cells and leaves the comment open; the third row is comment on the 6 cells
of `end */` and normal on the 5 cells of ` code`. -/
theorem comment_carry_over_witness :
    ((editorInsertRow 1 emptyC 0 (bytes "/* start")).bind fun E1 =>
      (editorInsertRow 2 E1 1 (bytes "still in comment")).bind fun E2 =>
        editorInsertRow 3 E2 2 (bytes "end */ code")) = some docC3 ∧
    (∃ rows' row', editorUpdateSyntax (some HLDB_C) 3 4 docC3.row 1 = some rows' ∧
      rows'[1]? = some row' ∧ row'.hl = List.replicate 16 HL_MLCOMMENT ∧
      row'.hl_open_comment = true) ∧
    (∃ rows' row', editorUpdateSyntax (some HLDB_C) 3 4 docC3.row 2 = some rows' ∧
      rows'[2]? = some row' ∧
      row'.hl = List.replicate 6 HL_MLCOMMENT ++ List.replicate 5 HL_NORMAL ∧
      row'.hl_open_comment = false) := by
  refine ⟨docC3_built, ?_, ?_⟩
  · obtain ⟨rows', row', h1, h2, h3, _⟩ := comment_carry_over docC3.row 0
      ⟨0, bytes "/* start", bytes "/* start", List.replicate 8 HL_MLCOMMENT, true, true⟩
      ⟨1, bytes "still in comment", bytes "still in comment", List.replicate 16 HL_MLCOMMENT,
        true, true⟩
      3 4 idxOk_docC3 rfl rfl rfl (by decide) (by decide)
    exact ⟨rows', row', h1, h2,
      h3 (matchesAt_false_of_bounded _ _ (by decide) (by decide))⟩
  · obtain ⟨rows', row', h1, h2, _, h4⟩ := comment_carry_over docC3.row 1
      ⟨1, bytes "still in comment", bytes "still in comment", List.replicate 16 HL_MLCOMMENT,
        true, true⟩
      ⟨2, bytes "end */ code", bytes "end */ code",
        List.replicate 6 HL_MLCOMMENT ++ List.replicate 5 HL_NORMAL, false, true⟩
      3 4 idxOk_docC3 rfl rfl rfl (by decide) (by decide)
    obtain ⟨st, hst, e1, e2⟩ := h4 4 (by decide) (by decide)
    have hval : scanRow HLDB_C (bytes " code") false =
        some ⟨5, List.replicate 5 HL_NORMAL, false, 0, false⟩ := by decide
    have hd : (bytes "end */ code").drop (4 + 2) = bytes " code" := by decide
    simp only [hd] at hst
    rw [hval] at hst
    have hst := Option.some.inj hst
    subst hst
    exact ⟨rows', row', h1, h2, e1, e2⟩

/-- C4. Row insertion renumbering. For every document whose rows are numbered
by position (`idx == position`) and every `k` with `0 <= k <= numrows`,
`editorInsertRow(k, text)` returns and: `numrows` has grown by exactly one;
the texts of the rows are those of `old[0..k)`, then `text`, then those of
`old[k..)`; a row previously at a position below `k` is unchanged at its
position; a row previously at a position `q >= k` stands at `q + 1` with its
text and render form and with `idx` incremented by exactly one; the new row
stands at `k` with `chars = text` and `idx = k`; and in the result every
row's `idx` equals its position. `rowoff` and `screenrows` are arbitrary. -/
theorem insertRow_renumbering (E : editorConfig) (k : Nat) (text : List Nat)
    (hidx : IdxOk E.row) (hk : k ≤ E.numrows) (hsyn : E.syn = none ∨ E.syn = some HLDB_C) :
    ∃ E', editorInsertRow (E.numrows + 1) E (k : Int) text = some E' ∧
      E'.numrows = E.numrows + 1 ∧
      E'.row.map erow.chars =
        (E.row.take k).map erow.chars ++ [text] ++ (E.row.drop k).map erow.chars ∧
      (∀ (q : Nat) (r : erow), E.row[q]? = some r → q < k → E'.row[q]? = some r) ∧
      (∀ (q : Nat) (r : erow), E.row[q]? = some r → k ≤ q →
        ∃ r', E'.row[q + 1]? = some r' ∧ r'.idx = r.idx + 1 ∧ r'.chars = r.chars ∧
          r'.render = r.render) ∧
      (∃ r', E'.row[k]? = some r' ∧ r'.chars = text ∧ r'.idx = (k : Int)) ∧
      IdxOk E'.row := by
  obtain ⟨E', h⟩ := editorInsertRow_total E hidx (synOk_of_valid hsyn) k hk text
    (E.numrows + 1) (Nat.le_refl _)
  obtain ⟨hlen, hrows, hfr⟩ := editorInsertRow_result E k hk text _ E' h
  have hk1 : k ≤ E.row.length := hk
  have hget := getElem?_take_cons_drop E.row k (freshRow (k : Int) text) hk1
  have hl0 := insertRow_slot_length E.row k (freshRow (k : Int) text) hk1
  refine ⟨E', h, hlen, ?_, ?_, ?_, ?_, ?_⟩
  · have e : (E.row.take k).map erow.chars ++ [text] ++ (E.row.drop k).map erow.chars =
        (E.row.take k ++ [freshRow (k : Int) text] ++ E.row.drop k).map erow.chars := by
      simp [freshRow]
    rw [e]
    apply List.ext_getElem?
    intro q
    rw [List.getElem?_map, List.getElem?_map]
    by_cases hq : q < E.numrows + 1
    · have hq0 : q < (E.row.take k ++ [freshRow (k : Int) text] ++ E.row.drop k).length := by
        rw [hl0]; exact hq
      obtain ⟨r', e', c1, _⟩ := hrows q _ (List.getElem?_eq_getElem hq0)
      rw [e', List.getElem?_eq_getElem hq0]
      simp only [Option.map_some', c1]
    · rw [List.getElem?_eq_none (by omega), List.getElem?_eq_none (by rw [hl0]; unfold editorConfig.numrows at hq; omega)]
  · intro q r hq hqk
    rw [hfr hidx q hqk]
    exact hq
  · intro q r hq hqk
    have h0 : (E.row.take k ++ [freshRow (k : Int) text] ++ E.row.drop k)[q + 1]? = some r := by
      rw [hget, if_neg (by omega), if_neg (by omega)]
      exact hq
    obtain ⟨r', e', c1, c2, c3⟩ := hrows (q + 1) r h0
    rw [if_pos (by omega)] at c2
    exact ⟨r', e', c2, c1, c3 (by omega)⟩
  · have h0 : (E.row.take k ++ [freshRow (k : Int) text] ++ E.row.drop k)[k]? =
        some (freshRow (k : Int) text) := by
      rw [hget, if_neg (by omega), if_pos rfl]
    obtain ⟨r', e', c1, c2, _⟩ := hrows k _ h0
    rw [if_neg (by omega)] at c2
    exact ⟨r', e', c1, c2⟩
  · intro q r' hq
    have hq1 : q < E.numrows + 1 := by rw [← hlen]; exact getElem?_lt hq
    have hq0 : q < (E.row.take k ++ [freshRow (k : Int) text] ++ E.row.drop k).length := by
      rw [hl0]; exact hq1
    have h0 := List.getElem?_eq_getElem hq0
    obtain ⟨r1, e1, _, c2, _⟩ := hrows q _ h0
    rw [hq] at e1
    have e1 := Option.some.inj e1
    subst e1
    rw [c2]
    rw [hget] at h0
    by_cases h1 : q < k
    · rw [if_pos h1] at h0
      rw [if_neg (by omega)]
      exact hidx q _ h0
    · rw [if_neg h1] at h0
      by_cases h2 : q = k
      · rw [if_pos h2] at h0
        rw [if_neg (by omega), ← Option.some.inj h0, h2]
        rfl
      · rw [if_neg h2] at h0
        rw [if_pos (by omega)]
        have := hidx (q - 1) _ h0
        omega

/-- Witness for C4: a row inserted at position 1 of the three rows of `docC1`,
whose window shows two rows (the first loop stops before the last row). -/
theorem insertRow_renumbering_witness :
    ∃ E', editorInsertRow (docC1.numrows + 1) docC1 ((1 : Nat) : Int) (bytes "x") = some E' ∧
      E'.numrows = docC1.numrows + 1 ∧
      E'.row.map erow.chars =
        (docC1.row.take 1).map erow.chars ++ [bytes "x"] ++ (docC1.row.drop 1).map erow.chars ∧
      IdxOk E'.row :=
  have ⟨E', h, hn, hc, _, _, _, hi⟩ :=
    insertRow_renumbering docC1 1 (bytes "x") idxOk_docC1 (by decide) (Or.inr rfl)
  ⟨E', h, hn, hc, hi⟩

/-- C10. Row deletion. For every document whose rows are numbered by position
and every `k` with `0 <= k < numrows`, after `editorDelRow(k)`: `numrows` has
decreased by exactly one; the rows are `old[0..k) ++ old[k+1..)` with the
chars, render form, highlight array and `hl_open_comment` of every surviving
row unchanged (a row below `k` is unchanged altogether, a row previously at
`q + 1 > k` stands at `q` with `idx` decremented by one); and every row's
`idx` equals its new position. `rowoff` and `screenrows` are arbitrary. -/
theorem delRow_renumbering (E : editorConfig) (k : Nat) (hidx : IdxOk E.row)
    (hk : k < E.numrows) :
    (editorDelRow E (k : Int)).numrows + 1 = E.numrows ∧
      (editorDelRow E (k : Int)).row.map (fun r => (r.chars, r.render, r.hl, r.hl_open_comment)) =
        (E.row.take k ++ E.row.drop (k + 1)).map
          (fun r => (r.chars, r.render, r.hl, r.hl_open_comment)) ∧
      (∀ (q : Nat) (r : erow), E.row[q]? = some r → q < k →
        (editorDelRow E (k : Int)).row[q]? = some r) ∧
      (∀ (q : Nat) (r : erow), E.row[q + 1]? = some r → k ≤ q →
        ∃ r', (editorDelRow E (k : Int)).row[q]? = some r' ∧ r'.idx = r.idx - 1 ∧
          r'.chars = r.chars ∧ r'.render = r.render ∧ r'.hl = r.hl ∧
          r'.hl_open_comment = r.hl_open_comment) ∧
      IdxOk (editorDelRow E (k : Int)).row :=
  editorDelRow_spec E k hidx hk

/-- Witness for C10: the first of the three rows of `docC1` is deleted, on a
window of two rows. -/
theorem delRow_renumbering_witness :
    (editorDelRow docC1 ((0 : Nat) : Int)).numrows + 1 = docC1.numrows ∧
      (editorDelRow docC1 ((0 : Nat) : Int)).row.map
          (fun r => (r.chars, r.render, r.hl, r.hl_open_comment)) =
        (docC1.row.take 0 ++ docC1.row.drop (0 + 1)).map
          (fun r => (r.chars, r.render, r.hl, r.hl_open_comment)) ∧
      IdxOk (editorDelRow docC1 ((0 : Nat) : Int)).row :=
  have ⟨h1, h2, _, _, h5⟩ := delRow_renumbering docC1 0 idxOk_docC1 (by decide)
  ⟨h1, h2, h5⟩

/-- C8. Escape-sequence decode table: for every byte stream that begins with
`ESC` and one of the complete sequences of the table (`d` any digit), whatever
follows, and whatever the uninitialised cells of `seq` hold, `editorReadKey`
returns the listed key and has consumed exactly the sequence. -/
theorem editorReadKey_table (d : Nat) (hd : 48 ≤ d ∧ d ≤ 57) (entry : List Nat × Nat)
    (hentry : entry ∈ decodeTable d) (junk3 junk4 : Nat) (rest : List ReadResult) :
    editorReadKey junk3 junk4 ((ESC :: entry.1).map ReadResult.byte ++ rest) =
      some (entry.2, rest) := by
  obtain ⟨hd1, hd2⟩ := hd
  simp only [decodeTable, List.mem_cons, List.mem_singleton, List.not_mem_nil, or_false]
    at hentry
  rcases hentry with h | h | h | h | h | h | h | h | h | h | h | h | h | h | h | h | h | h |
    h | h | h
  all_goals subst h
  all_goals
    simp [editorReadKey, waitKey, readByte, seqCell, bytes, ESC, hd1, hd2]

/-- Witness for C8: `ESC [ 1 ; 5 C` decodes to `CTRL_ARROW_RIGHT`. -/
theorem editorReadKey_table_witness :
    editorReadKey 0 0 ((ESC :: (bytes "[1;5C", CTRL_ARROW_RIGHT).1).map ReadResult.byte ++ []) =
      some ((bytes "[1;5C", CTRL_ARROW_RIGHT).2, []) :=
  editorReadKey_table 49 (by decide) (bytes "[1;5C", CTRL_ARROW_RIGHT) (by decide) 0 0 []

/-- C9, at the input where the code departs from it. The bytes `ESC [ 1 ;`
arrive and then nothing: the two reads into `seq[3]` and `seq[4]` time out
(return value 0), which the test `== -1` lets pass, and the function decides
on what the uninitialised cells hold. With `'5'` and `'C'` in them (the bytes a
previous `ESC [ 1 ; 5 C` left in the same stack cells) the short sequence
decodes to `CTRL_ARROW_RIGHT`, not to the bare escape key. -/
theorem editorReadKey_short_sequence_junk :
    editorReadKey 53 67 ((ESC :: bytes "[1;").map ReadResult.byte) =
      some (CTRL_ARROW_RIGHT, []) := by
  decide

/-- C5, as amended. A search step with a forward arrow key, on a document
that satisfies the length invariant, with a last-match index `m` that is `-1`
(none) or a row, and a consistent saved highlight. The step first restores the
saved highlight (`restoredRows`). It then tests the rows in the order
`circOrder m n 0, 1, ..., n - 1`, that is `m + 1, m + 2, ...` wrapping from the
last row to row 0 and ending with `m`; this order holds every row exactly
once. Each row's render form is read as a C string, up to its first NUL byte.
If no row holds the query there, the cursor is unchanged. Otherwise, for
the first row in that order that does, with `off` the offset of the first
occurrence: `cy` is that row, `cx` is `editorRowRxToCx(row, off)`, exactly the
cells `[off, off + strlen(query))` of the row are set to `HL_MATCH`, and the
previous highlight of the row is saved. -/
theorem find_forward_step (E : editorConfig) (F : FindState) (query : List Nat) (key : Nat)
    (hkey : key = ARROW_RIGHT ∨ key = ARROW_DOWN) (hinv : LenInv E.row)
    (hsaved : SavedOk E.row F) (hm1 : -1 ≤ F.last_match)
    (hm2 : F.last_match < (E.numrows : Int)) :
    (∀ r, r < E.numrows → ∃ i, i < E.numrows ∧ circOrder F.last_match E.numrows i = r ∧
      ∀ j, j < E.numrows → circOrder F.last_match E.numrows j = r → j = i) ∧
    ((∀ i, i < E.numrows → ∀ row,
        (restoredRows E.row F)[circOrder F.last_match E.numrows i]? = some row →
        ∀ j, matchesAt (cstr row.render) j (cstr query) = false) →
      editorFindCallback E F query key =
        some ({ E with row := restoredRows E.row F },
              { last_match := F.last_match, direction := 1,
                saved_hl_line := F.saved_hl_line, saved_hl := none })) ∧
    (∀ (i : Nat) (row : erow) (off : Nat), i < E.numrows →
      (restoredRows E.row F)[circOrder F.last_match E.numrows i]? = some row →
      FirstOcc (cstr row.render) (cstr query) off →
      (∀ j, j < i → ∀ row',
        (restoredRows E.row F)[circOrder F.last_match E.numrows j]? = some row' →
        ∀ x, matchesAt (cstr row'.render) x (cstr query) = false) →
      editorFindCallback E F query key =
        some ({ E with
                  cy := circOrder F.last_match E.numrows i,
                  cx := editorRowRxToCx row off,
                  rowoff := (E.numrows : Int),
                  row := (restoredRows E.row F).set (circOrder F.last_match E.numrows i)
                    { row with hl := row.hl.take off ++
                        List.replicate (strlen query) HL_MATCH ++
                        row.hl.drop (off + strlen query) } },
              { last_match := (circOrder F.last_match E.numrows i : Nat), direction := 1,
                saved_hl_line := circOrder F.last_match E.numrows i,
                saved_hl := some row.hl })) := by
  have hk13 : ¬(key = 13 ∨ key = ESC) := by
    rcases hkey with h | h <;> rw [h] <;> decide
  have hn : E.numrows = (restoredRows E.row F).length := by
    rw [restoredRows_length]; rfl
  have hinv1 := restoredRows_lenInv E.row F hinv hsaved
  have hdir : (if F.last_match = -1 then (1 : Int) else 1) = 1 := by split <;> rfl
  refine ⟨fun r hr => circOrder_bijective F.last_match E.numrows (by omega) r hr, ?_, ?_⟩
  · intro hno
    unfold editorFindCallback
    rw [findRestore_eq E.row F hinv hsaved]
    simp only [if_neg hk13, if_pos hkey, hdir]
    by_cases hpos : 0 < E.numrows
    · rw [findLoop_forward_none query _ E.numrows hn hpos E.numrows F.last_match hm1 hm2
        (fun i hi row hrow => (strstr_eq_none_iff _ _).mpr (hno i hi row hrow))]
    · have h0 : E.numrows = 0 := by omega
      rw [h0]
      rfl
  · intro i row off hi hrow hocc hfirst
    unfold editorFindCallback
    rw [findRestore_eq E.row F hinv hsaved]
    simp only [if_neg hk13, if_pos hkey, hdir]
    rw [findLoop_forward_hit query _ E.numrows hn (by omega) E.numrows F.last_match i row off
      hm1 hm2 hi
      (fun j hj row' hrow' => (strstr_eq_none_iff _ _).mpr (hfirst j hj row' hrow'))
      hrow ((strstr_eq_some_iff _ _ _).mpr hocc)]
    simp only [hrow]
    have hlr := (lenInv_iff _).mp hinv1 _ _ hrow
    rw [if_pos (by rw [hlr.2]), find_memset_ok row query off hlr hocc,
      List.take_of_length_le (by rw [hlr.2])]
    rfl

/-- Witness for C5 (amended): on `docC1`, with the last match on the last row,
the query `x` stands only on row 0; the forward step wraps around and finds it
at offset 4. -/
theorem find_forward_step_witness :
    editorFindCallback docC1 findAtLast (bytes "x") ARROW_RIGHT =
      some ({ docC1 with
                cy := 0, cx := 4, rowoff := 3,
                row := docC1.row.set 0
                  { idx := 0, chars := bytes "int x;", render := bytes "int x;",
                    hl := [4, 4, 4, 0, 7, 0], hl_open_comment := false, damaged := false } },
            { last_match := 0, direction := 1, saved_hl_line := 0,
              saved_hl := some [4, 4, 4, 0, 0, 0] }) :=
  (find_forward_step docC1 findAtLast (bytes "x") ARROW_RIGHT (Or.inl rfl) lenInv_docC1
    savedOk_findAtLast (by decide) (by decide)).2.2 0
    { idx := 0, chars := bytes "int x;", render := bytes "int x;",
      hl := [4, 4, 4, 0, 0, 0], hl_open_comment := false, damaged := false }
    4 (by decide) (by decide) (by unfold FirstOcc; decide) (fun j hj => absurd hj (by omega))

/-- Counterexample to C5 as stated, on the rows `a\0b` and `b` with the query
`b`. The first search step (the key `b`) matches row 1, so the last match is
`m = 1`. Row 0 is the first row of the circular order after `m`, and its
render form holds the query at offset 2; the forward step nevertheless leaves
the cursor on row 1, because `strstr` reads the render form of row 0 up to its
NUL byte only. -/
theorem find_forward_step_nul_counterexample :
    (editorFindCallback docNul findInit (bytes "b") 98).map
        (fun r => (r.1.cy, r.2.last_match)) = some (1, 1) ∧
      circOrder 1 docNul.numrows 0 = 0 ∧
      matchesAt [97, 0, 98] 2 (bytes "b") = true ∧
      ((editorFindCallback docNul findInit (bytes "b") 98).bind fun r =>
          editorFindCallback r.1 r.2 (bytes "b") ARROW_RIGHT).map
        (fun r => (r.1.cy, r.1.cx)) = some (1, 0) := by
  decide

/-- C7. Multi-row selection deletion. Let the rows be numbered by position,
let the selection span the rows `u < d` (the cursor on one, the start row the
other), and let the rows `u` and `d` hold no tab, have the render form of
their characters and a highlight array of `rsize` entries. If row `u` is
painted `HL_MATCH` exactly on the cells `[a, rsize)` with `a >= 1`, and row `d`
exactly on the cells `[0, b]` with `b < size - 1`, then the delete branch of
`editorSelect` returns a document in which row `u` holds `chars[0..a)` of row
`u` followed by `chars[b+1..)` of row `d`, the rows formerly at `u+1..d` are
gone, all other rows keep their text and order, and `numrows` has decreased
by exactly `d - u`; the cursor row is `u` and the rows are numbered by
position again. -/
theorem select_multirow_delete (E : editorConfig) (start_y u d a b : Nat) (ru rd : erow)
    (hidx : IdxOk E.row) (hsyn : E.syn = none ∨ E.syn = some HLDB_C) (hud : u < d)
    (hcur : (E.cy = u ∧ start_y = d) ∨ (E.cy = d ∧ start_y = u))
    (hru : E.row[u]? = some ru) (hrd : E.row[d]? = some rd)
    (hu_tab : TAB ∉ ru.chars) (hu_render : ru.render = renderLoop ru.chars [])
    (hd_tab : TAB ∉ rd.chars) (hd_render : rd.render = renderLoop rd.chars [])
    (hu_len : ru.hl.length = ru.rsize) (hd_len : rd.hl.length = rd.rsize)
    (ha : 1 ≤ a) (ha2 : a ≤ ru.rsize)
    (hu_paint : ∀ x, x < ru.rsize → (ru.hl[x]? = some HL_MATCH ↔ a ≤ x))
    (hb : b + 1 < rd.size)
    (hd_paint : ∀ x, x < rd.rsize → (rd.hl[x]? = some HL_MATCH ↔ x ≤ b)) :
    ∃ E', editorSelectDelete (E.numrows + 1) E start_y = some E' ∧
      E'.numrows + (d - u) = E.numrows ∧
      E'.row.map erow.chars =
        (E.row.take u).map erow.chars ++ [ru.chars.take a ++ rd.chars.drop (b + 1)] ++
          (E.row.drop (d + 1)).map erow.chars ∧
      E'.cy = u ∧ IdxOk E'.row := by
  have hs : SynOk E.syn := synOk_of_valid hsyn
  have hup : (if E.cy < start_y then E.cy else start_y) = u := by
    rcases hcur with ⟨h1, h2⟩ | ⟨h1, h2⟩
    · rw [h1, h2, if_pos hud]
    · rw [h1, h2, if_neg (by omega)]
  have hdown : (if E.cy < start_y then start_y else E.cy) = d := by
    rcases hcur with ⟨h1, h2⟩ | ⟨h1, h2⟩
    · rw [h1, h2, if_pos hud]
    · rw [h1, h2, if_neg (by omega)]
  have hur : ru.rsize = ru.size := by
    unfold erow.rsize erow.size
    rw [hu_render, renderLoop_no_tab _ hu_tab]
    simp
  have hdr : rd.rsize = rd.size := by
    unfold erow.rsize erow.size
    rw [hd_render, renderLoop_no_tab _ hd_tab]
    simp
  have hdlt : d < E.row.length := getElem?_lt hrd
  -- the scan of row `d`
  have hscan_d : selScanDown rd.hl true (rd.rsize + 1) ((rd.rsize : Int) - 1) = some (b : Int) := by
    have e : ((rd.rsize : Int) - 1) = ((b + (rd.rsize - 1 - b) : Nat) : Int) := by omega
    rw [e]
    apply selScanDown_stop rd.hl true (rd.rsize - 1 - b) b (rd.rsize + 1) (by omega)
    · intro x h1 h2
      have hx : x < rd.hl.length := by omega
      refine ⟨rd.hl[x], List.getElem?_eq_getElem hx, ?_⟩
      have := (hd_paint x (by omega)).not.mpr (by omega)
      rw [List.getElem?_eq_getElem hx] at this
      simpa using this
    · refine ⟨HL_MATCH, (hd_paint b (by omega)).mpr (Nat.le_refl _), Or.inl (by decide)⟩
  -- the scan of row `u`
  have hscan_u : selScanDown ru.hl false (ru.rsize + 1) ((ru.rsize : Int) - 1) =
      some ((a - 1 : Nat) : Int) := by
    have e : ((ru.rsize : Int) - 1) = (((a - 1) + (ru.rsize - a) : Nat) : Int) := by omega
    rw [e]
    apply selScanDown_stop ru.hl false (ru.rsize - a) (a - 1) (ru.rsize + 1) (by omega)
    · intro x h1 h2
      refine ⟨HL_MATCH, (hu_paint x (by omega)).mpr (by omega), by decide⟩
    · have hx : a - 1 < ru.hl.length := by omega
      refine ⟨ru.hl[a - 1], List.getElem?_eq_getElem hx, Or.inl ?_⟩
      have := (hu_paint (a - 1) (by omega)).not.mpr (by omega)
      rw [List.getElem?_eq_getElem hx] at this
      simpa using this
  -- the painted prefix of row `d` is deleted
  obtain ⟨E1, hE1, s1, c1, l1, i1, f1, t1⟩ := editorRowDelChars_spec { E with cy := d } hidx hs
    d rd hrd b 0 (by omega) (by omega) (E.numrows + 1) (Nat.le_refl _)
  simp only [Nat.cast_zero] at hE1
  -- the rows between `u` and `d` are deleted
  have hn1 : u + (d - 1 - u) < E1.numrows := by
    unfold editorConfig.numrows
    rw [l1]
    show u + (d - 1 - u) < E.row.length
    omega
  obtain ⟨s2, c2, l2, i2, f2, t2⟩ := delRowsLoop_spec u (d - 1 - u) E1 i1 hn1
  have ed : ((u + (d - 1 - u) : Nat) : Int) = (d : Int) - 1 := by omega
  rw [ed] at s2 c2 l2 i2 f2 t2
  generalize hE2 : delRowsLoop u (d - 1 - u) ((d : Int) - 1) E1 = E2 at s2 c2 l2 i2 f2 t2
  have hru2 : E2.row[u]? = some ru := by
    rw [f2 u (Nat.le_refl _), f1 u hud]
    exact hru
  simp only [List.take_zero, List.nil_append] at s1 c1 l1 f1 t1
  -- the painted suffix of row `u` is deleted
  have hs2 : SynOk E2.syn := by rw [s2, s1]; exact hs
  have hf2 : E2.numrows + 1 ≤ E.numrows + 1 := by
    unfold editorConfig.numrows
    omega
  obtain ⟨E4, hE4, s4, c4, l4, i4, f4, t4⟩ := editorRowDelChars_spec { E2 with cy := u } i2 hs2
    u ru hru2 (ru.size - 1) a (by omega) (by omega) (E.numrows + 1) hf2
  have edrop : List.drop (ru.size - 1 + 1) ru.chars = [] :=
    List.drop_of_length_le (by unfold erow.size; omega)
  simp only [edrop, List.append_nil] at s4 c4 l4 f4 t4
  -- the rest of row `d`, now at `u + 1`, is appended to row `u`
  have hnext : (E4.row[u + 1]?).map erow.chars = some (List.drop (b + 1) rd.chars) := by
    rw [t4 (u + 1), if_neg (by omega), t2 (u + 1), if_neg (by omega)]
    have e : u + 1 + (d - 1 - u) = d := by omega
    rw [e, t1 d, if_pos rfl]
  obtain ⟨next, hnext1, hnext2⟩ := Option.map_eq_some'.mp hnext
  have hrow4 : (E4.row[u]?).map erow.chars = some (List.take a ru.chars) := by
    rw [t4 u, if_pos rfl]
  obtain ⟨row4, hrow41, hrow42⟩ := Option.map_eq_some'.mp hrow4
  have hs4 : SynOk E4.syn := by rw [s4]; exact hs2
  have hf4 : E4.numrows + 1 ≤ E.numrows + 1 := by
    unfold editorConfig.numrows at hf2 ⊢
    rw [l4]
    exact hf2
  obtain ⟨E5, hE5, s5, c5, l5, i5, f5, t5⟩ := editorRowAppendString_spec E4 i4 hs4 u row4 hrow41
    next.chars (E.numrows + 1) hf4
  rw [hrow42, hnext2] at t5
  -- the row at `u + 1` is deleted
  have hk5 : u + 1 < E5.numrows := by
    unfold editorConfig.numrows
    rw [l5]
    exact getElem?_lt hnext1
  obtain ⟨hn6, _, _, _, i6⟩ := editorDelRow_spec E5 (u + 1) i5 hk5
  obtain ⟨s6, c6⟩ := editorDelRow_fields E5 ((u + 1 : Nat) : Int)
  have hn6' : (editorDelRow E5 ((u + 1 : Nat) : Int)).row.length + 1 = E5.row.length := hn6
  have hu6 : u < (editorDelRow E5 ((u + 1 : Nat) : Int)).row.length := by
    have : u + 1 < E5.row.length := hk5
    omega
  have hval : editorSelectDelete (E.numrows + 1) E start_y =
      some { editorDelRow E5 ((u + 1 : Nat) : Int) with
        cx := editorRowRxToCx (editorDelRow E5 ((u + 1 : Nat) : Int)).row[u] a } := by
    unfold editorSelectDelete
    simp only [hup, hdown, if_neg (Nat.ne_of_lt hud), hrd, hscan_d, Option.some_bind]
    rw [if_neg (by omega), hE1]
    simp only [Option.some_bind, hE2, hru2, hscan_u]
    have e1 : (ru.size : Int) - 1 = ((ru.size - 1 : Nat) : Int) := by
      have : 1 ≤ ru.size := by omega
      omega
    have e2 : ((a - 1 : Nat) : Int) + 1 = (a : Int) := by omega
    rw [if_neg (by omega), e1, e2, hE4]
    simp only [Option.some_bind, c4, c5, hnext1, hE5, Option.map_some']
    have e3 : (u : Int) + 1 = ((u + 1 : Nat) : Int) := by omega
    rw [e3]
    simp only [c6, c5, c4, List.getElem?_eq_getElem hu6, Int.toNat_ofNat]
  have hlen6 : (editorDelRow E5 ((u + 1 : Nat) : Int)).row.length + (d - u) = E.row.length := by
    have h4 : E4.row.length = E2.row.length := l4
    have h1 : E1.row.length = E.row.length := l1
    omega
  refine ⟨_, hval, hlen6, ?_, by simp only [c6, c5, c4], i6⟩
  simp only
  rw [List.map_take, List.map_drop]
  apply List.ext_getElem?
  intro q
  rw [getElem?_splice _ u d _ (by rw [List.length_map]; omega), List.getElem?_map,
    editorDelRow_chars E5 (u + 1) i5 hk5 q]
  by_cases h1 : q < u
  · rw [if_pos h1, if_pos (by omega), t5 q, if_neg (by omega), t4 q, if_neg (by omega),
      t2 q, if_pos (by omega), t1 q, if_neg (by omega), List.getElem?_map]
  · rw [if_neg h1]
    by_cases h2 : q = u
    · rw [if_pos h2, if_pos (by omega), t5 q, if_pos h2]
    · rw [if_neg h2, if_neg (by omega), t5 (q + 1), if_neg (by omega), t4 (q + 1),
        if_neg (by omega), t2 (q + 1), if_neg (by omega), t1, if_neg (by omega),
        List.getElem?_map]
      congr 2
      omega

/-- Witness for C7: in `docSel` the selection spans the rows 2 to 4; the
deletion merges `two;` with `r four` and the row count falls by 2. -/
theorem select_multirow_delete_witness :
    ∃ E', editorSelectDelete (docSel.numrows + 1) docSel 2 = some E' ∧
      E'.numrows + (4 - 2) = docSel.numrows ∧
      E'.row.map erow.chars =
        (docSel.row.take 2).map erow.chars ++
          [(mkRow 2 "two;abc" [0, 0, 0, 0, 7, 7, 7]).chars.take 4 ++
            (mkRow 4 "four four" [7, 7, 7, 0, 0, 0, 0, 0, 0]).chars.drop (2 + 1)] ++
          (docSel.row.drop (4 + 1)).map erow.chars ∧
      E'.cy = 2 ∧ IdxOk E'.row :=
  select_multirow_delete docSel 2 2 4 4 2 (mkRow 2 "two;abc" [0, 0, 0, 0, 7, 7, 7])
    (mkRow 4 "four four" [7, 7, 7, 0, 0, 0, 0, 0, 0])
    (by rw [idxOk_iff_bounded]; decide) (Or.inr rfl) (by decide) (Or.inr ⟨rfl, rfl⟩) rfl rfl
    (by decide) (by decide) (by decide) (by decide) (by decide) (by decide) (by decide)
    (by decide) (by decide) (by decide) (by decide)

/-- C6, at the input where the code departs from it. In the empty document
(`numrows = 0`, cursor row 0, no row array) the search prompt is opened and
left with Escape: the one invocation `editorFindCallback("", ESC)` resets the
search state and then executes `E.row[E.cy].damaged = true`, a write to a row
that does not exist; the callback does not return. -/
theorem editorFindCallback_escape_empty :
    editorFindCallback emptyC findInit [] ESC = none := by
  decide

/-- C11. Nearest-boundary snapping: for every row and every `rx >= 0`, the
result `c = editorRowRxToCx(row, rx)` satisfies `0 <= c <= row.size`, and the
rendered column of `c` is at least as near to `rx` as the rendered column of
any other character boundary `c'` in `[0, row.size]`. -/
theorem editorRowRxToCx_nearest (row : erow) (rx : Nat) :
    editorRowRxToCx row rx ≤ row.size ∧
      ∀ c', c' ≤ row.size →
        |((editorRowCxToRx row (editorRowRxToCx row rx) : Nat) : Int) - (rx : Int)| ≤
          |((editorRowCxToRx row c' : Nat) : Int) - (rx : Int)| := by
  unfold editorRowRxToCx editorRowCxToRx erow.size
  rcases rxToCxLoop_spec rx row.chars 0 0 (Nat.zero_le _) with ⟨h1, h2⟩ | ⟨k, hk, h1, h2, h3⟩
  · rw [h2, Nat.zero_add]
    refine ⟨Nat.le_refl _, fun c' hc' => ?_⟩
    have hm := cxToRxLoop_le_of_le row.chars 0 c' row.chars.length hc'
    rw [abs_of_nonpos (by omega), abs_of_nonpos (by omega)]
    omega
  · rw [h3, Nat.zero_add]
    have hlt := cxToRxLoop_lt_succ row.chars k 0
    constructor
    · split_ifs <;> omega
    · intro c' hc'
      by_cases hck : c' ≤ k
      · have hm := cxToRxLoop_le_of_le row.chars 0 c' k hck
        rw [abs_of_nonpos (a := ((cxToRxLoop row.chars c' 0 : Nat) : Int) - (rx : Int))
          (by omega)]
        split_ifs with hc
        · rw [abs_of_nonneg (by omega)]
          omega
        · rw [abs_of_nonpos (by omega)]
          omega
      · have hm := cxToRxLoop_le_of_le row.chars 0 (k + 1) c' (by omega)
        rw [abs_of_nonneg (a := ((cxToRxLoop row.chars c' 0 : Nat) : Int) - (rx : Int))
          (by omega)]
        split_ifs with hc
        · rw [abs_of_nonneg (by omega)]
          omega
        · rw [abs_of_nonpos (by omega)]
          omega

/-- C12, as amended. Midpoint rounding is biased down. For every row and every
character index `c < row.size`, with `L` and `R` the rendered start columns of
the characters `c` and `c + 1`: for an `rx` exactly midway between `L` and
`R`, `editorRowRxToCx(row, rx)` returns `c`; for every `rx` with
`L <= rx < R` it returns `c + 1` when `rx - L > R - rx` and `c` otherwise;
and for any `rx` at all the result is `c + 1` only when `rx` is strictly
nearer to `R` than to `L`. -/
theorem editorRowRxToCx_midpoint (row : erow) (c : Nat) (hc : c < row.size) :
    (∀ rx, 2 * rx = editorRowCxToRx row c + editorRowCxToRx row (c + 1) →
      editorRowRxToCx row rx = c) ∧
    (∀ rx, editorRowCxToRx row c ≤ rx → rx < editorRowCxToRx row (c + 1) →
      editorRowRxToCx row rx =
        if rx - editorRowCxToRx row c > editorRowCxToRx row (c + 1) - rx then c + 1 else c) ∧
    (∀ rx, editorRowRxToCx row rx = c + 1 →
      |((editorRowCxToRx row (c + 1) : Nat) : Int) - (rx : Int)| <
        |((editorRowCxToRx row c : Nat) : Int) - (rx : Int)|) := by
  unfold erow.size at hc
  have hlt : editorRowCxToRx row c < editorRowCxToRx row (c + 1) :=
    cxToRxLoop_lt_succ row.chars c 0
  have hend : editorRowCxToRx row (c + 1) ≤ editorRowCxToRx row row.chars.length :=
    cxToRxLoop_le_of_le row.chars 0 (c + 1) row.chars.length hc
  have span : ∀ rx, editorRowCxToRx row c ≤ rx → rx < editorRowCxToRx row (c + 1) →
      editorRowRxToCx row rx =
        if rx - editorRowCxToRx row c > editorRowCxToRx row (c + 1) - rx then c + 1 else c := by
    intro rx h1 h2
    unfold editorRowRxToCx
    unfold editorRowCxToRx at h1 h2 hend ⊢
    rcases rxToCxLoop_spec rx row.chars 0 0 (Nat.zero_le _) with ⟨g1, _⟩ | ⟨k, hk, g1, g2, g3⟩
    · omega
    · have hkc : k = c := by
        by_contra hne
        rcases Nat.lt_or_gt_of_ne hne with hlt1 | hgt1
        · have hm := cxToRxLoop_le_of_le row.chars 0 (k + 1) c hlt1
          omega
        · have hm := cxToRxLoop_le_of_le row.chars 0 (c + 1) k hgt1
          omega
      subst hkc
      rw [g3, Nat.zero_add]
  refine ⟨fun rx hmid => ?_, span, fun rx hres => ?_⟩
  · rw [span rx (by omega) (by omega), if_neg (by omega)]
  · unfold editorRowRxToCx at hres
    unfold editorRowCxToRx at hlt hend ⊢
    rcases rxToCxLoop_spec rx row.chars 0 0 (Nat.zero_le _) with ⟨g1, g2⟩ | ⟨k, hk, g1, g2, g3⟩
    · rw [g2, Nat.zero_add] at hres
      rw [hres] at g1
      rw [abs_of_nonpos (by omega), abs_of_nonpos (by omega)]
      omega
    · rw [g3, Nat.zero_add] at hres
      by_cases hgt : rx - cxToRxLoop row.chars k 0 > cxToRxLoop row.chars (k + 1) 0 - rx
      · rw [if_pos hgt] at hres
        have hkc : k = c := by omega
        subst hkc
        rw [abs_of_pos (by omega), abs_of_nonpos (by omega)]
        omega
      · rw [if_neg hgt] at hres
        subst hres
        rw [abs_of_nonpos (by omega), abs_of_nonpos (by omega)]
        omega

/-- Witness for C12 (amended): a tab at column 0 spans the columns 0 to 8;
`rx = 4` is midway and gives the character 0, `rx = 5` gives the character 1. -/
theorem editorRowRxToCx_midpoint_witness :
    (0 < (mkRow 0 "\tx" []).size ∧ editorRowCxToRx (mkRow 0 "\tx" []) 0 = 0 ∧
      editorRowCxToRx (mkRow 0 "\tx" []) 1 = 8) ∧
    editorRowRxToCx (mkRow 0 "\tx" []) 4 = 0 ∧
    editorRowRxToCx (mkRow 0 "\tx" []) 5 = 1 ∧
    (∀ rx, editorRowRxToCx (mkRow 0 "\tx" []) rx = 0 + 1 →
      |((editorRowCxToRx (mkRow 0 "\tx" []) (0 + 1) : Nat) : Int) - (rx : Int)| <
        |((editorRowCxToRx (mkRow 0 "\tx" []) 0 : Nat) : Int) - (rx : Int)|) :=
  have h := editorRowRxToCx_midpoint (mkRow 0 "\tx" []) 0 (by decide)
  ⟨by decide, h.1 4 (by decide), (h.2.1 5 (by decide) (by decide)).trans (by decide), h.2.2⟩

/-- Counterexample to C12 as stated: for a tab at column 0 (cells 0 to 8,
character 0) and `rx = 4`, exactly midway, `editorRowRxToCx` returns 0, not 1. -/
theorem editorRowRxToCx_midpoint_counterexample :
    editorRowCxToRx (mkRow 0 "\t" []) 0 = 0 ∧ editorRowCxToRx (mkRow 0 "\t" []) 1 = 8 ∧
      editorRowRxToCx (mkRow 0 "\t" []) 4 = 0 ∧ editorRowRxToCx (mkRow 0 "\t" []) 4 ≠ 0 + 1 := by
  decide

/-- C13. Out-of-range positions are silent no-ops for row insertion, row
removal and character deletion: `editorInsertRow(at, ...)` with `at < 0` or
`at > numrows`, `editorDelRow(at)` with `at < 0` or `at >= numrows`, and
`editorRowDelChar(row, at)` with `at < 0` or `at >= row.size` return with the
whole editor state (the rows with all their fields, `numrows`, `dirty`)
unchanged. -/
theorem out_of_range_noop (fuel : Nat) (E : editorConfig) :
    (∀ (at_ : Int) (s : List Nat), at_ < 0 ∨ at_ > (E.numrows : Int) →
      editorInsertRow fuel E at_ s = some E) ∧
    (∀ (at_ : Int), at_ < 0 ∨ at_ ≥ (E.numrows : Int) → editorDelRow E at_ = E) ∧
    (∀ (p : Nat) (row : erow) (at_ : Int), E.row[p]? = some row →
      at_ < 0 ∨ at_ ≥ (row.size : Int) → editorRowDelChar fuel E p at_ = some E) := by
  refine ⟨fun at_ s h => ?_, fun at_ h => ?_, fun p row at_ hrow h => ?_⟩
  · unfold editorInsertRow
    rw [if_pos h]
  · unfold editorDelRow
    rw [if_pos h]
  · unfold editorRowDelChar
    rw [hrow]
    simp only
    rw [if_pos h]

/-- C14, as amended. `editorRowInsertChar(row, at, c)` with `at < 0` or
`at > row.size` is not a no-op: the position is clamped to `row.size`, so the
character is appended to the row. On a document numbered by position the call
returns; the row's characters are the old ones followed by `c` and its size
grows by one; the row is rendered again (`render` is the render form of the
new characters, the row is marked damaged) and highlighted again (`hl` and
`hl_open_comment` are what the scan of the new render form gives, started
with the `hl_open_comment` of the row before it; without a profile `hl` is
`rsize` cells of `HL_NORMAL`); `dirty` is incremented, the rows before the
row are untouched and every other row keeps its characters. -/
theorem editorRowInsertChar_clamps (E : editorConfig) (hidx : IdxOk E.row)
    (hs : E.syn = none ∨ E.syn = some HLDB_C) (p : Nat) (row : erow)
    (hrow : E.row[p]? = some row) (at_ : Int) (hat : at_ < 0 ∨ at_ > (row.size : Int))
    (c : Nat) :
    ∃ E' row', editorRowInsertChar (E.numrows + 1) E p at_ c = some E' ∧
      E'.row[p]? = some row' ∧ row'.chars = row.chars ++ [c % 256] ∧
      row'.size = row.size + 1 ∧
      row'.render = renderLoop (row.chars ++ [c % 256]) [] ∧ row'.damaged = true ∧
      (E.syn = none → row'.hl = List.replicate row'.rsize HL_NORMAL ∧
        row'.hl_open_comment = row.hl_open_comment) ∧
      (∀ s, E.syn = some s →
        (scanRow s row'.render (seedAt E'.row p)).map (fun st => (st.hl, st.in_comment)) =
          some (row'.hl, row'.hl_open_comment)) ∧
      E'.dirty = E.dirty + 1 ∧ E'.numrows = E.numrows ∧
      (∀ q, q < p → E'.row[q]? = E.row[q]?) ∧
      ∀ q, q ≠ p → (E'.row[q]?).map erow.chars = (E.row[q]?).map erow.chars := by
  have hrow1 : ({ row with chars := row.chars ++ [c % 256] } : erow).idx = row.idx := rfl
  obtain ⟨rows', h1, h2, _, h4, h5⟩ :=
    rowEdit_spec E hidx (synOk_of_valid hs) p row _ hrow hrow1 (E.numrows + 1) (Nat.le_refl _)
  obtain ⟨rowF, f1, f2, f3, f4, f5, f6⟩ := rowEdit_row E hidx p row _ hrow hrow1 _ rows' h1
  unfold editorRowInsertChar
  rw [hrow]
  simp only
  rw [if_pos hat]
  have e : List.take row.size row.chars ++ [c % 256] ++ List.drop row.size row.chars =
      row.chars ++ [c % 256] := by
    unfold erow.size
    rw [List.take_of_length_le (Nat.le_refl _), List.drop_of_length_le (Nat.le_refl _),
      List.append_nil]
  rw [e, h1]
  refine ⟨_, rowF, rfl, f1, f2, ?_, f3, f4, f5, f6, rfl, h2, h4, fun q hq => ?_⟩
  · unfold erow.size
    rw [f2, List.length_append]
    rfl
  · have := h5 q
    rw [if_neg hq] at this
    exact this

/-- Witness for C14 (amended): `editorRowInsertChar(&E.row[0], -1, '!')` on
`docC1` appends `!` to the row `int x;`. -/
theorem editorRowInsertChar_clamps_witness :
    ∃ E' row', editorRowInsertChar (docC1.numrows + 1) docC1 0 (-1) 33 = some E' ∧
      E'.row[0]? = some row' ∧ row'.chars = bytes "int x;" ++ [33 % 256] ∧
      row'.size = (6 : Nat) + 1 ∧
      row'.render = renderLoop (bytes "int x;" ++ [33 % 256]) [] ∧ row'.damaged = true ∧
      (docC1.syn = none → row'.hl = List.replicate row'.rsize HL_NORMAL ∧
        row'.hl_open_comment = false) ∧
      (∀ s, docC1.syn = some s →
        (scanRow s row'.render (seedAt E'.row 0)).map (fun st => (st.hl, st.in_comment)) =
          some (row'.hl, row'.hl_open_comment)) ∧
      E'.dirty = docC1.dirty + 1 ∧ E'.numrows = docC1.numrows ∧
      (∀ q, q < 0 → E'.row[q]? = docC1.row[q]?) ∧
      ∀ q, q ≠ 0 → (E'.row[q]?).map erow.chars = (docC1.row[q]?).map erow.chars :=
  editorRowInsertChar_clamps docC1 idxOk_docC1 (Or.inr rfl) 0
    { idx := 0, chars := bytes "int x;", render := bytes "int x;",
      hl := [4, 4, 4, 0, 0, 0], hl_open_comment := false, damaged := false }
    rfl (-1) (Or.inl (by decide)) 33

/-- Counterexample to C14 as stated: `editorRowInsertChar(&E.row[0], -1, '!')`
and `editorRowInsertChar(&E.row[0], 7, '!')` on `docC1`, whose row 0 is
`int x;` of size 6, change the characters of the row to `int x;!` and
increment `dirty`. -/
theorem editorRowInsertChar_out_of_range_counterexample :
    (editorRowInsertChar 4 docC1 0 (-1) 33).map
        (fun E' => ((E'.row[0]?).map erow.chars, E'.dirty)) =
      some (some (bytes "int x;!"), docC1.dirty + 1) ∧
    (editorRowInsertChar 4 docC1 0 7 33).map
        (fun E' => ((E'.row[0]?).map erow.chars, E'.dirty)) =
      some (some (bytes "int x;!"), docC1.dirty + 1) := by
  decide

/-- C15. Scroll adjustment keeps the cursor visible. For every state with
`screenrows >= 1`, `screencols >= 1` and `0 <= cy <= numrows`, every `cx` (also
behind the end of the row) and every content `behind` of the memory behind
the terminator of the row `cy`, after `editorScroll`: `rx` is
`editorRowCxToRx(row cy, cx)` as the C loop computes it on that memory, which
for `cx <= size + 1` is the column of `cx` in the row, or `rx` is 0 when
`cy == numrows`; `rowoff <= cy < rowoff + screenrows` and
`coloff <= rx < coloff + screencols`; an offset whose bounds held on entry
(for the column, with the new `rx`) is unchanged; the function returns true
exactly when `rowoff` or `coloff` changed; nothing else of the state changes. -/
theorem editorScroll_visible (E : editorConfig) (behind : Nat → Nat) (hr : 1 ≤ E.screenrows)
    (hc : 1 ≤ E.screencols) (hcy : E.cy ≤ E.numrows) :
    ((∃ row, E.row[E.cy]? = some row ∧
        (editorScroll E behind).2.rx = editorRowCxToRxMem row behind E.cx ∧
        (E.cx ≤ row.size + 1 → (editorScroll E behind).2.rx = editorRowCxToRx row E.cx)) ∨
      (E.cy = E.numrows ∧ (editorScroll E behind).2.rx = 0)) ∧
    (editorScroll E behind).2.rowoff ≤ (E.cy : Int) ∧
    (E.cy : Int) < (editorScroll E behind).2.rowoff + E.screenrows ∧
    (editorScroll E behind).2.coloff ≤ ((editorScroll E behind).2.rx : Int) ∧
    ((editorScroll E behind).2.rx : Int) < (editorScroll E behind).2.coloff + E.screencols ∧
    (E.rowoff ≤ (E.cy : Int) ∧ (E.cy : Int) < E.rowoff + E.screenrows →
      (editorScroll E behind).2.rowoff = E.rowoff) ∧
    (E.coloff ≤ ((editorScroll E behind).2.rx : Int) ∧
        ((editorScroll E behind).2.rx : Int) < E.coloff + E.screencols →
      (editorScroll E behind).2.coloff = E.coloff) ∧
    ((editorScroll E behind).1 = true ↔
      (editorScroll E behind).2.rowoff ≠ E.rowoff ∨ (editorScroll E behind).2.coloff ≠ E.coloff) ∧
    (editorScroll E behind).2 =
      { E with rx := (editorScroll E behind).2.rx, rowoff := (editorScroll E behind).2.rowoff,
               coloff := (editorScroll E behind).2.coloff } := by
  refine ⟨?_, ?_, ?_, ?_, ?_, ?_, ?_, ?_, rfl⟩
  · by_cases hlt : E.cy < E.numrows
    · left
      have hrow := List.getElem?_eq_getElem hlt
      have hrx : (editorScroll E behind).2.rx = editorRowCxToRxMem E.row[E.cy] behind E.cx := by
        simp only [editorScroll, if_pos hlt, hrow]
      exact ⟨_, hrow, hrx, fun hcx => hrx.trans (editorRowCxToRxMem_eq _ behind E.cx hcx)⟩
    · right
      have h : E.cy = E.numrows := by omega
      refine ⟨h, ?_⟩
      simp only [editorScroll, h, Nat.lt_irrefl, if_false]
  · simp only [editorScroll]
    split_ifs <;> omega
  · simp only [editorScroll]
    split_ifs <;> omega
  · simp only [editorScroll]
    split_ifs <;> omega
  · simp only [editorScroll]
    split_ifs <;> omega
  · intro h
    simp only [editorScroll]
    split_ifs <;> omega
  · intro h
    simp only [editorScroll] at h ⊢
    split_ifs at h ⊢ <;> omega
  · simp only [editorScroll, decide_eq_true_eq]
    constructor
    · rintro (h | h)
      · exact Or.inl (Ne.symm h)
      · exact Or.inr (Ne.symm h)
    · rintro (h | h)
      · exact Or.inl (Ne.symm h)
      · exact Or.inr (Ne.symm h)

/-- Witness for C15: in `docScroll` the cursor is behind the tab of row 1 and
the window of 2 rows shows the rows from 5 on; after `editorScroll` the cursor
row 1 lies in the window, `rx` is 8, and the function returns true. With the
cursor at `cx = 9` on the row `int x;` of size 6 and tabs in the memory behind
its terminator, the C loop counts the 6 characters, the terminator and two
tabs, and `rx` is 16; on the buffer `ab`, NUL, three tabs, `cx = 6` gives 24. -/
theorem editorScroll_visible_witness :
    (1 ≤ docScroll.screenrows ∧ 1 ≤ docScroll.screencols ∧ docScroll.cy ≤ docScroll.numrows) ∧
    ((∃ row, docScroll.row[docScroll.cy]? = some row ∧
        (editorScroll docScroll (fun _ => TAB)).2.rx =
          editorRowCxToRxMem row (fun _ => TAB) docScroll.cx ∧
        (docScroll.cx ≤ row.size + 1 →
          (editorScroll docScroll (fun _ => TAB)).2.rx = editorRowCxToRx row docScroll.cx)) ∨
      (docScroll.cy = docScroll.numrows ∧ (editorScroll docScroll (fun _ => TAB)).2.rx = 0)) ∧
    (editorScroll docScroll (fun _ => TAB)).2.rx = 8 ∧
    (editorScroll docScroll (fun _ => TAB)).2.rowoff ≤ 1 ∧
    1 < (editorScroll docScroll (fun _ => TAB)).2.rowoff + 2 ∧
    ((editorScroll docScroll (fun _ => TAB)).1 = true ↔
      (editorScroll docScroll (fun _ => TAB)).2.rowoff ≠ 5 ∨
      (editorScroll docScroll (fun _ => TAB)).2.coloff ≠ 0) ∧
    (editorScroll { docC1 with cx := 9, cy := 0 } (fun _ => TAB)).2.rx = 16 ∧
    editorRowCxToRxMem (mkRow 0 "ab" []) (fun k => if k < 3 then TAB else 0) 6 = 24 :=
  have h := editorScroll_visible docScroll (fun _ => TAB) (by decide) (by decide) (by decide)
  ⟨by decide, h.1, by decide, h.2.1, h.2.2.1, h.2.2.2.2.2.2.2.1, by decide, by decide⟩

/-- C16. Re-highlight propagation terminates. For every document whose rows
are numbered by position (with no profile or the C profile) and every row `k`,
`editorUpdateSyntax(&E.row[k])` returns, with any fuel of at least
`numrows - k`. There is an `n` with `k + n < numrows` such that the call made
exactly the passes on the rows `k`, `k + 1`, ..., `k + n`, once each and in
this order (`synRun`): each pass before the last changed the
`hl_open_comment` of its row, and the last pass left it unchanged or was on
the last row of the document. The rows outside `k .. k + n` are as before. -/
theorem rehighlight_terminates (synt : Option editorSyntax)
    (hs : synt = none ∨ synt = some HLDB_C) (rows : List erow) (k fuel : Nat)
    (hidx : IdxOk rows) (hk : k < rows.length) (hf : rows.length ≤ fuel + k) :
    ∃ n rows' changed, editorUpdateSyntax synt rows.length fuel rows k = some rows' ∧
      k + n < rows.length ∧ synRun synt n rows k = some (rows', changed) ∧
      (changed = false ∨ k + n + 1 = rows.length) ∧
      rows'.length = rows.length ∧
      ∀ q, q < k ∨ k + n < q → rows'[q]? = rows[q]? :=
  editorUpdateSyntax_run synt (synOk_of_valid hs) fuel rows k hidx hk hf

/-- Witness for C16: on `docStale`, the call on row 0 makes the passes on the
rows 0, 1 and 2. -/
theorem rehighlight_terminates_witness :
    ∃ n rows' changed, editorUpdateSyntax (some HLDB_C) docStale.length 3 docStale 0 =
        some rows' ∧
      0 + n < docStale.length ∧ synRun (some HLDB_C) n docStale 0 = some (rows', changed) ∧
      (changed = false ∨ 0 + n + 1 = docStale.length) ∧
      rows'.length = docStale.length ∧
      ∀ q, q < 0 ∨ 0 + n < q → rows'[q]? = docStale[q]? :=
  rehighlight_terminates (some HLDB_C) (Or.inr rfl) docStale 0 3
    ((idxOk_iff_bounded docStale).mpr (by decide)) (by decide) (by decide)

/-- C17, at inputs where the code departs from it. The highlighting of
`docC3` (`/* start`, `still in comment`, `end */ code`) and of `docX` (`x`)
is consistent. `editorDelRow(0)` on `docC3` leaves `still in comment` as row
0 with its comment highlight: `editorDelRow` highlights no row.
`editorInsertRow(0, "/*")` on `docX` leaves `x` highlighted as code behind an
open comment: the propagation tests `idx + 1 < E.numrows` before
`E.numrows++`. `editorInsertRow(1, "*/ x")` on `docC3` leaves
`still in comment` as a comment behind the row that closes it: the new row
starts with `hl_open_comment = 0`, so `changed` is false. -/
theorem insert_delete_stale_highlight :
    HlConsistent HLDB_C docC3.row ∧ HlConsistent HLDB_C docX.row ∧
    ¬ HlConsistent HLDB_C (editorDelRow docC3 0).row ∧
    ((editorDelRow docC3 0).row[0]?).map (fun r => (r.chars, r.hl, r.hl_open_comment)) =
      some (bytes "still in comment", List.replicate 16 HL_MLCOMMENT, true) ∧
    (editorInsertRow 2 docX 0 (bytes "/*")).map
        (fun E' => (E'.row.map (fun r => (r.chars, r.hl, r.hl_open_comment)),
          decide (HlConsistent HLDB_C E'.row))) =
      some ([(bytes "/*", [HL_MLCOMMENT, HL_MLCOMMENT], true),
             (bytes "x", [HL_NORMAL], false)], false) ∧
    (editorInsertRow 4 docC3 1 (bytes "*/ x")).map
        (fun E' => (E'.row.map (fun r => (r.chars, r.hl_open_comment)),
          decide (HlConsistent HLDB_C E'.row))) =
      some ([(bytes "/* start", true), (bytes "*/ x", false),
             (bytes "still in comment", true), (bytes "end */ code", false)], false) := by
  refine ⟨by decide, by decide, by decide, by decide, by decide, by decide⟩

/-- C18, as amended. Row split with smart indent. For every document numbered
by position and cursor `(cx, cy)` with `cy < numrows` and `0 <= cx <= size` of
row `cy`, `editorInsertNewline` returns; the upper of the two resulting rows
holds `chars[0..cx)`, and the row immediately below it holds the leading run
of tabs and spaces of `chars[0..cx)` followed by the suffix `chars[cx..size)`.
The concatenation of the two rows is the original row exactly when that run
is empty. `numrows` grows by one, the other rows keep their text and order,
and the cursor ends on the lower row behind the copied indentation. -/
theorem insertNewline_split (E : editorConfig) (keep_rx : Nat) (row : erow)
    (hidx : IdxOk E.row) (hsyn : E.syn = none ∨ E.syn = some HLDB_C)
    (hrow : E.row[E.cy]? = some row) (hcx : E.cx ≤ row.size) :
    ∃ E' k', editorInsertNewline (E.numrows + 2) E keep_rx = some (E', k') ∧
      E'.numrows = E.numrows + 1 ∧
      E'.row.map erow.chars =
        (E.row.take E.cy).map erow.chars ++
          [row.chars.take E.cx,
           (row.chars.take E.cx).takeWhile isBlank ++ row.chars.drop E.cx] ++
          (E.row.drop (E.cy + 1)).map erow.chars ∧
      (row.chars.take E.cx ++
          ((row.chars.take E.cx).takeWhile isBlank ++ row.chars.drop E.cx) = row.chars ↔
        (row.chars.take E.cx).takeWhile isBlank = []) ∧
      E'.cy = E.cy + 1 ∧ E'.cx = ((row.chars.take E.cx).takeWhile isBlank).length ∧
      IdxOk E'.row := by
  have hs := synOk_of_valid hsyn
  have hcy : E.cy < E.numrows := getElem?_lt hrow
  have hnum : E.numrows = E.row.length := rfl
  have hiff : (row.chars.take E.cx ++
      ((row.chars.take E.cx).takeWhile isBlank ++ row.chars.drop E.cx) = row.chars ↔
      (row.chars.take E.cx).takeWhile isBlank = []) := by
    constructor
    · intro h
      have h1 := congrArg List.length h
      rw [List.length_append, List.length_append] at h1
      have h2 := congrArg List.length (List.take_append_drop E.cx row.chars)
      rw [List.length_append] at h2
      exact List.length_eq_zero.mp (by omega)
    · intro h
      rw [h, List.nil_append, List.take_append_drop]
  -- the rows of the result, position by position
  have hfinal : ∀ (rows' : List erow), rows'.length = E.row.length + 1 →
      (∀ q, (rows'[q]?).map erow.chars =
        if q < E.cy then (E.row[q]?).map erow.chars
        else if q = E.cy then some (row.chars.take E.cx)
        else if q = E.cy + 1 then
          some ((row.chars.take E.cx).takeWhile isBlank ++ row.chars.drop E.cx)
        else (E.row[q - 1]?).map erow.chars) →
      rows'.map erow.chars =
        (E.row.take E.cy).map erow.chars ++
          [row.chars.take E.cx,
           (row.chars.take E.cx).takeWhile isBlank ++ row.chars.drop E.cx] ++
          (E.row.drop (E.cy + 1)).map erow.chars := by
    intro rows' _ hq
    apply List.ext_getElem?
    intro q
    rw [List.getElem?_map, hq q, List.map_take, List.map_drop,
      getElem?_split_rows (E.row.map erow.chars) E.cy _ _ (by rw [List.length_map]; omega) q]
    simp only [List.getElem?_map]
  unfold editorInsertNewline
  by_cases h0 : E.cx = 0
  · rw [if_pos h0]
    obtain ⟨E1, h1, _, _, hcy1, _, hlen1, hidx1, _, hch1⟩ :=
      editorInsertRow_spec E hidx hs E.cy (Nat.le_of_lt hcy) [] (E.numrows + 2) (by omega)
    rw [h1]
    simp only [Option.map_some', Option.some_bind]
    refine ⟨_, keep_rx, rfl, ?_, ?_, hiff, ?_, ?_, hidx1⟩
    · show E1.row.length = E.numrows + 1
      omega
    · apply hfinal E1.row hlen1
      intro q
      rw [hch1 q, h0]
      by_cases hq1 : q < E.cy
      · rw [if_pos hq1, if_pos hq1]
      · rw [if_neg hq1, if_neg hq1]
        by_cases hq2 : q = E.cy
        · rw [if_pos hq2, if_pos hq2]
          rfl
        · rw [if_neg hq2, if_neg hq2]
          by_cases hq3 : q = E.cy + 1
          · rw [if_pos hq3, hq3, Nat.add_sub_cancel, hrow]
            rfl
          · rw [if_neg hq3]
    · show E1.cy + 1 = E.cy + 1
      rw [hcy1]
    · rw [h0]
      rfl
  · rw [if_neg h0, hrow]
    simp only
    rw [if_neg (by omega)]
    have hil : indentLoop row.chars E.cx E.cx 0 =
        ((row.chars.take E.cx).takeWhile isBlank).length := by
      rw [indentLoop_eq row.chars E.cx E.cx 0 (by omega)]
      simp
    rw [hil, take_takeWhile_take]
    generalize hind : (row.chars.take E.cx).takeWhile isBlank ++ row.chars.drop E.cx = indented
    have ecast : ((E.cy : Int) + 1) = ((E.cy + 1 : Nat) : Int) := by omega
    rw [ecast]
    obtain ⟨E1, h1, hsyn1, hcx1, hcy1, _, hlen1, hidx1, hfr1, hch1⟩ :=
      editorInsertRow_spec E hidx hs (E.cy + 1) (by omega) indented (E.numrows + 2) (by omega)
    rw [h1]
    simp only [Option.some_bind]
    have hrow1 : E1.row[E1.cy]? = some row := by
      rw [hcy1, hfr1 E.cy (by omega)]
      exact hrow
    rw [hrow1]
    simp only
    have hnum1 : E1.numrows = E1.row.length := rfl
    have hs1 : SynOk E1.syn := by rw [hsyn1]; exact hs
    obtain ⟨rows', h2, hlen2, hidx2, _, hch2⟩ :=
      rowEdit_spec E1 hidx1 hs1 E1.cy row { row with chars := row.chars.take E1.cx } hrow1 rfl
        (E.numrows + 2) (by omega)
    rw [h2]
    simp only [Option.map_some', Option.some_bind]
    have hlow : (rows'[E.cy + 1]?).map erow.chars = some indented := by
      rw [hch2 (E.cy + 1), if_neg (by omega), hch1 (E.cy + 1), if_neg (by omega), if_pos rfl]
    cases hr2 : rows'[E.cy + 1]? with
    | none => rw [hr2] at hlow; exact absurd hlow (by simp)
    | some r2 =>
      rw [hr2] at hlow
      have hc2 : r2.chars = indented := by simpa using hlow
      have hsz : ((row.chars.take E.cx).takeWhile isBlank).length ≤ r2.size := by
        unfold erow.size
        rw [hc2, ← hind, List.length_append]
        omega
      obtain ⟨k', hk'⟩ := moveRightLoop_spec ((row.chars.take E.cx).takeWhile isBlank).length
        { E1 with row := rows', cy := E1.cy + 1, cx := 0 } keep_rx r2
        (by show rows'[E1.cy + 1]? = some r2; rw [hcy1]; exact hr2)
        (by show 0 + _ ≤ r2.size; omega)
      subst hind
      refine ⟨_, k', hk', ?_, ?_, hiff, ?_, ?_, hidx2⟩
      · show rows'.length = E.numrows + 1
        omega
      · apply hfinal rows' (by omega)
        intro q
        rw [hch2 q, hcy1, hcx1]
        by_cases hq2 : q = E.cy
        · rw [if_pos hq2, if_neg (by omega), if_pos hq2]
        · rw [if_neg hq2, hch1 q]
          by_cases hq1 : q < E.cy
          · rw [if_pos (show q < E.cy + 1 by omega), if_pos hq1]
          · rw [if_neg hq1, if_neg hq2, if_neg (show ¬ q < E.cy + 1 by omega)]
      · show E1.cy + 1 = E.cy + 1
        rw [hcy1]
      · show 0 + _ = _
        omega

/-- Witness for C18 (amended): the newline behind `  a` in the row `  ab`. -/
theorem insertNewline_split_witness :
    ∃ E' k', editorInsertNewline (docIndent.numrows + 2) docIndent 0 = some (E', k') ∧
      E'.numrows = docIndent.numrows + 1 ∧
      E'.row.map erow.chars =
        (docIndent.row.take docIndent.cy).map erow.chars ++
          [(bytes "  ab").take docIndent.cx,
           ((bytes "  ab").take docIndent.cx).takeWhile isBlank ++
             (bytes "  ab").drop docIndent.cx] ++
          (docIndent.row.drop (docIndent.cy + 1)).map erow.chars ∧
      ((bytes "  ab").take docIndent.cx ++
          (((bytes "  ab").take docIndent.cx).takeWhile isBlank ++
            (bytes "  ab").drop docIndent.cx) = bytes "  ab" ↔
        ((bytes "  ab").take docIndent.cx).takeWhile isBlank = []) ∧
      E'.cy = docIndent.cy + 1 ∧
      E'.cx = (((bytes "  ab").take docIndent.cx).takeWhile isBlank).length ∧
      IdxOk E'.row :=
  insertNewline_split docIndent 0
    { idx := 0, chars := bytes "  ab", render := bytes "  ab",
      hl := List.replicate 4 HL_NORMAL, hl_open_comment := false, damaged := true }
    ((idxOk_iff_bounded _).mpr (by decide)) (Or.inr rfl) rfl (by decide)

/-- Counterexample to C18 as stated: the newline behind `  a` in the row
`  ab` leaves the rows `  a` and `  b`. The lower row is not the suffix `b`,
and the concatenation of the two rows is not the original row. -/
theorem insertNewline_indent_counterexample :
    (editorInsertNewline 3 docIndent 0).map (fun r => r.1.row.map erow.chars) =
      some [bytes "  a", bytes "  b"] ∧
    bytes "  b" ≠ (bytes "  ab").drop 3 ∧ bytes "  a" ++ bytes "  b" ≠ bytes "  ab" := by
  decide

/-- C19. Keyword boundaries with the C profile. Let the rows be numbered by
position, and let the row at `p` have a predecessor with
`hl_open_comment = false` (or none) and a render form without quote
character, digit, `//` and `/*`. Then `editorUpdateSyntax(&E.row[p])` returns,
and for every cell `q` of the row: the cell is `HL_KEYWORD2` exactly when it
lies inside an occurrence of a keyword defined with a trailing `|` that starts
at the row start or immediately after a separator and is immediately followed
by a separator or the end of the row; it is `HL_KEYWORD1` exactly when it lies
inside such an occurrence of one of the other keywords; and it is `HL_NORMAL`
exactly when it lies in no such occurrence. -/
theorem keyword_boundaries (rows : List erow) (p : Nat) (row : erow) (numrows fuel : Nat)
    (hidx : IdxOk rows) (hrow : rows[p]? = some row)
    (hprev : ∀ prev, 0 < p → rows[p - 1]? = some prev → prev.hl_open_comment = false)
    (hplain : PlainText row.render) (hn : numrows ≤ rows.length) (hf : numrows + 1 ≤ fuel) :
    ∃ rows' row', editorUpdateSyntax (some HLDB_C) numrows fuel rows p = some rows' ∧
      rows'[p]? = some row' ∧ row'.hl.length = row.rsize ∧
      ∀ q, q < row.rsize →
        (row'.hl[q]? = some HL_KEYWORD2 ↔ KwCovered row.render q true) ∧
        (row'.hl[q]? = some HL_KEYWORD1 ↔ KwCovered row.render q false) ∧
        (row'.hl[q]? = some HL_NORMAL ↔
          ¬ KwCovered row.render q true ∧ ¬ KwCovered row.render q false) := by
  obtain ⟨rows', h⟩ := editorUpdateSyntax_total (some HLDB_C)
    (synOk_of_valid (Or.inr rfl)) numrows fuel rows p hidx (getElem?_lt hrow) hn
    (by omega) (by omega)
  obtain ⟨row0, row1, e0, hres, e1, _⟩ := editorUpdateSyntax_frame _ _ _ _ _ _ hidx h
  rw [hrow] at e0
  have e0 := Option.some.inj e0
  subst e0
  have hseed : seedAt rows p = false := by
    unfold seedAt
    split
    · rfl
    · rename_i hp0
      split
      · rename_i prev hp
        exact hprev prev (by omega) hp
      · rfl
  obtain ⟨st, hst, _, hlen, hcls⟩ := scanRow_plain row.render hplain
  unfold synRowResult at hres
  simp only at hres
  rw [highlightRow_seed HLDB_C rows p row hidx hrow, hseed, hst] at hres
  simp only [Option.map_some', Option.some.injEq] at hres
  refine ⟨rows', row1, h, e1, ?_, fun q hq => ?_⟩
  · rw [← hres]
    exact hlen
  · have hq' : q < st.hl.length := by rw [hlen]; exact hq
    have hget : row1.hl[q]? = some (st.hl.getD q 0) := by
      rw [← hres]
      show st.hl[q]? = _
      rw [List.getD_eq_getElem?_getD, List.getElem?_eq_getElem hq']
      rfl
    rw [hget]
    have hk := hcls q hq
    refine ⟨⟨fun hv => ?_, fun hcov => ?_⟩, ⟨fun hv => ?_, fun hcov => ?_⟩,
      ⟨fun hv => ?_, fun hcov => ?_⟩⟩
    · have hv := Option.some.inj hv
      rcases hk with ⟨_, hc⟩ | ⟨h1, _⟩ | ⟨h1, _⟩
      · exact hc
      · rw [h1] at hv; exact absurd hv (by decide)
      · rw [h1] at hv; exact absurd hv (by decide)
    · rcases hk with ⟨h1, _⟩ | ⟨_, hc⟩ | ⟨_, hc, _⟩
      · rw [h1]
      · exact absurd (kwCovered_exclusive hcov hc) id
      · exact absurd hcov hc
    · have hv := Option.some.inj hv
      rcases hk with ⟨h1, _⟩ | ⟨_, hc⟩ | ⟨h1, _⟩
      · rw [h1] at hv; exact absurd hv (by decide)
      · exact hc
      · rw [h1] at hv; exact absurd hv (by decide)
    · rcases hk with ⟨_, hc⟩ | ⟨h1, _⟩ | ⟨_, _, hc⟩
      · exact absurd (kwCovered_exclusive hc hcov) id
      · rw [h1]
      · exact absurd hcov hc
    · have hv := Option.some.inj hv
      rcases hk with ⟨h1, _⟩ | ⟨h1, _⟩ | ⟨_, hc⟩
      · rw [h1] at hv; exact absurd hv (by decide)
      · rw [h1] at hv; exact absurd hv (by decide)
      · exact hc
    · rcases hk with ⟨_, hc⟩ | ⟨_, hc⟩ | ⟨h1, _⟩
      · exact absurd hc hcov.1
      · exact absurd hc hcov.2
      · rw [h1]

/-- Witness for C19: the row `static int if_x = iff(y); return void`. The
cells of `static` and `return` are `HL_KEYWORD1`, those of `int` and `void`
`HL_KEYWORD2`; `if` inside `if_x` and `iff` is not highlighted. -/
theorem keyword_boundaries_witness :
    (∃ rows' row', editorUpdateSyntax (some HLDB_C) 1 2 docKw 0 = some rows' ∧
      rows'[0]? = some row' ∧ row'.hl.length = rowKw.rsize ∧
      ∀ q, q < rowKw.rsize →
        (row'.hl[q]? = some HL_KEYWORD2 ↔ KwCovered rowKw.render q true) ∧
        (row'.hl[q]? = some HL_KEYWORD1 ↔ KwCovered rowKw.render q false) ∧
        (row'.hl[q]? = some HL_NORMAL ↔
          ¬ KwCovered rowKw.render q true ∧ ¬ KwCovered rowKw.render q false)) ∧
    (editorUpdateSyntax (some HLDB_C) 1 2 docKw 0).map (fun r => r.map erow.hl) =
      some [List.replicate 6 HL_KEYWORD1 ++ [HL_NORMAL] ++ List.replicate 3 HL_KEYWORD2 ++
        List.replicate 16 HL_NORMAL ++ List.replicate 6 HL_KEYWORD1 ++ [HL_NORMAL] ++
        List.replicate 4 HL_KEYWORD2] :=
  ⟨keyword_boundaries docKw 0 rowKw 1 2 ((idxOk_iff_bounded docKw).mpr (by decide)) rfl
    (fun _ h _ => absurd h (by decide))
    ⟨by decide, matchesAt_false_of_bounded _ _ (by decide) (by decide),
      matchesAt_false_of_bounded _ _ (by decide) (by decide)⟩
    (by decide) (by decide), by decide⟩

/-- C20, at inputs where the code departs from it. In `docTabSel` the painted
range is the render cell 8, the cell of the character `a` (character 1). The
single-row delete branch calls `editorRowDelChars(row, j - 1, i)` with the
render offsets `i = 8`, `j = 9` as character offsets, so it removes the
character 8, `h`, and keeps `a`; the cursor goes to character 1. In
`docTabSelShort` the offset 8 is not below the size 3 of the row, so
`editorRowDelChars` returns at once and nothing is removed. In `docSelEnd`,
without tabs, the painted range ends at `rsize`, and the second scan reads
`hl[rsize]`, behind the array, before it tests `j < row->rsize`. -/
theorem select_delete_tab_offsets :
    editorRowCxToRx (mkRow 0 "\tabcdefghij" []) 1 = 8 ∧
    editorRowCxToRx (mkRow 0 "\tabcdefghij" []) 2 = 9 ∧
    (editorSelectDelete 2 docTabSel 0).map (fun E' => (E'.row.map erow.chars, E'.cx)) =
      some ([bytes "\tabcdefgij"], 1) ∧
    (editorSelectDelete 2 docTabSelShort 0).map (fun E' => (E'.row.map erow.chars, E'.cx)) =
      some ([bytes "\tab"], 1) ∧
    editorSelectDelete 2 docSelEnd 0 = none := by
  decide

/-- C27, at the input where the code departs from it. In `docC1` (three rows)
with the cursor at the start of the last row, the cursor bounds hold.
`editorMoveCursor(ARROW_DOWN)` tests `E.cy < E.numrows` and then reads
`E.row[E.cy + 1]`, the row at index `numrows`, which is outside the array. -/
theorem editorMoveCursor_down_last_row :
    CursorOk { docC1 with cy := 2, cx := 0 } ∧
    ({ docC1 with cy := 2, cx := 0 } : editorConfig).cy + 1 = docC1.numrows ∧
    docC1.row[({ docC1 with cy := 2, cx := 0 } : editorConfig).cy + 1]? = none ∧
    ∀ keep_rx, editorMoveCursor { docC1 with cy := 2, cx := 0 } keep_rx ARROW_DOWN = none := by
  refine ⟨⟨by decide, fun r hr => Nat.zero_le _, fun h => rfl⟩, by decide, by decide,
    fun keep_rx => ?_⟩
  rw [editorMoveCursor_eq]
  rfl

/-- C21. In-place edits keep the highlighting of the whole document
consistent. With the C profile, for every document numbered by position in
which the highlight array and `hl_open_comment` of each row are what the scan
of its render form gives, started with the `hl_open_comment` of the row before
it (`false` for row 0), and for every row `k`: each of
`editorRowInsertChar`, `editorRowDelChar` and `editorRowAppendString` on the
row `k` returns, every row of the resulting document satisfies the same, and
the rows before `k` are untouched. -/
theorem inplace_edit_consistent (E : editorConfig) (k : Nat) (hidx : IdxOk E.row)
    (hsyn : E.syn = some HLDB_C) (hcons : HlConsistent HLDB_C E.row) (hk : k < E.numrows) :
    (∀ (at_ : Int) (c : Nat), ∃ E', editorRowInsertChar (E.numrows + 1) E k at_ c = some E' ∧
      HlConsistent HLDB_C E'.row ∧ ∀ q, q < k → E'.row[q]? = E.row[q]?) ∧
    (∀ (at_ : Int), ∃ E', editorRowDelChar (E.numrows + 1) E k at_ = some E' ∧
      HlConsistent HLDB_C E'.row ∧ ∀ q, q < k → E'.row[q]? = E.row[q]?) ∧
    (∀ (s : List Nat), ∃ E', editorRowAppendString (E.numrows + 1) E k s = some E' ∧
      HlConsistent HLDB_C E'.row ∧ ∀ q, q < k → E'.row[q]? = E.row[q]?) := by
  have hk' : k < E.row.length := hk
  have hrow := List.getElem?_eq_getElem hk'
  refine ⟨fun at_ c => ?_, fun at_ => ?_, fun s => ?_⟩
  · unfold editorRowInsertChar
    rw [hrow]
    simp only
    obtain ⟨rows', h, h1, h2⟩ := rowEdit_keeps E hidx hsyn hcons k _ hrow
      (E.row[k].chars.take (if at_ < 0 ∨ at_ > (E.row[k].size : Int) then E.row[k].size
          else at_.toNat) ++ [c % 256] ++
        E.row[k].chars.drop (if at_ < 0 ∨ at_ > (E.row[k].size : Int) then E.row[k].size
          else at_.toNat))
    rw [h]
    exact ⟨_, rfl, h1, h2⟩
  · unfold editorRowDelChar
    rw [hrow]
    simp only
    by_cases hat : at_ < 0 ∨ at_ ≥ (E.row[k].size : Int)
    · rw [if_pos hat]
      exact ⟨E, rfl, hcons, fun _ _ => rfl⟩
    · rw [if_neg hat]
      obtain ⟨rows', h, h1, h2⟩ := rowEdit_keeps E hidx hsyn hcons k _ hrow
        (E.row[k].chars.take at_.toNat ++ E.row[k].chars.drop (at_.toNat + 1))
      rw [h]
      exact ⟨_, rfl, h1, h2⟩
  · unfold editorRowAppendString
    rw [hrow]
    simp only
    obtain ⟨rows', h, h1, h2⟩ := rowEdit_keeps E hidx hsyn hcons k _ hrow (E.row[k].chars ++ s)
    rw [h]
    exact ⟨_, rfl, h1, h2⟩

/-- Witness for C21: in `docC1` the row 0 `int x;` is followed by a row that
opens a comment and a row that closes it; the edits are on row 0. -/
theorem inplace_edit_consistent_witness :
    HlConsistent HLDB_C docC1.row ∧
    (∀ (at_ : Int) (c : Nat), ∃ E', editorRowInsertChar (docC1.numrows + 1) docC1 0 at_ c =
        some E' ∧
      HlConsistent HLDB_C E'.row ∧ ∀ q, q < 0 → E'.row[q]? = docC1.row[q]?) ∧
    (∀ (at_ : Int), ∃ E', editorRowDelChar (docC1.numrows + 1) docC1 0 at_ = some E' ∧
      HlConsistent HLDB_C E'.row ∧ ∀ q, q < 0 → E'.row[q]? = docC1.row[q]?) ∧
    (∀ (s : List Nat), ∃ E', editorRowAppendString (docC1.numrows + 1) docC1 0 s = some E' ∧
      HlConsistent HLDB_C E'.row ∧ ∀ q, q < 0 → E'.row[q]? = docC1.row[q]?) :=
  ⟨by decide, inplace_edit_consistent docC1 0 idxOk_docC1 rfl (by decide) (by decide)⟩

/-- C22: after `editorUpdateRow` on a row (the call returns), the column
mapper agrees with the render form of that row: `editorRowCxToRx(row, cx)`
is the number of render cells the first `cx` characters produce and these
cells are the first cells of `render`, `rsize` is `editorRowCxToRx(row,
size)`, a character `j` that is not a tab stands at `render[CxToRx(j)]` and
takes one cell, a tab at `j` takes the cells from `CxToRx(j)` up to
`CxToRx(j + 1)`, which are all spaces, where `CxToRx(j + 1)` is the next
multiple of 8 strictly greater than `CxToRx(j)`, and `render` holds no tab;
the characters of the row are not changed. -/
theorem mapper_agrees_with_render (synt : Option editorSyntax) (hs : SynOk synt)
    (numrows fuel : Nat) (rows : List erow) (p : Nat) (hidx : IdxOk rows)
    (hp : p < rows.length) (hn : numrows ≤ rows.length) (hf : numrows + 1 ≤ fuel) :
    ∃ rows' row row', editorUpdateRow synt numrows fuel rows p = some rows' ∧
      rows[p]? = some row ∧ rows'[p]? = some row' ∧ row'.chars = row.chars ∧
      (∀ cx, cx ≤ row'.size →
        editorRowCxToRx row' cx = (renderLoop (row'.chars.take cx) []).length ∧
        row'.render.take (editorRowCxToRx row' cx) = renderLoop (row'.chars.take cx) []) ∧
      row'.rsize = editorRowCxToRx row' row'.size ∧
      (∀ j c, row'.chars[j]? = some c → c ≠ TAB →
        row'.render[editorRowCxToRx row' j]? = some c ∧
        editorRowCxToRx row' (j + 1) = editorRowCxToRx row' j + 1) ∧
      (∀ j, row'.chars[j]? = some TAB →
        (∀ x, editorRowCxToRx row' j ≤ x → x < editorRowCxToRx row' (j + 1) →
          row'.render[x]? = some SPACE) ∧
        editorRowCxToRx row' j < editorRowCxToRx row' (j + 1) ∧
        editorRowCxToRx row' (j + 1) % KILO_TAB_STOP = 0 ∧
        editorRowCxToRx row' (j + 1) ≤ editorRowCxToRx row' j + KILO_TAB_STOP) ∧
      TAB ∉ row'.render := by
  obtain ⟨rows', h⟩ := editorUpdateRow_total synt hs numrows fuel rows p hidx hp hn hf
  obtain ⟨_, hrel⟩ := editorUpdateRow_rel synt numrows fuel rows p rows' h
  obtain ⟨row', hrow', _, hchars, hpp, _⟩ := hrel p _ (List.getElem?_eq_getElem hp)
  have hr : Rendered row' := by
    unfold Rendered
    rw [(hpp rfl).1, hchars]
  exact ⟨rows', _, row', h, List.getElem?_eq_getElem hp, hrow', hchars, rendered_mapper row' hr⟩

theorem mapper_agrees_with_render_witness :
    ∃ rows' row row', editorUpdateRow (some HLDB_C) 1 2
        [{ idx := 0, chars := bytes "a\tif\t\tx", render := [], hl := [],
           hl_open_comment := false, damaged := false }] 0 = some rows' ∧
      ([{ idx := 0, chars := bytes "a\tif\t\tx", render := [], hl := [],
           hl_open_comment := false, damaged := false }] : List erow)[0]? = some row ∧
      rows'[0]? = some row' ∧ row'.chars = row.chars ∧
      (∀ cx, cx ≤ row'.size →
        editorRowCxToRx row' cx = (renderLoop (row'.chars.take cx) []).length ∧
        row'.render.take (editorRowCxToRx row' cx) = renderLoop (row'.chars.take cx) []) ∧
      row'.rsize = editorRowCxToRx row' row'.size ∧
      (∀ j c, row'.chars[j]? = some c → c ≠ TAB →
        row'.render[editorRowCxToRx row' j]? = some c ∧
        editorRowCxToRx row' (j + 1) = editorRowCxToRx row' j + 1) ∧
      (∀ j, row'.chars[j]? = some TAB →
        (∀ x, editorRowCxToRx row' j ≤ x → x < editorRowCxToRx row' (j + 1) →
          row'.render[x]? = some SPACE) ∧
        editorRowCxToRx row' j < editorRowCxToRx row' (j + 1) ∧
        editorRowCxToRx row' (j + 1) % KILO_TAB_STOP = 0 ∧
        editorRowCxToRx row' (j + 1) ≤ editorRowCxToRx row' j + KILO_TAB_STOP) ∧
      TAB ∉ row'.render :=
  mapper_agrees_with_render (some HLDB_C) (by intro s hs; cases hs; exact profileOk_HLDB_C) 1 2 _ 0
    (by intro q r h; cases q with
      | zero => simp at h; rw [← h]; rfl
      | succ n => simp at h)
    (by decide) (by decide) (by decide)

/-- C23: the horizontal selection step on a row as `editorUpdateRow` leaves
it. With `cx < size` and no cell of the character at `cx` painted `HL_MATCH`,
`editorMoveSelect(SHIFT_ARROW_RIGHT)` returns; in the new state the cells
`[editorRowCxToRx(row, cx), editorRowCxToRx(row, cx + 1))` of the row are
`HL_MATCH` (for a tab these are the `8 - (col mod 8)` cells from its column
`col`), every other highlight cell of the row and every other row is
unchanged, the row is marked damaged and the cursor is at `cx + 1` on the
same row. With `0 < cx <= size` and no cell of the character at `cx - 1`
painted, `editorMoveSelect(SHIFT_ARROW_LEFT)` does the same for the character
`cx - 1` and leaves the cursor at `cx - 1`. -/
theorem shift_step_paints (E : editorConfig) (keep_rx : Nat) (row : erow)
    (hrow : E.row[E.cy]? = some row) (hwf : RowWf row) :
    (E.cx < row.size →
      (∀ x, editorRowCxToRx row E.cx ≤ x → x < editorRowCxToRx row (E.cx + 1) →
        row.hl[x]? ≠ some HL_MATCH) →
      ∃ k' hl', editorMoveSelect E keep_rx SHIFT_ARROW_RIGHT =
          some ({ E with cx := E.cx + 1,
                         row := E.row.set E.cy { row with hl := hl', damaged := true } }, k') ∧
        hl'.length = row.hl.length ∧
        editorRowCxToRx row (E.cx + 1) ≤ row.hl.length ∧
        (∀ x, hl'[x]? =
          if editorRowCxToRx row E.cx ≤ x ∧ x < editorRowCxToRx row (E.cx + 1)
          then some HL_MATCH else row.hl[x]?) ∧
        (row.chars[E.cx]? = some TAB → editorRowCxToRx row (E.cx + 1) =
          editorRowCxToRx row E.cx + (8 - editorRowCxToRx row E.cx % 8))) ∧
    (0 < E.cx → E.cx ≤ row.size →
      (∀ x, editorRowCxToRx row (E.cx - 1) ≤ x → x < editorRowCxToRx row E.cx →
        row.hl[x]? ≠ some HL_MATCH) →
      ∃ k' hl', editorMoveSelect E keep_rx SHIFT_ARROW_LEFT =
          some ({ E with cx := E.cx - 1,
                         row := E.row.set E.cy { row with hl := hl', damaged := true } }, k') ∧
        hl'.length = row.hl.length ∧
        editorRowCxToRx row E.cx ≤ row.hl.length ∧
        (∀ x, hl'[x]? =
          if editorRowCxToRx row (E.cx - 1) ≤ x ∧ x < editorRowCxToRx row E.cx
          then some HL_MATCH else row.hl[x]?) ∧
        (row.chars[E.cx - 1]? = some TAB → editorRowCxToRx row E.cx =
          editorRowCxToRx row (E.cx - 1) + (8 - editorRowCxToRx row (E.cx - 1) % 8))) := by
  have hrs := rsize_eq row hwf.1
  have paint : ∀ (a b : Nat) (hl' : List Nat), b ≤ row.hl.length →
      (∀ x, a ≤ x → x < b → row.hl[x]? ≠ some HL_MATCH) →
      (∀ x, hl'[x]? = if a ≤ x ∧ x < b then
          (row.hl[x]?).map (fun v => if v = HL_MATCH then HL_NORMAL else HL_MATCH)
        else row.hl[x]?) →
      ∀ x, hl'[x]? = if a ≤ x ∧ x < b then some HL_MATCH else row.hl[x]? := by
    intro a b hl' hb hun h x
    rw [h x]
    by_cases hx : a ≤ x ∧ x < b
    · rw [if_pos hx, if_pos hx]
      have hlt : x < row.hl.length := by omega
      have hne := hun x hx.1 hx.2
      rw [List.getElem?_eq_getElem hlt] at hne ⊢
      have hv : row.hl[x] ≠ HL_MATCH := fun e => hne (by rw [e])
      show some (if row.hl[x] = HL_MATCH then HL_NORMAL else HL_MATCH) = _
      rw [if_neg hv]
    · rw [if_neg hx, if_neg hx]
  have tab : ∀ j, j < row.size → row.chars[j]? = some TAB → editorRowCxToRx row (j + 1) =
      editorRowCxToRx row j + (8 - editorRowCxToRx row j % 8) := by
    intro j _ hj
    have h := right_eq_cxToRx row j TAB hj
    rw [if_pos rfl] at h
    rw [← h]
    unfold KILO_TAB_STOP
    omega
  have bound : ∀ j, j ≤ row.size → editorRowCxToRx row j ≤ row.hl.length := by
    intro j hj
    rw [hwf.2, hrs]
    exact cxToRxLoop_le_of_le row.chars 0 j row.chars.length hj
  constructor
  · intro hcx hun
    obtain ⟨hl', h1, h2, h3⟩ := selectStep_right E keep_rx row hrow hwf hcx
    refine ⟨editorRowCxToRx row (E.cx + 1), hl', ?_, h1, bound _ hcx,
      paint _ _ hl' (bound _ hcx) hun h2, tab _ hcx⟩
    unfold editorMoveSelect
    rw [if_pos (Or.inr rfl), h3]
  · intro h0 hcx hun
    obtain ⟨hl', h1, h2, h3⟩ := selectStep_left E keep_rx row hrow hwf h0 hcx
    have e : E.cx - 1 + 1 = E.cx := by omega
    have ht := tab (E.cx - 1) (by omega)
    rw [e] at ht
    refine ⟨editorRowCxToRx row (E.cx - 1), hl', ?_, h1, bound _ hcx,
      paint _ _ hl' (bound _ hcx) hun h2, ht⟩
    unfold editorMoveSelect
    rw [if_pos (Or.inl rfl), h3]

theorem shift_step_paints_witness :
    ({ docShift with cy := 2, cx := 1 } : editorConfig).row[2]? = some rowTab ∧ RowWf rowTab ∧
    (∃ k' hl', editorMoveSelect { docShift with cy := 2, cx := 1 } 0 SHIFT_ARROW_RIGHT =
        some ({ docShift with
                cy := 2, cx := 2,
                row := docShift.row.set 2 { rowTab with hl := hl', damaged := true } }, k') ∧
      hl'.length = 11 ∧ (∀ x, hl'[x]? =
        if 8 ≤ x ∧ x < 9 then some HL_MATCH else rowTab.hl[x]?)) ∧
    (∃ k' hl', editorMoveSelect { docShift with cy := 2, cx := 1 } 0 SHIFT_ARROW_LEFT =
        some ({ docShift with
                cy := 2, cx := 0,
                row := docShift.row.set 2 { rowTab with hl := hl', damaged := true } }, k') ∧
      hl'.length = 11 ∧ (∀ x, hl'[x]? =
        if 0 ≤ x ∧ x < 8 then some HL_MATCH else rowTab.hl[x]?)) := by
  have h := shift_step_paints { docShift with cy := 2, cx := 1 } 0 rowTab (by decide) (by decide)
  have hun : ∀ x : Nat, rowTab.hl[x]? ≠ some HL_MATCH := by
    intro x hx
    have hm := List.getElem?_mem hx
    revert hm
    decide
  refine ⟨by decide, by decide, ?_, ?_⟩
  · obtain ⟨k', hl', h1, h2, _, h4, _⟩ := h.1 (by decide) (fun x _ _ => hun x)
    exact ⟨k', hl', h1, h2, h4⟩
  · obtain ⟨k', hl', h1, h2, _, h4, _⟩ := h.2 (by decide) (by decide) (fun x _ _ => hun x)
    exact ⟨k', hl', h1, h2, h4⟩

/-- C24: `editorMoveSelect(SHIFT_ARROW_DOWN)` with the cursor on a row `cy`
that has a row below it, `cx <= size`, both rows as `editorUpdateRow` leaves
them: the call is exactly `(size - cx) + 1 + t` calls of
`editorMoveSelect(SHIFT_ARROW_RIGHT)`, where `t = editorRowRxToCx(row cy + 1,
editorRowCxToRx(row cy, cx))`; it returns, with the cursor on row `cy + 1` at
character offset `t`, and the characters and render forms of all rows are
unchanged. -/
theorem shift_down_lands (E : editorConfig) (keep_rx : Nat) (row below : erow)
    (hrow : E.row[E.cy]? = some row) (hbelow : E.row[E.cy + 1]? = some below)
    (hwf : RowWf row) (hwfb : RowWf below) (hcx : E.cx ≤ row.size) :
    editorMoveSelect E keep_rx SHIFT_ARROW_DOWN =
      selectRepeat SHIFT_ARROW_RIGHT
        ((row.size - E.cx) + 1 + editorRowRxToCx below (editorRowCxToRx row E.cx)) E keep_rx ∧
    ∃ E' k', editorMoveSelect E keep_rx SHIFT_ARROW_DOWN = some (E', k') ∧
      E'.cy = E.cy + 1 ∧ E'.cx = editorRowRxToCx below (editorRowCxToRx row E.cx) ∧
      SameText E.row E'.row := by
  have hun : editorMoveSelect E keep_rx SHIFT_ARROW_DOWN = selectRepeat SHIFT_ARROW_RIGHT
      ((row.size - E.cx) + 1 + editorRowRxToCx below (editorRowCxToRx row E.cx)) E keep_rx := by
    unfold editorMoveSelect
    rw [if_neg (by decide), if_pos rfl, hrow, hbelow]
    simp only
    congr 1
    omega
  refine ⟨hun, ?_⟩
  rw [hun]
  exact selectDown_run E keep_rx row below hrow hbelow hwf hwfb hcx

theorem shift_down_lands_witness :
    editorMoveSelect { docShift with cy := 2, cx := 2 } 0 SHIFT_ARROW_DOWN =
      selectRepeat SHIFT_ARROW_RIGHT 12 { docShift with cy := 2, cx := 2 } 0 ∧
    ∃ E' k', editorMoveSelect { docShift with cy := 2, cx := 2 } 0 SHIFT_ARROW_DOWN =
        some (E', k') ∧
      E'.cy = 3 ∧ E'.cx = 9 ∧ SameText docShift.row E'.row :=
  shift_down_lands { docShift with cy := 2, cx := 2 } 0 rowTab
    (mkRow 3 "0123456789ab" (List.replicate 12 HL_NORMAL))
    (by decide) (by decide) (by decide) (by decide) (by decide)

/-- C25 does not hold. In the document with the rows `abcdef` and `xyz` and
the cursor on row 1 behind the `x` (`cx = 1`), `editorMoveSelect(
SHIFT_ARROW_UP)` ends on row 0 at character offset 4, having painted the `x`
of row 1 and the `e` and `f` of row 0; the target of a plain up-arrow from
that rendered column, `editorRowRxToCx(row 0, editorRowCxToRx(row 1, 1))`, is
the offset 1. The code takes the rendered column of the offset `size - cx`
of the row and walks that many characters back from the end of the row
above. -/
theorem shift_up_lands_elsewhere :
    (editorMoveSelect { docShift with cy := 1, cx := 1 } 0 SHIFT_ARROW_UP).map
        (fun r => (r.1.cy, r.1.cx, r.1.row.map erow.hl)) =
      some (0, 4,
        [[HL_NORMAL, HL_NORMAL, HL_NORMAL, HL_NORMAL, HL_MATCH, HL_MATCH],
         [HL_MATCH, HL_NORMAL, HL_NORMAL],
         List.replicate 11 HL_NORMAL, List.replicate 12 HL_NORMAL]) ∧
    editorRowRxToCx (mkRow 0 "abcdef" (List.replicate 6 HL_NORMAL))
      (editorRowCxToRx (mkRow 1 "xyz" (List.replicate 3 HL_NORMAL)) 1) = 1 := by
  decide

/-- C26: damage tracking in `editorDrawRows`, for every state with
`rowoff >= 0`, `coloff >= 0`, `screencols >= 0` and highlight arrays that
cover the render forms. The call returns; the pass for a screen line `y`
whose document row `filerow = y + rowoff` exists and has its damaged flag
unset appends no bytes at all; afterwards the damaged flag of every document
row in the viewport (`rowoff <= filerow < rowoff + screenrows`) is unset,
the rows outside the viewport keep their flag, and nothing else of the state
is changed: no row's `chars`, `render` or `hl`, and no other field. -/
theorem editorDrawRows_damage (E : editorConfig) (junk : Nat) (past : Nat → Nat)
    (hro : 0 ≤ E.rowoff) (hco : 0 ≤ E.coloff) (hsc : 0 ≤ E.screencols)
    (hwf : ∀ r ∈ E.row, r.rsize ≤ r.hl.length) :
    ∃ chunks rows', editorDrawRows E junk past = some (chunks, { E with row := rows' }) ∧
      chunks.length = E.screenrows.toNat ∧ rows'.length = E.row.length ∧
      (∀ (y : Nat) (r : erow), (y : Int) < E.screenrows →
        E.row[y + E.rowoff.toNat]? = some r → r.damaged = false → chunks[y]? = some []) ∧
      (∀ (q : Nat) (r : erow), E.row[q]? = some r → rows'[q]? =
        some { r with damaged :=
          if E.rowoff ≤ (q : Int) ∧ (q : Int) < E.rowoff + E.screenrows then false
          else r.damaged }) := by
  obtain ⟨chunks, rows', h1, l1, l2, r1, c1⟩ := drawRowsLoop_spec junk past E.screenrows.toNat 0 E
    hro hco hsc (fun q r hr => hwf r (List.getElem?_mem hr))
  refine ⟨chunks, rows', h1, l1, l2, fun y r hy hr hd => ?_, fun q r hr => ?_⟩
  · refine c1 y r (by omega) ?_ hd
    rw [Nat.zero_add]
    exact hr
  · rw [r1 q r hr]
    by_cases hv : E.rowoff ≤ (q : Int) ∧ (q : Int) < E.rowoff + E.screenrows
    · have c : 0 + E.rowoff.toNat ≤ q ∧ q < 0 + E.rowoff.toNat + E.screenrows.toNat := by omega
      rw [if_pos hv, if_pos c]
    · have c : ¬ (0 + E.rowoff.toNat ≤ q ∧ q < 0 + E.rowoff.toNat + E.screenrows.toNat) := by
        omega
      rw [if_neg hv, if_neg c]

theorem editorDrawRows_damage_witness :
    ∃ chunks rows', editorDrawRows docDraw 0 (fun _ => 0) =
        some (chunks, { docDraw with row := rows' }) ∧
      chunks.length = docDraw.screenrows.toNat ∧ rows'.length = docDraw.row.length ∧
      (∀ (y : Nat) (r : erow), (y : Int) < docDraw.screenrows →
        docDraw.row[y + docDraw.rowoff.toNat]? = some r → r.damaged = false →
        chunks[y]? = some []) ∧
      (∀ (q : Nat) (r : erow), docDraw.row[q]? = some r → rows'[q]? =
        some { r with damaged :=
          if docDraw.rowoff ≤ (q : Int) ∧ (q : Int) < docDraw.rowoff + docDraw.screenrows
          then false else r.damaged }) :=
  editorDrawRows_damage docDraw 0 (fun _ => 0) (by decide) (by decide) (by decide) (by decide)

end Editor
